import Mathlib

/-! # Expansion of a replicated molecular topology (`mtop_util.cpp`)

A shallow embedding of the routines of `src/gromacs/topology/mtop_util.cpp`
that expand a block-replicated topology (`gmx_mtop_t`) into flat, globally
indexed views, together with theorems about them.

Conventions of the embedding.

* Counts that the source keeps in `int` fields and only ever uses as loop
  bounds (`nmol`, `atoms.nr`, `atoms.nres`, `natoms`) are natural numbers.
  Values whose sign matters (atom indices stored in interaction lists,
  parameter ids, residue numbers) are integers.  Arithmetic is unbounded.
* A `std::vector` or raw array is a `List`; a sequential write through an
  advancing cursor is an append.  A read outside an array (undefined
  behaviour in the source) yields the default value of the element type.
* `gmx_incons` / `gmx_fatal` abort the derivation: such routines return
  `Except String _`.
* `real` values are only copied by the routines modelled here, never computed
  with, so their carrier is immaterial; integers are used.
-/

namespace Gmx

/-! ## Data model -/

/-- Carrier of the floating-point type `real`; the code below only copies such values. -/
abbrev real := Int

/-- Three-component vector `rvec` (`real[DIM]`), components `XX`, `YY`, `ZZ`. -/
structure rvec where
  XX : real
  YY : real
  ZZ : real
deriving DecidableEq, Repr

/-- The zero vector, the value of freshly allocated storage. -/
def rvec.zero : rvec := { XX := 0, YY := 0, ZZ := 0 }

instance : Inhabited rvec := ⟨rvec.zero⟩

/-- Member `posres` of the parameter union `t_iparams`. -/
structure t_iparams_posres where
  pos0A : rvec
  fcA : rvec
  pos0B : rvec
  fcB : rvec
deriving DecidableEq, Repr

/-- Member `fbposres` of the parameter union `t_iparams`. -/
structure t_iparams_fbposres where
  pos0 : rvec
  geom : Int
  r : real
  k : real
deriving DecidableEq, Repr

/-- Parameter record `t_iparams`.  The source declares a union; the two
members the expansion writes to are kept as separate fields and every other
member is the uninterpreted payload `other`. -/
structure t_iparams where
  posres : t_iparams_posres
  fbposres : t_iparams_fbposres
  other : List real
deriving DecidableEq, Repr

/-- A zero-initialised parameter record. -/
def t_iparams.zero : t_iparams :=
  { posres := { pos0A := rvec.zero, fcA := rvec.zero, pos0B := rvec.zero, fcB := rvec.zero },
    fbposres := { pos0 := rvec.zero, geom := 0, r := 0, k := 0 },
    other := [] }

instance : Inhabited t_iparams := ⟨t_iparams.zero⟩

/-- Atom record `t_atom`. -/
structure t_atom where
  m : real
  q : real
  mB : real
  qB : real
  type : Nat
  typeB : Nat
  ptype : Nat
  resind : Int
  atomnumber : Int
deriving DecidableEq, Repr

/-- A zero-initialised atom record. -/
def t_atom.zero : t_atom :=
  { m := 0, q := 0, mB := 0, qB := 0, type := 0, typeB := 0, ptype := 0, resind := 0,
    atomnumber := 0 }

instance : Inhabited t_atom := ⟨t_atom.zero⟩

/-- Residue record `t_resinfo`. -/
structure t_resinfo where
  name : String
  nr : Int
  ic : Nat
  chainnum : Int
  chainid : Nat
deriving DecidableEq, Repr

/-- A zero-initialised residue record. -/
def t_resinfo.zero : t_resinfo := { name := "", nr := 0, ic := 0, chainnum := 0, chainid := 0 }

instance : Inhabited t_resinfo := ⟨t_resinfo.zero⟩

/-- Atom table `t_atoms`: the count fields `nr` and `nres` are kept next to the
arrays they describe, as in the source. -/
structure t_atoms where
  nr : Nat
  atom : List t_atom
  atomname : List String
  nres : Nat
  resinfo : List t_resinfo
  haveMass : Bool
  haveCharge : Bool
  haveType : Bool
  haveBState : Bool
  havePdbInfo : Bool
deriving DecidableEq, Repr

/-- The table produced by `init_t_atoms(&atoms, 0, FALSE)`. -/
def t_atoms.empty : t_atoms :=
  { nr := 0, atom := [], atomname := [], nres := 0, resinfo := [], haveMass := false,
    haveCharge := false, haveType := false, haveBState := false, havePdbInfo := false }

instance : Inhabited t_atoms := ⟨t_atoms.empty⟩

/-- An `InteractionList` is its `iatoms` vector: for each entry the parameter
id followed by the `NRAL(ftype)` atom indices. -/
abbrev InteractionList := List Int

/-- The per-kind array `InteractionLists`, indexed by function type. -/
abbrev InteractionLists := Nat → InteractionList

/-- The class `gmx::ListOfLists<int>`, seen as the list of its lists. -/
abbrev ListOfLists := List (List Int)

/-- Molecule type `gmx_moltype_t`. -/
structure gmx_moltype_t where
  atoms : t_atoms
  ilist : InteractionLists
  excls : ListOfLists

/-- A molecule type without atoms, interactions and exclusions. -/
def gmx_moltype_t.empty : gmx_moltype_t :=
  { atoms := t_atoms.empty, ilist := fun _ => [], excls := [] }

instance : Inhabited gmx_moltype_t := ⟨gmx_moltype_t.empty⟩

/-- Molecule block `gmx_molblock_t`. -/
structure gmx_molblock_t where
  type : Nat
  nmol : Nat
  posres_xA : List rvec
  posres_xB : List rvec
deriving DecidableEq, Repr

/-- A block without copies. -/
def gmx_molblock_t.empty : gmx_molblock_t :=
  { type := 0, nmol := 0, posres_xA := [], posres_xB := [] }

instance : Inhabited gmx_molblock_t := ⟨gmx_molblock_t.empty⟩

/-- Force-field parameter table `gmx_ffparams_t`. -/
structure gmx_ffparams_t where
  atnr : Nat
  functype : List Nat
  iparams : List t_iparams
deriving DecidableEq, Repr

/-- Global topology `gmx_mtop_t`.  The two residue-renumbering quantities are
the values returned by the accessors `maxResNumberNotRenumbered()` and
`maxResiduesPerMoleculeToTriggerRenumber()`. -/
structure gmx_mtop_t where
  moltype : List gmx_moltype_t
  molblock : List gmx_molblock_t
  bIntermolecularInteractions : Bool
  natoms : Nat
  ffparams : gmx_ffparams_t
  intermolecular_ilist : InteractionLists
  intermolecularExclusionGroup : List Int
  maxResNumberNotRenumbered : Int
  maxResiduesPerMoleculeToTriggerRenumber : Int

/-- The molecule type `mtop.moltype[molb.type]` of a block. -/
def gmx_mtop_t.moltypeOf (mtop : gmx_mtop_t) (molb : gmx_molblock_t) : gmx_moltype_t :=
  mtop.moltype.getD molb.type gmx_moltype_t.empty

/-- The block `mtop.molblock[mb]`. -/
def gmx_mtop_t.block (mtop : gmx_mtop_t) (mb : Nat) : gmx_molblock_t :=
  mtop.molblock.getD mb gmx_molblock_t.empty

/-- Array read `xs[i]` with a signed index. -/
def readAt {α : Type} [Inhabited α] (xs : List α) (i : Int) : α :=
  if 0 ≤ i then xs.getD i.toNat default else default

/-- The compile-time constants the code depends on that are declared in
headers outside this source tree: from `ifunc.h` the number of function types,
the table `interaction_function` (atoms per entry, flags) and the function
types the code names; from `InteractionType.h` the two interaction-type bits
the filter tests; from `atoms.h` the particle types. -/
structure Constants where
  F_NRE : Nat
  nratoms : Nat → Nat
  flags : Nat → Nat
  F_POSRES : Nat
  F_FBPOSRES : Nat
  F_CONSTR : Nat
  F_CONSTRNC : Nat
  InteractionType_BONDED : Nat
  InteractionType_NB14 : Nat
  eptNR : Nat
  eptAtom : Nat

/-- The macro `NRAL(ftype)`. -/
def NRAL (T : Constants) (ftype : Nat) : Nat := T.nratoms ftype

/-! ## Atom range iterator -/

/-- State of `AtomIterator`.  The pointer `mtop_` is not part of the state:
the topology is passed to every operation. -/
structure AtomIterator where
  mblock_ : Nat
  atoms_ : t_atoms
  currentMolecule_ : Nat
  highestResidueNumber_ : Int
  localAtomNumber_ : Nat
  globalAtomNumber_ : Int
deriving DecidableEq, Repr

/-- The member initialisers of `AtomIterator::AtomIterator`. -/
def AtomIterator.initial (mtop : gmx_mtop_t) (globalAtomNumber : Int) : AtomIterator :=
  { mblock_ := 0
    atoms_ := (mtop.moltypeOf (mtop.block 0)).atoms
    currentMolecule_ := 0
    highestResidueNumber_ := mtop.maxResNumberNotRenumbered
    localAtomNumber_ := 0
    globalAtomNumber_ := globalAtomNumber }

/-- The constructor `AtomIterator::AtomIterator`.  Its only check is a
`GMX_ASSERT`, declared outside this source tree, whose effect depends on the
build and is therefore a parameter: in a build with assertions enabled
(`assertionsEnabled`) a condition that does not hold aborts with the message,
in a build without them (`NDEBUG`) the check expands to nothing and the member
initialisers are all that runs. -/
def AtomIterator.create (assertionsEnabled : Bool) (mtop : gmx_mtop_t)
    (globalAtomNumber : Int) : Except String AtomIterator :=
  if assertionsEnabled
      ∧ ¬ (globalAtomNumber = 0 ∨ globalAtomNumber = (mtop.natoms : Int)) then
    .error "Starting at other atoms not implemented yet"
  else
    .ok (AtomIterator.initial mtop globalAtomNumber)

/-- The increment `AtomIterator::operator++`. -/
def AtomIterator.next (mtop : gmx_mtop_t) (it : AtomIterator) : AtomIterator :=
  let localAtomNumber := it.localAtomNumber_ + 1
  let globalAtomNumber := it.globalAtomNumber_ + 1
  if localAtomNumber ≥ it.atoms_.nr then
    let highest :=
      if (it.atoms_.nres : Int) ≤ mtop.maxResiduesPerMoleculeToTriggerRenumber then
        it.highestResidueNumber_ + (it.atoms_.nres : Int)
      else
        it.highestResidueNumber_
    let currentMolecule := it.currentMolecule_ + 1
    if currentMolecule ≥ (mtop.block it.mblock_).nmol then
      let mblock := it.mblock_ + 1
      if mblock ≥ mtop.molblock.length then
        { mblock_ := mblock, atoms_ := it.atoms_, currentMolecule_ := currentMolecule,
          highestResidueNumber_ := highest, localAtomNumber_ := 0,
          globalAtomNumber_ := globalAtomNumber }
      else
        { mblock_ := mblock, atoms_ := (mtop.moltypeOf (mtop.block mblock)).atoms,
          currentMolecule_ := 0, highestResidueNumber_ := highest, localAtomNumber_ := 0,
          globalAtomNumber_ := globalAtomNumber }
    else
      { mblock_ := it.mblock_, atoms_ := it.atoms_, currentMolecule_ := currentMolecule,
        highestResidueNumber_ := highest, localAtomNumber_ := 0,
        globalAtomNumber_ := globalAtomNumber }
  else
    { mblock_ := it.mblock_, atoms_ := it.atoms_, currentMolecule_ := it.currentMolecule_,
      highestResidueNumber_ := it.highestResidueNumber_, localAtomNumber_ := localAtomNumber,
      globalAtomNumber_ := globalAtomNumber }

/-- The comparison `AtomIterator::operator==` of two iterators over one topology. -/
def AtomIterator.eq (a b : AtomIterator) : Bool :=
  a.globalAtomNumber_ == b.globalAtomNumber_

/-- The state after `k` increments. -/
def AtomIterator.advance (mtop : gmx_mtop_t) : Nat → AtomIterator → AtomIterator
  | 0, it => it
  | k + 1, it => AtomIterator.advance mtop k (AtomIterator.next mtop it)

/-- The accessor `AtomProxy::atom`. -/
def AtomProxy.atom (it : AtomIterator) : t_atom :=
  it.atoms_.atom.getD it.localAtomNumber_ default

/-- The accessor `AtomProxy::globalAtomNumber`. -/
def AtomProxy.globalAtomNumber (it : AtomIterator) : Int :=
  it.globalAtomNumber_

/-- The accessor `AtomProxy::atomName`. -/
def AtomProxy.atomName (it : AtomIterator) : String :=
  it.atoms_.atomname.getD it.localAtomNumber_ default

/-- The accessor `AtomProxy::residueName`. -/
def AtomProxy.residueName (it : AtomIterator) : String :=
  let residueIndexInMolecule := (it.atoms_.atom.getD it.localAtomNumber_ default).resind
  (readAt it.atoms_.resinfo residueIndexInMolecule).name

/-- The accessor `AtomProxy::residueNumber`. -/
def AtomProxy.residueNumber (mtop : gmx_mtop_t) (it : AtomIterator) : Int :=
  let residueIndexInMolecule := (it.atoms_.atom.getD it.localAtomNumber_ default).resind
  if (it.atoms_.nres : Int) ≤ mtop.maxResiduesPerMoleculeToTriggerRenumber then
    it.highestResidueNumber_ + 1 + residueIndexInMolecule
  else
    (readAt it.atoms_.resinfo residueIndexInMolecule).nr

/-- The accessor `AtomProxy::moleculeType`. -/
def AtomProxy.moleculeType (mtop : gmx_mtop_t) (it : AtomIterator) : gmx_moltype_t :=
  mtop.moltypeOf (mtop.block it.mblock_)

/-- The accessor `AtomProxy::atomNumberInMol`. -/
def AtomProxy.atomNumberInMol (it : AtomIterator) : Nat :=
  it.localAtomNumber_

/-! ## Interaction list expansion -/

/-- The loop `for (i = 0; i < src.size();)` of `ilistcat` for one copy: the
cursor `i` into `src` is the list still to be read, the result is what the loop
writes through `destIndex++`.  Every iteration reads at least one element, so
`src.size()` iterations suffice; `fuel` bounds their number.  On a list whose
length is not a multiple of `1 + nral` the source reads past the end of `src`
(undefined behaviour); the model stops at the end of the list. -/
def ilistcatEntries (nral : Nat) (dnum : Int) : Nat → List Int → List Int
  | 0, _ => []
  | _ + 1, [] => []
  | fuel + 1, p :: rest =>
    p :: ((rest.take nral).map (fun a => dnum + a)
      ++ ilistcatEntries nral dnum fuel (rest.drop nral))

/-- The loop `for (c = 0; c < copies; c++)` of `ilistcat`; `dnum` grows by
`snum` after every copy. -/
def ilistcatCopies (nral : Nat) (src : InteractionList) (snum : Int) :
    Nat → Int → InteractionList → InteractionList
  | 0, _, dest => dest
  | copies + 1, dnum, dest =>
    ilistcatCopies nral src snum copies (dnum + snum)
      (dest ++ ilistcatEntries nral dnum src.length src)

/-- The routine `ilistcat`; the result is the new value of `dest->iatoms`. -/
def ilistcat (T : Constants) (ftype : Nat) (dest : InteractionList) (src : InteractionList)
    (copies : Nat) (dnum snum : Int) : InteractionList :=
  ilistcatCopies (NRAL T ftype) src snum copies dnum dest

/-- Block structure `t_blocka`: `index` delimits the groups stored in `a`. -/
structure t_blocka where
  nr : Nat
  index : List Nat
  nra : Nat
  a : List Int
deriving DecidableEq, Repr

/-- The members of `fda::FDASettings` the expansion reads. -/
structure FDASettings where
  type : Nat
  groups : t_blocka
  index_group1 : Nat
  index_group2 : Nat
  bonded_exclusion_on : Bool
deriving DecidableEq, Repr

/-- The atoms `groups->a[groups->index[g]] .. groups->a[groups->index[g + 1] - 1]`
that the pointer pair `gNatomsBeg`, `gNatomsEnd` of `pf_ilistcat` delimits. -/
def FDASettings.groupAtoms (s : FDASettings) (g : Nat) : List Int :=
  let beg := s.groups.index.getD g 0
  let fin := s.groups.index.getD (g + 1) 0
  (s.groups.a.drop beg).take (fin - beg)

/-- The flag `needed` of `pf_ilistcat` for one entry with atoms `atoms`. -/
def pf_needed (g1 g2 : List Int) (dnum : Int) (atoms : List Int) : Bool :=
  atoms.any (fun a => decide (dnum + a ∈ g1) || decide (dnum + a ∈ g2))

/-- The loop `for (i = 0; i < src.size(); )` of `pf_ilistcat` for one copy;
the result is what the loop stores in `tmp`. -/
def pf_ilistcatEntries (nral : Nat) (g1 g2 : List Int) (dnum : Int) : Nat → List Int → List Int
  | 0, _ => []
  | _ + 1, [] => []
  | fuel + 1, p :: rest =>
    (if pf_needed g1 g2 dnum (rest.take nral) then
        p :: (rest.take nral).map (fun a => dnum + a)
      else [])
      ++ pf_ilistcatEntries nral g1 g2 dnum fuel (rest.drop nral)

/-- The loop `for (c = 0; c < copies; c++)` of `pf_ilistcat`, collecting `tmp`. -/
def pf_ilistcatCopies (nral : Nat) (g1 g2 : List Int) (src : InteractionList) (snum : Int) :
    Nat → Int → List Int → List Int
  | 0, _, tmp => tmp
  | copies + 1, dnum, tmp =>
    pf_ilistcatCopies nral g1 g2 src snum copies (dnum + snum)
      (tmp ++ pf_ilistcatEntries nral g1 g2 dnum src.length src)

/-- The routine `pf_ilistcat`; the result is the new value of `dest->iatoms`. -/
def pf_ilistcat (T : Constants) (ftype : Nat) (dest : InteractionList) (src : InteractionList)
    (copies : Nat) (dnum snum : Int) (fda_settings : FDASettings) : InteractionList :=
  if fda_settings.type &&& (T.InteractionType_BONDED + T.InteractionType_NB14) = 0 then
    dest
  else
    dest ++ pf_ilistcatCopies (NRAL T ftype)
      (fda_settings.groupAtoms fda_settings.index_group1)
      (fda_settings.groupAtoms fda_settings.index_group2) src snum copies dnum []

/-- The tag `ilsort` of an interaction-definition structure. -/
inductive IlSort where
  | ilsortUNKNOWN
  | ilsortNO_FE
  | ilsortFE_UNSORTED
  | ilsortFE_SORTED
deriving DecidableEq, Repr

/-- The interaction definitions (`InteractionDefinitions`, and likewise the
legacy `t_idef`, which has the same members) that `copyIListsFromMtop` fills. -/
structure InteractionDefinitions where
  il : InteractionLists
  iparams : List t_iparams
  iparams_posres : List t_iparams
  iparams_fbposres : List t_iparams
  ilsort : IlSort

/-- The operation `resize(newSize)` of a vector (and `srenew` of a raw array):
the first `newSize` elements, new ones zero-initialised. -/
def resizeList {α : Type} [Inhabited α] (xs : List α) (newSize : Nat) : List α :=
  xs.take newSize ++ List.replicate (newSize - xs.length) default

/-- The loop `for (i = i0; i < i1; i++)` of `set_posres_params`, with `n = i1 - i`
iterations left. -/
def set_posres_paramsLoop (T : Constants) (molb : gmx_molblock_t) (a_offset : Int) :
    Nat → Nat → InteractionDefinitions → Except String InteractionDefinitions
  | 0, _, idef => .ok idef
  | n + 1, i, idef =>
    let il := idef.il T.F_POSRES
    let ip := readAt idef.iparams (il.getD (i * 2) 0)
    let a_molb := il.getD (i * 2 + 1) 0 - a_offset
    if molb.posres_xA.isEmpty then
      .error "Position restraint coordinates are missing"
    else
      let pos0A := readAt molb.posres_xA a_molb
      let pos0B := if !molb.posres_xB.isEmpty then readAt molb.posres_xB a_molb else pos0A
      let ip := { ip with posres := { ip.posres with pos0A := pos0A, pos0B := pos0B } }
      set_posres_paramsLoop T molb a_offset n (i + 1)
        { idef with
          iparams_posres := idef.iparams_posres.set i ip
          il := Function.update idef.il T.F_POSRES (il.set (i * 2) (i : Int)) }

/-- The routine `set_posres_params`. -/
def set_posres_params (T : Constants) (idef : InteractionDefinitions) (molb : gmx_molblock_t)
    (i0 : Nat) (a_offset : Int) : Except String InteractionDefinitions :=
  let i1 := (idef.il T.F_POSRES).length / 2
  set_posres_paramsLoop T molb a_offset (i1 - i0) i0
    { idef with iparams_posres := resizeList idef.iparams_posres i1 }

/-- The loop `for (i = i0; i < i1; i++)` of `set_fbposres_params`, with
`n = i1 - i` iterations left. -/
def set_fbposres_paramsLoop (T : Constants) (molb : gmx_molblock_t) (a_offset : Int) :
    Nat → Nat → InteractionDefinitions → Except String InteractionDefinitions
  | 0, _, idef => .ok idef
  | n + 1, i, idef =>
    let il := idef.il T.F_FBPOSRES
    let ip := readAt idef.iparams (il.getD (i * 2) 0)
    let a_molb := il.getD (i * 2 + 1) 0 - a_offset
    if molb.posres_xA.isEmpty then
      .error "Position restraint coordinates are missing"
    else
      let ip := { ip with fbposres := { ip.fbposres with pos0 := readAt molb.posres_xA a_molb } }
      set_fbposres_paramsLoop T molb a_offset n (i + 1)
        { idef with
          iparams_fbposres := idef.iparams_fbposres.set i ip
          il := Function.update idef.il T.F_FBPOSRES (il.set (i * 2) (i : Int)) }

/-- The routine `set_fbposres_params`. -/
def set_fbposres_params (T : Constants) (idef : InteractionDefinitions) (molb : gmx_molblock_t)
    (i0 : Nat) (a_offset : Int) : Except String InteractionDefinitions :=
  let i1 := (idef.il T.F_FBPOSRES).length / 2
  set_fbposres_paramsLoop T molb a_offset (i1 - i0) i0
    { idef with iparams_fbposres := resizeList idef.iparams_fbposres i1 }

/-- The loop `for (int mol = 0; mol < molb.nmol; mol++)` of the constraint-merging
branch of `copyIListsFromMtop`, from copy `mol` with `n` copies left. -/
def mergeConstrLoop (T : Constants) (ftype : Nat) (molt : gmx_moltype_t) (destnr srcnr : Nat) :
    Nat → Nat → InteractionList → InteractionList
  | 0, _, dest => dest
  | n + 1, mol, dest =>
    let dest1 := ilistcat T ftype dest (molt.ilist T.F_CONSTR) 1
      ((destnr : Int) + (mol : Int) * (srcnr : Int)) srcnr
    let dest2 := ilistcat T ftype dest1 (molt.ilist T.F_CONSTRNC) 1
      ((destnr : Int) + (mol : Int) * (srcnr : Int)) srcnr
    mergeConstrLoop T ftype molt destnr srcnr n (mol + 1) dest2

/-- The body of the loop `for (int ftype = 0; ftype < F_NRE; ftype++)` of
`copyIListsFromMtop` for one block. -/
def copyIListsKind (T : Constants) (molt : gmx_moltype_t) (molb : gmx_molblock_t)
    (mergeConstr : Bool) (ptr_fda_settings : Option FDASettings) (destnr srcnr : Nat)
    (il : InteractionLists) (ftype : Nat) : InteractionLists :=
  if mergeConstr && decide (ftype = T.F_CONSTR) && !(molt.ilist T.F_CONSTRNC).isEmpty then
    Function.update il T.F_CONSTR
      (mergeConstrLoop T ftype molt destnr srcnr molb.nmol 0 (il T.F_CONSTR))
  else if !(mergeConstr && decide (ftype = T.F_CONSTRNC)) then
    match ptr_fda_settings with
    | some fda_settings =>
      if fda_settings.bonded_exclusion_on then
        Function.update il ftype
          (pf_ilistcat T ftype (il ftype) (molt.ilist ftype) molb.nmol destnr srcnr fda_settings)
      else
        Function.update il ftype
          (ilistcat T ftype (il ftype) (molt.ilist ftype) molb.nmol destnr srcnr)
    | none =>
      Function.update il ftype
        (ilistcat T ftype (il ftype) (molt.ilist ftype) molb.nmol destnr srcnr)
  else
    il

/-- The body of the loop over the molecule blocks of `copyIListsFromMtop`:
the interaction definitions after the block `molb`, entered with `natoms`
atoms in the earlier blocks. -/
def copyIListsBlock (T : Constants) (mtop : gmx_mtop_t) (mergeConstr : Bool)
    (ptr_fda_settings : Option FDASettings) (natoms : Nat) (idef : InteractionDefinitions)
    (molb : gmx_molblock_t) : Except String InteractionDefinitions :=
  let molt := mtop.moltypeOf molb
  let srcnr := molt.atoms.nr
  let destnr := natoms
  let nposre_old := (idef.il T.F_POSRES).length
  let nfbposre_old := (idef.il T.F_FBPOSRES).length
  let idef1 : InteractionDefinitions :=
    { idef with
      il := (List.range T.F_NRE).foldl
        (copyIListsKind T molt molb mergeConstr ptr_fda_settings destnr srcnr) idef.il }
  match (if (idef1.il T.F_POSRES).length > nposre_old then
      set_posres_params T idef1 molb (nposre_old / 2) natoms
    else .ok idef1) with
  | .error e => .error e
  | .ok idef2 =>
    if (idef2.il T.F_FBPOSRES).length > nfbposre_old then
      set_fbposres_params T idef2 molb (nfbposre_old / 2) natoms
    else .ok idef2

/-- The loop `for (const gmx_molblock_t& molb : mtop.molblock)` of
`copyIListsFromMtop` over the blocks still to be processed, with the running
atom base `natoms` kept exact (unbounded); `copyIListsBlocks_int32` is the loop
with the `int` arithmetic of the source. -/
def copyIListsBlocks (T : Constants) (mtop : gmx_mtop_t) (mergeConstr : Bool)
    (ptr_fda_settings : Option FDASettings) :
    List gmx_molblock_t → Nat → InteractionDefinitions → Except String InteractionDefinitions
  | [], _, idef => .ok idef
  | molb :: rest, natoms, idef =>
    match copyIListsBlock T mtop mergeConstr ptr_fda_settings natoms idef molb with
    | .error e => .error e
    | .ok idef1 =>
      copyIListsBlocks T mtop mergeConstr ptr_fda_settings rest
        (natoms + molb.nmol * (mtop.moltypeOf molb).atoms.nr) idef1

/-- The routine `copyIListsFromMtop`, with the atom numbers kept exact
(unbounded); `copyIListsFromMtop_int32` is the routine with the `int`
arithmetic of the source, which gives the same interaction lists as long as
the atom numbers are representable. -/
def copyIListsFromMtop (T : Constants) (mtop : gmx_mtop_t) (idef : InteractionDefinitions)
    (mergeConstr : Bool) (ptr_fda_settings : Option FDASettings) :
    Except String InteractionDefinitions :=
  match copyIListsBlocks T mtop mergeConstr ptr_fda_settings mtop.molblock 0 idef with
  | .error e => .error e
  | .ok idef1 =>
    let il :=
      if mtop.bIntermolecularInteractions then
        (List.range T.F_NRE).foldl
          (fun il ftype =>
            Function.update il ftype
              (ilistcat T ftype (il ftype) (mtop.intermolecular_ilist ftype) 1 0 mtop.natoms))
          idef1.il
      else idef1.il
    .ok { idef1 with il := il, ilsort := IlSort.ilsortNO_FE }

/-- The interaction definitions both callers hand to `copyIListsFromMtop`:
empty lists, the force-field parameter table copied, no per-entry restraint
parameters. -/
def emptyIdef (mtop : gmx_mtop_t) : InteractionDefinitions :=
  { il := fun _ => []
    iparams := mtop.ffparams.iparams
    iparams_posres := []
    iparams_fbposres := []
    ilsort := IlSort.ilsortUNKNOWN }

/-! ## Counting -/

/-- State of the loop helper `gmx_mtop_ilistloop`. -/
structure gmx_mtop_ilistloop where
  mblock : Int
deriving DecidableEq, Repr

/-- The routine `gmx_mtop_ilistloop_init`. -/
def gmx_mtop_ilistloop_init : gmx_mtop_ilistloop := { mblock := -1 }

/-- The routine `gmx_mtop_ilistloop_next`: the advanced loop state and, unless
the loop has ended (`nullptr`), the lists returned together with `*nmol`. -/
def gmx_mtop_ilistloop_next (mtop : gmx_mtop_t) (iloop : gmx_mtop_ilistloop) :
    gmx_mtop_ilistloop × Option (InteractionLists × Nat) :=
  let mblock := iloop.mblock + 1
  if mblock ≥ (mtop.molblock.length : Int) then
    if mblock = (mtop.molblock.length : Int) && mtop.bIntermolecularInteractions then
      ({ mblock := mblock }, some (mtop.intermolecular_ilist, 1))
    else
      ({ mblock := mblock }, none)
  else
    ({ mblock := mblock },
      some ((mtop.moltypeOf (readAt mtop.molblock mblock)).ilist,
        (readAt mtop.molblock mblock).nmol))

/-- The loop `while (const InteractionLists* il = gmx_mtop_ilistloop_next(iloop, &nmol))`
of `gmx_mtop_ftype_count`, run for at most `fuel` iterations. -/
def gmx_mtop_ftype_countLoop (T : Constants) (mtop : gmx_mtop_t) (ftype : Nat) :
    Nat → gmx_mtop_ilistloop → Nat → Nat
  | 0, _, n => n
  | fuel + 1, iloop, n =>
    match gmx_mtop_ilistloop_next mtop iloop with
    | (iloop1, some (il, nmol)) =>
      gmx_mtop_ftype_countLoop T mtop ftype fuel iloop1
        (n + nmol * (il ftype).length / (1 + NRAL T ftype))
    | (_, none) => n

/-- The routine `gmx_mtop_ftype_count`.  The helper returns `nullptr` at the
latest in its call number `molblock.size() + 2`. -/
def gmx_mtop_ftype_count (T : Constants) (mtop : gmx_mtop_t) (ftype : Nat) : Nat :=
  let n := gmx_mtop_ftype_countLoop T mtop ftype (mtop.molblock.length + 2)
    gmx_mtop_ilistloop_init 0
  if mtop.bIntermolecularInteractions then
    n + (mtop.intermolecular_ilist ftype).length / (1 + NRAL T ftype)
  else n

/-! ## Concatenated atom table -/

/-- The effect of `memcpy(&dest[l], &src[0], n * sizeof(src[0]))`. -/
def copyInto {α : Type} [Inhabited α] (dest : List α) (l : Nat) (src : List α) (n : Nat) :
    List α :=
  (List.range n).foldl (fun d i => d.set (l + i) (src.getD i default)) dest

/-- The loop nest `Increment residue indices` of `atomcat`. -/
def atomcatResind (dest src : t_atoms) (copies : Nat) (atom : List t_atom) : List t_atom :=
  (List.range copies).foldl
    (fun atom j =>
      (List.range src.nr).foldl
        (fun atom i =>
          atom.set (dest.nr + j * src.nr + i)
            { atom.getD (dest.nr + j * src.nr + i) default with
              resind := (dest.nres : Int) + (j : Int) * (src.nres : Int)
                + (src.atom.getD i default).resind })
        atom)
    atom

/-- The loop nest `continue counting residues` of `atomcat`: the residue table
and the running counter `*maxresnr`. -/
def atomcatRenumber (dest src : t_atoms) (copies : Nat) (resinfo : List t_resinfo)
    (maxresnr : Int) : List t_resinfo × Int :=
  (List.range copies).foldl
    (fun st j =>
      (List.range src.nres).foldl
        (fun st l =>
          (st.1.set (dest.nres + j * src.nres + l)
              { st.1.getD (dest.nres + j * src.nres + l) default with nr := st.2 + 1 },
            st.2 + 1))
        st)
    (resinfo, maxresnr)

/-- The routine `atomcat`: the new `*dest` and the new `*maxresnr`.  The arrays
`atomtype`, `atomtypeB` and `pdbinfo`, which the routine copies like `atomname`,
are not part of the model. -/
def atomcat (dest src : t_atoms) (copies : Nat) (maxres_renum : Int) (maxresnr : Int) :
    t_atoms × Int :=
  let srcnr := src.nr
  let destnr := dest.nr
  let haveMass := if dest.nr = 0 then src.haveMass else dest.haveMass && src.haveMass
  let haveType := if dest.nr = 0 then src.haveType else dest.haveType && src.haveType
  let haveCharge := if dest.nr = 0 then src.haveCharge else dest.haveCharge && src.haveCharge
  let haveBState := if dest.nr = 0 then src.haveBState else dest.haveBState && src.haveBState
  let havePdbInfo := if dest.nr = 0 then src.havePdbInfo else dest.havePdbInfo && src.havePdbInfo
  let atom0 := if srcnr ≠ 0 then resizeList dest.atom (destnr + copies * srcnr) else dest.atom
  let atomname0 :=
    if srcnr ≠ 0 then resizeList dest.atomname (destnr + copies * srcnr) else dest.atomname
  let resinfo0 :=
    if src.nres ≠ 0 then resizeList dest.resinfo (dest.nres + copies * src.nres)
    else dest.resinfo
  let resinfo1 := (List.range copies).foldl
    (fun r j => copyInto r (dest.nres + j * src.nres) src.resinfo src.nres) resinfo0
  let atom1 := (List.range copies).foldl
    (fun a j => copyInto a (destnr + j * srcnr) src.atom srcnr) atom0
  let atomname1 := (List.range copies).foldl
    (fun a j => copyInto a (destnr + j * srcnr) src.atomname srcnr) atomname0
  let atom2 := atomcatResind dest src copies atom1
  let renum :=
    if (src.nres : Int) ≤ maxres_renum then atomcatRenumber dest src copies resinfo1 maxresnr
    else (resinfo1, maxresnr)
  ({ nr := dest.nr + copies * src.nr
     atom := atom2
     atomname := atomname1
     nres := dest.nres + copies * src.nres
     resinfo := renum.1
     haveMass := haveMass
     haveCharge := haveCharge
     haveType := haveType
     haveBState := haveBState
     havePdbInfo := havePdbInfo },
   renum.2)

/-- The routine `gmx_mtop_global_atoms`. -/
def gmx_mtop_global_atoms (mtop : gmx_mtop_t) : t_atoms :=
  (mtop.molblock.foldl
    (fun st molb =>
      atomcat st.1 (mtop.moltypeOf molb).atoms molb.nmol
        mtop.maxResiduesPerMoleculeToTriggerRenumber st.2)
    (t_atoms.empty, mtop.maxResNumberNotRenumbered)).1

/-! ## Exclusion lists -/

/-- Modelled from the spec: the member function
`gmx::ListOfLists<int>::appendListOfLists(other, offset)` is declared in
`listoflists.h`, outside this source tree.  It appends every list of `other`
with `offset` added to each of its elements. -/
def appendListOfLists (excls other : ListOfLists) (offset : Int) : ListOfLists :=
  excls ++ other.map (fun l => l.map (fun a => a + offset))

/-- The loop `for (int mol = 0; mol < molb.nmol; mol++)` of `globalExclusionLists`
with `n` copies left: the lists and the running `atomIndex`. -/
def globalExclusionListsMols (molt : gmx_moltype_t) : Nat → Nat → ListOfLists → ListOfLists × Nat
  | 0, atomIndex, excls => (excls, atomIndex)
  | n + 1, atomIndex, excls =>
    globalExclusionListsMols molt n (atomIndex + molt.atoms.nr)
      (appendListOfLists excls molt.excls atomIndex)

/-- The loop over the molecule blocks of `globalExclusionLists`. -/
def globalExclusionListsBlocks (mtop : gmx_mtop_t) :
    List gmx_molblock_t → Nat → ListOfLists → ListOfLists
  | [], _, excls => excls
  | molb :: rest, atomIndex, excls =>
    let st := globalExclusionListsMols (mtop.moltypeOf molb) molb.nmol atomIndex excls
    globalExclusionListsBlocks mtop rest st.2 st.1

/-- The routine `globalExclusionLists`. -/
def globalExclusionLists (mtop : gmx_mtop_t) : ListOfLists :=
  globalExclusionListsBlocks mtop mtop.molblock 0 []

/-! ## Reference quantities used in the statements -/

/-- The number of atoms of a list of blocks: the sum of `nmol` times the atom
count of the block's molecule type. -/
def atomsOfBlocks (mtop : gmx_mtop_t) (blocks : List gmx_molblock_t) : Nat :=
  (blocks.map (fun molb => molb.nmol * (mtop.moltypeOf molb).atoms.nr)).sum

/-- The number of atoms of all blocks before block `mb`. -/
def atomBase (mtop : gmx_mtop_t) (mb : Nat) : Nat :=
  atomsOfBlocks mtop (mtop.molblock.take mb)

/-- The number of atoms of the expanded system. -/
def totalAtoms (mtop : gmx_mtop_t) : Nat :=
  atomsOfBlocks mtop mtop.molblock

/-- Whether position `pos` of an `iatoms` vector with `nral` atoms per entry
holds an atom index (and not the parameter id that opens an entry). -/
def isAtomSlot (nral pos : Nat) : Bool :=
  pos % (1 + nral) != 0

/-- The list `l`, whose first element sits at position `pos` of an `iatoms`
vector, with `d` added to every atom index and the parameter ids unchanged. -/
def offsetAtomsFrom (nral : Nat) (d : Int) : Nat → List Int → List Int
  | _, [] => []
  | pos, x :: xs =>
    (if isAtomSlot nral pos then x + d else x) :: offsetAtomsFrom nral d (pos + 1) xs

/-- An `iatoms` vector with `d` added to every atom index. -/
def offsetAtoms (nral : Nat) (d : Int) (l : List Int) : List Int :=
  offsetAtomsFrom nral d 0 l

/-- The atom indices among the elements of `l`, whose first element sits at
position `pos` of an `iatoms` vector. -/
def atomIndicesFrom (nral : Nat) : Nat → List Int → List Int
  | _, [] => []
  | pos, x :: xs =>
    if isAtomSlot nral pos then x :: atomIndicesFrom nral (pos + 1) xs
    else atomIndicesFrom nral (pos + 1) xs

/-- The atom indices stored in an `iatoms` vector, in order. -/
def atomIndices (nral : Nat) (l : List Int) : List Int :=
  atomIndicesFrom nral 0 l

/-- The number of entries of an `iatoms` vector of kind `ftype`. -/
def numEntries (T : Constants) (ftype : Nat) (l : InteractionList) : Nat :=
  l.length / (1 + NRAL T ftype)

/-- The expansion of kind `ftype` owed to block `mb`: copy by copy, the
template list of the block's molecule type with every atom index `a` replaced
by `a + B + c * n`. -/
def blockExpansion (T : Constants) (mtop : gmx_mtop_t) (ftype : Nat) (mb : Nat) : List Int :=
  (List.range (mtop.block mb).nmol).flatMap
    (fun c =>
      offsetAtoms (NRAL T ftype)
        ((atomBase mtop mb : Int) + (c : Int) * ((mtop.moltypeOf (mtop.block mb)).atoms.nr : Int))
        ((mtop.moltypeOf (mtop.block mb)).ilist ftype))

/-- The expansion of kind `ftype` owed to the molecule blocks, block by block. -/
def moleculeBlockExpansion (T : Constants) (mtop : gmx_mtop_t) (ftype : Nat) : List Int :=
  (List.range mtop.molblock.length).flatMap (blockExpansion T mtop ftype)

/-- The intermolecular part of the output list of kind `ftype`. -/
def intermolecularPart (mtop : gmx_mtop_t) (ftype : Nat) : List Int :=
  if mtop.bIntermolecularInteractions then mtop.intermolecular_ilist ftype else []

/-- The value that iteration `ftype` of the loop over the function types stores
in `idef->il[ftype]`, given the old value `old` of that list. -/
def copyIListsSlot (T : Constants) (molt : gmx_moltype_t) (molb : gmx_molblock_t)
    (mergeConstr : Bool) (ptr_fda_settings : Option FDASettings) (destnr srcnr : Nat)
    (ftype : Nat) (old : InteractionList) : InteractionList :=
  if mergeConstr && decide (ftype = T.F_CONSTR) && !(molt.ilist T.F_CONSTRNC).isEmpty then
    mergeConstrLoop T ftype molt destnr srcnr molb.nmol 0 old
  else if !(mergeConstr && decide (ftype = T.F_CONSTRNC)) then
    match ptr_fda_settings with
    | some fda_settings =>
      if fda_settings.bonded_exclusion_on then
        pf_ilistcat T ftype old (molt.ilist ftype) molb.nmol destnr srcnr fda_settings
      else
        ilistcat T ftype old (molt.ilist ftype) molb.nmol destnr srcnr
    | none => ilistcat T ftype old (molt.ilist ftype) molb.nmol destnr srcnr
  else
    old

/-- Two `iatoms` vectors of equal length that hold the same atom indices. -/
def SameAtoms (nral : Nat) (l l' : List Int) : Prop :=
  l'.length = l.length ∧ atomIndices nral l' = atomIndices nral l

/-- Whether the filter of `copyIListsFromMtop` is off: no settings are passed
or the settings have `bonded_exclusion_on` false. -/
def filterOff (ptr_fda_settings : Option FDASettings) : Bool :=
  match ptr_fda_settings with
  | none => true
  | some fda_settings => !fda_settings.bonded_exclusion_on

/-- An `iatoms` vector made of whole entries whose atom indices all lie in `[0, N)`. -/
def AtomsBelow (nral : Nat) (N : Int) (l : List Int) : Prop :=
  (1 + nral) ∣ l.length ∧ ∀ x ∈ atomIndices nral l, 0 ≤ x ∧ x < N

/-- Interaction lists of every kind made of whole entries with atom indices in `[0, N)`. -/
def ListsBelow (T : Constants) (il : InteractionLists) (N : Nat) : Prop :=
  ∀ g, AtomsBelow (NRAL T g) (N : Int) (il g)

/-- The number of residues of the copies, in a list of blocks, whose molecule
type is renumbered (residue count at most the renumbering threshold). -/
def renumberedResiduesOfBlocks (mtop : gmx_mtop_t) (blocks : List gmx_molblock_t) : Nat :=
  (blocks.map (fun molb =>
    if ((mtop.moltypeOf molb).atoms.nres : Int) ≤ mtop.maxResiduesPerMoleculeToTriggerRenumber
    then molb.nmol * (mtop.moltypeOf molb).atoms.nres else 0)).sum

/-- The number of residues of renumbered copies that precede, in traversal
order, copy `c` of block `mb`. -/
def renumberedResiduesBefore (mtop : gmx_mtop_t) (mb c : Nat) : Nat :=
  renumberedResiduesOfBlocks mtop (mtop.molblock.take mb)
    + (if ((mtop.moltypeOf (mtop.block mb)).atoms.nres : Int)
          ≤ mtop.maxResiduesPerMoleculeToTriggerRenumber
       then c * (mtop.moltypeOf (mtop.block mb)).atoms.nres else 0)

/-- The cursor that points at local atom `i` of copy `c` of block `mb`. -/
def cursorAt (mtop : gmx_mtop_t) (mb c i : Nat) : AtomIterator :=
  { mblock_ := mb
    atoms_ := (mtop.moltypeOf (mtop.block mb)).atoms
    currentMolecule_ := c
    highestResidueNumber_ :=
      mtop.maxResNumberNotRenumbered + (renumberedResiduesBefore mtop mb c : Int)
    localAtomNumber_ := i
    globalAtomNumber_ :=
      ((atomBase mtop mb + c * (mtop.moltypeOf (mtop.block mb)).atoms.nr + i : Nat) : Int) }

/-- The exclusion lists owed to block `mb`: copy by copy, the template lists of
the block's molecule type with `B + c * n` added to every element. -/
def blockExclusions (mtop : gmx_mtop_t) (mb : Nat) : ListOfLists :=
  (List.range (mtop.block mb).nmol).flatMap
    (fun c =>
      (mtop.moltypeOf (mtop.block mb)).excls.map
        (fun l => l.map
          (fun a => a + ((atomBase mtop mb + c * (mtop.moltypeOf (mtop.block mb)).atoms.nr
            : Nat) : Int))))

/-! ## Worked examples -/

/-- A reduced table of function types for the worked examples: bonds, angles,
position restraints, flat-bottomed position restraints, constraints,
constraints without connection, SETTLE. -/
def exampleConstants : Constants :=
  { F_NRE := 7
    nratoms := fun ftype =>
      match ftype with
      | 0 => 2
      | 1 => 3
      | 2 => 1
      | 3 => 1
      | 4 => 2
      | 5 => 2
      | _ => 3
    flags := fun ftype => if ftype < 2 then 1 else 0
    F_POSRES := 2
    F_FBPOSRES := 3
    F_CONSTR := 4
    F_CONSTRNC := 5
    InteractionType_BONDED := 7
    InteractionType_NB14 := 64
    eptNR := 5
    eptAtom := 0 }

/-- An atom table whose atoms have the residue indices `resinds` and whose
residues carry the numbers `resnrs`. -/
def exampleAtoms (resinds : List Int) (resnrs : List Int) : t_atoms :=
  { nr := resinds.length
    atom := resinds.map (fun r => { t_atom.zero with resind := r })
    atomname := resinds.map (fun _ => "X")
    nres := resnrs.length
    resinfo := resnrs.map (fun n => { t_resinfo.zero with nr := n })
    haveMass := true
    haveCharge := true
    haveType := true
    haveBState := false
    havePdbInfo := false }

/-- A three-atom molecule type with two bonds, one angle and one position restraint. -/
def exampleTypeA : gmx_moltype_t :=
  { atoms := exampleAtoms [0, 0, 1] [1, 2]
    ilist := fun ftype =>
      match ftype with
      | 0 => [0, 0, 1, 1, 1, 2]
      | 1 => [2, 0, 1, 2]
      | 2 => [3, 0]
      | _ => []
    excls := [[0, 1, 2], [0, 1, 2], [0, 1, 2]] }

/-- A two-atom molecule type with one bond, one constraint and one constraint
without connection. -/
def exampleTypeW : gmx_moltype_t :=
  { atoms := exampleAtoms [0, 0] [1]
    ilist := fun ftype =>
      match ftype with
      | 0 => [4, 0, 1]
      | 4 => [4, 0, 1]
      | 5 => [5, 0, 1]
      | _ => []
    excls := [[0, 1], [0, 1]] }

/-- A reference coordinate whose three components are `x`. -/
def exampleCoord (x : Int) : rvec := { XX := x, YY := x, ZZ := x }

/-- Two copies of `exampleTypeA` followed by three copies of `exampleTypeW`,
with one intermolecular bond between the first and the last atom. -/
def exampleMtop : gmx_mtop_t :=
  { moltype := [exampleTypeA, exampleTypeW]
    molblock :=
      [{ type := 0, nmol := 2,
         posres_xA := (List.range 6).map (fun i => exampleCoord (10 + i)), posres_xB := [] },
       { type := 1, nmol := 3, posres_xA := [], posres_xB := [] }]
    bIntermolecularInteractions := true
    natoms := 12
    ffparams :=
      { atnr := 1, functype := [0, 0, 1, 2, 0, 0], iparams := List.replicate 6 t_iparams.zero }
    intermolecular_ilist := fun ftype =>
      match ftype with
      | 0 => [5, 0, 11]
      | _ => []
    intermolecularExclusionGroup := []
    maxResNumberNotRenumbered := 2
    maxResiduesPerMoleculeToTriggerRenumber := 1 }

/-- Filter settings for the worked examples: group 0 holds the atoms 0 and 1,
group 1 the atoms 6 and 7; bonded interactions are selected. -/
def exampleFDASettings : FDASettings :=
  { type := 7
    groups := { nr := 2, index := [0, 2, 4], nra := 4, a := [0, 1, 6, 7] }
    index_group1 := 0
    index_group2 := 1
    bonded_exclusion_on := true }

/-- The topology of the residue numbering scenario: one copy of a molecule
type with 120 residues numbered 1 to 120 (one atom each), followed by 500
copies of a three-atom molecule type with a single residue; molecule types
with at most one residue are renumbered. -/
def proteinWaterMtop : gmx_mtop_t :=
  { moltype :=
      [{ atoms :=
           { nr := 120
             atom := (List.range 120).map (fun r => { t_atom.zero with resind := (r : Int) })
             atomname := (List.range 120).map (fun _ => "CA")
             nres := 120
             resinfo := (List.range 120).map (fun r => { t_resinfo.zero with nr := (r : Int) + 1 })
             haveMass := true
             haveCharge := true
             haveType := true
             haveBState := false
             havePdbInfo := false }
         ilist := fun _ => []
         excls := [] },
       { atoms := exampleAtoms [0, 0, 0] [1]
         ilist := fun _ => []
         excls := [] }]
    molblock :=
      [{ type := 0, nmol := 1, posres_xA := [], posres_xB := [] },
       { type := 1, nmol := 500, posres_xA := [], posres_xB := [] }]
    bIntermolecularInteractions := false
    natoms := 1620
    ffparams := { atnr := 1, functype := [], iparams := [] }
    intermolecular_ilist := fun _ => []
    intermolecularExclusionGroup := []
    maxResNumberNotRenumbered := 120
    maxResiduesPerMoleculeToTriggerRenumber := 1 }

/-- The topology `mtop` stripped of its intermolecular interactions. -/
def withoutIntermolecular (mtop : gmx_mtop_t) : gmx_mtop_t :=
  { mtop with bIntermolecularInteractions := false, intermolecular_ilist := fun _ => [] }

/-- The entries of an `iatoms` vector with `nral` atoms per entry: entry `e` is
the slice of the positions `e * (1 + nral)` to `(e + 1) * (1 + nral) - 1`. -/
def entriesOf (nral : Nat) (l : List Int) : List (List Int) :=
  (List.range (l.length / (1 + nral))).map
    (fun e => (l.drop (e * (1 + nral))).take (1 + nral))

/-- Whether an entry (a parameter id followed by atom indices) has at least one
atom that is a member of the group `g1` or of the group `g2`. -/
def entryInGroups (g1 g2 : List Int) (entry : List Int) : Bool :=
  entry.tail.any (fun a => decide (a ∈ g1) || decide (a ∈ g2))

/-- The entries of an `iatoms` vector that have at least one atom in `g1` or
`g2`, in their order, as an `iatoms` vector again. -/
def filterEntries (nral : Nat) (g1 g2 : List Int) (l : List Int) : List Int :=
  ((entriesOf nral l).filter (entryInGroups g1 g2)).flatten

/-- What the loop over the function types of `copyIListsFromMtop` appends to
the list of kind `ftype` while it processes block `mb`. -/
def blockAppended (T : Constants) (mtop : gmx_mtop_t) (mergeConstr : Bool)
    (ptr_fda_settings : Option FDASettings) (ftype : Nat) (mb : Nat) : List Int :=
  copyIListsSlot T (mtop.moltypeOf (mtop.block mb)) (mtop.block mb) mergeConstr
    ptr_fda_settings (atomBase mtop mb) (mtop.moltypeOf (mtop.block mb)).atoms.nr ftype []

/-- A two-atom molecule type with one constraint and no constraint without
connection. -/
def exampleTypeC : gmx_moltype_t :=
  { atoms := exampleAtoms [0, 0] [1]
    ilist := fun ftype =>
      match ftype with
      | 4 => [4, 0, 1]
      | _ => []
    excls := [[0, 1], [0, 1]] }

/-- One copy of `exampleTypeW` followed by three copies of `exampleTypeC`,
without intermolecular interactions. -/
def exampleMergeMtop : gmx_mtop_t :=
  { moltype := [exampleTypeW, exampleTypeC]
    molblock :=
      [{ type := 0, nmol := 1, posres_xA := [], posres_xB := [] },
       { type := 1, nmol := 3, posres_xA := [], posres_xB := [] }]
    bIntermolecularInteractions := false
    natoms := 8
    ffparams :=
      { atnr := 1, functype := [0, 0, 1, 2, 0, 0], iparams := List.replicate 6 t_iparams.zero }
    intermolecular_ilist := fun _ => []
    intermolecularExclusionGroup := []
    maxResNumberNotRenumbered := 0
    maxResiduesPerMoleculeToTriggerRenumber := 1 }

/-- The parameter record that an iteration of the loop of `set_posres_params`
stores for an entry with parameter id `p` and atom `a`: the shared record
`iparams[p]` with both reference coordinates replaced. -/
def posresSlot (iparams : List t_iparams) (molb : gmx_molblock_t) (a_offset : Int)
    (p a : Int) : t_iparams :=
  let ip := readAt iparams p
  let pos0A := readAt molb.posres_xA (a - a_offset)
  let pos0B := if !molb.posres_xB.isEmpty then readAt molb.posres_xB (a - a_offset) else pos0A
  { ip with posres := { ip.posres with pos0A := pos0A, pos0B := pos0B } }

/-- The parameter records stored for the entries of a position-restraint list
(one atom per entry), in order. -/
def posresSlots (iparams : List t_iparams) (molb : gmx_molblock_t) (a_offset : Int) :
    List Int → List t_iparams
  | p :: a :: rest =>
    posresSlot iparams molb a_offset p a :: posresSlots iparams molb a_offset rest
  | _ => []

/-- The parameter record that an iteration of the loop of `set_fbposres_params`
stores for an entry with parameter id `p` and atom `a`. -/
def fbposresSlot (iparams : List t_iparams) (molb : gmx_molblock_t) (a_offset : Int)
    (p a : Int) : t_iparams :=
  let ip := readAt iparams p
  { ip with fbposres := { ip.fbposres with pos0 := readAt molb.posres_xA (a - a_offset) } }

/-- The parameter records stored for the entries of a flat-bottomed
position-restraint list, in order. -/
def fbposresSlots (iparams : List t_iparams) (molb : gmx_molblock_t) (a_offset : Int) :
    List Int → List t_iparams
  | p :: a :: rest =>
    fbposresSlot iparams molb a_offset p a :: fbposresSlots iparams molb a_offset rest
  | _ => []

/-- A restraint list (one atom per entry) whose first entry is entry `i` of
the output, with the parameter id of every entry replaced by the entry's
number. -/
def renumberFrom : Nat → List Int → List Int
  | i, _ :: a :: rest => (i : Int) :: a :: renumberFrom (i + 1) rest
  | _, l => l

/-- A block of two copies of `exampleTypeA` with reference coordinates for both
states: `10 + i` for atom `i` in state A and `20 + i` in state B. -/
def exampleBlockAB : gmx_molblock_t :=
  { type := 0, nmol := 2,
    posres_xA := (List.range 6).map (fun i => exampleCoord (10 + i)),
    posres_xB := (List.range 6).map (fun i => exampleCoord (20 + i)) }

/-- Interaction definitions whose position-restraint list holds the restraints
of the atoms 7 and 10, both with the shared parameter id 3, and no slots yet. -/
def exampleRestraintIdef : InteractionDefinitions :=
  { emptyIdef exampleMtop with
    il := fun ftype =>
      match ftype with
      | 2 => [3, 7, 3, 10]
      | _ => [] }

/-- The interaction definitions after the block `molb`, entered with `natoms`
atoms in the earlier blocks, in closed form: every list has grown by what the
loop over the function types appends; the appended restraint entries are
numbered on from the slots present, and their slots are appended. -/
def copyIListsBlockResult (T : Constants) (mtop : gmx_mtop_t) (mergeConstr : Bool)
    (ptr_fda_settings : Option FDASettings) (natoms : Nat) (idef : InteractionDefinitions)
    (molb : gmx_molblock_t) : InteractionDefinitions :=
  let molt := mtop.moltypeOf molb
  let app := fun f =>
    copyIListsSlot T molt molb mergeConstr ptr_fda_settings natoms molt.atoms.nr f []
  { idef with
    il := fun f =>
      if f = T.F_POSRES then
        idef.il f ++ renumberFrom idef.iparams_posres.length (app f)
      else if f = T.F_FBPOSRES then
        idef.il f ++ renumberFrom idef.iparams_fbposres.length (app f)
      else if f < T.F_NRE then idef.il f ++ app f
      else idef.il f
    iparams_posres :=
      idef.iparams_posres ++ posresSlots idef.iparams molb natoms (app T.F_POSRES)
    iparams_fbposres :=
      idef.iparams_fbposres ++ fbposresSlots idef.iparams molb natoms (app T.F_FBPOSRES) }

/-- The assumptions on the table of function types and on the templates under
which the restraint kinds are analysed: the two restraint kinds are distinct
function types with one atom per entry, they are not the constraint kinds that
merging treats specially, and the restraint templates of the molecule types in
use are made of whole entries. -/
def RestraintKindsWellFormed (T : Constants) (mtop : gmx_mtop_t) (mergeConstr : Bool) : Prop :=
  T.F_POSRES < T.F_NRE ∧ T.F_FBPOSRES < T.F_NRE ∧ T.F_POSRES ≠ T.F_FBPOSRES
    ∧ NRAL T T.F_POSRES = 1 ∧ NRAL T T.F_FBPOSRES = 1
    ∧ (mergeConstr = true →
        (T.F_POSRES ≠ T.F_CONSTR ∧ T.F_POSRES ≠ T.F_CONSTRNC)
          ∧ (T.F_FBPOSRES ≠ T.F_CONSTR ∧ T.F_FBPOSRES ≠ T.F_CONSTRNC))
    ∧ ∀ molb ∈ mtop.molblock,
        2 ∣ ((mtop.moltypeOf molb).ilist T.F_POSRES).length
          ∧ 2 ∣ ((mtop.moltypeOf molb).ilist T.F_FBPOSRES).length

instance (T : Constants) (mtop : gmx_mtop_t) (mergeConstr : Bool) :
    Decidable (RestraintKindsWellFormed T mtop mergeConstr) := by
  unfold RestraintKindsWellFormed
  infer_instance

/-- The worked example with the reference coordinates of its first block, which
bears the position restraints, removed. -/
def exampleMissingMtop : gmx_mtop_t :=
  { exampleMtop with
    molblock :=
      [{ type := 0, nmol := 2, posres_xA := [], posres_xB := [] },
       { type := 1, nmol := 3, posres_xA := [], posres_xB := [] }] }

/-- Two parameter records that agree in every field other than the two
reference coordinates of the position restraint. -/
def sameButPosresCoordinates (a b : t_iparams) : Prop :=
  a.posres.fcA = b.posres.fcA ∧ a.posres.fcB = b.posres.fcB ∧ a.fbposres = b.fbposres
    ∧ a.other = b.other

instance (a b : t_iparams) : Decidable (sameButPosresCoordinates a b) := by
  unfold sameButPosresCoordinates
  infer_instance

/-- Two parameter records that agree in every field other than the reference
coordinate of the flat-bottomed position restraint. -/
def sameButFbposresCoordinate (a b : t_iparams) : Prop :=
  a.posres = b.posres ∧ a.fbposres.geom = b.fbposres.geom ∧ a.fbposres.r = b.fbposres.r
    ∧ a.fbposres.k = b.fbposres.k ∧ a.other = b.other

instance (a b : t_iparams) : Decidable (sameButFbposresCoordinate a b) := by
  unfold sameButFbposresCoordinate
  infer_instance

/-! ## Group exclusions -/

/-- State of the loops of `addMimicExclusions`: the block structure
`inter_excl` under construction and the variable `prev_index`. -/
structure MimicState where
  inter_excl : t_blocka
  prev_index : Nat
deriving DecidableEq, Repr

/-- The loop `for (size_t j = 0; j < n_q; ++j)` of `addMimicExclusions`:
the new value of `inter_excl.a`. -/
def addMimicExclusionsRow (ids : List Int) (n_q i : Nat) (a : List Int) : List Int :=
  (List.range n_q).foldl (fun a j => a.set (n_q * i + j) (ids.getD j 0)) a

/-- The body of the loop `for (long i = 0; i < ids.ssize(); i++)` of
`addMimicExclusions` for the atom `k`. -/
def addMimicExclusionsIds (ids : List Int) (n_q k : Nat) (st : MimicState) (i : Nat) :
    MimicState :=
  if (k : Int) ≠ ids.getD i 0 then st
  else
    let index := n_q * i
    { inter_excl :=
        { st.inter_excl with
          index := st.inter_excl.index.set (ids.getD i 0).toNat index
          a := addMimicExclusionsRow ids n_q i st.inter_excl.a }
      prev_index := index + n_q }

/-- The body of the loop `for (int k = 0; k < inter_excl.nr; ++k)` of
`addMimicExclusions`. -/
def addMimicExclusionsAtoms (ids : List Int) (n_q : Nat) (st : MimicState) (k : Nat) :
    MimicState :=
  (List.range ids.length).foldl (addMimicExclusionsIds ids n_q k)
    { st with
      inter_excl := { st.inter_excl with index := st.inter_excl.index.set k st.prev_index } }

/-- The block structure `inter_excl` that `addMimicExclusions` builds for an
exclusion structure over `nr` atoms, as it is handed to
`blockaToExclusionBlocks`. -/
def addMimicExclusionsBlocka (nr : Nat) (ids : List Int) : t_blocka :=
  let n_q := ids.length
  let inter_excl : t_blocka :=
    { nr := nr, index := List.replicate (nr + 1) 0, nra := n_q * n_q,
      a := List.replicate (n_q * n_q) 0 }
  let st := (List.range nr).foldl (addMimicExclusionsAtoms ids n_q)
    { inter_excl := inter_excl, prev_index := 0 }
  let index1 := st.inter_excl.index.set (ids.getD (n_q - 1) 0 + 1).toNat (n_q * n_q)
  { st.inter_excl with index := index1.set nr (n_q * n_q) }

/-- Modelled from the spec: the function `gmx::blockaToExclusionBlocks` is
defined outside this source tree.  It turns a block structure into one list
per atom: the list of atom `i` holds the elements
`a[index[i]] .. a[index[i + 1] - 1]`. -/
def blockaToExclusionBlocks (b : t_blocka) : List (List Int) :=
  (List.range b.nr).map
    (fun i => (b.a.drop (b.index.getD i 0)).take (b.index.getD (i + 1) 0 - b.index.getD i 0))

/-- Modelled from the spec: the function `gmx::mergeExclusions` is defined
outside this source tree.  It merges, atom by atom, the new lists into the
existing ones without duplicating an element; the spec leaves the order of a
merged list open. -/
def mergeExclusions (excls : ListOfLists) (b2 : List (List Int)) : ListOfLists :=
  (List.range excls.length).map (fun i => (excls.getD i [] ++ b2.getD i []).dedup)

/-- The routine `addMimicExclusions`; the result is the new value of `*excls`. -/
def addMimicExclusions (excls : ListOfLists) (ids : List Int) : ListOfLists :=
  mergeExclusions excls (blockaToExclusionBlocks (addMimicExclusionsBlocka excls.length ids))

/-- The routine `gmx_mtop_num_molecules`, with unbounded integers: the true
number of molecules.  The `int` the source returns is
`gmx_mtop_num_molecules_int32`. -/
def gmx_mtop_num_molecules (mtop : gmx_mtop_t) : Nat :=
  mtop.molblock.foldl (fun numMolecules molb => numMolecules + molb.nmol) 0

/-- The routine `gmx_mtop_nres`, with unbounded integers. -/
def gmx_mtop_nres (mtop : gmx_mtop_t) : Nat :=
  mtop.molblock.foldl (fun nres molb => nres + molb.nmol * (mtop.moltypeOf molb).atoms.nres) 0

/-- The routine `gmx_mtop_particletype_count`, with unbounded integers: the
array `count`.  The `int` entries of the source are those of
`gmx_mtop_particletype_count_int32`. -/
def gmx_mtop_particletype_count (T : Constants) (mtop : gmx_mtop_t) : List Nat :=
  mtop.molblock.foldl
    (fun count molblock =>
      let atoms := (mtop.moltypeOf molblock).atoms
      (List.range atoms.nr).foldl
        (fun count a =>
          count.set (atoms.atom.getD a default).ptype
            (count.getD (atoms.atom.getD a default).ptype 0 + molblock.nmol))
        count)
    (List.replicate T.eptNR 0)

/-- The value an `int` holds when the exact result of a computation is `x`:
arithmetic modulo `2^32`, read as a signed value. -/
def wrapInt32 (x : Int) : Int :=
  (x + 2147483648) % 4294967296 - 2147483648

/-- The routine `gmx_mtop_num_molecules` with `int` arithmetic modulo `2^32`. -/
def gmx_mtop_num_molecules_int32 (mtop : gmx_mtop_t) : Int :=
  mtop.molblock.foldl (fun numMolecules molb => wrapInt32 (numMolecules + (molb.nmol : Int))) 0

/-- The routine `gmx_mtop_nres` with `int` arithmetic modulo `2^32`. -/
def gmx_mtop_nres_int32 (mtop : gmx_mtop_t) : Int :=
  mtop.molblock.foldl
    (fun nres molb =>
      wrapInt32 (nres + wrapInt32 ((molb.nmol : Int) * ((mtop.moltypeOf molb).atoms.nres : Int))))
    0

/-- The running atom base `natoms` of `copyIListsFromMtop` after the loop over
the molecule blocks (`natoms += molb.nmol * srcnr`), with `int` arithmetic
modulo `2^32`. -/
def copyIListsFromMtop_natoms_int32 (mtop : gmx_mtop_t) : Int :=
  mtop.molblock.foldl
    (fun natoms molb =>
      wrapInt32 (natoms + wrapInt32 ((molb.nmol : Int) * ((mtop.moltypeOf molb).atoms.nr : Int))))
    0

/-- The number of residues of a list of blocks: the sum of `nmol` times the
residue count of the block's molecule type. -/
def residuesOfBlocks (mtop : gmx_mtop_t) (blocks : List gmx_molblock_t) : Nat :=
  (blocks.map (fun molb => molb.nmol * (mtop.moltypeOf molb).atoms.nres)).sum

/-- The number of molecules of a list of blocks. -/
def moleculesOfBlocks (blocks : List gmx_molblock_t) : Nat :=
  (blocks.map (fun molb => molb.nmol)).sum

/-- The number of the first `nr` template atoms of an atom table whose particle
type is `p`. -/
def particlesOfType (atoms : t_atoms) (p : Nat) : Nat :=
  ((List.range atoms.nr).map (fun a => (atoms.atom.getD a default).ptype)).count p

/-- Two blocks of `2^30` copies each of `exampleTypeW`: `2^31` molecules. -/
def exampleHugeMtop : gmx_mtop_t :=
  { exampleMtop with
    moltype := [exampleTypeW]
    molblock :=
      [{ type := 0, nmol := 1073741824, posres_xA := [], posres_xB := [] },
       { type := 0, nmol := 1073741824, posres_xA := [], posres_xB := [] }] }

/-- The structure `t_block`: `nr` blocks delimited by `index`. -/
structure t_block where
  nr : Nat
  index : List Nat
  nalloc_index : Nat
deriving DecidableEq, Repr

/-- State of the loops of `fillMoleculeIndices`. -/
structure MoleculeIndexState where
  globalAtomIndex : Nat
  globalMolIndex : Nat
  index : List Nat
deriving DecidableEq, Repr

/-- The loop `for (int mol = 0; mol < molb.nmol; mol++)` of
`fillMoleculeIndices`, with `n` copies left. -/
def fillMoleculeIndicesMols (numAtomsPerMolecule : Nat) :
    Nat → MoleculeIndexState → MoleculeIndexState
  | 0, st => st
  | n + 1, st =>
    fillMoleculeIndicesMols numAtomsPerMolecule n
      { globalAtomIndex := st.globalAtomIndex + numAtomsPerMolecule
        globalMolIndex := st.globalMolIndex + 1
        index := st.index.set (st.globalMolIndex + 1) (st.globalAtomIndex + numAtomsPerMolecule) }

/-- The routine `fillMoleculeIndices`: the new contents of `index`. -/
def fillMoleculeIndices (mtop : gmx_mtop_t) (index : List Nat) : List Nat :=
  (mtop.molblock.foldl
    (fun st molb => fillMoleculeIndicesMols (mtop.moltypeOf molb).atoms.nr molb.nmol st)
    { globalAtomIndex := 0, globalMolIndex := 0, index := index.set 0 0 }).index

/-- The routine `gmx_mtop_molecules_t_block`, with unbounded integers;
`gmx_mtop_molecules_t_block_int32` is the routine with the `int` arithmetic of
the source. -/
def gmx_mtop_molecules_t_block (mtop : gmx_mtop_t) : t_block :=
  let nr := gmx_mtop_num_molecules mtop
  { nr := nr
    nalloc_index := nr + 1
    index := fillMoleculeIndices mtop (List.replicate (nr + 1) 0) }

/-- The molecule type `exampleTypeW` with the flag `haveMass` cleared. -/
def exampleTypeNoMass : gmx_moltype_t :=
  { exampleTypeW with atoms := { exampleTypeW.atoms with haveMass := false } }

/-- A block without copies of `exampleTypeNoMass` followed by two copies of
`exampleTypeW`. -/
def exampleFlagsMtop : gmx_mtop_t :=
  { exampleMtop with
    moltype := [exampleTypeNoMass, exampleTypeW]
    molblock :=
      [{ type := 0, nmol := 0, posres_xA := [], posres_xB := [] },
       { type := 1, nmol := 2, posres_xA := [], posres_xB := [] }]
    bIntermolecularInteractions := false
    natoms := 4
    intermolecular_ilist := fun _ => [] }

/-- Every entry of an `iatoms` vector with `nral` atoms per entry carries a
parameter id in `[0, n)`: the id of entry `e` is the element at position
`e * (1 + nral)`. -/
def IdsBelow (nral n : Nat) (l : List Int) : Prop :=
  ∀ e, e < l.length / (1 + nral) →
    0 ≤ l.getD (e * (1 + nral)) 0 ∧ l.getD (e * (1 + nral)) 0 < (n : Int)

instance (nral n : Nat) (l : List Int) : Decidable (IdsBelow nral n l) := by
  unfold IdsBelow
  infer_instance

/-! ## Counting over several kinds -/

/-- The loop `for (int ftype = 0; ftype < F_NRE; ftype++)` of
`gmx_mtop_interaction_count` over one set of lists `il` counted `nmol` times. -/
def gmx_mtop_interaction_countKinds (T : Constants) (if_flags : Nat) (il : InteractionLists)
    (nmol : Nat) (n : Nat) : Nat :=
  (List.range T.F_NRE).foldl
    (fun n ftype =>
      if T.flags ftype &&& if_flags = if_flags then
        n + nmol * (il ftype).length / (1 + NRAL T ftype)
      else n)
    n

/-- The loop `while (const InteractionLists* il = gmx_mtop_ilistloop_next(iloop, &nmol))`
of `gmx_mtop_interaction_count`, run for at most `fuel` iterations. -/
def gmx_mtop_interaction_countLoop (T : Constants) (mtop : gmx_mtop_t) (if_flags : Nat) :
    Nat → gmx_mtop_ilistloop → Nat → Nat
  | 0, _, n => n
  | fuel + 1, iloop, n =>
    match gmx_mtop_ilistloop_next mtop iloop with
    | (iloop1, some (il, nmol)) =>
      gmx_mtop_interaction_countLoop T mtop if_flags fuel iloop1
        (gmx_mtop_interaction_countKinds T if_flags il nmol n)
    | (_, none) => n

/-- The routine `gmx_mtop_interaction_count`.  The helper returns `nullptr` at
the latest in its call number `molblock.size() + 2`. -/
def gmx_mtop_interaction_count (T : Constants) (mtop : gmx_mtop_t) (if_flags : Nat) : Nat :=
  let n := gmx_mtop_interaction_countLoop T mtop if_flags (mtop.molblock.length + 2)
    gmx_mtop_ilistloop_init 0
  if mtop.bIntermolecularInteractions then
    (List.range T.F_NRE).foldl
      (fun n ftype =>
        if T.flags ftype &&& if_flags = if_flags then
          n + (mtop.intermolecular_ilist ftype).length / (1 + NRAL T ftype)
        else n)
      n
  else n

/-- The interaction kinds below `F_NRE` whose flags contain all bits of the
mask `if_flags`. -/
def kindsWithFlags (T : Constants) (if_flags : Nat) : List Nat :=
  (List.range T.F_NRE).filter (fun ftype => decide (T.flags ftype &&& if_flags = if_flags))

/-! ## Atom loop over the blocks -/

/-- State of the loop helper `gmx_mtop_atomloop_block`.  The pointer `mtop` is
not part of the state: the topology is passed to every operation. -/
structure gmx_mtop_atomloop_block where
  mblock : Nat
  atoms : t_atoms
  at_local : Int
deriving DecidableEq, Repr

/-- The routine `gmx_mtop_atomloop_block_init`. -/
def gmx_mtop_atomloop_block_init (mtop : gmx_mtop_t) : gmx_mtop_atomloop_block :=
  { mblock := 0
    atoms := (mtop.moltypeOf (mtop.block 0)).atoms
    at_local := -1 }

/-- The routine `gmx_mtop_atomloop_block_next`, called with a loop helper that
is not null: the advanced loop state and, unless the routine returns `FALSE`,
the values stored in `*atom` and `*nmol`. -/
def gmx_mtop_atomloop_block_next (mtop : gmx_mtop_t) (aloop : gmx_mtop_atomloop_block) :
    gmx_mtop_atomloop_block × Option (t_atom × Nat) :=
  let at_local := aloop.at_local + 1
  if at_local ≥ (aloop.atoms.nr : Int) then
    let mblock := aloop.mblock + 1
    if mblock ≥ mtop.molblock.length then
      ({ mblock := mblock, atoms := aloop.atoms, at_local := at_local }, none)
    else
      let atoms := (mtop.moltypeOf (mtop.block mblock)).atoms
      ({ mblock := mblock, atoms := atoms, at_local := 0 },
        some (readAt atoms.atom 0, (mtop.block mblock).nmol))
  else
    ({ mblock := aloop.mblock, atoms := aloop.atoms, at_local := at_local },
      some (readAt aloop.atoms.atom at_local, (mtop.block aloop.mblock).nmol))

/-- The successive calls `while (gmx_mtop_atomloop_block_next(aloop, &atom, &nmol))`
of a caller: the pairs returned by the calls that return `TRUE`, up to the
first call that returns `FALSE`; no result when `fuel` calls do not reach it. -/
def gmx_mtop_atomloop_block_calls (mtop : gmx_mtop_t) :
    Nat → gmx_mtop_atomloop_block → Option (List (t_atom × Nat))
  | 0, _ => none
  | fuel + 1, aloop =>
    match gmx_mtop_atomloop_block_next mtop aloop with
    | (aloop1, some p) =>
      (gmx_mtop_atomloop_block_calls mtop fuel aloop1).map (fun l => p :: l)
    | (_, none) => some []

/-- The template atoms of a block's molecule type in local order, each paired
with the block's `nmol`. -/
def blockAtomsWithCopies (mtop : gmx_mtop_t) (molb : gmx_molblock_t) : List (t_atom × Nat) :=
  (List.range (mtop.moltypeOf molb).atoms.nr).map
    (fun i => ((mtop.moltypeOf molb).atoms.atom.getD i default, molb.nmol))

/-! ## Indices of the real atoms -/

/-- The loop `for (const AtomProxy atomP : AtomRange(*mtop))` of `get_atom_index`,
entered with the iterator `it` and the vector `atom_index` and run for at most
`fuel` evaluations of its condition `it != end`: the vector when the loop
ends, no result when `fuel` evaluations do not reach the end. -/
def get_atom_indexLoop (T : Constants) (mtop : gmx_mtop_t) (last : AtomIterator) :
    Nat → AtomIterator → List Int → Option (List Int)
  | 0, _, _ => none
  | fuel + 1, it, atom_index =>
    if AtomIterator.eq it last then some atom_index
    else
      let localAtom := AtomProxy.atom it
      let index := AtomProxy.globalAtomNumber it
      get_atom_indexLoop T mtop last fuel (AtomIterator.next mtop it)
        (if localAtom.ptype = T.eptAtom then atom_index ++ [index] else atom_index)

/-- The routine `get_atom_index`.  The class `AtomRange` is declared in
`mtop_util.h`, outside this source tree; modelled from the spec: the range
begins at `AtomIterator(mtop, 0)` and ends at the sentinel
`AtomIterator(mtop, mtop.natoms)`, the two start values for which the assertion
of the constructor holds.  The condition of the loop is evaluated
`natoms + 1` times. -/
def get_atom_index (T : Constants) (mtop : gmx_mtop_t) : Option (List Int) :=
  get_atom_indexLoop T mtop (AtomIterator.initial mtop (mtop.natoms : Int)) (mtop.natoms + 1)
    (AtomIterator.initial mtop 0) []

/-- Whether the atom that the traversal reports after `k` increments is a real
atom (particle type `eptAtom`). -/
def reportsRealAtom (T : Constants) (mtop : gmx_mtop_t) (k : Nat) : Bool :=
  decide ((AtomProxy.atom (AtomIterator.advance mtop k (AtomIterator.initial mtop 0))).ptype
    = T.eptAtom)

/-! ## Atom ranges of the residues -/

/-- The read `moltype.atoms.atom[i].resind`. -/
def residueOfAtom (moltype : gmx_moltype_t) (i : Nat) : Int :=
  (moltype.atoms.atom.getD i default).resind

/-- State of the loop of `atomRangeOfEachResidue`.  A `gmx::Range<int>` is the
pair of its begin and its end (one past the last element). -/
structure ResidueRangeState where
  atomRanges : List (Nat × Nat)
  currentResidueNumber : Int
  startAtom : Nat
deriving DecidableEq, Repr

/-- The body of the loop `for (int i = 0; i < moltype.atoms.nr; i++)` of
`atomRangeOfEachResidue`. -/
def atomRangeOfEachResidueStep (moltype : gmx_moltype_t) (st : ResidueRangeState) (i : Nat) :
    ResidueRangeState :=
  let residueOfThisAtom := residueOfAtom moltype i
  if residueOfThisAtom ≠ st.currentResidueNumber then
    let endAtom := i
    { atomRanges := st.atomRanges ++ [(st.startAtom, endAtom)]
      currentResidueNumber := residueOfThisAtom
      startAtom := endAtom }
  else st

/-- The state of `atomRangeOfEachResidue` after the first `k` iterations of
its loop. -/
def atomRangeOfEachResidueLoop (moltype : gmx_moltype_t) (k : Nat) : ResidueRangeState :=
  (List.range k).foldl (atomRangeOfEachResidueStep moltype)
    { atomRanges := [], currentResidueNumber := residueOfAtom moltype 0, startAtom := 0 }

/-- The routine `atomRangeOfEachResidue`. -/
def atomRangeOfEachResidue (moltype : gmx_moltype_t) : List (Nat × Nat) :=
  let st := atomRangeOfEachResidueLoop moltype moltype.atoms.nr
  st.atomRanges ++ [(st.startAtom, moltype.atoms.nr)]

/-- The relation between a range and the next one: the next range begins
where the range ends, and the last atom of the range and the first atom of the
next have different residue indices. -/
def RangesAdjacent (moltype : gmx_moltype_t) (p q : Nat × Nat) : Prop :=
  p.2 = q.1 ∧ residueOfAtom moltype (p.2 - 1) ≠ residueOfAtom moltype q.1

/-- A range that is not empty and whose atoms all have the residue index of
its first atom. -/
def RangeOfOneResidue (moltype : gmx_moltype_t) (p : Nat × Nat) : Prop :=
  p.1 < p.2 ∧ ∀ j, p.1 ≤ j → j < p.2 → residueOfAtom moltype j = residueOfAtom moltype p.1

/-- What holds after `k` iterations of the loop of `atomRangeOfEachResidue`. -/
def ResidueRangeInvariant (moltype : gmx_moltype_t) (k : Nat) (st : ResidueRangeState) :
    Prop :=
  st.startAtom ≤ k ∧ (1 ≤ k → st.startAtom < k) ∧ (k = 0 → st.atomRanges = [])
    ∧ st.currentResidueNumber = residueOfAtom moltype st.startAtom
    ∧ (∀ j, st.startAtom ≤ j → j < k → residueOfAtom moltype j = st.currentResidueNumber)
    ∧ (∀ p ∈ st.atomRanges, RangeOfOneResidue moltype p)
    ∧ st.atomRanges.Chain' (RangesAdjacent moltype)
    ∧ (st.atomRanges.map Prod.fst ++ [st.startAtom]).head? = some 0
    ∧ (∀ q ∈ st.atomRanges.getLast?,
        q.2 = st.startAtom
          ∧ residueOfAtom moltype (q.2 - 1) ≠ residueOfAtom moltype st.startAtom)
    ∧ (∀ g, g < st.startAtom → ∃ p ∈ st.atomRanges, p.1 ≤ g ∧ g < p.2)
    ∧ ((∀ a b, a ≤ b → b < k → residueOfAtom moltype a ≤ residueOfAtom moltype b) → 1 ≤ k →
        st.atomRanges.length + 1
          = ((List.range k).map (residueOfAtom moltype)).toFinset.card)

/-! ## The two views -/

/-- The members of `gmx_localtop_t` (the Reduced view) that `gen_local_top`
writes. -/
structure gmx_localtop_t where
  idef : InteractionDefinitions
  excls : ListOfLists

/-- The members of `t_topology` (the Full view) that `gen_t_topology` computes
from the routines of this file; the members `atomtypes`, `name` and `symtab`,
which it copies from the topology, are not part of the model. -/
structure t_topology where
  idef : InteractionDefinitions
  atoms : t_atoms
  mols : t_block
  bIntermolecularInteractions : Bool

/-- The loop `for (const AtomProxy atomP : AtomRange(mtop))` of
`sortFreeEnergyInteractionsAtEnd`, which fills the charge arrays `qA` and `qB`;
the range is the one of `get_atom_index`.  The iterator reaches the end
sentinel after `natoms` increments, so `fuel = natoms + 1` evaluations of the
condition are all there are. -/
def sortFreeEnergyInteractionsAtEndLoop (mtop : gmx_mtop_t) (last : AtomIterator) :
    Nat → AtomIterator → List real × List real → List real × List real
  | 0, _, q => q
  | fuel + 1, it, q =>
    if AtomIterator.eq it last then q
    else
      let localAtom := AtomProxy.atom it
      let index := AtomProxy.globalAtomNumber it
      sortFreeEnergyInteractionsAtEndLoop mtop last fuel (AtomIterator.next mtop it)
        (q.1.set index.toNat localAtom.q, q.2.set index.toNat localAtom.qB)

/-- The routine `sortFreeEnergyInteractionsAtEnd`.  The sorting routine
`gmx_sort_ilist_fe`, which is defined outside this source tree, is a parameter. -/
def sortFreeEnergyInteractionsAtEnd
    (gmx_sort_ilist_fe : InteractionDefinitions → List real → List real → InteractionDefinitions)
    (mtop : gmx_mtop_t) (idef : InteractionDefinitions) : InteractionDefinitions :=
  let q := sortFreeEnergyInteractionsAtEndLoop mtop
    (AtomIterator.initial mtop (mtop.natoms : Int)) (mtop.natoms + 1)
    (AtomIterator.initial mtop 0)
    (List.replicate mtop.natoms 0, List.replicate mtop.natoms 0)
  gmx_sort_ilist_fe idef q.1 q.2

/-- The routine `gen_local_top`; the result is the new value of `*top`. -/
def gen_local_top (T : Constants)
    (gmx_sort_ilist_fe : InteractionDefinitions → List real → List real → InteractionDefinitions)
    (mtop : gmx_mtop_t) (freeEnergyInteractionsAtEnd : Bool) (bMergeConstr : Bool)
    (top : gmx_localtop_t) (ptr_fda_settings : Option FDASettings) :
    Except String gmx_localtop_t :=
  match copyIListsFromMtop T mtop top.idef bMergeConstr ptr_fda_settings with
  | .error e => .error e
  | .ok idef1 =>
    let idef2 :=
      if freeEnergyInteractionsAtEnd then
        sortFreeEnergyInteractionsAtEnd gmx_sort_ilist_fe mtop idef1
      else idef1
    let excls := globalExclusionLists mtop
    let excls :=
      if !mtop.intermolecularExclusionGroup.isEmpty then
        addMimicExclusions excls mtop.intermolecularExclusionGroup
      else excls
    .ok { idef := idef2, excls := excls }

/-- The routine `gmx_mtop_generate_local_top`. -/
def gmx_mtop_generate_local_top (T : Constants)
    (gmx_sort_ilist_fe : InteractionDefinitions → List real → List real → InteractionDefinitions)
    (mtop : gmx_mtop_t) (top : gmx_localtop_t) (freeEnergyInteractionsAtEnd : Bool)
    (ptr_fda_settings : Option FDASettings) : Except String gmx_localtop_t :=
  gen_local_top T gmx_sort_ilist_fe mtop freeEnergyInteractionsAtEnd true top ptr_fda_settings

/-- The routine `copyFFParametersFromMtop`, on the members of the model: the
parameter table is copied, the restraint tables are null and the tag is
`ilsortUNKNOWN`. -/
def copyFFParametersFromMtop (mtop : gmx_mtop_t) (idef : InteractionDefinitions) :
    InteractionDefinitions :=
  { idef with
    iparams := mtop.ffparams.iparams
    iparams_posres := []
    iparams_fbposres := []
    ilsort := IlSort.ilsortUNKNOWN }

/-- The routine `gen_t_topology`; every member of `*top` that the model keeps
is overwritten, so the result does not depend on the old value of `*top`. -/
def gen_t_topology (T : Constants) (mtop : gmx_mtop_t) (bMergeConstr : Bool)
    (idef0 : InteractionDefinitions) : Except String t_topology :=
  let idef1 : InteractionDefinitions := { idef0 with il := fun _ => [] }
  let idef2 := copyFFParametersFromMtop mtop idef1
  match copyIListsFromMtop T mtop idef2 bMergeConstr none with
  | .error e => .error e
  | .ok idef3 =>
    .ok { idef := idef3
          atoms := gmx_mtop_global_atoms mtop
          mols := gmx_mtop_molecules_t_block mtop
          bIntermolecularInteractions := mtop.bIntermolecularInteractions }

/-- The routine `gmx_mtop_t_to_t_topology`; `idef0` is the uninitialised
member `idef` of the local variable `top`.  The flag `freeMTop` only decides
whether the symbol table of `mtop` is cleared. -/
def gmx_mtop_t_to_t_topology (T : Constants) (mtop : gmx_mtop_t) (freeMTop : Bool)
    (idef0 : InteractionDefinitions) : Except String t_topology :=
  let _ := freeMTop
  gen_t_topology T mtop false idef0

/-- The worked example with `exampleTypeC` in the place of `exampleTypeW`: no
molecule type has constraints without connection. -/
def exampleConnectedMtop : gmx_mtop_t :=
  { exampleMtop with moltype := [exampleTypeA, exampleTypeC] }

/-- The routine `gmx_mtop_particletype_count` with the `int` arithmetic of the
source: the array `count` is a `std::array<int, eptNR>` and
`count[...] += molblock.nmol` is an addition modulo `2^32`. -/
def gmx_mtop_particletype_count_int32 (T : Constants) (mtop : gmx_mtop_t) : List Int :=
  mtop.molblock.foldl
    (fun count molblock =>
      let atoms := (mtop.moltypeOf molblock).atoms
      (List.range atoms.nr).foldl
        (fun count a =>
          count.set (atoms.atom.getD a default).ptype
            (wrapInt32
              (count.getD (atoms.atom.getD a default).ptype 0 + (molblock.nmol : Int))))
        count)
    (List.replicate T.eptNR 0)

/-- The structure `t_block` with its members as the `int` values of the
source. -/
structure t_block_int32 where
  nr : Int
  index : List Int
  nalloc_index : Int
deriving DecidableEq, Repr

/-- The assignment `xs[i] = x` with an `int` index; a write outside the array
(undefined behaviour in the source) leaves the array as it is. -/
def writeAt {α : Type} (xs : List α) (i : Int) (x : α) : List α :=
  if 0 ≤ i then xs.set i.toNat x else xs

/-- State of the loops of `fillMoleculeIndices` with its `int` variables. -/
structure MoleculeIndexState_int32 where
  globalAtomIndex : Int
  globalMolIndex : Int
  index : List Int
deriving DecidableEq, Repr

/-- The loop `for (int mol = 0; mol < molb.nmol; mol++)` of
`fillMoleculeIndices`, with `n` copies left and `int` arithmetic modulo
`2^32`. -/
def fillMoleculeIndicesMols_int32 (numAtomsPerMolecule : Nat) :
    Nat → MoleculeIndexState_int32 → MoleculeIndexState_int32
  | 0, st => st
  | n + 1, st =>
    fillMoleculeIndicesMols_int32 numAtomsPerMolecule n
      { globalAtomIndex := wrapInt32 (st.globalAtomIndex + (numAtomsPerMolecule : Int))
        globalMolIndex := wrapInt32 (st.globalMolIndex + 1)
        index := writeAt st.index (wrapInt32 (st.globalMolIndex + 1))
          (wrapInt32 (st.globalAtomIndex + (numAtomsPerMolecule : Int))) }

/-- The routine `fillMoleculeIndices` with `int` arithmetic modulo `2^32`: the
new contents of `index`. -/
def fillMoleculeIndices_int32 (mtop : gmx_mtop_t) (index : List Int) : List Int :=
  (mtop.molblock.foldl
    (fun st molb =>
      fillMoleculeIndicesMols_int32 (mtop.moltypeOf molb).atoms.nr molb.nmol st)
    { globalAtomIndex := 0, globalMolIndex := 0, index := writeAt index 0 0 }).index

/-- The routine `gmx_mtop_molecules_t_block` with `int` arithmetic modulo
`2^32`; `snew` of a negative number of elements gives no element. -/
def gmx_mtop_molecules_t_block_int32 (mtop : gmx_mtop_t) : t_block_int32 :=
  let nr := gmx_mtop_num_molecules_int32 mtop
  let nalloc_index := wrapInt32 (nr + 1)
  { nr := nr
    nalloc_index := nalloc_index
    index := fillMoleculeIndices_int32 mtop (List.replicate nalloc_index.toNat 0) }

/-- The state of `fillMoleculeIndices` with exact integers, seen as a state
with `int` variables. -/
def MoleculeIndexState.toInt32 (st : MoleculeIndexState) : MoleculeIndexState_int32 :=
  { globalAtomIndex := (st.globalAtomIndex : Int)
    globalMolIndex := (st.globalMolIndex : Int)
    index := st.index.map (fun (n : Nat) => (n : Int)) }

/-- The loop `for (i = 0; i < src.size();)` of `ilistcat` for one copy, with the
`int` addition `dnum + src.iatoms[i++]` taken modulo `2^32`. -/
def ilistcatEntries_int32 (nral : Nat) (dnum : Int) : Nat → List Int → List Int
  | 0, _ => []
  | _ + 1, [] => []
  | fuel + 1, p :: rest =>
    p :: ((rest.take nral).map (fun a => wrapInt32 (dnum + a))
      ++ ilistcatEntries_int32 nral dnum fuel (rest.drop nral))

/-- The loop `for (c = 0; c < copies; c++)` of `ilistcat` with `int` arithmetic:
`dnum += snum` is taken modulo `2^32`. -/
def ilistcatCopies_int32 (nral : Nat) (src : InteractionList) (snum : Int) :
    Nat → Int → InteractionList → InteractionList
  | 0, _, dest => dest
  | copies + 1, dnum, dest =>
    ilistcatCopies_int32 nral src snum copies (wrapInt32 (dnum + snum))
      (dest ++ ilistcatEntries_int32 nral dnum src.length src)

/-- The routine `ilistcat` with the `int` arithmetic of the source. -/
def ilistcat_int32 (T : Constants) (ftype : Nat) (dest : InteractionList)
    (src : InteractionList) (copies : Nat) (dnum snum : Int) : InteractionList :=
  ilistcatCopies_int32 (NRAL T ftype) src snum copies dnum dest

/-- The flag `needed` of `pf_ilistcat` for one entry, with
`atomIdx = dnum + src.iatoms[i+a+1]` taken modulo `2^32`. -/
def pf_needed_int32 (g1 g2 : List Int) (dnum : Int) (atoms : List Int) : Bool :=
  atoms.any (fun a =>
    decide (wrapInt32 (dnum + a) ∈ g1) || decide (wrapInt32 (dnum + a) ∈ g2))

/-- The loop `for (i = 0; i < src.size(); )` of `pf_ilistcat` for one copy, with
`int` arithmetic. -/
def pf_ilistcatEntries_int32 (nral : Nat) (g1 g2 : List Int) (dnum : Int) :
    Nat → List Int → List Int
  | 0, _ => []
  | _ + 1, [] => []
  | fuel + 1, p :: rest =>
    (if pf_needed_int32 g1 g2 dnum (rest.take nral) then
        p :: (rest.take nral).map (fun a => wrapInt32 (dnum + a))
      else [])
      ++ pf_ilistcatEntries_int32 nral g1 g2 dnum fuel (rest.drop nral)

/-- The loop `for (c = 0; c < copies; c++)` of `pf_ilistcat`, with `int`
arithmetic. -/
def pf_ilistcatCopies_int32 (nral : Nat) (g1 g2 : List Int) (src : InteractionList)
    (snum : Int) : Nat → Int → List Int → List Int
  | 0, _, tmp => tmp
  | copies + 1, dnum, tmp =>
    pf_ilistcatCopies_int32 nral g1 g2 src snum copies (wrapInt32 (dnum + snum))
      (tmp ++ pf_ilistcatEntries_int32 nral g1 g2 dnum src.length src)

/-- The routine `pf_ilistcat` with the `int` arithmetic of the source. -/
def pf_ilistcat_int32 (T : Constants) (ftype : Nat) (dest : InteractionList)
    (src : InteractionList) (copies : Nat) (dnum snum : Int) (fda_settings : FDASettings) :
    InteractionList :=
  if fda_settings.type &&& (T.InteractionType_BONDED + T.InteractionType_NB14) = 0 then
    dest
  else
    dest ++ pf_ilistcatCopies_int32 (NRAL T ftype)
      (fda_settings.groupAtoms fda_settings.index_group1)
      (fda_settings.groupAtoms fda_settings.index_group2) src snum copies dnum []

/-- The loop of `set_posres_params` with `int` arithmetic:
`a_molb = il->iatoms[i * 2 + 1] - a_offset` is taken modulo `2^32`. -/
def set_posres_paramsLoop_int32 (T : Constants) (molb : gmx_molblock_t) (a_offset : Int) :
    Nat → Nat → InteractionDefinitions → Except String InteractionDefinitions
  | 0, _, idef => .ok idef
  | n + 1, i, idef =>
    let il := idef.il T.F_POSRES
    let ip := readAt idef.iparams (il.getD (i * 2) 0)
    let a_molb := wrapInt32 (il.getD (i * 2 + 1) 0 - a_offset)
    if molb.posres_xA.isEmpty then
      .error "Position restraint coordinates are missing"
    else
      let pos0A := readAt molb.posres_xA a_molb
      let pos0B := if !molb.posres_xB.isEmpty then readAt molb.posres_xB a_molb else pos0A
      let ip := { ip with posres := { ip.posres with pos0A := pos0A, pos0B := pos0B } }
      set_posres_paramsLoop_int32 T molb a_offset n (i + 1)
        { idef with
          iparams_posres := idef.iparams_posres.set i ip
          il := Function.update idef.il T.F_POSRES (il.set (i * 2) (i : Int)) }

/-- The routine `set_posres_params` with the `int` arithmetic of the source. -/
def set_posres_params_int32 (T : Constants) (idef : InteractionDefinitions)
    (molb : gmx_molblock_t) (i0 : Nat) (a_offset : Int) :
    Except String InteractionDefinitions :=
  let i1 := (idef.il T.F_POSRES).length / 2
  set_posres_paramsLoop_int32 T molb a_offset (i1 - i0) i0
    { idef with iparams_posres := resizeList idef.iparams_posres i1 }

/-- The loop of `set_fbposres_params` with `int` arithmetic. -/
def set_fbposres_paramsLoop_int32 (T : Constants) (molb : gmx_molblock_t) (a_offset : Int) :
    Nat → Nat → InteractionDefinitions → Except String InteractionDefinitions
  | 0, _, idef => .ok idef
  | n + 1, i, idef =>
    let il := idef.il T.F_FBPOSRES
    let ip := readAt idef.iparams (il.getD (i * 2) 0)
    let a_molb := wrapInt32 (il.getD (i * 2 + 1) 0 - a_offset)
    if molb.posres_xA.isEmpty then
      .error "Position restraint coordinates are missing"
    else
      let ip := { ip with fbposres := { ip.fbposres with pos0 := readAt molb.posres_xA a_molb } }
      set_fbposres_paramsLoop_int32 T molb a_offset n (i + 1)
        { idef with
          iparams_fbposres := idef.iparams_fbposres.set i ip
          il := Function.update idef.il T.F_FBPOSRES (il.set (i * 2) (i : Int)) }

/-- The routine `set_fbposres_params` with the `int` arithmetic of the source. -/
def set_fbposres_params_int32 (T : Constants) (idef : InteractionDefinitions)
    (molb : gmx_molblock_t) (i0 : Nat) (a_offset : Int) :
    Except String InteractionDefinitions :=
  let i1 := (idef.il T.F_FBPOSRES).length / 2
  set_fbposres_paramsLoop_int32 T molb a_offset (i1 - i0) i0
    { idef with iparams_fbposres := resizeList idef.iparams_fbposres i1 }

/-- The loop `for (int mol = 0; mol < molb.nmol; mol++)` of the constraint-merging
branch of `copyIListsFromMtop`, with `destnr + mol * srcnr` in `int`
arithmetic. -/
def mergeConstrLoop_int32 (T : Constants) (ftype : Nat) (molt : gmx_moltype_t)
    (destnr srcnr : Int) : Nat → Nat → InteractionList → InteractionList
  | 0, _, dest => dest
  | n + 1, mol, dest =>
    let dest1 := ilistcat_int32 T ftype dest (molt.ilist T.F_CONSTR) 1
      (wrapInt32 (destnr + wrapInt32 ((mol : Int) * srcnr))) srcnr
    let dest2 := ilistcat_int32 T ftype dest1 (molt.ilist T.F_CONSTRNC) 1
      (wrapInt32 (destnr + wrapInt32 ((mol : Int) * srcnr))) srcnr
    mergeConstrLoop_int32 T ftype molt destnr srcnr n (mol + 1) dest2

/-- The body of the loop `for (int ftype = 0; ftype < F_NRE; ftype++)` of
`copyIListsFromMtop` for one block, with the `int` values `destnr` and
`srcnr`. -/
def copyIListsKind_int32 (T : Constants) (molt : gmx_moltype_t) (molb : gmx_molblock_t)
    (mergeConstr : Bool) (ptr_fda_settings : Option FDASettings) (destnr srcnr : Int)
    (il : InteractionLists) (ftype : Nat) : InteractionLists :=
  if mergeConstr && decide (ftype = T.F_CONSTR) && !(molt.ilist T.F_CONSTRNC).isEmpty then
    Function.update il T.F_CONSTR
      (mergeConstrLoop_int32 T ftype molt destnr srcnr molb.nmol 0 (il T.F_CONSTR))
  else if !(mergeConstr && decide (ftype = T.F_CONSTRNC)) then
    match ptr_fda_settings with
    | some fda_settings =>
      if fda_settings.bonded_exclusion_on then
        Function.update il ftype
          (pf_ilistcat_int32 T ftype (il ftype) (molt.ilist ftype) molb.nmol destnr srcnr
            fda_settings)
      else
        Function.update il ftype
          (ilistcat_int32 T ftype (il ftype) (molt.ilist ftype) molb.nmol destnr srcnr)
    | none =>
      Function.update il ftype
        (ilistcat_int32 T ftype (il ftype) (molt.ilist ftype) molb.nmol destnr srcnr)
  else
    il

/-- The body of the loop over the molecule blocks of `copyIListsFromMtop`,
entered with the `int` value `natoms` of the running atom base. -/
def copyIListsBlock_int32 (T : Constants) (mtop : gmx_mtop_t) (mergeConstr : Bool)
    (ptr_fda_settings : Option FDASettings) (natoms : Int) (idef : InteractionDefinitions)
    (molb : gmx_molblock_t) : Except String InteractionDefinitions :=
  let molt := mtop.moltypeOf molb
  let srcnr : Int := (molt.atoms.nr : Int)
  let destnr := natoms
  let nposre_old := (idef.il T.F_POSRES).length
  let nfbposre_old := (idef.il T.F_FBPOSRES).length
  let idef1 : InteractionDefinitions :=
    { idef with
      il := (List.range T.F_NRE).foldl
        (copyIListsKind_int32 T molt molb mergeConstr ptr_fda_settings destnr srcnr) idef.il }
  match (if (idef1.il T.F_POSRES).length > nposre_old then
      set_posres_params_int32 T idef1 molb (nposre_old / 2) natoms
    else .ok idef1) with
  | .error e => .error e
  | .ok idef2 =>
    if (idef2.il T.F_FBPOSRES).length > nfbposre_old then
      set_fbposres_params_int32 T idef2 molb (nfbposre_old / 2) natoms
    else .ok idef2

/-- The loop `for (const gmx_molblock_t& molb : mtop.molblock)` of
`copyIListsFromMtop` with the `int` arithmetic of the source: the running atom
base `natoms += molb.nmol * srcnr` is taken modulo `2^32`. -/
def copyIListsBlocks_int32 (T : Constants) (mtop : gmx_mtop_t) (mergeConstr : Bool)
    (ptr_fda_settings : Option FDASettings) :
    List gmx_molblock_t → Int → InteractionDefinitions → Except String InteractionDefinitions
  | [], _, idef => .ok idef
  | molb :: rest, natoms, idef =>
    match copyIListsBlock_int32 T mtop mergeConstr ptr_fda_settings natoms idef molb with
    | .error e => .error e
    | .ok idef1 =>
      copyIListsBlocks_int32 T mtop mergeConstr ptr_fda_settings rest
        (wrapInt32 (natoms
          + wrapInt32 ((molb.nmol : Int) * ((mtop.moltypeOf molb).atoms.nr : Int)))) idef1

/-- The routine `copyIListsFromMtop` with the `int` arithmetic of the source. -/
def copyIListsFromMtop_int32 (T : Constants) (mtop : gmx_mtop_t)
    (idef : InteractionDefinitions) (mergeConstr : Bool)
    (ptr_fda_settings : Option FDASettings) : Except String InteractionDefinitions :=
  match copyIListsBlocks_int32 T mtop mergeConstr ptr_fda_settings mtop.molblock 0 idef with
  | .error e => .error e
  | .ok idef1 =>
    let il :=
      if mtop.bIntermolecularInteractions then
        (List.range T.F_NRE).foldl
          (fun il ftype =>
            Function.update il ftype
              (ilistcat_int32 T ftype (il ftype) (mtop.intermolecular_ilist ftype) 1 0
                mtop.natoms))
          idef1.il
      else idef1.il
    .ok { idef1 with il := il, ilsort := IlSort.ilsortNO_FE }

/-- The interaction lists of a result of the expansion, or its error. -/
def listsOfResult (r : Except String InteractionDefinitions) : Except String InteractionLists :=
  match r with
  | .ok idef => .ok idef.il
  | .error e => .error e

/-- A two-atom molecule type without interactions. -/
def exampleTypeBare : gmx_moltype_t :=
  { exampleTypeC with ilist := fun _ => [] }

/-- Two blocks of `2^30` copies each of the two-atom type `exampleTypeBare`
(`2^32` atoms), followed by one copy of `exampleTypeC`, which has one
constraint between its two atoms, without intermolecular interactions.  The
member `natoms`, an `int` in the source, holds the atom count `2^32 + 2` modulo
`2^32`. -/
def exampleWrapMtop : gmx_mtop_t :=
  { exampleMergeMtop with
    moltype := [exampleTypeBare, exampleTypeC]
    molblock :=
      [{ type := 0, nmol := 1073741824, posres_xA := [], posres_xB := [] },
       { type := 0, nmol := 1073741824, posres_xA := [], posres_xB := [] },
       { type := 1, nmol := 1, posres_xA := [], posres_xB := [] }]
    natoms := 2 }

/-! # Theorems -/

/-! ## Interaction lists: the cursor loops against the index-wise description -/

theorem isAtomSlot_boundary (nral pos : Nat) (h : pos % (1 + nral) = 0) :
    isAtomSlot nral pos = false := by
  simp [isAtomSlot, h]

theorem isAtomSlot_inside (nral pos j : Nat) (h : pos % (1 + nral) = 0) (hj : j < nral) :
    isAtomSlot nral (pos + 1 + j) = true := by
  have h1 : (pos + 1 + j) % (1 + nral) = 1 + j := by
    rw [Nat.add_assoc, Nat.add_mod, h, Nat.zero_add, Nat.mod_mod]
    exact Nat.mod_eq_of_lt (by omega)
  simp [isAtomSlot, h1]

theorem entry_end_boundary (nral pos : Nat) (h : pos % (1 + nral) = 0) :
    (pos + 1 + nral) % (1 + nral) = 0 := by
  rw [Nat.add_assoc, Nat.add_mod, h]
  simp

/-- Inside a run of atom slots the index-wise offset is a plain map. -/
theorem offsetAtomsFrom_run (nral : Nat) (d : Int) :
    ∀ (k : Nat) (l : List Int) (q : Nat), (∀ j, j < k → isAtomSlot nral (q + j) = true) →
      offsetAtomsFrom nral d q l
        = (l.take k).map (fun a => d + a) ++ offsetAtomsFrom nral d (q + k) (l.drop k) := by
  intro k
  induction k with
  | zero => intro l q _; simp
  | succ k ih =>
    intro l q hq
    cases l with
    | nil => simp [offsetAtomsFrom]
    | cons x xs =>
      have h0 : isAtomSlot nral q = true := by simpa using hq 0 (Nat.succ_pos k)
      have hk : ∀ j, j < k → isAtomSlot nral (q + 1 + j) = true := by
        intro j hj
        have := hq (j + 1) (by omega)
        rwa [show q + (j + 1) = q + 1 + j by omega] at this
      simp only [offsetAtomsFrom, h0, if_true, List.take_succ_cons, List.map_cons,
        List.drop_succ_cons, List.cons_append]
      rw [ih xs (q + 1) hk, show q + 1 + k = q + (k + 1) by omega, Int.add_comm x d]

/-- The cursor loop of `ilistcat` for one copy adds `dnum` to exactly the atom
slots of the source list. -/
theorem ilistcatEntries_eq (nral : Nat) (dnum : Int) :
    ∀ (fuel : Nat) (l : List Int) (pos : Nat), l.length ≤ fuel → pos % (1 + nral) = 0 →
      ilistcatEntries nral dnum fuel l = offsetAtomsFrom nral dnum pos l := by
  intro fuel
  induction fuel with
  | zero =>
    intro l pos hl _
    have : l = [] := List.length_eq_zero.mp (Nat.le_zero.mp hl)
    subst this
    simp [ilistcatEntries, offsetAtomsFrom]
  | succ fuel ih =>
    intro l pos hl hpos
    cases l with
    | nil => simp [ilistcatEntries, offsetAtomsFrom]
    | cons p rest =>
      have hlen : (rest.drop nral).length ≤ fuel := by
        simp only [List.length_cons] at hl
        simp only [List.length_drop]
        omega
      simp only [ilistcatEntries, offsetAtomsFrom, isAtomSlot_boundary nral pos hpos]
      rw [offsetAtomsFrom_run nral dnum nral rest (pos + 1)
        (fun j hj => isAtomSlot_inside nral pos j hpos hj)]
      rw [ih (rest.drop nral) (pos + 1 + nral) hlen (entry_end_boundary nral pos hpos)]
      simp

theorem ilistcatEntries_offsetAtoms (nral : Nat) (dnum : Int) (src : List Int) :
    ilistcatEntries nral dnum src.length src = offsetAtoms nral dnum src :=
  ilistcatEntries_eq nral dnum src.length src 0 (Nat.le_refl _) (Nat.zero_mod _)

/-- The copies loop of `ilistcat` appends, copy by copy, the source list with
`dnum + c * snum` added to its atom slots. -/
theorem ilistcatCopies_eq (nral : Nat) (src : List Int) (snum : Int) :
    ∀ (copies : Nat) (dnum : Int) (dest : List Int),
      ilistcatCopies nral src snum copies dnum dest
        = dest ++ (List.range copies).flatMap
            (fun c => offsetAtoms nral (dnum + (c : Int) * snum) src) := by
  intro copies
  induction copies with
  | zero => intro dnum dest; simp [ilistcatCopies]
  | succ n ih =>
    intro dnum dest
    rw [ilistcatCopies, ih, ilistcatEntries_offsetAtoms, List.range_succ_eq_map,
      List.flatMap_cons, List.flatMap_map, List.append_assoc]
    congr 2
    · simp
    · apply List.flatMap_congr
      intro c _
      congr 1
      push_cast
      ring

theorem ilistcat_eq (T : Constants) (ftype : Nat) (dest src : List Int) (copies : Nat)
    (dnum snum : Int) :
    ilistcat T ftype dest src copies dnum snum
      = dest ++ (List.range copies).flatMap
          (fun c => offsetAtoms (NRAL T ftype) (dnum + (c : Int) * snum) src) :=
  ilistcatCopies_eq (NRAL T ftype) src snum copies dnum dest

theorem copyIListsKind_eq_update (T : Constants) (molt : gmx_moltype_t) (molb : gmx_molblock_t)
    (mergeConstr : Bool) (fda : Option FDASettings) (destnr srcnr : Nat)
    (il : InteractionLists) (ftype : Nat) :
    copyIListsKind T molt molb mergeConstr fda destnr srcnr il ftype
      = Function.update il ftype
          (copyIListsSlot T molt molb mergeConstr fda destnr srcnr ftype (il ftype)) := by
  unfold copyIListsKind copyIListsSlot
  by_cases h1 : (mergeConstr && decide (ftype = T.F_CONSTR)
      && !(molt.ilist T.F_CONSTRNC).isEmpty) = true
  · have hf : ftype = T.F_CONSTR := by
      simp only [Bool.and_eq_true, decide_eq_true_eq] at h1
      exact h1.1.2
    rw [if_pos h1, if_pos h1, hf]
  · rw [if_neg h1, if_neg h1]
    by_cases h2 : (!(mergeConstr && decide (ftype = T.F_CONSTRNC))) = true
    · rw [if_pos h2, if_pos h2]
      cases fda with
      | none => rfl
      | some s =>
        simp only
        split <;> rfl
    · rw [if_neg h2, if_neg h2, Function.update_eq_self]

/-- A loop over the function types in which iteration `ftype` rewrites only the
list of `ftype` leaves, in list `f`, the value its own iteration stores. -/
theorem foldl_update_range (g : Nat → List Int → List Int) :
    ∀ (n : Nat) (il : InteractionLists) (f : Nat),
      ((List.range n).foldl (fun il ftype => Function.update il ftype (g ftype (il ftype))) il) f
        = if f < n then g f (il f) else il f := by
  intro n
  induction n with
  | zero => intro il f; simp
  | succ n ih =>
    intro il f
    rw [List.range_succ, List.foldl_append]
    simp only [List.foldl_cons, List.foldl_nil]
    by_cases hfn : f = n
    · subst hfn
      rw [Function.update_same, ih]
      simp
    · rw [Function.update_noteq hfn, ih]
      by_cases hlt : f < n
      · simp [hlt, Nat.lt_succ_of_lt hlt]
      · have : ¬ f < n + 1 := by omega
        simp [hlt, this]

theorem copyIListsKind_foldl (T : Constants) (molt : gmx_moltype_t) (molb : gmx_molblock_t)
    (mergeConstr : Bool) (fda : Option FDASettings) (destnr srcnr : Nat)
    (il : InteractionLists) (f : Nat) :
    ((List.range T.F_NRE).foldl (copyIListsKind T molt molb mergeConstr fda destnr srcnr) il) f
      = if f < T.F_NRE then
          copyIListsSlot T molt molb mergeConstr fda destnr srcnr f (il f)
        else il f := by
  have h : copyIListsKind T molt molb mergeConstr fda destnr srcnr
      = fun il ftype => Function.update il ftype
          (copyIListsSlot T molt molb mergeConstr fda destnr srcnr ftype (il ftype)) := by
    funext il ftype
    exact copyIListsKind_eq_update T molt molb mergeConstr fda destnr srcnr il ftype
  rw [h]
  exact foldl_update_range _ T.F_NRE il f

/-! ### Same atoms -/

theorem sameAtoms_refl (nral : Nat) (l : List Int) : SameAtoms nral l l :=
  ⟨rfl, rfl⟩

theorem sameAtoms_trans {nral : Nat} {a b c : List Int} (h1 : SameAtoms nral a b)
    (h2 : SameAtoms nral b c) : SameAtoms nral a c :=
  ⟨h2.1.trans h1.1, h2.2.trans h1.2⟩

theorem atomIndicesFrom_append (nral : Nat) :
    ∀ (a b : List Int) (pos : Nat),
      atomIndicesFrom nral pos (a ++ b)
        = atomIndicesFrom nral pos a ++ atomIndicesFrom nral (pos + a.length) b := by
  intro a
  induction a with
  | nil => intro b pos; simp [atomIndicesFrom]
  | cons x xs ih =>
    intro b pos
    have e := ih b (pos + 1)
    rw [show pos + 1 + xs.length = pos + (xs.length + 1) by omega] at e
    rw [List.cons_append]
    simp only [atomIndicesFrom, List.length_cons, e]
    split <;> simp

theorem sameAtoms_append {nral : Nat} {a a' : List Int} (h : SameAtoms nral a a')
    (b : List Int) : SameAtoms nral (a ++ b) (a' ++ b) := by
  refine ⟨by simp [h.1], ?_⟩
  have h2 := h.2
  unfold atomIndices at h2 ⊢
  rw [atomIndicesFrom_append, atomIndicesFrom_append, h2, h.1]

/-- Overwriting a parameter-id slot leaves the atom indices as they are. -/
theorem atomIndicesFrom_set (nral : Nat) (v : Int) :
    ∀ (l : List Int) (pos k : Nat), isAtomSlot nral (pos + k) = false →
      atomIndicesFrom nral pos (l.set k v) = atomIndicesFrom nral pos l := by
  intro l
  induction l with
  | nil => intro pos k _; simp
  | cons x xs ih =>
    intro pos k hk
    cases k with
    | zero =>
      simp only [Nat.add_zero] at hk
      simp [List.set, atomIndicesFrom, hk]
    | succ k =>
      have hk' : isAtomSlot nral (pos + 1 + k) = false := by
        rwa [show pos + 1 + k = pos + (k + 1) by omega]
      simp only [List.set_cons_succ, atomIndicesFrom]
      rw [ih (pos + 1) k hk']

theorem sameAtoms_set_even (l : List Int) (i : Nat) (v : Int) :
    SameAtoms 1 l (l.set (i * 2) v) := by
  refine ⟨by simp, ?_⟩
  unfold atomIndices
  apply atomIndicesFrom_set
  simp [isAtomSlot]

/-! ### The restraint parameter passes touch parameter ids only -/

theorem set_posres_paramsLoop_il (T : Constants) (molb : gmx_molblock_t) (a_offset : Int) :
    ∀ (n i : Nat) (idef idef' : InteractionDefinitions),
      set_posres_paramsLoop T molb a_offset n i idef = .ok idef' →
      (∀ f, f ≠ T.F_POSRES → idef'.il f = idef.il f)
        ∧ SameAtoms 1 (idef.il T.F_POSRES) (idef'.il T.F_POSRES) := by
  intro n
  induction n with
  | zero =>
    intro i idef idef' h
    simp only [set_posres_paramsLoop, Except.ok.injEq] at h
    subst h
    exact ⟨fun _ _ => rfl, sameAtoms_refl _ _⟩
  | succ n ih =>
    intro i idef idef' h
    simp only [set_posres_paramsLoop] at h
    split at h
    · exact absurd h (by simp)
    · obtain ⟨h1, h2⟩ := ih _ _ _ h
      constructor
      · intro f hf
        rw [h1 f hf]
        exact Function.update_noteq hf _ _
      · simp only [Function.update_same] at h2
        exact sameAtoms_trans (sameAtoms_set_even _ _ _) h2

theorem set_posres_params_il (T : Constants) (idef idef' : InteractionDefinitions)
    (molb : gmx_molblock_t) (i0 : Nat) (a_offset : Int)
    (h : set_posres_params T idef molb i0 a_offset = .ok idef') :
    (∀ f, f ≠ T.F_POSRES → idef'.il f = idef.il f)
      ∧ SameAtoms 1 (idef.il T.F_POSRES) (idef'.il T.F_POSRES) := by
  unfold set_posres_params at h
  exact set_posres_paramsLoop_il T molb a_offset _ _
    { idef with iparams_posres := resizeList idef.iparams_posres _ } _ h

theorem set_fbposres_paramsLoop_il (T : Constants) (molb : gmx_molblock_t) (a_offset : Int) :
    ∀ (n i : Nat) (idef idef' : InteractionDefinitions),
      set_fbposres_paramsLoop T molb a_offset n i idef = .ok idef' →
      (∀ f, f ≠ T.F_FBPOSRES → idef'.il f = idef.il f)
        ∧ SameAtoms 1 (idef.il T.F_FBPOSRES) (idef'.il T.F_FBPOSRES) := by
  intro n
  induction n with
  | zero =>
    intro i idef idef' h
    simp only [set_fbposres_paramsLoop, Except.ok.injEq] at h
    subst h
    exact ⟨fun _ _ => rfl, sameAtoms_refl _ _⟩
  | succ n ih =>
    intro i idef idef' h
    simp only [set_fbposres_paramsLoop] at h
    split at h
    · exact absurd h (by simp)
    · obtain ⟨h1, h2⟩ := ih _ _ _ h
      constructor
      · intro f hf
        rw [h1 f hf]
        exact Function.update_noteq hf _ _
      · simp only [Function.update_same] at h2
        exact sameAtoms_trans (sameAtoms_set_even _ _ _) h2

theorem set_fbposres_params_il (T : Constants) (idef idef' : InteractionDefinitions)
    (molb : gmx_molblock_t) (i0 : Nat) (a_offset : Int)
    (h : set_fbposres_params T idef molb i0 a_offset = .ok idef') :
    (∀ f, f ≠ T.F_FBPOSRES → idef'.il f = idef.il f)
      ∧ SameAtoms 1 (idef.il T.F_FBPOSRES) (idef'.il T.F_FBPOSRES) := by
  unfold set_fbposres_params at h
  exact set_fbposres_paramsLoop_il T molb a_offset _ _
    { idef with iparams_fbposres := resizeList idef.iparams_fbposres _ } _ h

/-- A restraint parameter pass, when it runs, keeps every list up to parameter ids. -/
theorem sameAtoms_of_pass (P : Nat) (il il' : InteractionLists)
    (h : (∀ f, f ≠ P → il' f = il f) ∧ SameAtoms 1 (il P) (il' P)) (f : Nat) :
    SameAtoms 1 (il f) (il' f) ∧ (f ≠ P → il' f = il f) := by
  refine ⟨?_, h.1 f⟩
  by_cases hf : f = P
  · subst hf; exact h.2
  · rw [h.1 f hf]; exact sameAtoms_refl _ _

/-- The lists after one molecule block: every list is the value stored by the
loop over the function types, up to the parameter ids of the two restraint kinds. -/
theorem copyIListsBlock_il (T : Constants) (mtop : gmx_mtop_t) (mergeConstr : Bool)
    (fda : Option FDASettings) (natoms : Nat) (idef idef' : InteractionDefinitions)
    (molb : gmx_molblock_t)
    (h : copyIListsBlock T mtop mergeConstr fda natoms idef molb = .ok idef') (f : Nat) :
    SameAtoms 1
        (if f < T.F_NRE then
          copyIListsSlot T (mtop.moltypeOf molb) molb mergeConstr fda natoms
            (mtop.moltypeOf molb).atoms.nr f (idef.il f)
         else idef.il f)
        (idef'.il f)
      ∧ (f ≠ T.F_POSRES → f ≠ T.F_FBPOSRES →
          idef'.il f =
            if f < T.F_NRE then
              copyIListsSlot T (mtop.moltypeOf molb) molb mergeConstr fda natoms
                (mtop.moltypeOf molb).atoms.nr f (idef.il f)
            else idef.il f) := by
  rw [← copyIListsKind_foldl]
  unfold copyIListsBlock at h
  simp only at h
  generalize hil1 : (List.range T.F_NRE).foldl
    (copyIListsKind T (mtop.moltypeOf molb) molb mergeConstr fda natoms
      (mtop.moltypeOf molb).atoms.nr) idef.il = il1 at h ⊢
  -- first pass
  have key1 : ∀ idef2, (if (il1 T.F_POSRES).length > (idef.il T.F_POSRES).length then
        set_posres_params T { idef with il := il1 } molb ((idef.il T.F_POSRES).length / 2) natoms
      else .ok { idef with il := il1 }) = .ok idef2 →
      SameAtoms 1 (il1 f) (idef2.il f) ∧ (f ≠ T.F_POSRES → idef2.il f = il1 f) := by
    intro idef2 h2
    split at h2
    · exact sameAtoms_of_pass T.F_POSRES il1 idef2.il (set_posres_params_il T _ _ _ _ _ h2) f
    · simp only [Except.ok.injEq] at h2
      subst h2
      exact ⟨sameAtoms_refl _ _, fun _ => rfl⟩
  split at h
  · exact absurd h (by simp)
  · rename_i idef2 heq
    obtain ⟨a1, b1⟩ := key1 idef2 heq
    split at h
    · obtain ⟨a2, b2⟩ := sameAtoms_of_pass T.F_FBPOSRES idef2.il idef'.il
        (set_fbposres_params_il T _ _ _ _ _ h) f
      exact ⟨sameAtoms_trans a1 a2, fun hP hFB => (b2 hFB).trans (b1 hP)⟩
    · simp only [Except.ok.injEq] at h
      subst h
      exact ⟨a1, fun hP _ => b1 hP⟩

theorem map_range_getD {α β : Type} (d : α) (g : α → β) :
    ∀ (l : List α), (List.range l.length).map (fun i => g (l.getD i d)) = l.map g := by
  intro l
  induction l with
  | nil => simp
  | cons x xs ih =>
    rw [List.length_cons, List.range_succ_eq_map, List.map_cons, List.map_map]
    simp only [List.getD_cons_zero, List.map_cons]
    congr 1

theorem block_of_split (mtop : gmx_mtop_t) (pre rest : List gmx_molblock_t)
    (molb : gmx_molblock_t) (h : mtop.molblock = pre ++ molb :: rest) :
    mtop.block pre.length = molb := by
  unfold gmx_mtop_t.block
  rw [h, List.getD_append_right _ _ _ _ (Nat.le_refl _)]
  simp

theorem atomBase_of_split (mtop : gmx_mtop_t) (pre rest : List gmx_molblock_t)
    (h : mtop.molblock = pre ++ rest) : atomBase mtop pre.length = atomsOfBlocks mtop pre := by
  unfold atomBase
  rw [h, List.take_left]

theorem atomsOfBlocks_append (mtop : gmx_mtop_t) (pre : List gmx_molblock_t)
    (molb : gmx_molblock_t) :
    atomsOfBlocks mtop (pre ++ [molb])
      = atomsOfBlocks mtop pre + molb.nmol * (mtop.moltypeOf molb).atoms.nr := by
  simp [atomsOfBlocks]

theorem copyIListsSlot_plain (T : Constants) (molt : gmx_moltype_t) (molb : gmx_molblock_t)
    (fda : Option FDASettings) (hoff : filterOff fda = true)
    (destnr srcnr f : Nat) (old : List Int) :
    copyIListsSlot T molt molb false fda destnr srcnr f old
      = old ++ (List.range molb.nmol).flatMap
          (fun c => offsetAtoms (NRAL T f) ((destnr : Int) + (c : Int) * (srcnr : Int))
            (molt.ilist f)) := by
  cases fda with
  | none => simp [copyIListsSlot, ilistcat_eq]
  | some s =>
    have hs : s.bonded_exclusion_on = false := by simpa [filterOff] using hoff
    simp [copyIListsSlot, ilistcat_eq, hs]

/-- Without merging and filtering, the block loop appends to every list the
expansions of the blocks it visits, up to the parameter ids of the restraint kinds. -/
theorem copyIListsBlocks_plain (T : Constants) (mtop : gmx_mtop_t) (fda : Option FDASettings)
    (hoff : filterOff fda = true) :
    ∀ (rest pre : List gmx_molblock_t) (idef idef' : InteractionDefinitions),
      mtop.molblock = pre ++ rest →
      copyIListsBlocks T mtop false fda rest (atomsOfBlocks mtop pre) idef = .ok idef' →
      ∀ f, f < T.F_NRE →
        SameAtoms 1
            (idef.il f ++ (List.range' pre.length rest.length).flatMap (blockExpansion T mtop f))
            (idef'.il f)
          ∧ (f ≠ T.F_POSRES → f ≠ T.F_FBPOSRES →
              idef'.il f
                = idef.il f
                  ++ (List.range' pre.length rest.length).flatMap (blockExpansion T mtop f)) := by
  intro rest
  induction rest with
  | nil =>
    intro pre idef idef' _ h f _
    simp only [copyIListsBlocks, Except.ok.injEq] at h
    subst h
    simp [sameAtoms_refl]
  | cons molb rest ih =>
    intro pre idef idef' hsplit h f hf
    simp only [copyIListsBlocks] at h
    split at h
    · exact absurd h (by simp)
    · rename_i idef1 hb
      have hsplit' : mtop.molblock = (pre ++ [molb]) ++ rest := by simp [hsplit]
      rw [← atomsOfBlocks_append] at h
      obtain ⟨a2, b2⟩ := ih (pre ++ [molb]) idef1 idef' hsplit' h f hf
      obtain ⟨a1, b1⟩ := copyIListsBlock_il T mtop false fda _ idef idef1 molb hb f
      rw [if_pos hf, copyIListsSlot_plain T _ _ fda hoff] at a1 b1
      have hexp : (List.range molb.nmol).flatMap
          (fun c => offsetAtoms (NRAL T f)
            ((atomsOfBlocks mtop pre : Int) + (c : Int) * ((mtop.moltypeOf molb).atoms.nr : Int))
            ((mtop.moltypeOf molb).ilist f)) = blockExpansion T mtop f pre.length := by
        unfold blockExpansion
        rw [block_of_split mtop pre rest molb hsplit, atomBase_of_split mtop pre _ hsplit]
      rw [hexp] at a1 b1
      have hlen : (pre ++ [molb]).length = pre.length + 1 := by simp
      rw [hlen] at a2 b2
      have hr : (List.range' pre.length (molb :: rest).length).flatMap (blockExpansion T mtop f)
          = blockExpansion T mtop f pre.length
            ++ (List.range' (pre.length + 1) rest.length).flatMap (blockExpansion T mtop f) := by
        rw [List.length_cons, List.range'_succ, List.flatMap_cons]
      rw [hr, ← List.append_assoc]
      constructor
      · exact sameAtoms_trans (sameAtoms_append a1 _) a2
      · intro hP hFB
        rw [b2 hP hFB, b1 hP hFB]

theorem offsetAtomsFrom_zero (nral : Nat) :
    ∀ (l : List Int) (pos : Nat), offsetAtomsFrom nral 0 pos l = l := by
  intro l
  induction l with
  | nil => intro pos; rfl
  | cons x xs ih => intro pos; simp [offsetAtomsFrom, ih]

theorem ilistcat_once_zero (T : Constants) (ftype : Nat) (dest src : List Int) (snum : Int) :
    ilistcat T ftype dest src 1 0 snum = dest ++ src := by
  rw [ilistcat_eq]
  have h1 : List.range 1 = [0] := rfl
  rw [h1, List.flatMap_singleton]
  simp [offsetAtoms, offsetAtomsFrom_zero]

/-- The loop that appends the intermolecular lists. -/
theorem intermolecular_foldl (T : Constants) (mtop : gmx_mtop_t) (il : InteractionLists)
    (f : Nat) (hf : f < T.F_NRE) :
    ((List.range T.F_NRE).foldl
        (fun il ftype =>
          Function.update il ftype
            (ilistcat T ftype (il ftype) (mtop.intermolecular_ilist ftype) 1 0 mtop.natoms))
        il) f
      = il f ++ mtop.intermolecular_ilist f := by
  rw [foldl_update_range
    (fun ftype old => ilistcat T ftype old (mtop.intermolecular_ilist ftype) 1 0 mtop.natoms),
    if_pos hf, ilistcat_once_zero]

/-- The output of `copyIListsFromMtop` in terms of the output of its block loop. -/
theorem copyIListsFromMtop_ok (T : Constants) (mtop : gmx_mtop_t)
    (idef0 idef : InteractionDefinitions) (mergeConstr : Bool) (fda : Option FDASettings)
    (h : copyIListsFromMtop T mtop idef0 mergeConstr fda = .ok idef) :
    ∃ idef1, copyIListsBlocks T mtop mergeConstr fda mtop.molblock 0 idef0 = .ok idef1
      ∧ ∀ f, f < T.F_NRE → idef.il f = idef1.il f ++ intermolecularPart mtop f := by
  unfold copyIListsFromMtop at h
  split at h
  · exact absurd h (by simp)
  · rename_i idef1 hb
    refine ⟨idef1, hb, fun f hf => ?_⟩
    simp only [Except.ok.injEq] at h
    subst h
    unfold intermolecularPart
    by_cases hi : mtop.bIntermolecularInteractions = true
    · simp only [hi, if_true]
      exact intermolecular_foldl T mtop idef1.il f hf
    · simp [hi]

theorem sameAtoms_nral (T : Constants) (f : Nat) (a b : List Int)
    (hnral : f = T.F_POSRES ∨ f = T.F_FBPOSRES → NRAL T f = 1)
    (h1 : SameAtoms 1 a b) (h2 : f ≠ T.F_POSRES → f ≠ T.F_FBPOSRES → b = a) :
    SameAtoms (NRAL T f) a b := by
  by_cases hP : f = T.F_POSRES
  · rw [hnral (Or.inl hP)]; exact h1
  · by_cases hFB : f = T.F_FBPOSRES
    · rw [hnral (Or.inr hFB)]; exact h1
    · rw [h2 hP hFB]; exact sameAtoms_refl _ _


/-- Without merging and filtering, every output list is the expansion of the
molecule blocks, up to the parameter ids of the restraint kinds, followed by
the intermolecular list. -/
theorem copyIListsFromMtop_plain (T : Constants) (mtop : gmx_mtop_t)
    (fda : Option FDASettings) (hoff : filterOff fda = true) (idef : InteractionDefinitions)
    (f : Nat) (hf : f < T.F_NRE)
    (h : copyIListsFromMtop T mtop (emptyIdef mtop) false fda = .ok idef) :
    ∃ blockPart, idef.il f = blockPart ++ intermolecularPart mtop f
      ∧ SameAtoms 1 (moleculeBlockExpansion T mtop f) blockPart
      ∧ (f ≠ T.F_POSRES → f ≠ T.F_FBPOSRES → blockPart = moleculeBlockExpansion T mtop f) := by
  obtain ⟨idef1, hb, hi⟩ := copyIListsFromMtop_ok T mtop _ idef false fda h
  have hsplit : mtop.molblock = [] ++ mtop.molblock := rfl
  have hb' : copyIListsBlocks T mtop false fda mtop.molblock (atomsOfBlocks mtop [])
      (emptyIdef mtop) = .ok idef1 := hb
  obtain ⟨a, b⟩ := copyIListsBlocks_plain T mtop fda hoff mtop.molblock [] _ idef1 hsplit hb' f hf
  have e : (emptyIdef mtop).il f
      ++ (List.range' ([] : List gmx_molblock_t).length mtop.molblock.length).flatMap
          (blockExpansion T mtop f) = moleculeBlockExpansion T mtop f := by
    simp [emptyIdef, moleculeBlockExpansion, List.range_eq_range']
  rw [e] at a b
  exact ⟨idef1.il f, hi f hf, a, b⟩

theorem offsetAtomsFrom_length (nral : Nat) (d : Int) :
    ∀ (l : List Int) (pos : Nat), (offsetAtomsFrom nral d pos l).length = l.length := by
  intro l
  induction l with
  | nil => intro pos; rfl
  | cons x xs ih => intro pos; simp [offsetAtomsFrom, ih]

theorem blockExpansion_length (T : Constants) (mtop : gmx_mtop_t) (f mb : Nat) :
    (blockExpansion T mtop f mb).length
      = (mtop.block mb).nmol * ((mtop.moltypeOf (mtop.block mb)).ilist f).length := by
  unfold blockExpansion
  rw [List.length_flatMap]
  have : (List.length ∘ fun (c : Nat) =>
      offsetAtoms (NRAL T f)
        ((atomBase mtop mb : Int) + (c : Int) * ((mtop.moltypeOf (mtop.block mb)).atoms.nr : Int))
        ((mtop.moltypeOf (mtop.block mb)).ilist f))
      = fun _ => ((mtop.moltypeOf (mtop.block mb)).ilist f).length := by
    funext c
    simp [offsetAtoms, offsetAtomsFrom_length]
  rw [this]
  simp

theorem moleculeBlockExpansion_length (T : Constants) (mtop : gmx_mtop_t) (f : Nat) :
    (moleculeBlockExpansion T mtop f).length
      = (mtop.molblock.map
          (fun molb => molb.nmol * ((mtop.moltypeOf molb).ilist f).length)).sum := by
  unfold moleculeBlockExpansion
  rw [List.length_flatMap]
  have : (List.length ∘ blockExpansion T mtop f)
      = fun mb => (fun molb : gmx_molblock_t =>
          molb.nmol * ((mtop.moltypeOf molb).ilist f).length)
            (mtop.molblock.getD mb gmx_molblock_t.empty) := by
    funext mb
    simp [blockExpansion_length, gmx_mtop_t.block]
  rw [this]
  exact congrArg List.sum (map_range_getD gmx_molblock_t.empty
    (fun molb : gmx_molblock_t => molb.nmol * ((mtop.moltypeOf molb).ilist f).length)
    mtop.molblock)

theorem sum_mul_div_of_dvd {α : Type} (s : Nat) (n g : α → Nat) :
    ∀ (l : List α), (∀ x ∈ l, s ∣ g x) →
      (l.map (fun x => n x * g x)).sum / s = (l.map (fun x => n x * (g x / s))).sum := by
  intro l
  induction l with
  | nil => intro _; simp
  | cons x xs ih =>
    intro hwf
    have h0 := hwf x (List.mem_cons_self _ _)
    have hr : ∀ y ∈ xs, s ∣ g y := fun y hy => hwf y (List.mem_cons_of_mem _ hy)
    simp only [List.map_cons, List.sum_cons]
    rw [Nat.add_div_of_dvd_right (Dvd.dvd.mul_left h0 _), ih hr, Nat.mul_div_assoc _ h0]

/-- C2: with merging and filtering off, the number of entries of kind `f` in
the output is the sum over the blocks of `nmol` times the number of template
entries, plus the number of intermolecular entries when the topology has
intermolecular interactions. -/
theorem copyIListsFromMtop_entry_count (T : Constants) (mtop : gmx_mtop_t)
    (fda : Option FDASettings) (idef : InteractionDefinitions) (f : Nat)
    (hoff : filterOff fda = true) (hf : f < T.F_NRE)
    (hwf : ∀ molb ∈ mtop.molblock, (1 + NRAL T f) ∣ ((mtop.moltypeOf molb).ilist f).length)
    (h : copyIListsFromMtop T mtop (emptyIdef mtop) false fda = .ok idef) :
    numEntries T f (idef.il f)
      = (mtop.molblock.map
          (fun molb => molb.nmol * numEntries T f ((mtop.moltypeOf molb).ilist f))).sum
        + (if mtop.bIntermolecularInteractions then
            numEntries T f (mtop.intermolecular_ilist f) else 0) := by
  obtain ⟨blockPart, h1, h2, _⟩ := copyIListsFromMtop_plain T mtop fda hoff idef f hf h
  have hlen : blockPart.length = (mtop.molblock.map
      (fun molb => molb.nmol * ((mtop.moltypeOf molb).ilist f).length)).sum := by
    rw [h2.1, moleculeBlockExpansion_length]
  have hdvd : (1 + NRAL T f) ∣ blockPart.length := by
    rw [hlen]
    apply List.dvd_sum
    intro x hx
    obtain ⟨molb, hm, rfl⟩ := List.mem_map.mp hx
    exact Dvd.dvd.mul_left (hwf molb hm) _
  have hsum : blockPart.length / (1 + NRAL T f) = (mtop.molblock.map
      (fun molb => molb.nmol * numEntries T f ((mtop.moltypeOf molb).ilist f))).sum := by
    rw [hlen]
    exact sum_mul_div_of_dvd (1 + NRAL T f) (fun molb => molb.nmol)
      (fun molb => ((mtop.moltypeOf molb).ilist f).length) mtop.molblock hwf
  unfold numEntries at hsum ⊢
  rw [h1, List.length_append, Nat.add_div_of_dvd_right hdvd, hsum]
  congr 1
  unfold intermolecularPart
  split <;> simp

/-- Witness for C2 on the worked example, bonds (kind 0): 2 * 2 + 3 * 1 + 1 entries. -/
theorem copyIListsFromMtop_entry_count_witness :
    ∃ idef, copyIListsFromMtop exampleConstants exampleMtop (emptyIdef exampleMtop) false none
        = .ok idef
      ∧ numEntries exampleConstants 0 (idef.il 0) = 8 :=
  ⟨_, rfl, by
    rw [copyIListsFromMtop_entry_count exampleConstants exampleMtop none _ 0 rfl (by decide)
      (by decide) rfl]
    decide⟩

/-! ## Counting -/

theorem readAt_natCast {α : Type} [Inhabited α] (xs : List α) (i : Nat) :
    readAt xs (i : Int) = xs.getD i default := by
  simp [readAt]

/-- The counting loop, entered when the helper has handed out the blocks `pre`,
adds the counts of the remaining blocks and then, when the topology has
intermolecular interactions, the count of the intermolecular list. -/
theorem gmx_mtop_ftype_countLoop_eq (T : Constants) (mtop : gmx_mtop_t) (ftype : Nat) :
    ∀ (rest pre : List gmx_molblock_t) (fuel n : Nat),
      mtop.molblock = pre ++ rest → rest.length + 2 ≤ fuel →
      gmx_mtop_ftype_countLoop T mtop ftype fuel { mblock := (pre.length : Int) - 1 } n
        = n + (rest.map (fun molb =>
                molb.nmol * ((mtop.moltypeOf molb).ilist ftype).length / (1 + NRAL T ftype))).sum
            + (if mtop.bIntermolecularInteractions then
                1 * (mtop.intermolecular_ilist ftype).length / (1 + NRAL T ftype) else 0) := by
  intro rest
  induction rest with
  | nil =>
    intro pre fuel n hsplit hfuel
    have hlen : mtop.molblock.length = pre.length := by simp [hsplit]
    obtain ⟨fuel1, rfl⟩ : ∃ k, fuel = k + 1 := ⟨fuel - 1, by simp at hfuel; omega⟩
    obtain ⟨fuel2, rfl⟩ : ∃ k, fuel1 = k + 1 := ⟨fuel1 - 1, by simp at hfuel; omega⟩
    by_cases hi : mtop.bIntermolecularInteractions = true
    · simp [gmx_mtop_ftype_countLoop, gmx_mtop_ilistloop_next, hlen, hi]
    · simp [gmx_mtop_ftype_countLoop, gmx_mtop_ilistloop_next, hlen, hi]
  | cons molb rest ih =>
    intro pre fuel n hsplit hfuel
    obtain ⟨fuel1, rfl⟩ : ∃ k, fuel = k + 1 := ⟨fuel - 1, by simp at hfuel; omega⟩
    have hlen : mtop.molblock.length = pre.length + (rest.length + 1) := by simp [hsplit]
    have hsplit' : mtop.molblock = (pre ++ [molb]) ++ rest := by simp [hsplit]
    have hfuel' : rest.length + 2 ≤ fuel1 := by simp at hfuel; omega
    have hrd : readAt mtop.molblock ((pre.length : Int) - 1 + 1) = molb := by
      rw [show (pre.length : Int) - 1 + 1 = ((pre.length : Nat) : Int) by omega, readAt_natCast,
        hsplit, List.getD_append_right _ _ _ _ (Nat.le_refl _)]
      simp
    have hnext : gmx_mtop_ilistloop_next mtop { mblock := (pre.length : Int) - 1 }
        = ({ mblock := (((pre ++ [molb]).length : Nat) : Int) - 1 },
            some ((mtop.moltypeOf molb).ilist, molb.nmol)) := by
      unfold gmx_mtop_ilistloop_next
      simp only [hrd]
      rw [if_neg (by rw [hlen]; push_cast; omega)]
      simp
    rw [gmx_mtop_ftype_countLoop]
    simp only [hnext]
    rw [ih (pre ++ [molb]) fuel1 _ hsplit' hfuel']
    simp only [List.map_cons, List.sum_cons]
    omega

/-- What `gmx_mtop_ftype_count` returns: the block counts, and the intermolecular
count taken twice, once inside the loop and once after it. -/
theorem gmx_mtop_ftype_count_eq (T : Constants) (mtop : gmx_mtop_t) (ftype : Nat) :
    gmx_mtop_ftype_count T mtop ftype
      = (mtop.molblock.map (fun molb =>
            molb.nmol * ((mtop.moltypeOf molb).ilist ftype).length / (1 + NRAL T ftype))).sum
        + (if mtop.bIntermolecularInteractions then
            2 * ((mtop.intermolecular_ilist ftype).length / (1 + NRAL T ftype)) else 0) := by
  unfold gmx_mtop_ftype_count gmx_mtop_ilistloop_init
  have h := gmx_mtop_ftype_countLoop_eq T mtop ftype mtop.molblock [] (mtop.molblock.length + 2) 0
    rfl (Nat.le_refl _)
  simp only [List.length_nil, Nat.cast_zero, Int.zero_sub] at h
  rw [h]
  split
  · simp; omega
  · simp

/-- C3 (evaluation at the failing input): on the worked example the expansion
holds 8 bonds, one of them intermolecular, and `gmx_mtop_ftype_count` returns 9. -/
theorem gmx_mtop_ftype_count_counts_intermolecular_twice :
    gmx_mtop_ftype_count exampleConstants exampleMtop 0 = 9
      ∧ (exampleMtop.molblock.map (fun molb =>
            molb.nmol * numEntries exampleConstants 0 ((exampleMtop.moltypeOf molb).ilist 0))).sum
          + numEntries exampleConstants 0 (exampleMtop.intermolecular_ilist 0) = 8
      ∧ ∃ idef, copyIListsFromMtop exampleConstants exampleMtop (emptyIdef exampleMtop) false none
            = .ok idef
          ∧ numEntries exampleConstants 0 (idef.il 0) = 8 :=
  ⟨by decide, by decide, _, rfl, by decide⟩

/-! ## Index range of the expanded lists -/

theorem isAtomSlot_add_of_dvd (nral pos k : Nat) (h : (1 + nral) ∣ pos) :
    isAtomSlot nral (pos + k) = isAtomSlot nral k := by
  obtain ⟨q, rfl⟩ := h
  simp [isAtomSlot, Nat.mul_add_mod]

theorem atomIndicesFrom_shift (nral pos : Nat) (h : (1 + nral) ∣ pos) :
    ∀ (l : List Int) (k : Nat), atomIndicesFrom nral (pos + k) l = atomIndicesFrom nral k l := by
  intro l
  induction l with
  | nil => intro k; rfl
  | cons x xs ih =>
    intro k
    simp only [atomIndicesFrom, isAtomSlot_add_of_dvd nral pos k h]
    rw [show pos + k + 1 = pos + (k + 1) by omega, ih (k + 1)]

theorem atomIndices_append (nral : Nat) (a b : List Int) (h : (1 + nral) ∣ a.length) :
    atomIndices nral (a ++ b) = atomIndices nral a ++ atomIndices nral b := by
  unfold atomIndices
  rw [atomIndicesFrom_append]
  have := atomIndicesFrom_shift nral a.length h b 0
  simp only [Nat.add_zero] at this
  rw [Nat.zero_add, this]

theorem atomsBelow_nil (nral : Nat) (N : Int) : AtomsBelow nral N [] :=
  ⟨by simp, by simp [atomIndices, atomIndicesFrom]⟩

theorem atomsBelow_append {nral : Nat} {N : Int} {a b : List Int} (ha : AtomsBelow nral N a)
    (hb : AtomsBelow nral N b) : AtomsBelow nral N (a ++ b) := by
  refine ⟨?_, ?_⟩
  · rw [List.length_append]
    exact Dvd.dvd.add ha.1 hb.1
  · intro x hx
    rw [atomIndices_append nral a b ha.1, List.mem_append] at hx
    rcases hx with hx | hx
    · exact ha.2 x hx
    · exact hb.2 x hx

theorem atomsBelow_mono {nral : Nat} {N M : Int} {l : List Int} (h : AtomsBelow nral N l)
    (hNM : N ≤ M) : AtomsBelow nral M l :=
  ⟨h.1, fun x hx => ⟨(h.2 x hx).1, lt_of_lt_of_le (h.2 x hx).2 hNM⟩⟩

theorem atomsBelow_flatMap {α : Type} {nral : Nat} {N : Int} (g : α → List Int) :
    ∀ (l : List α), (∀ a ∈ l, AtomsBelow nral N (g a)) → AtomsBelow nral N (l.flatMap g) := by
  intro l
  induction l with
  | nil => intro _; exact atomsBelow_nil nral N
  | cons a l ih =>
    intro h
    rw [List.flatMap_cons]
    exact atomsBelow_append (h a (List.mem_cons_self _ _))
      (ih (fun b hb => h b (List.mem_cons_of_mem _ hb)))

theorem atomsBelow_of_sameAtoms {nral : Nat} {N : Int} {a b : List Int}
    (h : SameAtoms nral a b) (ha : AtomsBelow nral N a) : AtomsBelow nral N b :=
  ⟨by rw [h.1]; exact ha.1, fun x hx => ha.2 x (by rw [← h.2]; exact hx)⟩

theorem atomIndicesFrom_offsetAtomsFrom (nral : Nat) (d : Int) :
    ∀ (l : List Int) (pos : Nat),
      atomIndicesFrom nral pos (offsetAtomsFrom nral d pos l)
        = (atomIndicesFrom nral pos l).map (fun a => a + d) := by
  intro l
  induction l with
  | nil => intro pos; rfl
  | cons x xs ih =>
    intro pos
    simp only [offsetAtomsFrom, atomIndicesFrom]
    split <;> simp [ih]

/-- Adding a non-negative offset moves the index range with it. -/
theorem atomsBelow_offsetAtoms {nral : Nat} {n : Int} {l : List Int} (h : AtomsBelow nral n l)
    (d : Int) (hd : 0 ≤ d) : AtomsBelow nral (d + n) (offsetAtoms nral d l) := by
  refine ⟨?_, ?_⟩
  · unfold offsetAtoms
    rw [offsetAtomsFrom_length]
    exact h.1
  · intro x hx
    unfold offsetAtoms atomIndices at hx
    rw [atomIndicesFrom_offsetAtomsFrom, List.mem_map] at hx
    obtain ⟨a, ha, rfl⟩ := hx
    have := h.2 a ha
    omega

/-- One copy appended by `ilistcat`. -/
theorem atomsBelow_copies {nral : Nat} {n : Nat} {l : List Int} (h : AtomsBelow nral (n : Int) l)
    (B nmol : Nat) :
    AtomsBelow nral ((B + nmol * n : Nat) : Int)
      ((List.range nmol).flatMap
        (fun c => offsetAtoms nral ((B : Int) + (c : Int) * (n : Int)) l)) := by
  apply atomsBelow_flatMap
  intro c hc
  have hc' : c < nmol := List.mem_range.mp hc
  refine atomsBelow_mono (atomsBelow_offsetAtoms h _ (by positivity)) ?_
  have : (c + 1) * n ≤ nmol * n := Nat.mul_le_mul_right n hc'
  push_cast
  have h2 : ((c : Int) + 1) * (n : Int) ≤ (nmol : Int) * (n : Int) := by exact_mod_cast this
  linarith

theorem atomIndicesFrom_run (nral : Nat) :
    ∀ (k : Nat) (l : List Int) (q : Nat), (∀ j, j < k → isAtomSlot nral (q + j) = true) →
      atomIndicesFrom nral q l = l.take k ++ atomIndicesFrom nral (q + k) (l.drop k) := by
  intro k
  induction k with
  | zero => intro l q _; simp
  | succ k ih =>
    intro l q hq
    cases l with
    | nil => simp [atomIndicesFrom]
    | cons x xs =>
      have h0 : isAtomSlot nral q = true := by simpa using hq 0 (Nat.succ_pos k)
      have hk : ∀ j, j < k → isAtomSlot nral (q + 1 + j) = true := by
        intro j hj
        have := hq (j + 1) (by omega)
        rwa [show q + (j + 1) = q + 1 + j by omega] at this
      simp only [atomIndicesFrom, h0, if_true, List.take_succ_cons, List.drop_succ_cons,
        List.cons_append]
      rw [ih xs (q + 1) hk, show q + 1 + k = q + (k + 1) by omega]

/-- The atom indices of a list that starts with an entry: the atoms of that
entry, then the atom indices of the remaining entries. -/
theorem atomIndices_cons (nral : Nat) (p : Int) (rest : List Int) :
    atomIndices nral (p :: rest) = rest.take nral ++ atomIndices nral (rest.drop nral) := by
  unfold atomIndices
  have h0 : isAtomSlot nral 0 = false := isAtomSlot_boundary nral 0 (Nat.zero_mod _)
  simp only [atomIndicesFrom, h0]
  rw [atomIndicesFrom_run nral nral rest (0 + 1)
    (fun j hj => isAtomSlot_inside nral 0 j (Nat.zero_mod _) hj)]
  have := atomIndicesFrom_shift nral (0 + 1 + nral) ⟨1, by omega⟩ (rest.drop nral) 0
  simp only [Nat.add_zero] at this
  simp [this]

theorem atomsBelow_cons_tail {nral : Nat} {n : Int} {p : Int} {rest : List Int}
    (h : AtomsBelow nral n (p :: rest)) :
    nral ≤ rest.length ∧ (∀ a ∈ rest.take nral, 0 ≤ a ∧ a < n)
      ∧ AtomsBelow nral n (rest.drop nral) := by
  obtain ⟨hd, ha⟩ := h
  rw [atomIndices_cons] at ha
  have hle : nral ≤ rest.length := by
    have := Nat.le_of_dvd (by simp) hd
    simp only [List.length_cons] at this
    omega
  refine ⟨hle, fun a hm => ha a (List.mem_append_left _ hm), ?_, ?_⟩
  · rw [List.length_drop]
    have h2 : (1 + nral) ∣ (rest.length + 1) - (1 + nral) :=
      Nat.dvd_sub' (by simpa using hd) (dvd_refl _)
    rwa [show rest.length + 1 - (1 + nral) = rest.length - nral by omega] at h2
  · exact fun a hm => ha a (List.mem_append_right _ hm)

theorem atomsBelow_entry {nral : Nat} {N : Int} (p : Int) (atoms : List Int)
    (hlen : atoms.length = nral) (h : ∀ a ∈ atoms, 0 ≤ a ∧ a < N) :
    AtomsBelow nral N (p :: atoms) := by
  refine ⟨by simp [hlen, Nat.add_comm], ?_⟩
  intro x hx
  rw [atomIndices_cons, ← hlen, List.take_length, List.drop_length] at hx
  simp only [atomIndices, atomIndicesFrom, List.append_nil] at hx
  exact h x hx

/-- The entries that the filter keeps stay whole and in range. -/
theorem atomsBelow_pf_entries (nral : Nat) (g1 g2 : List Int) (dnum n : Int) (hd : 0 ≤ dnum) :
    ∀ (fuel : Nat) (l : List Int), AtomsBelow nral n l →
      AtomsBelow nral (dnum + n) (pf_ilistcatEntries nral g1 g2 dnum fuel l) := by
  intro fuel
  induction fuel with
  | zero => intro l _; exact atomsBelow_nil _ _
  | succ fuel ih =>
    intro l hl
    cases l with
    | nil => exact atomsBelow_nil _ _
    | cons p rest =>
      obtain ⟨hle, hat, htail⟩ := atomsBelow_cons_tail hl
      simp only [pf_ilistcatEntries]
      apply atomsBelow_append
      · split
        · apply atomsBelow_entry
          · simp [hle]
          · intro a ha
            obtain ⟨b, hb, rfl⟩ := List.mem_map.mp ha
            have := hat b hb
            omega
        · exact atomsBelow_nil _ _
      · exact ih _ htail

theorem atomsBelow_pf_copies (nral : Nat) (g1 g2 : List Int) (src : List Int) (n : Nat)
    (N : Int) (hsrc : AtomsBelow nral (n : Int) src) :
    ∀ (copies : Nat) (dnum : Int) (tmp : List Int), 0 ≤ dnum →
      dnum + (copies : Int) * (n : Int) ≤ N → AtomsBelow nral N tmp →
      AtomsBelow nral N (pf_ilistcatCopies nral g1 g2 src (n : Int) copies dnum tmp) := by
  intro copies
  induction copies with
  | zero => intro dnum tmp _ _ h; exact h
  | succ c ih =>
    intro dnum tmp hd hN htmp
    rw [pf_ilistcatCopies]
    push_cast at hN
    apply ih
    · positivity
    · linarith
    · apply atomsBelow_append htmp
      refine atomsBelow_mono (atomsBelow_pf_entries nral g1 g2 dnum n hd _ src hsrc) ?_
      have : (0 : Int) ≤ (c : Int) * (n : Int) := by positivity
      linarith

theorem atomsBelow_pf_ilistcat (T : Constants) (ftype : Nat) (dest src : List Int)
    (copies B n : Nat) (N : Int) (s : FDASettings)
    (hsrc : AtomsBelow (NRAL T ftype) (n : Int) src) (hdest : AtomsBelow (NRAL T ftype) N dest)
    (hN : ((B + copies * n : Nat) : Int) ≤ N) :
    AtomsBelow (NRAL T ftype) N (pf_ilistcat T ftype dest src copies B n s) := by
  unfold pf_ilistcat
  split
  · exact hdest
  · apply atomsBelow_append hdest
    apply atomsBelow_pf_copies _ _ _ _ _ _ hsrc
    · positivity
    · push_cast at hN; exact hN
    · exact atomsBelow_nil _ _

theorem atomsBelow_ilistcat (T : Constants) (ftype : Nat) (dest src : List Int)
    (copies B n : Nat) (N : Int)
    (hsrc : AtomsBelow (NRAL T ftype) (n : Int) src) (hdest : AtomsBelow (NRAL T ftype) N dest)
    (hN : ((B + copies * n : Nat) : Int) ≤ N) :
    AtomsBelow (NRAL T ftype) N (ilistcat T ftype dest src copies B n) := by
  rw [ilistcat_eq]
  exact atomsBelow_append hdest (atomsBelow_mono (atomsBelow_copies hsrc B copies) hN)

theorem atomsBelow_mergeConstrLoop (T : Constants) (ftype : Nat) (molt : gmx_moltype_t)
    (destnr srcnr : Nat) (N : Int)
    (h1 : AtomsBelow (NRAL T ftype) (srcnr : Int) (molt.ilist T.F_CONSTR))
    (h2 : AtomsBelow (NRAL T ftype) (srcnr : Int) (molt.ilist T.F_CONSTRNC)) :
    ∀ (n mol : Nat) (dest : List Int), AtomsBelow (NRAL T ftype) N dest →
      ((destnr + (mol + n) * srcnr : Nat) : Int) ≤ N →
      AtomsBelow (NRAL T ftype) N (mergeConstrLoop T ftype molt destnr srcnr n mol dest) := by
  intro n
  induction n with
  | zero => intro mol dest h _; exact h
  | succ n ih =>
    intro mol dest hdest hN
    rw [mergeConstrLoop]
    have hB : (destnr : Int) + (mol : Int) * (srcnr : Int) = ((destnr + mol * srcnr : Nat) : Int) := by
      push_cast; ring
    have hN1 : ((destnr + mol * srcnr + 1 * srcnr : Nat) : Int) ≤ N := by
      refine le_trans ?_ hN
      have : destnr + mol * srcnr + 1 * srcnr ≤ destnr + (mol + (n + 1)) * srcnr := by
        have : (mol + 1) * srcnr ≤ (mol + (n + 1)) * srcnr :=
          Nat.mul_le_mul_right srcnr (by omega)
        nlinarith
      exact_mod_cast this
    apply ih
    · simp only [hB]
      exact atomsBelow_ilistcat T ftype _ _ 1 _ srcnr N h2
        (atomsBelow_ilistcat T ftype _ _ 1 _ srcnr N h1 hdest hN1) hN1
    · rw [show mol + 1 + n = mol + (n + 1) by omega]
      exact hN

theorem atomsBelow_slot (T : Constants) (molt : gmx_moltype_t) (molb : gmx_molblock_t)
    (mergeConstr : Bool) (fda : Option FDASettings) (B : Nat) (N : Int) (f : Nat)
    (old : List Int) (hlists : ListsBelow T molt.ilist molt.atoms.nr)
    (hC : NRAL T T.F_CONSTRNC = NRAL T T.F_CONSTR)
    (hold : AtomsBelow (NRAL T f) N old)
    (hN : ((B + molb.nmol * molt.atoms.nr : Nat) : Int) ≤ N) :
    AtomsBelow (NRAL T f) N
      (copyIListsSlot T molt molb mergeConstr fda B molt.atoms.nr f old) := by
  unfold copyIListsSlot
  split
  · rename_i hm
    have hfc : f = T.F_CONSTR := by
      simp only [Bool.and_eq_true, decide_eq_true_eq] at hm
      exact hm.1.2
    subst hfc
    apply atomsBelow_mergeConstrLoop T _ molt B _ N (hlists _)
    · have := hlists T.F_CONSTRNC
      rwa [hC] at this
    · exact hold
    · simpa using hN
  · split
    · cases fda with
      | none => exact atomsBelow_ilistcat T f _ _ _ _ _ N (hlists f) hold hN
      | some s =>
        simp only
        split
        · exact atomsBelow_pf_ilistcat T f _ _ _ _ _ N s (hlists f) hold hN
        · exact atomsBelow_ilistcat T f _ _ _ _ _ N (hlists f) hold hN
    · exact hold

theorem atomsBelow_block (T : Constants) (mtop : gmx_mtop_t) (mergeConstr : Bool)
    (fda : Option FDASettings) (natoms : Nat) (N : Int) (idef idef' : InteractionDefinitions)
    (molb : gmx_molblock_t) (f : Nat)
    (hP : NRAL T T.F_POSRES = 1) (hFB : NRAL T T.F_FBPOSRES = 1)
    (hC : NRAL T T.F_CONSTRNC = NRAL T T.F_CONSTR)
    (hlists : ListsBelow T (mtop.moltypeOf molb).ilist (mtop.moltypeOf molb).atoms.nr)
    (hold : AtomsBelow (NRAL T f) N (idef.il f))
    (hN : ((natoms + molb.nmol * (mtop.moltypeOf molb).atoms.nr : Nat) : Int) ≤ N)
    (h : copyIListsBlock T mtop mergeConstr fda natoms idef molb = .ok idef') :
    AtomsBelow (NRAL T f) N (idef'.il f) := by
  obtain ⟨a, b⟩ := copyIListsBlock_il T mtop mergeConstr fda natoms idef idef' molb h f
  have hnral : f = T.F_POSRES ∨ f = T.F_FBPOSRES → NRAL T f = 1 := by
    rintro (rfl | rfl)
    · exact hP
    · exact hFB
  refine atomsBelow_of_sameAtoms (sameAtoms_nral T f _ _ hnral a b) ?_
  split
  · exact atomsBelow_slot T _ molb mergeConstr fda natoms N f _ hlists hC hold hN
  · exact hold

theorem atomsBelow_blocks (T : Constants) (mtop : gmx_mtop_t) (mergeConstr : Bool)
    (fda : Option FDASettings) (N : Int) (f : Nat)
    (hP : NRAL T T.F_POSRES = 1) (hFB : NRAL T T.F_FBPOSRES = 1)
    (hC : NRAL T T.F_CONSTRNC = NRAL T T.F_CONSTR) :
    ∀ (rest : List gmx_molblock_t) (natoms : Nat) (idef idef' : InteractionDefinitions),
      (∀ molb ∈ rest,
        ListsBelow T (mtop.moltypeOf molb).ilist (mtop.moltypeOf molb).atoms.nr) →
      AtomsBelow (NRAL T f) N (idef.il f) →
      ((natoms + atomsOfBlocks mtop rest : Nat) : Int) ≤ N →
      copyIListsBlocks T mtop mergeConstr fda rest natoms idef = .ok idef' →
      AtomsBelow (NRAL T f) N (idef'.il f) := by
  intro rest
  induction rest with
  | nil =>
    intro natoms idef idef' _ hold _ h
    simp only [copyIListsBlocks, Except.ok.injEq] at h
    subst h
    exact hold
  | cons molb rest ih =>
    intro natoms idef idef' hl hold hN h
    simp only [copyIListsBlocks] at h
    split at h
    · exact absurd h (by simp)
    · rename_i idef1 hb
      have hsum : atomsOfBlocks mtop (molb :: rest)
          = molb.nmol * (mtop.moltypeOf molb).atoms.nr + atomsOfBlocks mtop rest := by
        simp [atomsOfBlocks]
      rw [hsum] at hN
      have hN1 : ((natoms + molb.nmol * (mtop.moltypeOf molb).atoms.nr : Nat) : Int) ≤ N := by
        refine le_trans ?_ hN
        exact_mod_cast (by omega : natoms + molb.nmol * (mtop.moltypeOf molb).atoms.nr
          ≤ natoms + (molb.nmol * (mtop.moltypeOf molb).atoms.nr + atomsOfBlocks mtop rest))
      have h1 := atomsBelow_block T mtop mergeConstr fda natoms N idef idef1 molb f hP hFB hC
        (hl molb (List.mem_cons_self _ _)) hold hN1 hb
      exact ih _ idef1 idef' (fun m hm => hl m (List.mem_cons_of_mem _ hm)) h1
        (by rw [Nat.add_assoc]; exact hN) h

/-- C4: when the atom indices of every template interaction lie in
`[0, atom count of the molecule type)`, those of every intermolecular
interaction in `[0, natoms)`, and `natoms` is the sum over the blocks of
`nmol` times the atom count, every atom index of every output list of
`copyIListsFromMtop` lies in `[0, natoms)`, whatever the merging and filtering
modes. -/
theorem copyIListsFromMtop_atoms_in_range (T : Constants) (mtop : gmx_mtop_t)
    (mergeConstr : Bool) (fda : Option FDASettings) (idef : InteractionDefinitions) (f : Nat)
    (hf : f < T.F_NRE)
    (hP : NRAL T T.F_POSRES = 1) (hFB : NRAL T T.F_FBPOSRES = 1)
    (hC : NRAL T T.F_CONSTRNC = NRAL T T.F_CONSTR)
    (htempl : ∀ molb ∈ mtop.molblock,
      ListsBelow T (mtop.moltypeOf molb).ilist (mtop.moltypeOf molb).atoms.nr)
    (hinter : mtop.bIntermolecularInteractions = true →
      ListsBelow T mtop.intermolecular_ilist mtop.natoms)
    (hnatoms : mtop.natoms = totalAtoms mtop)
    (h : copyIListsFromMtop T mtop (emptyIdef mtop) mergeConstr fda = .ok idef) :
    ∀ x ∈ atomIndices (NRAL T f) (idef.il f), 0 ≤ x ∧ x < (mtop.natoms : Int) := by
  obtain ⟨idef1, hb, hi⟩ := copyIListsFromMtop_ok T mtop _ idef mergeConstr fda h
  have h1 : AtomsBelow (NRAL T f) (mtop.natoms : Int) (idef1.il f) := by
    apply atomsBelow_blocks T mtop mergeConstr fda _ f hP hFB hC mtop.molblock 0 _ idef1 htempl
      (atomsBelow_nil _ _) _ hb
    rw [hnatoms]
    simp [totalAtoms]
  have h2 : AtomsBelow (NRAL T f) (mtop.natoms : Int) (intermolecularPart mtop f) := by
    unfold intermolecularPart
    split
    · rename_i hi'
      exact hinter hi' f
    · exact atomsBelow_nil _ _
  rw [hi f hf]
  exact (atomsBelow_append h1 h2).2

theorem exampleTypeA_listsBelow : ListsBelow exampleConstants exampleTypeA.ilist 3 := by
  intro g
  rcases g with _ | _ | _ | g
  · exact ⟨by decide, by decide⟩
  · exact ⟨by decide, by decide⟩
  · exact ⟨by decide, by decide⟩
  · exact atomsBelow_nil _ _

theorem exampleTypeW_listsBelow : ListsBelow exampleConstants exampleTypeW.ilist 2 := by
  intro g
  rcases g with _ | _ | _ | _ | _ | _ | g
  · exact ⟨by decide, by decide⟩
  · exact atomsBelow_nil _ _
  · exact atomsBelow_nil _ _
  · exact atomsBelow_nil _ _
  · exact ⟨by decide, by decide⟩
  · exact ⟨by decide, by decide⟩
  · exact atomsBelow_nil _ _

theorem exampleMtop_intermolecular_listsBelow :
    ListsBelow exampleConstants exampleMtop.intermolecular_ilist 12 := by
  intro g
  rcases g with _ | g
  · exact ⟨by decide, by decide⟩
  · exact atomsBelow_nil _ _

/-- Witness for C4 on the worked example, with constraint merging and the filter on. -/
theorem copyIListsFromMtop_atoms_in_range_witness :
    ∃ idef, copyIListsFromMtop exampleConstants exampleMtop (emptyIdef exampleMtop) true
        (some exampleFDASettings) = .ok idef
      ∧ idef.il 0 = [0, 0, 1, 1, 1, 2, 4, 6, 7, 5, 0, 11]
      ∧ ∀ x ∈ atomIndices (NRAL exampleConstants 0) (idef.il 0),
          0 ≤ x ∧ x < (exampleMtop.natoms : Int) :=
  ⟨_, rfl, by decide,
    copyIListsFromMtop_atoms_in_range exampleConstants exampleMtop true
      (some exampleFDASettings) _ 0 (by decide) rfl rfl rfl
      (by
        intro molb hm
        simp only [exampleMtop, List.mem_cons, List.mem_singleton, List.not_mem_nil,
          or_false] at hm
        rcases hm with rfl | rfl
        · exact exampleTypeA_listsBelow
        · exact exampleTypeW_listsBelow)
      (fun _ => exampleMtop_intermolecular_listsBelow) (by decide) rfl⟩

/-! ## Atom range iterator -/

theorem advance_add (mtop : gmx_mtop_t) :
    ∀ (a b : Nat) (it : AtomIterator),
      AtomIterator.advance mtop (a + b) it
        = AtomIterator.advance mtop b (AtomIterator.advance mtop a it) := by
  intro a
  induction a with
  | zero => intro b it; simp [AtomIterator.advance]
  | succ a ih =>
    intro b it
    rw [show a + 1 + b = (a + b) + 1 by omega]
    simp only [AtomIterator.advance]
    exact ih b _

theorem advance_succ (mtop : gmx_mtop_t) (a : Nat) (it : AtomIterator) :
    AtomIterator.advance mtop (a + 1) it
      = AtomIterator.next mtop (AtomIterator.advance mtop a it) := by
  rw [advance_add]
  rfl

theorem next_globalAtomNumber (mtop : gmx_mtop_t) (it : AtomIterator) :
    (AtomIterator.next mtop it).globalAtomNumber_ = it.globalAtomNumber_ + 1 := by
  unfold AtomIterator.next
  simp only
  split
  · split
    · split <;> rfl
    · rfl
  · rfl

theorem advance_globalAtomNumber (mtop : gmx_mtop_t) :
    ∀ (k : Nat) (it : AtomIterator),
      (AtomIterator.advance mtop k it).globalAtomNumber_ = it.globalAtomNumber_ + (k : Int) := by
  intro k
  induction k with
  | zero => intro it; simp [AtomIterator.advance]
  | succ k ih =>
    intro it
    rw [advance_succ, next_globalAtomNumber, ih]
    push_cast
    ring

theorem take_succ_block (mtop : gmx_mtop_t) (mb : Nat) (h : mb < mtop.molblock.length) :
    mtop.molblock.take (mb + 1) = mtop.molblock.take mb ++ [mtop.block mb] := by
  rw [List.take_succ]
  congr 1
  unfold gmx_mtop_t.block
  rw [List.getD_eq_getElem?_getD, List.getElem?_eq_getElem h]
  rfl

theorem atomBase_succ (mtop : gmx_mtop_t) (mb : Nat) (h : mb < mtop.molblock.length) :
    atomBase mtop (mb + 1)
      = atomBase mtop mb + (mtop.block mb).nmol * (mtop.moltypeOf (mtop.block mb)).atoms.nr := by
  unfold atomBase
  rw [take_succ_block mtop mb h, atomsOfBlocks_append]

theorem renumberedResiduesBefore_succ (mtop : gmx_mtop_t) (mb : Nat)
    (h : mb < mtop.molblock.length) :
    renumberedResiduesBefore mtop (mb + 1) 0
      = renumberedResiduesBefore mtop mb (mtop.block mb).nmol := by
  unfold renumberedResiduesBefore
  rw [take_succ_block mtop mb h]
  simp [renumberedResiduesOfBlocks]

theorem initial_eq_cursorAt (mtop : gmx_mtop_t) :
    AtomIterator.initial mtop 0 = cursorAt mtop 0 0 0 := by
  simp [AtomIterator.initial, cursorAt, atomBase, atomsOfBlocks, renumberedResiduesBefore,
    renumberedResiduesOfBlocks]

/-- A step inside a molecule. -/
theorem next_cursorAt_atom (mtop : gmx_mtop_t) (mb c i : Nat)
    (hi : i + 1 < (mtop.moltypeOf (mtop.block mb)).atoms.nr) :
    AtomIterator.next mtop (cursorAt mtop mb c i) = cursorAt mtop mb c (i + 1) := by
  unfold AtomIterator.next cursorAt
  simp only [ge_iff_le]
  rw [if_neg (by omega)]
  simp
  omega

/-- A step from the last atom of a copy to the next copy of the block. -/
theorem next_cursorAt_copy (mtop : gmx_mtop_t) (mb c i : Nat)
    (hi : i + 1 = (mtop.moltypeOf (mtop.block mb)).atoms.nr)
    (hc : c + 1 < (mtop.block mb).nmol) :
    AtomIterator.next mtop (cursorAt mtop mb c i) = cursorAt mtop mb (c + 1) 0 := by
  unfold AtomIterator.next cursorAt
  simp only [ge_iff_le]
  rw [if_pos (by omega), if_neg (by omega)]
  simp only [AtomIterator.mk.injEq, true_and]
  refine ⟨?_, ?_⟩
  · unfold renumberedResiduesBefore
    split <;> (push_cast; ring)
  · push_cast
    rw [← hi]
    push_cast
    ring

/-- A step from the last atom of a block to the first atom of the next block. -/
theorem next_cursorAt_block (mtop : gmx_mtop_t) (mb c i : Nat)
    (hi : i + 1 = (mtop.moltypeOf (mtop.block mb)).atoms.nr)
    (hc : c + 1 = (mtop.block mb).nmol) (hmb : mb + 1 < mtop.molblock.length) :
    AtomIterator.next mtop (cursorAt mtop mb c i) = cursorAt mtop (mb + 1) 0 0 := by
  unfold AtomIterator.next cursorAt
  simp only [ge_iff_le]
  rw [if_pos (by omega), if_pos (by omega), if_neg (by omega)]
  simp only [AtomIterator.mk.injEq, true_and]
  refine ⟨?_, ?_⟩
  · rw [renumberedResiduesBefore_succ mtop mb (by omega), ← hc]
    unfold renumberedResiduesBefore
    split <;> (push_cast; ring)
  · rw [atomBase_succ mtop mb (by omega), ← hc, ← hi]
    push_cast
    ring

theorem advance_within (mtop : gmx_mtop_t) (mb c : Nat) :
    ∀ (j i : Nat), i + j < (mtop.moltypeOf (mtop.block mb)).atoms.nr →
      AtomIterator.advance mtop j (cursorAt mtop mb c i) = cursorAt mtop mb c (i + j) := by
  intro j
  induction j with
  | zero => intro i _; rfl
  | succ j ih =>
    intro i h
    rw [advance_succ, ih i (by omega), next_cursorAt_atom mtop mb c (i + j) (by omega)]
    rfl

theorem advance_copies (mtop : gmx_mtop_t) (mb : Nat)
    (hnr : 1 ≤ (mtop.moltypeOf (mtop.block mb)).atoms.nr) :
    ∀ (c : Nat), c < (mtop.block mb).nmol →
      AtomIterator.advance mtop (c * (mtop.moltypeOf (mtop.block mb)).atoms.nr)
        (cursorAt mtop mb 0 0) = cursorAt mtop mb c 0 := by
  intro c
  induction c with
  | zero => intro _; simp [AtomIterator.advance]
  | succ c ih =>
    intro h
    obtain ⟨m, hm⟩ : ∃ m, (mtop.moltypeOf (mtop.block mb)).atoms.nr = m + 1 :=
      ⟨(mtop.moltypeOf (mtop.block mb)).atoms.nr - 1, by omega⟩
    rw [show (c + 1) * (mtop.moltypeOf (mtop.block mb)).atoms.nr
        = c * (mtop.moltypeOf (mtop.block mb)).atoms.nr + m + 1 by rw [hm]; ring,
      advance_succ, advance_add, ih (by omega), advance_within mtop mb c m 0 (by omega),
      next_cursorAt_copy mtop mb c (0 + m) (by omega) h]

/-- The cursor reached inside a block from the first atom of the block. -/
theorem advance_in_block (mtop : gmx_mtop_t) (mb c i : Nat)
    (hc : c < (mtop.block mb).nmol) (hi : i < (mtop.moltypeOf (mtop.block mb)).atoms.nr) :
    AtomIterator.advance mtop (c * (mtop.moltypeOf (mtop.block mb)).atoms.nr + i)
      (cursorAt mtop mb 0 0) = cursorAt mtop mb c i := by
  rw [advance_add, advance_copies mtop mb (by omega) c hc, advance_within mtop mb c i 0 (by omega),
    Nat.zero_add]

theorem advance_block (mtop : gmx_mtop_t) (mb : Nat) (hmb : mb + 1 < mtop.molblock.length)
    (hnmol : 1 ≤ (mtop.block mb).nmol)
    (hnr : 1 ≤ (mtop.moltypeOf (mtop.block mb)).atoms.nr) :
    AtomIterator.advance mtop ((mtop.block mb).nmol * (mtop.moltypeOf (mtop.block mb)).atoms.nr)
      (cursorAt mtop mb 0 0) = cursorAt mtop (mb + 1) 0 0 := by
  obtain ⟨m, hm⟩ : ∃ m, (mtop.moltypeOf (mtop.block mb)).atoms.nr = m + 1 :=
    ⟨(mtop.moltypeOf (mtop.block mb)).atoms.nr - 1, by omega⟩
  obtain ⟨k, hk⟩ : ∃ k, (mtop.block mb).nmol = k + 1 := ⟨(mtop.block mb).nmol - 1, by omega⟩
  rw [show (mtop.block mb).nmol * (mtop.moltypeOf (mtop.block mb)).atoms.nr
      = k * (mtop.moltypeOf (mtop.block mb)).atoms.nr + m + 1 by rw [hm, hk]; ring,
    advance_succ, advance_in_block mtop mb k m (by omega) (by omega),
    next_cursorAt_block mtop mb k m (by omega) (by omega) hmb]

theorem block_mem (mtop : gmx_mtop_t) (mb : Nat) (h : mb < mtop.molblock.length) :
    mtop.block mb ∈ mtop.molblock := by
  unfold gmx_mtop_t.block
  rw [List.getD_eq_getElem?_getD, List.getElem?_eq_getElem h]
  exact List.getElem_mem h

theorem advance_blocks (mtop : gmx_mtop_t)
    (hnmol : ∀ molb ∈ mtop.molblock, 1 ≤ molb.nmol)
    (hnr : ∀ molb ∈ mtop.molblock, 1 ≤ (mtop.moltypeOf molb).atoms.nr) :
    ∀ (mb : Nat), mb < mtop.molblock.length →
      AtomIterator.advance mtop (atomBase mtop mb) (cursorAt mtop 0 0 0)
        = cursorAt mtop mb 0 0 := by
  intro mb
  induction mb with
  | zero => intro _; simp [atomBase, atomsOfBlocks, AtomIterator.advance]
  | succ mb ih =>
    intro h
    have hm := block_mem mtop mb (by omega)
    rw [atomBase_succ mtop mb (by omega), advance_add, ih (by omega),
      advance_block mtop mb h (hnmol _ hm) (hnr _ hm)]

theorem atomBase_le_totalAtoms (mtop : gmx_mtop_t) (mb : Nat) :
    atomBase mtop mb ≤ totalAtoms mtop := by
  unfold atomBase totalAtoms
  have h : atomsOfBlocks mtop mtop.molblock
      = atomsOfBlocks mtop (mtop.molblock.take mb) + atomsOfBlocks mtop (mtop.molblock.drop mb) := by
    unfold atomsOfBlocks
    rw [← List.sum_append, ← List.map_append, List.take_append_drop]
  omega

/-- A global atom number `B + c * n + i` lies below the total number of atoms. -/
theorem globalIndex_lt_totalAtoms (mtop : gmx_mtop_t) (mb c i : Nat)
    (hmb : mb < mtop.molblock.length) (hc : c < (mtop.block mb).nmol)
    (hi : i < (mtop.moltypeOf (mtop.block mb)).atoms.nr) :
    atomBase mtop mb + c * (mtop.moltypeOf (mtop.block mb)).atoms.nr + i < totalAtoms mtop := by
  have h1 := atomBase_le_totalAtoms mtop (mb + 1)
  rw [atomBase_succ mtop mb hmb] at h1
  have h2 : (c + 1) * (mtop.moltypeOf (mtop.block mb)).atoms.nr
      ≤ (mtop.block mb).nmol * (mtop.moltypeOf (mtop.block mb)).atoms.nr :=
    Nat.mul_le_mul_right _ hc
  have h3 : (c + 1) * (mtop.moltypeOf (mtop.block mb)).atoms.nr
      = c * (mtop.moltypeOf (mtop.block mb)).atoms.nr
        + (mtop.moltypeOf (mtop.block mb)).atoms.nr := by ring
  omega

/-- The state of the traversal at the global atom `B + c * n + i`. -/
theorem advance_eq_cursorAt (mtop : gmx_mtop_t)
    (hnmol : ∀ molb ∈ mtop.molblock, 1 ≤ molb.nmol)
    (hnr : ∀ molb ∈ mtop.molblock, 1 ≤ (mtop.moltypeOf molb).atoms.nr)
    (mb c i : Nat) (hmb : mb < mtop.molblock.length) (hc : c < (mtop.block mb).nmol)
    (hi : i < (mtop.moltypeOf (mtop.block mb)).atoms.nr) :
    AtomIterator.advance mtop
        (atomBase mtop mb + c * (mtop.moltypeOf (mtop.block mb)).atoms.nr + i)
        (AtomIterator.initial mtop 0)
      = cursorAt mtop mb c i := by
  rw [initial_eq_cursorAt, Nat.add_assoc, advance_add, advance_blocks mtop hnmol hnr mb hmb,
    advance_in_block mtop mb c i hc hi]

/-- C5: in either kind of build (assertions enabled or not), stepping an
`AtomIterator` constructed at global index 0 reaches the end
iterator (constructed at `natoms`) after exactly `natoms` increments and not
before; the global atom numbers reported are 0, 1, ..., `natoms - 1` in this
order; and the atom reported at global number `B + c * n + i` is template atom
`i` of the molecule type of its block, with `moleculeType()` that type and
`atomNumberInMol()` equal to `i`. -/
theorem atomIterator_traversal (assertionsEnabled : Bool) (mtop : gmx_mtop_t)
    (hnmol : ∀ molb ∈ mtop.molblock, 1 ≤ molb.nmol)
    (hnr : ∀ molb ∈ mtop.molblock, 1 ≤ (mtop.moltypeOf molb).atoms.nr)
    (hnatoms : mtop.natoms = totalAtoms mtop) :
    ∃ first last,
      AtomIterator.create assertionsEnabled mtop 0 = .ok first
      ∧ AtomIterator.create assertionsEnabled mtop (mtop.natoms : Int) = .ok last
      ∧ (∀ k, k < mtop.natoms →
          AtomIterator.eq (AtomIterator.advance mtop k first) last = false
            ∧ AtomProxy.globalAtomNumber (AtomIterator.advance mtop k first) = (k : Int))
      ∧ AtomIterator.eq (AtomIterator.advance mtop mtop.natoms first) last = true
      ∧ ∀ mb c i, mb < mtop.molblock.length → c < (mtop.block mb).nmol →
          i < (mtop.moltypeOf (mtop.block mb)).atoms.nr →
          atomBase mtop mb + c * (mtop.moltypeOf (mtop.block mb)).atoms.nr + i < mtop.natoms
            ∧ AtomProxy.atom (AtomIterator.advance mtop
                  (atomBase mtop mb + c * (mtop.moltypeOf (mtop.block mb)).atoms.nr + i) first)
                = (mtop.moltypeOf (mtop.block mb)).atoms.atom.getD i default
            ∧ AtomProxy.moleculeType mtop (AtomIterator.advance mtop
                  (atomBase mtop mb + c * (mtop.moltypeOf (mtop.block mb)).atoms.nr + i) first)
                = mtop.moltypeOf (mtop.block mb)
            ∧ AtomProxy.atomNumberInMol (AtomIterator.advance mtop
                  (atomBase mtop mb + c * (mtop.moltypeOf (mtop.block mb)).atoms.nr + i) first)
                = i := by
  refine ⟨AtomIterator.initial mtop 0, AtomIterator.initial mtop (mtop.natoms : Int),
    by simp [AtomIterator.create], by simp [AtomIterator.create], ?_, ?_, ?_⟩
  · intro k hk
    refine ⟨?_, ?_⟩
    · simp only [AtomIterator.eq, advance_globalAtomNumber, AtomIterator.initial]
      simp
      omega
    · simp [AtomProxy.globalAtomNumber, advance_globalAtomNumber, AtomIterator.initial]
  · simp [AtomIterator.eq, advance_globalAtomNumber, AtomIterator.initial]
  · intro mb c i hmb hc hi
    rw [advance_eq_cursorAt mtop hnmol hnr mb c i hmb hc hi]
    refine ⟨?_, rfl, rfl, rfl⟩
    rw [hnatoms]
    exact globalIndex_lt_totalAtoms mtop mb c i hmb hc hi

/-- Witness for C5 on the worked example (12 atoms; global atom 7 is atom 1 of
the first copy of the second block). -/
theorem atomIterator_traversal_witness :
    (∀ molb ∈ exampleMtop.molblock, 1 ≤ molb.nmol)
      ∧ (∀ molb ∈ exampleMtop.molblock, 1 ≤ (exampleMtop.moltypeOf molb).atoms.nr)
      ∧ exampleMtop.natoms = totalAtoms exampleMtop
      ∧ ∃ first last,
          AtomIterator.create true exampleMtop 0 = .ok first
          ∧ AtomIterator.create true exampleMtop 12 = .ok last
          ∧ AtomIterator.eq (AtomIterator.advance exampleMtop 11 first) last = false
          ∧ AtomIterator.eq (AtomIterator.advance exampleMtop 12 first) last = true
          ∧ AtomProxy.atomNumberInMol (AtomIterator.advance exampleMtop 7 first) = 1
          ∧ AtomProxy.moleculeType exampleMtop (AtomIterator.advance exampleMtop 7 first)
              = exampleTypeW := by
  refine ⟨by decide, by decide, by decide, ?_⟩
  obtain ⟨first, last, h1, h2, h3, h4, h5⟩ :=
    atomIterator_traversal true exampleMtop (by decide) (by decide) (by decide)
  have h6 := h5 1 0 1 (by decide) (by decide) (by decide)
  exact ⟨first, last, h1, h2, (h3 11 (by decide)).1, h4, h6.2.2.2, h6.2.2.1⟩

theorem residueNumber_cursorAt_renumbered (mtop : gmx_mtop_t) (mb c i : Nat)
    (hren : ((mtop.moltypeOf (mtop.block mb)).atoms.nres : Int)
      ≤ mtop.maxResiduesPerMoleculeToTriggerRenumber) :
    AtomProxy.residueNumber mtop (cursorAt mtop mb c i)
      = mtop.maxResNumberNotRenumbered
        + ((renumberedResiduesBefore mtop mb c : Int)
            + ((mtop.moltypeOf (mtop.block mb)).atoms.atom.getD i default).resind)
        + 1 := by
  simp only [AtomProxy.residueNumber, cursorAt, if_pos hren]
  ring

theorem renumberedResiduesOfBlocks_append (mtop : gmx_mtop_t) (l1 l2 : List gmx_molblock_t) :
    renumberedResiduesOfBlocks mtop (l1 ++ l2)
      = renumberedResiduesOfBlocks mtop l1 + renumberedResiduesOfBlocks mtop l2 := by
  simp [renumberedResiduesOfBlocks]

theorem renumberedResiduesOfBlocks_take_mono (mtop : gmx_mtop_t) (k k' : Nat) (h : k ≤ k') :
    renumberedResiduesOfBlocks mtop (mtop.molblock.take k)
      ≤ renumberedResiduesOfBlocks mtop (mtop.molblock.take k') := by
  have e : mtop.molblock.take k' = mtop.molblock.take k ++ (mtop.molblock.take k').drop k := by
    have := List.take_append_drop k (mtop.molblock.take k')
    rw [List.take_take, Nat.min_eq_left h] at this
    exact this.symm
  rw [e, renumberedResiduesOfBlocks_append]
  omega

/-- The residues of a renumbered copy are counted before every later copy. -/
theorem renumberedResiduesBefore_later (mtop : gmx_mtop_t) (mb c mb' c' : Nat)
    (hmb : mb < mtop.molblock.length) (hc : c < (mtop.block mb).nmol)
    (hren : ((mtop.moltypeOf (mtop.block mb)).atoms.nres : Int)
      ≤ mtop.maxResiduesPerMoleculeToTriggerRenumber)
    (hlater : mb < mb' ∨ (mb = mb' ∧ c < c')) :
    renumberedResiduesBefore mtop mb c + (mtop.moltypeOf (mtop.block mb)).atoms.nres
      ≤ renumberedResiduesBefore mtop mb' c' := by
  rcases hlater with h | ⟨rfl, h⟩
  · have h1 := renumberedResiduesOfBlocks_take_mono mtop (mb + 1) mb' h
    rw [take_succ_block mtop mb hmb, renumberedResiduesOfBlocks_append] at h1
    have h2 : renumberedResiduesOfBlocks mtop [mtop.block mb]
        = (mtop.block mb).nmol * (mtop.moltypeOf (mtop.block mb)).atoms.nres := by
      simp [renumberedResiduesOfBlocks, hren]
    have h3 : (c + 1) * (mtop.moltypeOf (mtop.block mb)).atoms.nres
        ≤ (mtop.block mb).nmol * (mtop.moltypeOf (mtop.block mb)).atoms.nres :=
      Nat.mul_le_mul_right _ hc
    have h4 : (c + 1) * (mtop.moltypeOf (mtop.block mb)).atoms.nres
        = c * (mtop.moltypeOf (mtop.block mb)).atoms.nres
          + (mtop.moltypeOf (mtop.block mb)).atoms.nres := by ring
    unfold renumberedResiduesBefore
    simp only [if_pos hren]
    omega
  · have h3 : (c + 1) * (mtop.moltypeOf (mtop.block mb)).atoms.nres
        ≤ c' * (mtop.moltypeOf (mtop.block mb)).atoms.nres :=
      Nat.mul_le_mul_right _ h
    have h4 : (c + 1) * (mtop.moltypeOf (mtop.block mb)).atoms.nres
        = c * (mtop.moltypeOf (mtop.block mb)).atoms.nres
          + (mtop.moltypeOf (mtop.block mb)).atoms.nres := by ring
    unfold renumberedResiduesBefore
    simp only [if_pos hren]
    omega

/-- C7: for an atom of a copy whose molecule type is renumbered (residue count
at most the threshold), `AtomProxy::residueNumber` reports
`maxResNumberNotRenumbered + r + 1`, where `r` counts the residues of renumbered
copies that precede the atom's residue in traversal order: those of the earlier
blocks and copies, and the `resind` residues before it in its own molecule.
The numbers increase strictly along the traversal: a residue of a renumbered
copy that comes later (a later block, a later copy of the block, or a higher
residue index in the same copy) is reported with a larger number. -/
theorem residueNumber_renumbered (mtop : gmx_mtop_t)
    (hnmol : ∀ molb ∈ mtop.molblock, 1 ≤ molb.nmol)
    (hnr : ∀ molb ∈ mtop.molblock, 1 ≤ (mtop.moltypeOf molb).atoms.nr)
    (mb c i : Nat) (hmb : mb < mtop.molblock.length) (hc : c < (mtop.block mb).nmol)
    (hi : i < (mtop.moltypeOf (mtop.block mb)).atoms.nr)
    (hren : ((mtop.moltypeOf (mtop.block mb)).atoms.nres : Int)
      ≤ mtop.maxResiduesPerMoleculeToTriggerRenumber) :
    AtomProxy.residueNumber mtop
        (AtomIterator.advance mtop
          (atomBase mtop mb + c * (mtop.moltypeOf (mtop.block mb)).atoms.nr + i)
          (AtomIterator.initial mtop 0))
      = mtop.maxResNumberNotRenumbered
        + ((renumberedResiduesBefore mtop mb c : Int)
            + ((mtop.moltypeOf (mtop.block mb)).atoms.atom.getD i default).resind)
        + 1
    ∧ ∀ mb' c' i', mb' < mtop.molblock.length → c' < (mtop.block mb').nmol →
        i' < (mtop.moltypeOf (mtop.block mb')).atoms.nr →
        ((mtop.moltypeOf (mtop.block mb')).atoms.nres : Int)
          ≤ mtop.maxResiduesPerMoleculeToTriggerRenumber →
        ((mtop.moltypeOf (mtop.block mb)).atoms.atom.getD i default).resind
          < ((mtop.moltypeOf (mtop.block mb)).atoms.nres : Int) →
        0 ≤ ((mtop.moltypeOf (mtop.block mb')).atoms.atom.getD i' default).resind →
        (mb < mb' ∨ (mb = mb' ∧ c < c')
          ∨ (mb = mb' ∧ c = c'
              ∧ ((mtop.moltypeOf (mtop.block mb)).atoms.atom.getD i default).resind
                < ((mtop.moltypeOf (mtop.block mb')).atoms.atom.getD i' default).resind)) →
        AtomProxy.residueNumber mtop
            (AtomIterator.advance mtop
              (atomBase mtop mb + c * (mtop.moltypeOf (mtop.block mb)).atoms.nr + i)
              (AtomIterator.initial mtop 0))
          < AtomProxy.residueNumber mtop
              (AtomIterator.advance mtop
                (atomBase mtop mb' + c' * (mtop.moltypeOf (mtop.block mb')).atoms.nr + i')
                (AtomIterator.initial mtop 0)) := by
  rw [advance_eq_cursorAt mtop hnmol hnr mb c i hmb hc hi,
    residueNumber_cursorAt_renumbered mtop mb c i hren]
  refine ⟨rfl, ?_⟩
  intro mb' c' i' hmb' hc' hi' hren' hres hres' hlater
  rw [advance_eq_cursorAt mtop hnmol hnr mb' c' i' hmb' hc' hi',
    residueNumber_cursorAt_renumbered mtop mb' c' i' hren']
  rcases hlater with h | h | ⟨rfl, rfl, h⟩
  · have := renumberedResiduesBefore_later mtop mb c mb' c' hmb hc hren (Or.inl h)
    have : ((renumberedResiduesBefore mtop mb c : Nat) : Int)
        + ((mtop.moltypeOf (mtop.block mb)).atoms.nres : Int)
        ≤ ((renumberedResiduesBefore mtop mb' c' : Nat) : Int) := by exact_mod_cast this
    omega
  · have := renumberedResiduesBefore_later mtop mb c mb' c' hmb hc hren (Or.inr h)
    have : ((renumberedResiduesBefore mtop mb c : Nat) : Int)
        + ((mtop.moltypeOf (mtop.block mb)).atoms.nres : Int)
        ≤ ((renumberedResiduesBefore mtop mb' c' : Nat) : Int) := by exact_mod_cast this
    omega
  · omega

/-- Witness for C7: in the scenario of one 120-residue molecule followed by 500
one-residue molecules, the first and the last of the 500 copies get the residue
numbers 121 and 620. -/
theorem residueNumber_renumbered_witness :
    AtomProxy.residueNumber proteinWaterMtop
        (AtomIterator.advance proteinWaterMtop (120 + 0 * 3 + 0)
          (AtomIterator.initial proteinWaterMtop 0)) = 121
      ∧ AtomProxy.residueNumber proteinWaterMtop
          (AtomIterator.advance proteinWaterMtop (120 + 499 * 3 + 2)
            (AtomIterator.initial proteinWaterMtop 0)) = 620 := by
  have h0 := (residueNumber_renumbered proteinWaterMtop (by decide) (by decide) 1 0 0
    (by decide) (by decide) (by decide) (by decide)).1
  have h1 := (residueNumber_renumbered proteinWaterMtop (by decide) (by decide) 1 499 2
    (by decide) (by decide) (by decide) (by decide)).1
  have e0 : atomBase proteinWaterMtop 1 = 120 := by decide
  have r0 : renumberedResiduesBefore proteinWaterMtop 1 0 = 0 := by decide
  have r1 : renumberedResiduesBefore proteinWaterMtop 1 499 = 499 := by decide
  have n : (proteinWaterMtop.moltypeOf (proteinWaterMtop.block 1)).atoms.nr = 3 := by decide
  rw [e0, n, r0] at h0
  rw [e0, n, r1] at h1
  exact ⟨h0, h1⟩

theorem getD_map_range {α : Type} (g : Nat → α) (n i : Nat) (d : α) (h : i < n) :
    ((List.range n).map g).getD i d = g i := by
  rw [List.getD_eq_getElem?_getD, List.getElem?_map, List.getElem?_eq_getElem (by simpa using h)]
  simp

/-- The residue numbering scenario in full: every atom of copy `c` of the 500
one-residue molecules is reported with residue number `121 + c`, and atom `i`
of the 120-residue molecule with its template number `i + 1`. -/
theorem proteinWater_residueNumbers :
    (∀ c i, c < 500 → i < 3 →
      AtomProxy.residueNumber proteinWaterMtop
          (AtomIterator.advance proteinWaterMtop (120 + c * 3 + i)
            (AtomIterator.initial proteinWaterMtop 0))
        = 121 + (c : Int))
    ∧ ∀ i, i < 120 →
        AtomProxy.residueNumber proteinWaterMtop
            (AtomIterator.advance proteinWaterMtop i (AtomIterator.initial proteinWaterMtop 0))
          = (i : Int) + 1 := by
  have e1 : atomBase proteinWaterMtop 1 = 120 := by decide
  have n1 : (proteinWaterMtop.moltypeOf (proteinWaterMtop.block 1)).atoms.nr = 3 := by decide
  have e0 : atomBase proteinWaterMtop 0 = 0 := by decide
  have n0 : (proteinWaterMtop.moltypeOf (proteinWaterMtop.block 0)).atoms.nr = 120 := by decide
  constructor
  · intro c i hc hi
    have h := advance_eq_cursorAt proteinWaterMtop (by decide) (by decide) 1 c i (by decide)
      (by simpa [gmx_mtop_t.block, proteinWaterMtop] using hc) (by rw [n1]; exact hi)
    rw [e1, n1] at h
    rw [h, residueNumber_cursorAt_renumbered proteinWaterMtop 1 c i (by decide)]
    have r : renumberedResiduesBefore proteinWaterMtop 1 c = c := by
      simp [renumberedResiduesBefore, renumberedResiduesOfBlocks, proteinWaterMtop,
        gmx_mtop_t.block, gmx_mtop_t.moltypeOf, exampleAtoms]
    have ra : ((proteinWaterMtop.moltypeOf (proteinWaterMtop.block 1)).atoms.atom.getD i
        default).resind = 0 := by
      interval_cases i <;> rfl
    rw [r, ra]
    have : proteinWaterMtop.maxResNumberNotRenumbered = 120 := rfl
    rw [this]
    ring
  · intro i hi
    have h := advance_eq_cursorAt proteinWaterMtop (by decide) (by decide) 0 0 i (by decide)
      (by decide) (by rw [n0]; exact hi)
    rw [e0, n0] at h
    simp only [Nat.zero_mul, Nat.zero_add] at h
    rw [h]
    have hbig : ¬ (((proteinWaterMtop.moltypeOf (proteinWaterMtop.block 0)).atoms.nres : Int)
        ≤ proteinWaterMtop.maxResiduesPerMoleculeToTriggerRenumber) := by decide
    simp only [AtomProxy.residueNumber, cursorAt, if_neg hbig]
    have ha : (proteinWaterMtop.moltypeOf (proteinWaterMtop.block 0)).atoms.atom.getD i default
        = { t_atom.zero with resind := (i : Int) } :=
      getD_map_range (fun r => ({ t_atom.zero with resind := (r : Int) } : t_atom)) 120 i
        default hi
    have hr : (proteinWaterMtop.moltypeOf (proteinWaterMtop.block 0)).atoms.resinfo.getD i default
        = { t_resinfo.zero with nr := (i : Int) + 1 } :=
      getD_map_range (fun r => ({ t_resinfo.zero with nr := (r : Int) + 1 } : t_resinfo)) 120 i
        default hi
    rw [ha]
    simp only [readAt_natCast, hr]

theorem next_highest_of_not_renumbered (mtop : gmx_mtop_t) (it : AtomIterator)
    (h : ¬ ((it.atoms_.nres : Int) ≤ mtop.maxResiduesPerMoleculeToTriggerRenumber)) :
    (AtomIterator.next mtop it).highestResidueNumber_ = it.highestResidueNumber_ := by
  unfold AtomIterator.next
  simp only [if_neg h]
  split
  · split
    · split <;> rfl
    · rfl
  · rfl

/-- C8: for an atom of a copy whose molecule type has more residues than the
threshold, `AtomProxy::residueNumber` returns the template's own number
`resinfo[resind].nr`, whatever the copy; the running residue counter has the
value it had on entering the block, and stepping on from the atom leaves it
unchanged. -/
theorem residueNumber_not_renumbered (mtop : gmx_mtop_t)
    (hnmol : ∀ molb ∈ mtop.molblock, 1 ≤ molb.nmol)
    (hnr : ∀ molb ∈ mtop.molblock, 1 ≤ (mtop.moltypeOf molb).atoms.nr)
    (mb c i : Nat) (hmb : mb < mtop.molblock.length) (hc : c < (mtop.block mb).nmol)
    (hi : i < (mtop.moltypeOf (mtop.block mb)).atoms.nr)
    (hbig : mtop.maxResiduesPerMoleculeToTriggerRenumber
      < ((mtop.moltypeOf (mtop.block mb)).atoms.nres : Int)) :
    AtomProxy.residueNumber mtop
        (AtomIterator.advance mtop
          (atomBase mtop mb + c * (mtop.moltypeOf (mtop.block mb)).atoms.nr + i)
          (AtomIterator.initial mtop 0))
      = (readAt (mtop.moltypeOf (mtop.block mb)).atoms.resinfo
          ((mtop.moltypeOf (mtop.block mb)).atoms.atom.getD i default).resind).nr
    ∧ (AtomIterator.advance mtop
          (atomBase mtop mb + c * (mtop.moltypeOf (mtop.block mb)).atoms.nr + i)
          (AtomIterator.initial mtop 0)).highestResidueNumber_
      = (AtomIterator.advance mtop (atomBase mtop mb)
          (AtomIterator.initial mtop 0)).highestResidueNumber_
    ∧ (AtomIterator.next mtop
        (AtomIterator.advance mtop
          (atomBase mtop mb + c * (mtop.moltypeOf (mtop.block mb)).atoms.nr + i)
          (AtomIterator.initial mtop 0))).highestResidueNumber_
      = (AtomIterator.advance mtop
          (atomBase mtop mb + c * (mtop.moltypeOf (mtop.block mb)).atoms.nr + i)
          (AtomIterator.initial mtop 0)).highestResidueNumber_ := by
  have hnot : ¬ (((mtop.moltypeOf (mtop.block mb)).atoms.nres : Int)
      ≤ mtop.maxResiduesPerMoleculeToTriggerRenumber) := not_le.mpr hbig
  have h0 := advance_eq_cursorAt mtop hnmol hnr mb 0 0 hmb (by omega) (by omega)
  simp only [Nat.zero_mul, Nat.add_zero] at h0
  rw [advance_eq_cursorAt mtop hnmol hnr mb c i hmb hc hi, h0]
  refine ⟨?_, ?_, ?_⟩
  · simp only [AtomProxy.residueNumber, cursorAt, if_neg hnot]
  · simp only [cursorAt, renumberedResiduesBefore, if_neg hnot]
  · exact next_highest_of_not_renumbered mtop _ hnot

/-- Witness for C8 on the worked example: the last atom of the second copy of
the two-residue molecule type keeps the template residue number 2. -/
theorem residueNumber_not_renumbered_witness :
    AtomProxy.residueNumber exampleMtop
        (AtomIterator.advance exampleMtop (0 + 1 * 3 + 2) (AtomIterator.initial exampleMtop 0))
      = 2
    ∧ (AtomIterator.advance exampleMtop (0 + 1 * 3 + 2)
          (AtomIterator.initial exampleMtop 0)).highestResidueNumber_ = 2 := by
  have h := residueNumber_not_renumbered exampleMtop (by decide) (by decide) 0 1 2
    (by decide) (by decide) (by decide) (by decide)
  exact ⟨h.1, h.2.1⟩

/-! ## Concatenated atom table -/

theorem resizeList_length {α : Type} [Inhabited α] (xs : List α) (n : Nat) :
    (resizeList xs n).length = n := by
  simp [resizeList]
  omega

theorem foldl_length_invariant {α β : Type} (step : List α → β → List α)
    (h : ∀ l b, (step l b).length = l.length) :
    ∀ (bs : List β) (l : List α), (bs.foldl step l).length = l.length := by
  intro bs
  induction bs with
  | nil => intro l; rfl
  | cons b bs ih => intro l; simp [ih, h]

theorem copyInto_length {α : Type} [Inhabited α] (src : List α) (l n : Nat) (dest : List α) :
    (copyInto dest l src n).length = dest.length := by
  unfold copyInto
  apply foldl_length_invariant
  intro d i
  simp

theorem atomcatResind_length (dest src : t_atoms) (copies : Nat) (atom : List t_atom) :
    (atomcatResind dest src copies atom).length = atom.length := by
  unfold atomcatResind
  apply foldl_length_invariant
  intro l j
  apply foldl_length_invariant
  intro l i
  simp

theorem atomcat_nr (dest src : t_atoms) (copies : Nat) (maxres_renum maxresnr : Int) :
    (atomcat dest src copies maxres_renum maxresnr).1.nr = dest.nr + copies * src.nr := rfl

theorem atomcat_atom_length (dest src : t_atoms) (copies : Nat) (maxres_renum maxresnr : Int)
    (h : dest.atom.length = dest.nr) :
    (atomcat dest src copies maxres_renum maxresnr).1.atom.length
      = dest.nr + copies * src.nr := by
  unfold atomcat
  simp only
  rw [atomcatResind_length]
  rw [foldl_length_invariant _ (fun l j => copyInto_length src.atom _ src.nr l)]
  by_cases h0 : src.nr = 0
  · simp [h0, h]
  · simp [h0, resizeList_length]

theorem gmx_mtop_global_atoms_foldl (mtop : gmx_mtop_t) :
    ∀ (blocks : List gmx_molblock_t) (st : t_atoms × Int), st.1.atom.length = st.1.nr →
      (blocks.foldl
        (fun st molb =>
          atomcat st.1 (mtop.moltypeOf molb).atoms molb.nmol
            mtop.maxResiduesPerMoleculeToTriggerRenumber st.2) st).1.nr
        = st.1.nr + atomsOfBlocks mtop blocks
      ∧ (blocks.foldl
          (fun st molb =>
            atomcat st.1 (mtop.moltypeOf molb).atoms molb.nmol
              mtop.maxResiduesPerMoleculeToTriggerRenumber st.2) st).1.atom.length
        = st.1.nr + atomsOfBlocks mtop blocks := by
  intro blocks
  induction blocks with
  | nil => intro st h; simp [atomsOfBlocks, h]
  | cons molb rest ih =>
    intro st h
    simp only [List.foldl_cons]
    have h1 := atomcat_atom_length st.1 (mtop.moltypeOf molb).atoms molb.nmol
      mtop.maxResiduesPerMoleculeToTriggerRenumber st.2 h
    have h2 := atomcat_nr st.1 (mtop.moltypeOf molb).atoms molb.nmol
      mtop.maxResiduesPerMoleculeToTriggerRenumber st.2
    have := ih _ (h1.trans h2.symm)
    rw [h2] at this
    have hs : atomsOfBlocks mtop (molb :: rest)
        = molb.nmol * (mtop.moltypeOf molb).atoms.nr + atomsOfBlocks mtop rest := by
      simp [atomsOfBlocks]
    rw [hs, ← Nat.add_assoc]
    exact this

/-- C6: the atom table returned by `gmx_mtop_global_atoms` has the atom count
`nr` equal to the sum over the blocks of `nmol` times the atom count of the
block's molecule type, and its atom array has that many elements. -/
theorem gmx_mtop_global_atoms_nr (mtop : gmx_mtop_t) :
    (gmx_mtop_global_atoms mtop).nr
        = (mtop.molblock.map (fun molb => molb.nmol * (mtop.moltypeOf molb).atoms.nr)).sum
      ∧ (gmx_mtop_global_atoms mtop).atom.length
        = (mtop.molblock.map (fun molb => molb.nmol * (mtop.moltypeOf molb).atoms.nr)).sum := by
  have h := gmx_mtop_global_atoms_foldl mtop mtop.molblock
    (t_atoms.empty, mtop.maxResNumberNotRenumbered) rfl
  simp only [t_atoms.empty, Nat.zero_add] at h
  exact h

/-! ## Exclusion lists -/

theorem globalExclusionListsMols_eq (molt : gmx_moltype_t) :
    ∀ (n atomIndex : Nat) (excls : ListOfLists),
      globalExclusionListsMols molt n atomIndex excls
        = (excls ++ (List.range n).flatMap
              (fun c => molt.excls.map
                (fun l => l.map (fun a => a + ((atomIndex + c * molt.atoms.nr : Nat) : Int)))),
            atomIndex + n * molt.atoms.nr) := by
  intro n
  induction n with
  | zero => intro atomIndex excls; simp [globalExclusionListsMols]
  | succ n ih =>
    intro atomIndex excls
    rw [globalExclusionListsMols, ih, List.range_succ_eq_map, List.flatMap_cons,
      List.flatMap_map]
    simp only [appendListOfLists, List.append_assoc, Nat.zero_mul, Nat.add_zero, Prod.mk.injEq]
    refine ⟨?_, by ring⟩
    congr 2
    apply List.flatMap_congr
    intro c _
    apply List.map_congr_left
    intro l _
    apply List.map_congr_left
    intro a _
    simp only [Function.comp, Nat.succ_eq_add_one]
    push_cast
    ring

theorem globalExclusionListsBlocks_eq (mtop : gmx_mtop_t) :
    ∀ (rest pre : List gmx_molblock_t) (excls : ListOfLists),
      mtop.molblock = pre ++ rest →
      globalExclusionListsBlocks mtop rest (atomsOfBlocks mtop pre) excls
        = excls ++ (List.range' pre.length rest.length).flatMap (blockExclusions mtop) := by
  intro rest
  induction rest with
  | nil => intro pre excls _; simp [globalExclusionListsBlocks]
  | cons molb rest ih =>
    intro pre excls hsplit
    have hsplit' : mtop.molblock = (pre ++ [molb]) ++ rest := by simp [hsplit]
    rw [globalExclusionListsBlocks, globalExclusionListsMols_eq]
    simp only
    rw [← atomsOfBlocks_append, ih (pre ++ [molb]) _ hsplit', List.length_cons,
      List.range'_succ, List.flatMap_cons, List.append_assoc]
    congr 2
    · unfold blockExclusions
      rw [block_of_split mtop pre rest molb hsplit, atomBase_of_split mtop pre _ hsplit]
    · simp

/-- The exclusion lists in closed form: block by block, copy by copy. -/
theorem globalExclusionLists_eq (mtop : gmx_mtop_t) :
    globalExclusionLists mtop
      = (List.range mtop.molblock.length).flatMap (blockExclusions mtop) := by
  unfold globalExclusionLists
  have h := globalExclusionListsBlocks_eq mtop mtop.molblock [] [] rfl
  simp only [List.length_nil, List.nil_append] at h
  rw [List.range_eq_range']
  exact h

/-- Indexing into a concatenation of pieces whose lengths add up to `base`. -/
theorem flatMap_range_getD {α : Type} (G : Nat → List α) (base : Nat → Nat) (d : α)
    (h0 : base 0 = 0) :
    ∀ (k : Nat), (∀ b, b < k → base (b + 1) = base b + (G b).length) →
      ((List.range k).flatMap G).length = base k
        ∧ ∀ mb j, mb < k → j < (G mb).length →
            ((List.range k).flatMap G).getD (base mb + j) d = (G mb).getD j d := by
  intro k
  induction k with
  | zero => intro _; simp [h0]
  | succ k ih =>
    intro hb
    obtain ⟨hlen, hget⟩ := ih (fun b hbk => hb b (by omega))
    rw [List.range_succ, List.flatMap_append, List.flatMap_singleton]
    refine ⟨by rw [List.length_append, hlen, hb k (by omega)], ?_⟩
    intro mb j hmb hj
    by_cases hk : mb = k
    · subst hk
      rw [List.getD_append_right _ _ _ _ (by omega), hlen]
      congr 1
      omega
    · have hlt : mb < k := by omega
      have hle : base mb + (G mb).length ≤ base k := by
        have hmono : ∀ t, mb + 1 + t ≤ k → base (mb + 1) ≤ base (mb + 1 + t) := by
          intro t
          induction t with
          | zero => intro _; exact Nat.le_refl _
          | succ t iht =>
            intro ht
            have := hb (mb + 1 + t) (by omega)
            have := iht (by omega)
            rw [show mb + 1 + (t + 1) = mb + 1 + t + 1 by omega]
            omega
        have h1 := hmono (k - (mb + 1)) (by omega)
        rw [show mb + 1 + (k - (mb + 1)) = k by omega, hb mb (by omega)] at h1
        exact h1
      rw [List.getD_append _ _ _ _ (by omega)]
      exact hget mb j hlt hj

/-- The exclusion lists of one block: their number and the list of local atom `i` of copy `c`. -/
theorem blockExclusions_getD (mtop : gmx_mtop_t) (mb : Nat)
    (hex : (mtop.moltypeOf (mtop.block mb)).excls.length
      = (mtop.moltypeOf (mtop.block mb)).atoms.nr) :
    (blockExclusions mtop mb).length
        = (mtop.block mb).nmol * (mtop.moltypeOf (mtop.block mb)).atoms.nr
      ∧ ∀ c i, c < (mtop.block mb).nmol → i < (mtop.moltypeOf (mtop.block mb)).atoms.nr →
          (blockExclusions mtop mb).getD (c * (mtop.moltypeOf (mtop.block mb)).atoms.nr + i) []
            = ((mtop.moltypeOf (mtop.block mb)).excls.getD i []).map
                (fun a => a + ((atomBase mtop mb
                  + c * (mtop.moltypeOf (mtop.block mb)).atoms.nr : Nat) : Int)) := by
  have h := flatMap_range_getD
    (fun c => (mtop.moltypeOf (mtop.block mb)).excls.map
        (fun l => l.map
          (fun a => a + ((atomBase mtop mb + c * (mtop.moltypeOf (mtop.block mb)).atoms.nr
            : Nat) : Int))))
    (fun c => c * (mtop.moltypeOf (mtop.block mb)).atoms.nr) ([] : List Int) (by simp)
    (mtop.block mb).nmol
    (by intro b _; simp only [List.length_map, hex]; ring)
  refine ⟨h.1, ?_⟩
  intro c i hc hi
  have h2 := h.2 c i hc (by simp only [List.length_map, hex]; exact hi)
  unfold blockExclusions
  rw [h2, List.getD_eq_getElem?_getD, List.getD_eq_getElem?_getD, List.getElem?_map]
  cases hget : (mtop.moltypeOf (mtop.block mb)).excls[i]? with
  | none => simp
  | some l => simp

/-- The number of exclusion lists and the list of the global atom `B + c * n + i`. -/
theorem globalExclusionLists_lists (mtop : gmx_mtop_t)
    (hex : ∀ molb ∈ mtop.molblock,
      (mtop.moltypeOf molb).excls.length = (mtop.moltypeOf molb).atoms.nr) :
    (globalExclusionLists mtop).length
        = (mtop.molblock.map (fun molb => molb.nmol * (mtop.moltypeOf molb).atoms.nr)).sum
      ∧ ∀ mb c i, mb < mtop.molblock.length → c < (mtop.block mb).nmol →
          i < (mtop.moltypeOf (mtop.block mb)).atoms.nr →
          (globalExclusionLists mtop).getD
              (atomBase mtop mb + c * (mtop.moltypeOf (mtop.block mb)).atoms.nr + i) []
            = ((mtop.moltypeOf (mtop.block mb)).excls.getD i []).map
                (fun a => a + ((atomBase mtop mb
                  + c * (mtop.moltypeOf (mtop.block mb)).atoms.nr : Nat) : Int)) := by
  rw [globalExclusionLists_eq]
  have h := flatMap_range_getD (blockExclusions mtop) (atomBase mtop) ([] : List Int)
    (by simp [atomBase, atomsOfBlocks]) mtop.molblock.length
    (by
      intro b hb
      rw [atomBase_succ mtop b hb, (blockExclusions_getD mtop b (hex _ (block_mem mtop b hb))).1])
  constructor
  · rw [h.1]
    simp [atomBase, atomsOfBlocks]
  · intro mb c i hmb hc hi
    obtain ⟨hlen, hget⟩ := blockExclusions_getD mtop mb (hex _ (block_mem mtop mb hmb))
    have hj : c * (mtop.moltypeOf (mtop.block mb)).atoms.nr + i
        < (blockExclusions mtop mb).length := by
      rw [hlen]
      have h2 : (c + 1) * (mtop.moltypeOf (mtop.block mb)).atoms.nr
          ≤ (mtop.block mb).nmol * (mtop.moltypeOf (mtop.block mb)).atoms.nr :=
        Nat.mul_le_mul_right _ hc
      have h3 : (c + 1) * (mtop.moltypeOf (mtop.block mb)).atoms.nr
          = c * (mtop.moltypeOf (mtop.block mb)).atoms.nr
            + (mtop.moltypeOf (mtop.block mb)).atoms.nr := by ring
      omega
    rw [Nat.add_assoc, h.2 mb _ hmb hj, hget c i hc hi]

/-- C9: `globalExclusionLists` returns one exclusion list per global atom, and
the list of global atom `B + c * n + i` is the template exclusion list of local
atom `i` of the block's molecule type with `B + c * n` added to every element,
in the same order. -/
theorem globalExclusionLists_spec (mtop : gmx_mtop_t)
    (hex : ∀ molb ∈ mtop.molblock,
      (mtop.moltypeOf molb).excls.length = (mtop.moltypeOf molb).atoms.nr) :
    (globalExclusionLists mtop).length
        = (mtop.molblock.map (fun molb => molb.nmol * (mtop.moltypeOf molb).atoms.nr)).sum
      ∧ ∀ mb c i, mb < mtop.molblock.length → c < (mtop.block mb).nmol →
          i < (mtop.moltypeOf (mtop.block mb)).atoms.nr →
          (globalExclusionLists mtop).getD
              (atomBase mtop mb + c * (mtop.moltypeOf (mtop.block mb)).atoms.nr + i) []
            = ((mtop.moltypeOf (mtop.block mb)).excls.getD i []).map
                (fun a => a + ((atomBase mtop mb
                  + c * (mtop.moltypeOf (mtop.block mb)).atoms.nr : Nat) : Int)) :=
  globalExclusionLists_lists mtop hex

/-- Witness for C9 on the worked example: 12 lists, and the list of global
atom 9 (atom 1 of the second copy of the second block) is `[8, 9]`. -/
theorem globalExclusionLists_spec_witness :
    (globalExclusionLists exampleMtop).length = 12
      ∧ (globalExclusionLists exampleMtop).getD 9 [] = [8, 9] := by
  have h := globalExclusionLists_spec exampleMtop (by decide)
  refine ⟨h.1, ?_⟩
  have h2 := h.2 1 1 1 (by decide) (by decide) (by decide)
  exact h2

theorem atomBase_length (mtop : gmx_mtop_t) :
    atomBase mtop mtop.molblock.length = totalAtoms mtop := by
  simp [atomBase, totalAtoms]

/-- Every global atom number below the total is `B + c * n + i` for one block,
copy and local atom. -/
theorem locate_atom (mtop : gmx_mtop_t) :
    ∀ (k a : Nat), k ≤ mtop.molblock.length → a < atomBase mtop k →
      ∃ mb c i, mb < mtop.molblock.length ∧ c < (mtop.block mb).nmol
        ∧ i < (mtop.moltypeOf (mtop.block mb)).atoms.nr
        ∧ a = atomBase mtop mb + c * (mtop.moltypeOf (mtop.block mb)).atoms.nr + i := by
  intro k
  induction k with
  | zero =>
    intro a _ ha
    simp [atomBase, atomsOfBlocks] at ha
  | succ k ih =>
    intro a hk ha
    by_cases hlt : a < atomBase mtop k
    · exact ih a (by omega) hlt
    · rw [atomBase_succ mtop k (by omega)] at ha
      have hj : a - atomBase mtop k
          < (mtop.block k).nmol * (mtop.moltypeOf (mtop.block k)).atoms.nr := by omega
      have hn : 0 < (mtop.moltypeOf (mtop.block k)).atoms.nr := by
        rcases Nat.eq_zero_or_pos (mtop.moltypeOf (mtop.block k)).atoms.nr with h0 | h0
        · rw [h0] at hj; simp at hj
        · exact h0
      refine ⟨k, (a - atomBase mtop k) / (mtop.moltypeOf (mtop.block k)).atoms.nr,
        (a - atomBase mtop k) % (mtop.moltypeOf (mtop.block k)).atoms.nr, by omega, ?_,
        Nat.mod_lt _ hn, ?_⟩
      · exact (Nat.div_lt_iff_lt_mul hn).mpr hj
      · have := Nat.div_add_mod' (a - atomBase mtop k) (mtop.moltypeOf (mtop.block k)).atoms.nr
        omega

theorem getD_mem_of_lt {α : Type} (l : List α) (i : Nat) (d : α) (h : i < l.length) :
    l.getD i d ∈ l := by
  rw [List.getD_eq_getElem?_getD, List.getElem?_eq_getElem h]
  exact List.getElem_mem h

/-- One direction of the symmetry of the expanded exclusions. -/
theorem globalExclusionLists_symmetric_aux (mtop : gmx_mtop_t)
    (hex : ∀ molb ∈ mtop.molblock,
      (mtop.moltypeOf molb).excls.length = (mtop.moltypeOf molb).atoms.nr)
    (hsym : ∀ molb ∈ mtop.molblock, ∀ i < (mtop.moltypeOf molb).atoms.nr,
      ∀ j < (mtop.moltypeOf molb).atoms.nr,
      ((j : Int) ∈ (mtop.moltypeOf molb).excls.getD i []
        ↔ (i : Int) ∈ (mtop.moltypeOf molb).excls.getD j []))
    (hrange : ∀ molb ∈ mtop.molblock, ∀ l ∈ (mtop.moltypeOf molb).excls, ∀ x ∈ l,
      0 ≤ x ∧ x < ((mtop.moltypeOf molb).atoms.nr : Int))
    (a b : Nat) (ha : a < totalAtoms mtop)
    (hmem : (b : Int) ∈ (globalExclusionLists mtop).getD a []) :
    (a : Int) ∈ (globalExclusionLists mtop).getD b [] := by
  obtain ⟨mb, c, i, hmb, hc, hi, rfl⟩ :=
    locate_atom mtop mtop.molblock.length a (Nat.le_refl _) (by rw [atomBase_length]; exact ha)
  have hm := block_mem mtop mb hmb
  have hspec := (globalExclusionLists_lists mtop hex).2
  rw [hspec mb c i hmb hc hi, List.mem_map] at hmem
  obtain ⟨y, hy, hyb⟩ := hmem
  have hyr := hrange _ hm _
    (getD_mem_of_lt _ i [] (by rw [hex _ hm]; exact hi)) y hy
  obtain ⟨x, rfl⟩ : ∃ x : Nat, y = (x : Int) := ⟨y.toNat, by omega⟩
  have hx : x < (mtop.moltypeOf (mtop.block mb)).atoms.nr := by omega
  have hb : b = atomBase mtop mb + c * (mtop.moltypeOf (mtop.block mb)).atoms.nr + x := by
    have : (b : Int)
        = ((atomBase mtop mb + c * (mtop.moltypeOf (mtop.block mb)).atoms.nr + x : Nat) : Int) := by
      rw [← hyb]; push_cast; ring
    exact_mod_cast this
  rw [hb, hspec mb c x hmb hc hx, List.mem_map]
  refine ⟨(i : Int), (hsym _ hm i hi x hx).mp hy, ?_⟩
  push_cast
  ring

/-- C10: when the template exclusions of every molecule type are symmetric and
refer to local atoms only, the lists returned by `globalExclusionLists` are
symmetric: global atom `b` is in the list of `a` if and only if `a` is in the
list of `b`. -/
theorem globalExclusionLists_symmetric (mtop : gmx_mtop_t)
    (hex : ∀ molb ∈ mtop.molblock,
      (mtop.moltypeOf molb).excls.length = (mtop.moltypeOf molb).atoms.nr)
    (hsym : ∀ molb ∈ mtop.molblock, ∀ i < (mtop.moltypeOf molb).atoms.nr,
      ∀ j < (mtop.moltypeOf molb).atoms.nr,
      ((j : Int) ∈ (mtop.moltypeOf molb).excls.getD i []
        ↔ (i : Int) ∈ (mtop.moltypeOf molb).excls.getD j []))
    (hrange : ∀ molb ∈ mtop.molblock, ∀ l ∈ (mtop.moltypeOf molb).excls, ∀ x ∈ l,
      0 ≤ x ∧ x < ((mtop.moltypeOf molb).atoms.nr : Int))
    (a b : Nat) (ha : a < (globalExclusionLists mtop).length)
    (hb : b < (globalExclusionLists mtop).length) :
    (b : Int) ∈ (globalExclusionLists mtop).getD a []
      ↔ (a : Int) ∈ (globalExclusionLists mtop).getD b [] := by
  have hlen : (globalExclusionLists mtop).length = totalAtoms mtop :=
    (globalExclusionLists_lists mtop hex).1
  rw [hlen] at ha hb
  exact ⟨globalExclusionLists_symmetric_aux mtop hex hsym hrange a b ha,
    globalExclusionLists_symmetric_aux mtop hex hsym hrange b a hb⟩

/-- Witness for C10 on the worked example: the global atoms 3 and 5 (second
copy of the first block) exclude each other, the atoms 3 and 6 do not. -/
theorem globalExclusionLists_symmetric_witness :
    ((5 : Int) ∈ (globalExclusionLists exampleMtop).getD 3 []
        ↔ (3 : Int) ∈ (globalExclusionLists exampleMtop).getD 5 [])
      ∧ (5 : Int) ∈ (globalExclusionLists exampleMtop).getD 3 []
      ∧ (6 : Int) ∉ (globalExclusionLists exampleMtop).getD 3 [] :=
  ⟨globalExclusionLists_symmetric exampleMtop (by decide) (by decide) (by decide) 3 5
    (by decide) (by decide), by decide, by decide⟩

/-! ## The intermolecular list -/

theorem copyIListsBlocks_withoutIntermolecular (T : Constants) (mtop : gmx_mtop_t)
    (mergeConstr : Bool) (fda : Option FDASettings) :
    ∀ (blocks : List gmx_molblock_t) (natoms : Nat) (idef : InteractionDefinitions),
      copyIListsBlocks T (withoutIntermolecular mtop) mergeConstr fda blocks natoms idef
        = copyIListsBlocks T mtop mergeConstr fda blocks natoms idef := by
  intro blocks
  induction blocks with
  | nil => intro natoms idef; rfl
  | cons molb rest ih =>
    intro natoms idef
    simp only [copyIListsBlocks]
    have hb : copyIListsBlock T (withoutIntermolecular mtop) mergeConstr fda natoms idef molb
        = copyIListsBlock T mtop mergeConstr fda natoms idef molb := rfl
    rw [hb]
    cases copyIListsBlock T mtop mergeConstr fda natoms idef molb with
    | error e => rfl
    | ok idef1 => exact ih _ idef1

/-- C17: for a topology with intermolecular interactions, every output list of
`copyIListsFromMtop` is, in every mode, the list that the same call yields for
the topology stripped of its intermolecular interactions, followed by the
intermolecular list of that kind, element for element: the intermolecular list
is the last segment, is not offset, and occurs once. -/
theorem copyIListsFromMtop_intermolecular_last (T : Constants) (mtop : gmx_mtop_t)
    (mergeConstr : Bool) (fda : Option FDASettings) (idef : InteractionDefinitions) (f : Nat)
    (hf : f < T.F_NRE) (hinter : mtop.bIntermolecularInteractions = true)
    (h : copyIListsFromMtop T mtop (emptyIdef mtop) mergeConstr fda = .ok idef) :
    ∃ idef0,
      copyIListsFromMtop T (withoutIntermolecular mtop)
          (emptyIdef (withoutIntermolecular mtop)) mergeConstr fda = .ok idef0
        ∧ idef.il f = idef0.il f ++ mtop.intermolecular_ilist f := by
  obtain ⟨idef1, hb, hi⟩ := copyIListsFromMtop_ok T mtop _ idef mergeConstr fda h
  refine ⟨{ idef1 with il := idef1.il, ilsort := IlSort.ilsortNO_FE }, ?_, ?_⟩
  · unfold copyIListsFromMtop
    have hb0 : copyIListsBlocks T (withoutIntermolecular mtop) mergeConstr fda
        (withoutIntermolecular mtop).molblock 0 (emptyIdef (withoutIntermolecular mtop))
        = .ok idef1 := by
      rw [copyIListsBlocks_withoutIntermolecular]
      exact hb
    rw [hb0]
    rfl
  · rw [hi f hf]
    simp [intermolecularPart, hinter]

/-- Witness for C17 on the worked example, bonds (kind 0), with constraint
merging and the filter on. -/
theorem copyIListsFromMtop_intermolecular_last_witness :
    ∃ idef idef0,
      copyIListsFromMtop exampleConstants exampleMtop (emptyIdef exampleMtop) true
          (some exampleFDASettings) = .ok idef
        ∧ copyIListsFromMtop exampleConstants (withoutIntermolecular exampleMtop)
            (emptyIdef (withoutIntermolecular exampleMtop)) true (some exampleFDASettings)
            = .ok idef0
        ∧ idef0.il 0 = [0, 0, 1, 1, 1, 2, 4, 6, 7]
        ∧ idef.il 0 = idef0.il 0 ++ [5, 0, 11] := by
  obtain ⟨idef0, h0, h1⟩ := copyIListsFromMtop_intermolecular_last exampleConstants exampleMtop
    true (some exampleFDASettings) _ 0 (by decide) rfl rfl
  have e : copyIListsFromMtop exampleConstants (withoutIntermolecular exampleMtop)
      (emptyIdef (withoutIntermolecular exampleMtop)) true (some exampleFDASettings)
      = .ok _ := rfl
  rw [e] at h0
  simp only [Except.ok.injEq] at h0
  subst h0
  exact ⟨_, _, rfl, rfl, by decide, h1⟩

/-! ## The filter -/

theorem entriesOf_nil (nral : Nat) : entriesOf nral [] = [] := by
  simp [entriesOf]

theorem entriesOf_entry_append (nral : Nat) (e rest : List Int) (he : e.length = 1 + nral) :
    entriesOf nral (e ++ rest) = e :: entriesOf nral rest := by
  unfold entriesOf
  have hlen : (e ++ rest).length / (1 + nral) = rest.length / (1 + nral) + 1 := by
    rw [List.length_append, he, Nat.add_comm (1 + nral), Nat.add_div_right _ (by omega)]
  rw [hlen, List.range_succ_eq_map, List.map_cons, List.map_map]
  congr 1
  · simp [List.take_left' he]
  · apply List.map_congr_left
    intro i _
    simp only [Function.comp, Nat.succ_eq_add_one]
    rw [show (i + 1) * (1 + nral) = e.length + i * (1 + nral) by rw [he]; ring,
      List.drop_append]

theorem entriesOf_append (nral : Nat) (b : List Int) :
    ∀ (k : Nat) (a : List Int), a.length = k * (1 + nral) →
      entriesOf nral (a ++ b) = entriesOf nral a ++ entriesOf nral b := by
  intro k
  induction k with
  | zero =>
    intro a ha
    have : a = [] := List.length_eq_zero.mp (by simpa using ha)
    subst this
    simp [entriesOf_nil]
  | succ k ih =>
    intro a ha
    have h1 : (a.take (1 + nral)).length = 1 + nral := by
      rw [List.length_take, ha]
      have : 1 + nral ≤ (k + 1) * (1 + nral) := Nat.le_mul_of_pos_left _ (by omega)
      omega
    have h2 : (a.drop (1 + nral)).length = k * (1 + nral) := by
      rw [List.length_drop, ha]
      have : (k + 1) * (1 + nral) = k * (1 + nral) + (1 + nral) := by ring
      omega
    have h3 : a = a.take (1 + nral) ++ a.drop (1 + nral) := (List.take_append_drop _ _).symm
    rw [h3, List.append_assoc, entriesOf_entry_append nral _ _ h1, ih _ h2,
      entriesOf_entry_append nral _ _ h1, List.cons_append]

theorem filterEntries_nil (nral : Nat) (g1 g2 : List Int) : filterEntries nral g1 g2 [] = [] := by
  simp [filterEntries, entriesOf_nil]

theorem filterEntries_append (nral : Nat) (g1 g2 a b : List Int)
    (h : (1 + nral) ∣ a.length) :
    filterEntries nral g1 g2 (a ++ b)
      = filterEntries nral g1 g2 a ++ filterEntries nral g1 g2 b := by
  obtain ⟨k, hk⟩ := h
  unfold filterEntries
  rw [entriesOf_append nral b k a (by rw [hk, Nat.mul_comm]), List.filter_append,
    List.flatten_append]

theorem filterEntries_entry_append (nral : Nat) (g1 g2 e rest : List Int)
    (he : e.length = 1 + nral) :
    filterEntries nral g1 g2 (e ++ rest)
      = (if entryInGroups g1 g2 e then e else []) ++ filterEntries nral g1 g2 rest := by
  unfold filterEntries
  rw [entriesOf_entry_append nral e rest he, List.filter_cons]
  split <;> simp

theorem filterEntries_flatMap {α : Type} (nral : Nat) (g1 g2 : List Int) (G : α → List Int) :
    ∀ (l : List α), (∀ x ∈ l, (1 + nral) ∣ (G x).length) →
      filterEntries nral g1 g2 (l.flatMap G)
        = l.flatMap (fun x => filterEntries nral g1 g2 (G x)) := by
  intro l
  induction l with
  | nil => intro _; simp [filterEntries_nil]
  | cons x xs ih =>
    intro h
    rw [List.flatMap_cons, List.flatMap_cons,
      filterEntries_append nral g1 g2 _ _ (h x (List.mem_cons_self _ _)),
      ih (fun y hy => h y (List.mem_cons_of_mem _ hy))]

/-- The offset of a list that starts with an entry. -/
theorem offsetAtoms_cons (nral : Nat) (d : Int) (p : Int) (rest : List Int) :
    offsetAtoms nral d (p :: rest)
      = (p :: (rest.take nral).map (fun a => d + a)) ++ offsetAtoms nral d (rest.drop nral) := by
  rw [← ilistcatEntries_offsetAtoms, List.length_cons, ilistcatEntries,
    ilistcatEntries_eq nral d rest.length (rest.drop nral) 0 (by simp) (Nat.zero_mod _)]
  rfl

theorem entryInGroups_offset (g1 g2 : List Int) (d p : Int) (atoms : List Int) :
    entryInGroups g1 g2 (p :: atoms.map (fun a => d + a)) = pf_needed g1 g2 d atoms := by
  simp only [entryInGroups, pf_needed, List.tail_cons, List.any_map]
  rfl

/-- The cursor loop of `pf_ilistcat` for one copy keeps exactly the entries of
the offset source list that have an atom in one of the groups. -/
theorem pf_ilistcatEntries_eq (nral : Nat) (g1 g2 : List Int) (d : Int) :
    ∀ (fuel : Nat) (src : List Int), src.length ≤ fuel → (1 + nral) ∣ src.length →
      pf_ilistcatEntries nral g1 g2 d fuel src
        = filterEntries nral g1 g2 (offsetAtoms nral d src) := by
  intro fuel
  induction fuel with
  | zero =>
    intro src hl _
    have : src = [] := List.length_eq_zero.mp (Nat.le_zero.mp hl)
    subst this
    simp [pf_ilistcatEntries, offsetAtoms, offsetAtomsFrom, filterEntries_nil]
  | succ fuel ih =>
    intro src hl hd
    cases src with
    | nil => simp [pf_ilistcatEntries, offsetAtoms, offsetAtomsFrom, filterEntries_nil]
    | cons p rest =>
      have hle : nral ≤ rest.length := by
        have := Nat.le_of_dvd (by simp) hd
        simp only [List.length_cons] at this
        omega
      have hd' : (1 + nral) ∣ (rest.drop nral).length := by
        rw [List.length_drop]
        have h2 : (1 + nral) ∣ (rest.length + 1) - (1 + nral) :=
          Nat.dvd_sub' (by simpa using hd) (dvd_refl _)
        rwa [show rest.length + 1 - (1 + nral) = rest.length - nral by omega] at h2
      have hl' : (rest.drop nral).length ≤ fuel := by
        simp only [List.length_cons] at hl
        rw [List.length_drop]
        omega
      have he : (p :: (rest.take nral).map (fun a => d + a)).length = 1 + nral := by
        simp [hle, Nat.add_comm]
      rw [pf_ilistcatEntries, offsetAtoms_cons, filterEntries_entry_append nral g1 g2 _ _ he,
        entryInGroups_offset, ih _ hl' hd']

theorem pf_ilistcatCopies_eq (nral : Nat) (g1 g2 : List Int) (src : List Int) (snum : Int) :
    ∀ (copies : Nat) (dnum : Int) (tmp : List Int),
      pf_ilistcatCopies nral g1 g2 src snum copies dnum tmp
        = tmp ++ (List.range copies).flatMap
            (fun c => pf_ilistcatEntries nral g1 g2 (dnum + (c : Int) * snum) src.length src) := by
  intro copies
  induction copies with
  | zero => intro dnum tmp; simp [pf_ilistcatCopies]
  | succ n ih =>
    intro dnum tmp
    rw [pf_ilistcatCopies, ih, List.range_succ_eq_map, List.flatMap_cons, List.flatMap_map,
      List.append_assoc]
    congr 2
    · simp
    · apply List.flatMap_congr
      intro c _
      congr 1
      push_cast
      ring

theorem offsetAtoms_length (nral : Nat) (d : Int) (l : List Int) :
    (offsetAtoms nral d l).length = l.length :=
  offsetAtomsFrom_length nral d l 0

/-- What `pf_ilistcat` appends, in terms of what `ilistcat` appends. -/
theorem pf_ilistcat_eq (T : Constants) (ftype : Nat) (dest src : List Int) (copies : Nat)
    (dnum snum : Int) (s : FDASettings)
    (hmask : s.type &&& (T.InteractionType_BONDED + T.InteractionType_NB14) ≠ 0)
    (hwf : (1 + NRAL T ftype) ∣ src.length) :
    pf_ilistcat T ftype dest src copies dnum snum s
      = dest ++ filterEntries (NRAL T ftype) (s.groupAtoms s.index_group1)
          (s.groupAtoms s.index_group2)
          ((List.range copies).flatMap
            (fun c => offsetAtoms (NRAL T ftype) (dnum + (c : Int) * snum) src)) := by
  unfold pf_ilistcat
  rw [if_neg hmask, pf_ilistcatCopies_eq, List.nil_append,
    filterEntries_flatMap _ _ _ _ _ (fun c _ => by rw [offsetAtoms_length]; exact hwf)]
  congr 1
  apply List.flatMap_congr
  intro c _
  exact pf_ilistcatEntries_eq _ _ _ _ _ _ (Nat.le_refl _) hwf

/-- C19: when the interaction-type mask of the settings includes bonded or 1-4
pair interactions, `pf_ilistcat` keeps the previous contents of the destination
and appends exactly those entries of what `ilistcat` appends for the same
arguments that have at least one (offset) atom in group 1 or group 2, in the
same order and with the same parameter ids and atom indices. -/
theorem pf_ilistcat_filters_ilistcat (T : Constants) (ftype : Nat) (dest src : List Int)
    (copies : Nat) (dnum snum : Int) (s : FDASettings)
    (hmask : s.type &&& (T.InteractionType_BONDED + T.InteractionType_NB14) ≠ 0)
    (hwf : (1 + NRAL T ftype) ∣ src.length) :
    pf_ilistcat T ftype dest src copies dnum snum s
      = dest ++ filterEntries (NRAL T ftype) (s.groupAtoms s.index_group1)
          (s.groupAtoms s.index_group2)
          ((ilistcat T ftype dest src copies dnum snum).drop dest.length) := by
  rw [pf_ilistcat_eq T ftype dest src copies dnum snum s hmask hwf, ilistcat_eq,
    List.drop_left]

/-- Witness for C19: of the three copies of the bond `[4, 0, 1]` placed at the
atoms 6 to 11, only the first has an atom in the groups `[0, 1]` and `[6, 7]`. -/
theorem pf_ilistcat_filters_ilistcat_witness :
    pf_ilistcat exampleConstants 0 [9, 9, 9] [4, 0, 1] 3 6 2 exampleFDASettings
        = [9, 9, 9, 4, 6, 7]
      ∧ ilistcat exampleConstants 0 [9, 9, 9] [4, 0, 1] 3 6 2
        = [9, 9, 9, 4, 6, 7, 4, 8, 9, 4, 10, 11] := by
  have h := pf_ilistcat_filters_ilistcat exampleConstants 0 [9, 9, 9] [4, 0, 1] 3 6 2
    exampleFDASettings (by decide) (by decide)
  refine ⟨?_, by decide⟩
  rw [h]
  decide

/-! ## What a block appends, in every mode -/

theorem ilistcat_one (T : Constants) (ftype : Nat) (dest src : List Int) (dnum snum : Int) :
    ilistcat T ftype dest src 1 dnum snum = dest ++ offsetAtoms (NRAL T ftype) dnum src := by
  rw [ilistcat_eq]
  have h1 : List.range 1 = [0] := rfl
  rw [h1, List.flatMap_singleton]
  simp

/-- The merging loop appends, copy by copy, the offset constraints followed by
the equally offset constraints without connection. -/
theorem mergeConstrLoop_eq (T : Constants) (ftype : Nat) (molt : gmx_moltype_t)
    (destnr srcnr : Nat) :
    ∀ (n mol : Nat) (dest : List Int),
      mergeConstrLoop T ftype molt destnr srcnr n mol dest
        = dest ++ (List.range n).flatMap
            (fun c =>
              offsetAtoms (NRAL T ftype)
                  ((destnr : Int) + ((mol + c : Nat) : Int) * (srcnr : Int))
                  (molt.ilist T.F_CONSTR)
                ++ offsetAtoms (NRAL T ftype)
                  ((destnr : Int) + ((mol + c : Nat) : Int) * (srcnr : Int))
                  (molt.ilist T.F_CONSTRNC)) := by
  intro n
  induction n with
  | zero => intro mol dest; simp [mergeConstrLoop]
  | succ n ih =>
    intro mol dest
    rw [mergeConstrLoop]
    simp only [ilistcat_one]
    rw [ih, List.range_succ_eq_map, List.flatMap_cons, List.flatMap_map]
    simp only [List.append_assoc, Nat.add_zero]
    congr 3
    apply List.flatMap_congr
    intro c _
    simp only [Function.comp, Nat.succ_eq_add_one]
    rw [show mol + 1 + c = mol + (c + 1) by omega]

/-- In every mode, an iteration of the loop over the function types appends to
the list it rewrites. -/
theorem copyIListsSlot_append (T : Constants) (molt : gmx_moltype_t) (molb : gmx_molblock_t)
    (mergeConstr : Bool) (fda : Option FDASettings) (destnr srcnr f : Nat) (old : List Int) :
    copyIListsSlot T molt molb mergeConstr fda destnr srcnr f old
      = old ++ copyIListsSlot T molt molb mergeConstr fda destnr srcnr f [] := by
  unfold copyIListsSlot
  split
  · rw [mergeConstrLoop_eq, mergeConstrLoop_eq T f molt destnr srcnr molb.nmol 0 [],
      List.nil_append]
  · split
    · cases fda with
      | none => simp only; rw [ilistcat_eq, ilistcat_eq T f [], List.nil_append]
      | some s =>
        simp only
        split
        · unfold pf_ilistcat
          split <;> simp
        · rw [ilistcat_eq, ilistcat_eq T f [], List.nil_append]
    · simp

/-- In every mode, the block loop appends to every list what the blocks it
visits append, up to the parameter ids of the restraint kinds. -/
theorem copyIListsBlocks_appended (T : Constants) (mtop : gmx_mtop_t) (mergeConstr : Bool)
    (fda : Option FDASettings) :
    ∀ (rest pre : List gmx_molblock_t) (idef idef' : InteractionDefinitions),
      mtop.molblock = pre ++ rest →
      copyIListsBlocks T mtop mergeConstr fda rest (atomsOfBlocks mtop pre) idef = .ok idef' →
      ∀ f, f < T.F_NRE →
        SameAtoms 1
            (idef.il f ++ (List.range' pre.length rest.length).flatMap
              (blockAppended T mtop mergeConstr fda f))
            (idef'.il f)
          ∧ (f ≠ T.F_POSRES → f ≠ T.F_FBPOSRES →
              idef'.il f
                = idef.il f ++ (List.range' pre.length rest.length).flatMap
                    (blockAppended T mtop mergeConstr fda f)) := by
  intro rest
  induction rest with
  | nil =>
    intro pre idef idef' _ h f _
    simp only [copyIListsBlocks, Except.ok.injEq] at h
    subst h
    simp [sameAtoms_refl]
  | cons molb rest ih =>
    intro pre idef idef' hsplit h f hf
    simp only [copyIListsBlocks] at h
    split at h
    · exact absurd h (by simp)
    · rename_i idef1 hb
      have hsplit' : mtop.molblock = (pre ++ [molb]) ++ rest := by simp [hsplit]
      rw [← atomsOfBlocks_append] at h
      obtain ⟨a2, b2⟩ := ih (pre ++ [molb]) idef1 idef' hsplit' h f hf
      obtain ⟨a1, b1⟩ := copyIListsBlock_il T mtop mergeConstr fda _ idef idef1 molb hb f
      rw [if_pos hf, copyIListsSlot_append] at a1 b1
      have hexp : copyIListsSlot T (mtop.moltypeOf molb) molb mergeConstr fda
          (atomsOfBlocks mtop pre) (mtop.moltypeOf molb).atoms.nr f []
          = blockAppended T mtop mergeConstr fda f pre.length := by
        unfold blockAppended
        rw [block_of_split mtop pre rest molb hsplit, atomBase_of_split mtop pre _ hsplit]
      rw [hexp] at a1 b1
      have hlen : (pre ++ [molb]).length = pre.length + 1 := by simp
      rw [hlen] at a2 b2
      have hr : (List.range' pre.length (molb :: rest).length).flatMap
            (blockAppended T mtop mergeConstr fda f)
          = blockAppended T mtop mergeConstr fda f pre.length
            ++ (List.range' (pre.length + 1) rest.length).flatMap
                (blockAppended T mtop mergeConstr fda f) := by
        rw [List.length_cons, List.range'_succ, List.flatMap_cons]
      rw [hr, ← List.append_assoc]
      constructor
      · exact sameAtoms_trans (sameAtoms_append a1 _) a2
      · intro hP hFB
        rw [b2 hP hFB, b1 hP hFB]

/-- In every mode, an output list of a kind other than the restraint kinds is
what the blocks append, block by block, followed by the intermolecular list. -/
theorem copyIListsFromMtop_appended (T : Constants) (mtop : gmx_mtop_t) (mergeConstr : Bool)
    (fda : Option FDASettings) (idef : InteractionDefinitions) (f : Nat) (hf : f < T.F_NRE)
    (hP : f ≠ T.F_POSRES) (hFB : f ≠ T.F_FBPOSRES)
    (h : copyIListsFromMtop T mtop (emptyIdef mtop) mergeConstr fda = .ok idef) :
    idef.il f
      = (List.range mtop.molblock.length).flatMap (blockAppended T mtop mergeConstr fda f)
        ++ intermolecularPart mtop f := by
  obtain ⟨idef1, hb, hi⟩ := copyIListsFromMtop_ok T mtop _ idef mergeConstr fda h
  have hb' : copyIListsBlocks T mtop mergeConstr fda mtop.molblock (atomsOfBlocks mtop [])
      (emptyIdef mtop) = .ok idef1 := hb
  obtain ⟨_, b⟩ := copyIListsBlocks_appended T mtop mergeConstr fda mtop.molblock [] _ idef1
    rfl hb' f hf
  rw [hi f hf, b hP hFB]
  simp [emptyIdef, List.range_eq_range']

/-- Outside the merged constraint kinds, a block appends its plain expansion
when the filter is off. -/
theorem blockAppended_plain (T : Constants) (mtop : gmx_mtop_t) (mergeConstr : Bool)
    (fda : Option FDASettings) (hoff : filterOff fda = true) (f mb : Nat)
    (hm : mergeConstr = true → f ≠ T.F_CONSTR ∧ f ≠ T.F_CONSTRNC) :
    blockAppended T mtop mergeConstr fda f mb = blockExpansion T mtop f mb := by
  have e : blockAppended T mtop mergeConstr fda f mb = blockAppended T mtop false fda f mb := by
    cases mergeConstr with
    | false => rfl
    | true =>
      obtain ⟨h1, h2⟩ := hm rfl
      simp [blockAppended, copyIListsSlot, h1, h2]
  rw [e]
  unfold blockAppended
  rw [copyIListsSlot_plain T _ _ fda hoff]
  simp [blockExpansion]

/-- Outside the merged constraint kinds, with the filter on a block appends the
entries of its plain expansion that have an atom in a group, or nothing when
the mask selects neither bonded nor 1-4 pair interactions. -/
theorem blockAppended_filtered (T : Constants) (mtop : gmx_mtop_t) (mergeConstr : Bool)
    (s : FDASettings) (hon : s.bonded_exclusion_on = true) (f mb : Nat)
    (hm : mergeConstr = true → f ≠ T.F_CONSTR ∧ f ≠ T.F_CONSTRNC)
    (hwf : (1 + NRAL T f) ∣ ((mtop.moltypeOf (mtop.block mb)).ilist f).length) :
    blockAppended T mtop mergeConstr (some s) f mb
      = if s.type &&& (T.InteractionType_BONDED + T.InteractionType_NB14) = 0 then []
        else filterEntries (NRAL T f) (s.groupAtoms s.index_group1)
          (s.groupAtoms s.index_group2) (blockExpansion T mtop f mb) := by
  have e : blockAppended T mtop mergeConstr (some s) f mb
      = pf_ilistcat T f [] ((mtop.moltypeOf (mtop.block mb)).ilist f) (mtop.block mb).nmol
          (atomBase mtop mb) (mtop.moltypeOf (mtop.block mb)).atoms.nr s := by
    cases mergeConstr with
    | false => simp [blockAppended, copyIListsSlot, hon]
    | true =>
      obtain ⟨h1, h2⟩ := hm rfl
      simp [blockAppended, copyIListsSlot, h1, h2, hon]
  rw [e]
  split
  · rename_i h0
    simp [pf_ilistcat, h0]
  · rename_i h0
    rw [pf_ilistcat_eq T f _ _ _ _ _ s h0 hwf, List.nil_append]
    rfl

theorem blockExpansion_dvd (T : Constants) (mtop : gmx_mtop_t) (f mb : Nat)
    (hwf : (1 + NRAL T f) ∣ ((mtop.moltypeOf (mtop.block mb)).ilist f).length) :
    (1 + NRAL T f) ∣ (blockExpansion T mtop f mb).length := by
  rw [blockExpansion_length]
  exact Dvd.dvd.mul_left hwf _

/-- C20 (counterexample): in the worked example the constraints (kind 4, which
is not flagged as bonded) of the three two-atom molecules are all present with
the filter off, and only the one that touches group 2 is left with the filter
on. -/
theorem copyIListsFromMtop_filter_drops_constraints :
    ∃ idefOn idefOff,
      copyIListsFromMtop exampleConstants exampleMtop (emptyIdef exampleMtop) false
          (some exampleFDASettings) = .ok idefOn
        ∧ copyIListsFromMtop exampleConstants exampleMtop (emptyIdef exampleMtop) false
            none = .ok idefOff
        ∧ exampleFDASettings.bonded_exclusion_on = true
        ∧ exampleConstants.flags 4 = 0
        ∧ idefOn.il 4 = [4, 6, 7]
        ∧ idefOff.il 4 = [4, 6, 7, 4, 8, 9, 4, 10, 11]
        ∧ idefOn.il 4 ≠ idefOff.il 4 :=
  ⟨_, _, rfl, rfl, rfl, rfl, by decide, by decide, by decide⟩

/-- With filtering enabled the filter applies to every interaction kind
alike. For every kind `f` other than the two restraint kinds
(and other than the two constraint kinds when constraints are merged), the
output list is, when the mask selects bonded or 1-4 pair interactions, the
entries of the unfiltered expansion of the molecule blocks that have an atom in
group 1 or group 2, and no entry of the molecule blocks otherwise, followed by
the intermolecular list; the list produced with filtering disabled is that
unfiltered expansion followed by the intermolecular list. -/
theorem copyIListsFromMtop_filter_every_kind (T : Constants) (mtop : gmx_mtop_t)
    (mergeConstr : Bool) (s : FDASettings) (idef : InteractionDefinitions) (f : Nat)
    (hf : f < T.F_NRE) (hP : f ≠ T.F_POSRES) (hFB : f ≠ T.F_FBPOSRES)
    (hm : mergeConstr = true → f ≠ T.F_CONSTR ∧ f ≠ T.F_CONSTRNC)
    (hon : s.bonded_exclusion_on = true)
    (hwf : ∀ molb ∈ mtop.molblock, (1 + NRAL T f) ∣ ((mtop.moltypeOf molb).ilist f).length)
    (h : copyIListsFromMtop T mtop (emptyIdef mtop) mergeConstr (some s) = .ok idef) :
    idef.il f
        = (if s.type &&& (T.InteractionType_BONDED + T.InteractionType_NB14) = 0 then []
           else filterEntries (NRAL T f) (s.groupAtoms s.index_group1)
             (s.groupAtoms s.index_group2) (moleculeBlockExpansion T mtop f))
          ++ intermolecularPart mtop f
      ∧ ∀ idefOff, copyIListsFromMtop T mtop (emptyIdef mtop) mergeConstr none = .ok idefOff →
          idefOff.il f = moleculeBlockExpansion T mtop f ++ intermolecularPart mtop f := by
  constructor
  · rw [copyIListsFromMtop_appended T mtop mergeConstr (some s) idef f hf hP hFB h]
    congr 1
    have e : (List.range mtop.molblock.length).flatMap (blockAppended T mtop mergeConstr (some s) f)
        = (List.range mtop.molblock.length).flatMap
            (fun mb => if s.type &&& (T.InteractionType_BONDED + T.InteractionType_NB14) = 0
              then []
              else filterEntries (NRAL T f) (s.groupAtoms s.index_group1)
                (s.groupAtoms s.index_group2) (blockExpansion T mtop f mb)) := by
      apply List.flatMap_congr
      intro mb hmb
      exact blockAppended_filtered T mtop mergeConstr s hon f mb hm
        (hwf _ (block_mem mtop mb (List.mem_range.mp hmb)))
    rw [e]
    split
    · simp
    · unfold moleculeBlockExpansion
      rw [filterEntries_flatMap]
      intro mb hmb
      exact blockExpansion_dvd T mtop f mb (hwf _ (block_mem mtop mb (List.mem_range.mp hmb)))
  · intro idefOff hoff
    rw [copyIListsFromMtop_appended T mtop mergeConstr none idefOff f hf hP hFB hoff]
    congr 1
    unfold moleculeBlockExpansion
    apply List.flatMap_congr
    intro mb _
    exact blockAppended_plain T mtop mergeConstr none rfl f mb hm

theorem copyIListsFromMtop_filter_every_kind_witness :
    ∃ idef,
      copyIListsFromMtop exampleConstants exampleMtop (emptyIdef exampleMtop) false
          (some exampleFDASettings) = .ok idef
        ∧ moleculeBlockExpansion exampleConstants exampleMtop 4 = [4, 6, 7, 4, 8, 9, 4, 10, 11]
        ∧ idef.il 4
          = (if exampleFDASettings.type
                &&& (exampleConstants.InteractionType_BONDED
                      + exampleConstants.InteractionType_NB14) = 0 then []
             else filterEntries (NRAL exampleConstants 4)
               (exampleFDASettings.groupAtoms exampleFDASettings.index_group1)
               (exampleFDASettings.groupAtoms exampleFDASettings.index_group2)
               (moleculeBlockExpansion exampleConstants exampleMtop 4))
            ++ intermolecularPart exampleMtop 4 :=
  ⟨_, rfl, by decide,
    (copyIListsFromMtop_filter_every_kind exampleConstants exampleMtop false exampleFDASettings
      _ 4 (by decide) (by decide) (by decide) (by simp) rfl (by decide) rfl).1⟩

/-! ## Constraint merging -/

/-- With merging on, a block whose molecule type has constraints without
connection appends to the constraints, copy by copy, the offset constraints
followed by the equally offset constraints without connection, in every filter
mode. -/
theorem blockAppended_merged (T : Constants) (mtop : gmx_mtop_t) (fda : Option FDASettings)
    (mb : Nat) (hne : (mtop.moltypeOf (mtop.block mb)).ilist T.F_CONSTRNC ≠ []) :
    blockAppended T mtop true fda T.F_CONSTR mb
      = (List.range (mtop.block mb).nmol).flatMap
          (fun c =>
            offsetAtoms (NRAL T T.F_CONSTR)
                ((atomBase mtop mb : Int)
                  + (c : Int) * ((mtop.moltypeOf (mtop.block mb)).atoms.nr : Int))
                ((mtop.moltypeOf (mtop.block mb)).ilist T.F_CONSTR)
              ++ offsetAtoms (NRAL T T.F_CONSTR)
                ((atomBase mtop mb : Int)
                  + (c : Int) * ((mtop.moltypeOf (mtop.block mb)).atoms.nr : Int))
                ((mtop.moltypeOf (mtop.block mb)).ilist T.F_CONSTRNC)) := by
  unfold blockAppended copyIListsSlot
  have h1 : (true && decide (T.F_CONSTR = T.F_CONSTR)
      && !((mtop.moltypeOf (mtop.block mb)).ilist T.F_CONSTRNC).isEmpty) = true := by
    simp [List.isEmpty_iff, hne]
  rw [if_pos h1, mergeConstrLoop_eq, List.nil_append]
  apply List.flatMap_congr
  intro c _
  simp

theorem getD_append_at {α : Type} (pre l : List α) (k : Nat) (d : α) :
    (pre ++ l).getD (pre.length + k) d = l.getD k d := by
  rw [List.getD_append_right _ _ _ _ (by omega)]
  congr 1
  omega

theorem exists_pair_of_length {α : Type} (l : List α) (n : Nat) (h : l.length = (n + 1) * 2) :
    ∃ p a r, l = p :: a :: r := by
  match l, h with
  | [], h => simp at h
  | [_], h => simp at h; omega
  | p :: a :: r, _ => exact ⟨p, a, r, rfl⟩

theorem exists_cons_of_length {α : Type} (l : List α) (n : Nat) (h : l.length = n + 1) :
    ∃ z r, l = z :: r := by
  match l, h with
  | [], h => simp at h
  | z :: r, _ => exact ⟨z, r, rfl⟩

/-- The loop of `set_posres_params`, entered at entry `i` with `n` entries to
go: the entries get their own number as parameter id, and their slots are
filled. -/
theorem set_posres_paramsLoop_eq (T : Constants) (molb : gmx_molblock_t) (a_offset : Int)
    (hxA : molb.posres_xA.isEmpty = false) :
    ∀ (n i : Nat) (idef : InteractionDefinitions) (pre Y R : List Int) (S Z : List t_iparams),
      idef.il T.F_POSRES = pre ++ (Y ++ R) → pre.length = i * 2 → Y.length = n * 2 →
      idef.iparams_posres = S ++ Z → S.length = i → Z.length = n →
      set_posres_paramsLoop T molb a_offset n i idef
        = .ok { idef with
            il := Function.update idef.il T.F_POSRES (pre ++ (renumberFrom i Y ++ R))
            iparams_posres := S ++ posresSlots idef.iparams molb a_offset Y } := by
  intro n
  induction n with
  | zero =>
    intro i idef pre Y R S Z hil _ hY hS _ hZ
    obtain rfl : Y = [] := List.eq_nil_of_length_eq_zero (by simpa using hY)
    obtain rfl : Z = [] := List.eq_nil_of_length_eq_zero hZ
    simp only [set_posres_paramsLoop, renumberFrom, posresSlots]
    rw [← hil, ← hS, Function.update_eq_self]
  | succ n ih =>
    intro i idef pre Y R S Z hil hpre hY hS hSl hZ
    obtain ⟨p, a, Y', rfl⟩ := exists_pair_of_length Y n hY
    obtain ⟨z, Z', rfl⟩ := exists_cons_of_length Z n hZ
    have g0 : (idef.il T.F_POSRES).getD (i * 2) 0 = p := by
      rw [hil, ← hpre]
      exact getD_append_at pre _ 0 0
    have g1 : (idef.il T.F_POSRES).getD (i * 2 + 1) 0 = a := by
      rw [hil, ← hpre]
      exact getD_append_at pre _ 1 0
    have s0 : (idef.il T.F_POSRES).set (i * 2) (i : Int)
        = (pre ++ [(i : Int), a]) ++ (Y' ++ R) := by
      rw [hil, ← hpre]
      simp
    have s1 : idef.iparams_posres.set i (posresSlot idef.iparams molb a_offset p a)
        = (S ++ [posresSlot idef.iparams molb a_offset p a]) ++ Z' := by
      rw [hS, ← hSl]
      simp
    rw [set_posres_paramsLoop]
    simp only [hxA, g0, g1, Bool.false_eq_true, if_false]
    have hslot : ({ readAt idef.iparams p with
          posres := { (readAt idef.iparams p).posres with
            pos0A := readAt molb.posres_xA (a - a_offset)
            pos0B := if (!molb.posres_xB.isEmpty) = true
              then readAt molb.posres_xB (a - a_offset)
              else readAt molb.posres_xA (a - a_offset) } } : t_iparams)
        = posresSlot idef.iparams molb a_offset p a := rfl
    rw [hslot, s0, s1]
    rw [ih (i + 1) _ (pre ++ [(i : Int), a]) Y' R
      (S ++ [posresSlot idef.iparams molb a_offset p a]) Z'
      (by simp) (by simp [hpre]; omega) (by simp at hY; omega) rfl (by simp [hSl])
      (by simpa using hZ)]
    simp [renumberFrom, posresSlots, Function.update_idem]

theorem set_posres_paramsLoop_missing (T : Constants) (molb : gmx_molblock_t) (a_offset : Int)
    (hxA : molb.posres_xA.isEmpty = true) (n i : Nat) (idef : InteractionDefinitions) :
    set_posres_paramsLoop T molb a_offset (n + 1) i idef
      = .error "Position restraint coordinates are missing" := by
  rw [set_posres_paramsLoop]
  simp [hxA]

/-- The loop of `set_fbposres_params`, entered at entry `i` with `n` entries to go. -/
theorem set_fbposres_paramsLoop_eq (T : Constants) (molb : gmx_molblock_t) (a_offset : Int)
    (hxA : molb.posres_xA.isEmpty = false) :
    ∀ (n i : Nat) (idef : InteractionDefinitions) (pre Y R : List Int) (S Z : List t_iparams),
      idef.il T.F_FBPOSRES = pre ++ (Y ++ R) → pre.length = i * 2 → Y.length = n * 2 →
      idef.iparams_fbposres = S ++ Z → S.length = i → Z.length = n →
      set_fbposres_paramsLoop T molb a_offset n i idef
        = .ok { idef with
            il := Function.update idef.il T.F_FBPOSRES (pre ++ (renumberFrom i Y ++ R))
            iparams_fbposres := S ++ fbposresSlots idef.iparams molb a_offset Y } := by
  intro n
  induction n with
  | zero =>
    intro i idef pre Y R S Z hil _ hY hS _ hZ
    obtain rfl : Y = [] := List.eq_nil_of_length_eq_zero (by simpa using hY)
    obtain rfl : Z = [] := List.eq_nil_of_length_eq_zero hZ
    simp only [set_fbposres_paramsLoop, renumberFrom, fbposresSlots]
    rw [← hil, ← hS, Function.update_eq_self]
  | succ n ih =>
    intro i idef pre Y R S Z hil hpre hY hS hSl hZ
    obtain ⟨p, a, Y', rfl⟩ := exists_pair_of_length Y n hY
    obtain ⟨z, Z', rfl⟩ := exists_cons_of_length Z n hZ
    have g0 : (idef.il T.F_FBPOSRES).getD (i * 2) 0 = p := by
      rw [hil, ← hpre]
      exact getD_append_at pre _ 0 0
    have g1 : (idef.il T.F_FBPOSRES).getD (i * 2 + 1) 0 = a := by
      rw [hil, ← hpre]
      exact getD_append_at pre _ 1 0
    have s0 : (idef.il T.F_FBPOSRES).set (i * 2) (i : Int)
        = (pre ++ [(i : Int), a]) ++ (Y' ++ R) := by
      rw [hil, ← hpre]
      simp
    have s1 : idef.iparams_fbposres.set i (fbposresSlot idef.iparams molb a_offset p a)
        = (S ++ [fbposresSlot idef.iparams molb a_offset p a]) ++ Z' := by
      rw [hS, ← hSl]
      simp
    rw [set_fbposres_paramsLoop]
    simp only [hxA, g0, g1, Bool.false_eq_true, if_false]
    have hslot : ({ readAt idef.iparams p with
          fbposres := { (readAt idef.iparams p).fbposres with
            pos0 := readAt molb.posres_xA (a - a_offset) } } : t_iparams)
        = fbposresSlot idef.iparams molb a_offset p a := rfl
    rw [hslot, s0, s1]
    rw [ih (i + 1) _ (pre ++ [(i : Int), a]) Y' R
      (S ++ [fbposresSlot idef.iparams molb a_offset p a]) Z'
      (by simp) (by simp [hpre]; omega) (by simp at hY; omega) rfl (by simp [hSl])
      (by simpa using hZ)]
    simp [renumberFrom, fbposresSlots, Function.update_idem]

theorem set_fbposres_paramsLoop_missing (T : Constants) (molb : gmx_molblock_t)
    (a_offset : Int) (hxA : molb.posres_xA.isEmpty = true) (n i : Nat)
    (idef : InteractionDefinitions) :
    set_fbposres_paramsLoop T molb a_offset (n + 1) i idef
      = .error "Position restraint coordinates are missing" := by
  rw [set_fbposres_paramsLoop]
  simp [hxA]

theorem renumberFrom_nil (i : Nat) : renumberFrom i [] = [] := by
  simp [renumberFrom]

theorem renumberFrom_length : ∀ (l : List Int) (i : Nat), (renumberFrom i l).length = l.length
  | [], _ => by simp [renumberFrom]
  | [_], _ => by simp [renumberFrom]
  | _ :: _ :: rest, i => by simp [renumberFrom, renumberFrom_length rest (i + 1)]

theorem renumberFrom_append :
    ∀ (n i : Nat) (X Y : List Int), X.length = n * 2 →
      renumberFrom i (X ++ Y) = renumberFrom i X ++ renumberFrom (i + n) Y := by
  intro n
  induction n with
  | zero =>
    intro i X Y h
    obtain rfl : X = [] := List.eq_nil_of_length_eq_zero (by simpa using h)
    simp [renumberFrom]
  | succ n ih =>
    intro i X Y h
    obtain ⟨p, a, X', rfl⟩ := exists_pair_of_length X n h
    simp only [List.cons_append, renumberFrom]
    have e := ih (i + 1) X' Y (by simp at h; omega)
    rw [show i + 1 + n = i + (n + 1) by omega] at e
    rw [← e]
    rfl

theorem posresSlots_append (iparams : List t_iparams) (molb : gmx_molblock_t) (a_offset : Int) :
    ∀ (n : Nat) (X Y : List Int), X.length = n * 2 →
      posresSlots iparams molb a_offset (X ++ Y)
        = posresSlots iparams molb a_offset X ++ posresSlots iparams molb a_offset Y := by
  intro n
  induction n with
  | zero =>
    intro X Y h
    obtain rfl : X = [] := List.eq_nil_of_length_eq_zero (by simpa using h)
    simp [posresSlots]
  | succ n ih =>
    intro X Y h
    obtain ⟨p, a, X', rfl⟩ := exists_pair_of_length X n h
    simp only [List.cons_append, posresSlots]
    rw [← ih X' Y (by simp at h; omega)]
    rfl

theorem fbposresSlots_append (iparams : List t_iparams) (molb : gmx_molblock_t)
    (a_offset : Int) :
    ∀ (n : Nat) (X Y : List Int), X.length = n * 2 →
      fbposresSlots iparams molb a_offset (X ++ Y)
        = fbposresSlots iparams molb a_offset X ++ fbposresSlots iparams molb a_offset Y := by
  intro n
  induction n with
  | zero =>
    intro X Y h
    obtain rfl : X = [] := List.eq_nil_of_length_eq_zero (by simpa using h)
    simp [fbposresSlots]
  | succ n ih =>
    intro X Y h
    obtain ⟨p, a, X', rfl⟩ := exists_pair_of_length X n h
    simp only [List.cons_append, fbposresSlots]
    rw [← ih X' Y (by simp at h; omega)]
    rfl

theorem posresSlots_length (iparams : List t_iparams) (molb : gmx_molblock_t) (a_offset : Int) :
    ∀ (n : Nat) (X : List Int), X.length = n * 2 →
      (posresSlots iparams molb a_offset X).length = n := by
  intro n
  induction n with
  | zero =>
    intro X h
    obtain rfl : X = [] := List.eq_nil_of_length_eq_zero (by simpa using h)
    simp [posresSlots]
  | succ n ih =>
    intro X h
    obtain ⟨p, a, X', rfl⟩ := exists_pair_of_length X n h
    simp only [posresSlots, List.length_cons]
    rw [ih X' (by simp at h; omega)]

theorem fbposresSlots_length (iparams : List t_iparams) (molb : gmx_molblock_t)
    (a_offset : Int) :
    ∀ (n : Nat) (X : List Int), X.length = n * 2 →
      (fbposresSlots iparams molb a_offset X).length = n := by
  intro n
  induction n with
  | zero =>
    intro X h
    obtain rfl : X = [] := List.eq_nil_of_length_eq_zero (by simpa using h)
    simp [fbposresSlots]
  | succ n ih =>
    intro X h
    obtain ⟨p, a, X', rfl⟩ := exists_pair_of_length X n h
    simp only [fbposresSlots, List.length_cons]
    rw [ih X' (by simp at h; omega)]

/-- The slot of entry `j` of a restraint list is computed from the parameter id
and the atom of that entry. -/
theorem posresSlots_getD (iparams : List t_iparams) (molb : gmx_molblock_t) (a_offset : Int) :
    ∀ (j : Nat) (X : List Int), j * 2 + 1 < X.length →
      (posresSlots iparams molb a_offset X).getD j default
        = posresSlot iparams molb a_offset (X.getD (j * 2) 0) (X.getD (j * 2 + 1) 0) := by
  intro j
  induction j with
  | zero =>
    intro X h
    match X, h with
    | p :: a :: X', _ => simp [posresSlots]
  | succ j ih =>
    intro X h
    match X, h with
    | p :: a :: X', h =>
      simp only [posresSlots, List.getD_cons_succ]
      rw [ih X' (by simp at h; omega), show (j + 1) * 2 = j * 2 + 1 + 1 by omega]
      simp only [List.getD_cons_succ]

theorem fbposresSlots_getD (iparams : List t_iparams) (molb : gmx_molblock_t)
    (a_offset : Int) :
    ∀ (j : Nat) (X : List Int), j * 2 + 1 < X.length →
      (fbposresSlots iparams molb a_offset X).getD j default
        = fbposresSlot iparams molb a_offset (X.getD (j * 2) 0) (X.getD (j * 2 + 1) 0) := by
  intro j
  induction j with
  | zero =>
    intro X h
    match X, h with
    | p :: a :: X', _ => simp [fbposresSlots]
  | succ j ih =>
    intro X h
    match X, h with
    | p :: a :: X', h =>
      simp only [fbposresSlots, List.getD_cons_succ]
      rw [ih X' (by simp at h; omega), show (j + 1) * 2 = j * 2 + 1 + 1 by omega]
      simp only [List.getD_cons_succ]

/-- Renumbering keeps the atoms and gives entry `j` the parameter id `i + j`. -/
theorem renumberFrom_getD :
    ∀ (j : Nat) (i : Nat) (X : List Int), j * 2 + 1 < X.length →
      (renumberFrom i X).getD (j * 2) 0 = ((i + j : Nat) : Int)
        ∧ (renumberFrom i X).getD (j * 2 + 1) 0 = X.getD (j * 2 + 1) 0 := by
  intro j
  induction j with
  | zero =>
    intro i X h
    match X, h with
    | p :: a :: X', _ => simp [renumberFrom]
  | succ j ih =>
    intro i X h
    match X, h with
    | p :: a :: X', h =>
      obtain ⟨h1, h2⟩ := ih (i + 1) X' (by simp at h; omega)
      simp only [renumberFrom]
      rw [show (j + 1) * 2 = j * 2 + 1 + 1 by omega]
      simp only [List.getD_cons_succ]
      rw [h1, h2, show i + 1 + j = i + (j + 1) by omega]
      exact ⟨rfl, rfl⟩

/-- The routine `set_posres_params` in closed form, when the block has
reference coordinates. -/
theorem set_posres_params_eq (T : Constants) (idef : InteractionDefinitions)
    (molb : gmx_molblock_t) (i0 : Nat) (a_offset : Int)
    (hxA : molb.posres_xA.isEmpty = false)
    (hi : i0 ≤ (idef.il T.F_POSRES).length / 2) :
    set_posres_params T idef molb i0 a_offset
      = .ok { idef with
          il := Function.update idef.il T.F_POSRES
            ((idef.il T.F_POSRES).take (i0 * 2)
              ++ (renumberFrom i0
                    (((idef.il T.F_POSRES).drop (i0 * 2)).take
                      (((idef.il T.F_POSRES).length / 2 - i0) * 2))
                  ++ (idef.il T.F_POSRES).drop
                      (i0 * 2 + ((idef.il T.F_POSRES).length / 2 - i0) * 2)))
          iparams_posres :=
            (resizeList idef.iparams_posres ((idef.il T.F_POSRES).length / 2)).take i0
              ++ posresSlots idef.iparams molb a_offset
                  (((idef.il T.F_POSRES).drop (i0 * 2)).take
                    (((idef.il T.F_POSRES).length / 2 - i0) * 2)) } := by
  unfold set_posres_params
  simp only
  rw [set_posres_paramsLoop_eq T molb a_offset hxA _ i0 _
    ((idef.il T.F_POSRES).take (i0 * 2))
    (((idef.il T.F_POSRES).drop (i0 * 2)).take (((idef.il T.F_POSRES).length / 2 - i0) * 2))
    ((idef.il T.F_POSRES).drop (i0 * 2 + ((idef.il T.F_POSRES).length / 2 - i0) * 2))
    ((resizeList idef.iparams_posres ((idef.il T.F_POSRES).length / 2)).take i0)
    ((resizeList idef.iparams_posres ((idef.il T.F_POSRES).length / 2)).drop i0)
    (by
      simp only
      rw [← List.drop_drop, List.take_append_drop, List.take_append_drop])
    (by rw [List.length_take]; omega)
    (by rw [List.length_take, List.length_drop]; omega)
    (by simp only; rw [List.take_append_drop])
    (by rw [List.length_take, resizeList_length]; omega)
    (by rw [List.length_drop, resizeList_length])]

theorem getD_take_drop {α : Type} (l : List α) (d k m : Nat) (x : α) (h : m < k) :
    ((l.drop d).take k).getD m x = l.getD (d + m) x := by
  simp [List.getD_eq_getElem?_getD, List.getElem?_take, h]

/-- C14: when the block has A-state reference coordinates, `set_posres_params`
returns, and for every entry `i` it specialises (from `i0` up to the number of
entries of the list) the slot of the entry has `pos0A` equal to the block's
`posres_xA` entry at the block-relative index of the restrained atom, and
`pos0B` equal to the `posres_xB` entry at the same index when the B table is
non-empty and to the slot's own `pos0A` when the B table is empty. -/
theorem set_posres_params_pos0B (T : Constants) (idef : InteractionDefinitions)
    (molb : gmx_molblock_t) (i0 : Nat) (a_offset : Int) (hxA : molb.posres_xA ≠ []) :
    ∃ idef', set_posres_params T idef molb i0 a_offset = .ok idef'
      ∧ ∀ i, i0 ≤ i → i < (idef.il T.F_POSRES).length / 2 →
          (idef'.iparams_posres.getD i default).posres.pos0A
              = readAt molb.posres_xA ((idef.il T.F_POSRES).getD (i * 2 + 1) 0 - a_offset)
            ∧ (molb.posres_xB ≠ [] →
                (idef'.iparams_posres.getD i default).posres.pos0B
                  = readAt molb.posres_xB ((idef.il T.F_POSRES).getD (i * 2 + 1) 0 - a_offset))
            ∧ (molb.posres_xB = [] →
                (idef'.iparams_posres.getD i default).posres.pos0B
                  = (idef'.iparams_posres.getD i default).posres.pos0A) := by
  have hxA' : molb.posres_xA.isEmpty = false := by
    simpa [List.isEmpty_iff] using hxA
  by_cases hi : i0 ≤ (idef.il T.F_POSRES).length / 2
  · refine ⟨_, set_posres_params_eq T idef molb i0 a_offset hxA' hi, ?_⟩
    intro i hi0 hi1
    obtain ⟨j, rfl⟩ : ∃ j, i = i0 + j := ⟨i - i0, by omega⟩
    have hS : ((resizeList idef.iparams_posres ((idef.il T.F_POSRES).length / 2)).take
        i0).length = i0 := by
      rw [List.length_take, resizeList_length]
      omega
    have hslot : ((resizeList idef.iparams_posres ((idef.il T.F_POSRES).length / 2)).take i0
          ++ posresSlots idef.iparams molb a_offset
              (((idef.il T.F_POSRES).drop (i0 * 2)).take
                (((idef.il T.F_POSRES).length / 2 - i0) * 2))).getD (i0 + j) default
        = posresSlot idef.iparams molb a_offset
            ((idef.il T.F_POSRES).getD ((i0 + j) * 2) 0)
            ((idef.il T.F_POSRES).getD ((i0 + j) * 2 + 1) 0) := by
      have := getD_append_at
        ((resizeList idef.iparams_posres ((idef.il T.F_POSRES).length / 2)).take i0)
        (posresSlots idef.iparams molb a_offset
          (((idef.il T.F_POSRES).drop (i0 * 2)).take
            (((idef.il T.F_POSRES).length / 2 - i0) * 2))) j default
      rw [hS] at this
      rw [this, posresSlots_getD _ _ _ j _
        (by rw [List.length_take, List.length_drop]; omega),
        getD_take_drop _ _ _ _ _ (by omega), getD_take_drop _ _ _ _ _ (by omega)]
      congr 2 <;> omega
    simp only [hslot]
    refine ⟨rfl, ?_, ?_⟩
    · intro hB
      have : molb.posres_xB.isEmpty = false := by simpa [List.isEmpty_iff] using hB
      simp [posresSlot, this]
    · intro hB
      simp [posresSlot, hB]
  · refine ⟨{ idef with
      iparams_posres := resizeList idef.iparams_posres ((idef.il T.F_POSRES).length / 2) },
      ?_, ?_⟩
    · unfold set_posres_params
      simp only
      rw [show (idef.il T.F_POSRES).length / 2 - i0 = 0 by omega]
      rfl
    · intro i h1 h2
      omega

theorem set_posres_params_pos0B_witness :
    ∃ idef', set_posres_params exampleConstants exampleRestraintIdef exampleBlockAB 0 6
        = .ok idef'
      ∧ (idef'.iparams_posres.getD 1 default).posres.pos0A = exampleCoord 14
      ∧ (idef'.iparams_posres.getD 1 default).posres.pos0B = exampleCoord 24 := by
  obtain ⟨idef', h, hs⟩ := set_posres_params_pos0B exampleConstants exampleRestraintIdef
    exampleBlockAB 0 6 (by decide)
  obtain ⟨hA, hB, _⟩ := hs 1 (by decide) (by decide)
  exact ⟨idef', h, by rw [hA]; decide, by rw [hB (by decide)]; decide⟩

/-- The position-restraint pass of the block loop, when the block has reference
coordinates or nothing was appended. -/
theorem posres_pass (T : Constants) (molb : gmx_molblock_t) (a_offset : Int)
    (idef1 : InteractionDefinitions) (old X : List Int) (n : Nat)
    (hil : idef1.il T.F_POSRES = old ++ X)
    (hold : old.length = idef1.iparams_posres.length * 2)
    (hX : X.length = n * 2)
    (hx : X ≠ [] → molb.posres_xA.isEmpty = false) :
    (if (idef1.il T.F_POSRES).length > old.length then
        set_posres_params T idef1 molb (old.length / 2) a_offset
      else .ok idef1)
      = .ok { idef1 with
          il := Function.update idef1.il T.F_POSRES
            (old ++ renumberFrom idef1.iparams_posres.length X)
          iparams_posres :=
            idef1.iparams_posres ++ posresSlots idef1.iparams molb a_offset X } := by
  cases n with
  | zero =>
    obtain rfl : X = [] := List.eq_nil_of_length_eq_zero (by simpa using hX)
    rw [if_neg (by rw [hil]; simp)]
    simp only [renumberFrom_nil, posresSlots, List.append_nil]
    rw [List.append_nil] at hil
    rw [← hil, Function.update_eq_self]
  | succ n =>
    have hne : X ≠ [] := by
      intro h
      rw [h] at hX
      simp at hX
    rw [if_pos (by rw [hil, List.length_append, hX]; omega)]
    unfold set_posres_params
    simp only
    have hn : (idef1.il T.F_POSRES).length / 2 - old.length / 2 = n + 1 := by
      rw [hil, List.length_append, hX, hold]
      omega
    have hr : resizeList idef1.iparams_posres ((idef1.il T.F_POSRES).length / 2)
        = idef1.iparams_posres ++ List.replicate (n + 1) default := by
      unfold resizeList
      rw [hil, List.length_append, hX, hold]
      rw [List.take_of_length_le (by omega)]
      congr 2
      omega
    rw [hn, hr]
    rw [set_posres_paramsLoop_eq T molb a_offset (hx hne) (n + 1) (old.length / 2) _ old X []
      idef1.iparams_posres (List.replicate (n + 1) default)
      (by simpa using hil) (by omega) hX rfl (by omega) (by simp)]
    simp only [List.append_nil]
    rw [show old.length / 2 = idef1.iparams_posres.length by omega]

theorem posres_pass_missing (T : Constants) (molb : gmx_molblock_t) (a_offset : Int)
    (idef1 : InteractionDefinitions) (old X : List Int) (n : Nat)
    (hil : idef1.il T.F_POSRES = old ++ X)
    (hold : old.length = idef1.iparams_posres.length * 2)
    (hX : X.length = n * 2) (hne : X ≠ [])
    (hx : molb.posres_xA.isEmpty = true) :
    (if (idef1.il T.F_POSRES).length > old.length then
        set_posres_params T idef1 molb (old.length / 2) a_offset
      else .ok idef1)
      = .error "Position restraint coordinates are missing" := by
  cases n with
  | zero =>
    exact absurd (List.eq_nil_of_length_eq_zero (by simpa using hX)) hne
  | succ n =>
    rw [if_pos (by rw [hil, List.length_append, hX]; omega)]
    unfold set_posres_params
    simp only
    have hn : (idef1.il T.F_POSRES).length / 2 - old.length / 2 = n + 1 := by
      rw [hil, List.length_append, hX, hold]
      omega
    rw [hn]
    exact set_posres_paramsLoop_missing T molb a_offset hx n _ _

/-- The flat-bottomed position-restraint pass of the block loop, when the block
has reference coordinates or nothing was appended. -/
theorem fbposres_pass (T : Constants) (molb : gmx_molblock_t) (a_offset : Int)
    (idef1 : InteractionDefinitions) (old X : List Int) (n : Nat)
    (hil : idef1.il T.F_FBPOSRES = old ++ X)
    (hold : old.length = idef1.iparams_fbposres.length * 2)
    (hX : X.length = n * 2)
    (hx : X ≠ [] → molb.posres_xA.isEmpty = false) :
    (if (idef1.il T.F_FBPOSRES).length > old.length then
        set_fbposres_params T idef1 molb (old.length / 2) a_offset
      else .ok idef1)
      = .ok { idef1 with
          il := Function.update idef1.il T.F_FBPOSRES
            (old ++ renumberFrom idef1.iparams_fbposres.length X)
          iparams_fbposres :=
            idef1.iparams_fbposres ++ fbposresSlots idef1.iparams molb a_offset X } := by
  cases n with
  | zero =>
    obtain rfl : X = [] := List.eq_nil_of_length_eq_zero (by simpa using hX)
    rw [if_neg (by rw [hil]; simp)]
    simp only [renumberFrom_nil, fbposresSlots, List.append_nil]
    rw [List.append_nil] at hil
    rw [← hil, Function.update_eq_self]
  | succ n =>
    have hne : X ≠ [] := by
      intro h
      rw [h] at hX
      simp at hX
    rw [if_pos (by rw [hil, List.length_append, hX]; omega)]
    unfold set_fbposres_params
    simp only
    have hn : (idef1.il T.F_FBPOSRES).length / 2 - old.length / 2 = n + 1 := by
      rw [hil, List.length_append, hX, hold]
      omega
    have hr : resizeList idef1.iparams_fbposres ((idef1.il T.F_FBPOSRES).length / 2)
        = idef1.iparams_fbposres ++ List.replicate (n + 1) default := by
      unfold resizeList
      rw [hil, List.length_append, hX, hold]
      rw [List.take_of_length_le (by omega)]
      congr 2
      omega
    rw [hn, hr]
    rw [set_fbposres_paramsLoop_eq T molb a_offset (hx hne) (n + 1) (old.length / 2) _ old X []
      idef1.iparams_fbposres (List.replicate (n + 1) default)
      (by simpa using hil) (by omega) hX rfl (by omega) (by simp)]
    simp only [List.append_nil]
    rw [show old.length / 2 = idef1.iparams_fbposres.length by omega]

theorem fbposres_pass_missing (T : Constants) (molb : gmx_molblock_t) (a_offset : Int)
    (idef1 : InteractionDefinitions) (old X : List Int) (n : Nat)
    (hil : idef1.il T.F_FBPOSRES = old ++ X)
    (hold : old.length = idef1.iparams_fbposres.length * 2)
    (hX : X.length = n * 2) (hne : X ≠ [])
    (hx : molb.posres_xA.isEmpty = true) :
    (if (idef1.il T.F_FBPOSRES).length > old.length then
        set_fbposres_params T idef1 molb (old.length / 2) a_offset
      else .ok idef1)
      = .error "Position restraint coordinates are missing" := by
  cases n with
  | zero =>
    exact absurd (List.eq_nil_of_length_eq_zero (by simpa using hX)) hne
  | succ n =>
    rw [if_pos (by rw [hil, List.length_append, hX]; omega)]
    unfold set_fbposres_params
    simp only
    have hn : (idef1.il T.F_FBPOSRES).length / 2 - old.length / 2 = n + 1 := by
      rw [hil, List.length_append, hX, hold]
      omega
    rw [hn]
    exact set_fbposres_paramsLoop_missing T molb a_offset hx n _ _

theorem copyIListsKind_foldl_append (T : Constants) (molt : gmx_moltype_t)
    (molb : gmx_molblock_t) (mergeConstr : Bool) (fda : Option FDASettings)
    (destnr srcnr : Nat) (il : InteractionLists) :
    (List.range T.F_NRE).foldl (copyIListsKind T molt molb mergeConstr fda destnr srcnr) il
      = fun f =>
          if f < T.F_NRE then
            il f ++ copyIListsSlot T molt molb mergeConstr fda destnr srcnr f []
          else il f := by
  funext f
  rw [copyIListsKind_foldl, copyIListsSlot_append]

/-- The body of the block loop in closed form, when the block has reference
coordinates or no restraint entry was appended. -/
theorem copyIListsBlock_eq (T : Constants) (mtop : gmx_mtop_t) (mergeConstr : Bool)
    (fda : Option FDASettings) (natoms : Nat) (idef : InteractionDefinitions)
    (molb : gmx_molblock_t) (nP nF : Nat)
    (hP : T.F_POSRES < T.F_NRE) (hF : T.F_FBPOSRES < T.F_NRE)
    (hne : T.F_POSRES ≠ T.F_FBPOSRES)
    (hinvP : (idef.il T.F_POSRES).length = idef.iparams_posres.length * 2)
    (hinvF : (idef.il T.F_FBPOSRES).length = idef.iparams_fbposres.length * 2)
    (hXP : (copyIListsSlot T (mtop.moltypeOf molb) molb mergeConstr fda natoms
      (mtop.moltypeOf molb).atoms.nr T.F_POSRES []).length = nP * 2)
    (hXF : (copyIListsSlot T (mtop.moltypeOf molb) molb mergeConstr fda natoms
      (mtop.moltypeOf molb).atoms.nr T.F_FBPOSRES []).length = nF * 2)
    (hx : copyIListsSlot T (mtop.moltypeOf molb) molb mergeConstr fda natoms
          (mtop.moltypeOf molb).atoms.nr T.F_POSRES [] ≠ []
        ∨ copyIListsSlot T (mtop.moltypeOf molb) molb mergeConstr fda natoms
          (mtop.moltypeOf molb).atoms.nr T.F_FBPOSRES [] ≠ []
        → molb.posres_xA.isEmpty = false) :
    copyIListsBlock T mtop mergeConstr fda natoms idef molb
      = .ok (copyIListsBlockResult T mtop mergeConstr fda natoms idef molb) := by
  unfold copyIListsBlock
  simp only
  rw [copyIListsKind_foldl_append]
  have hp := posres_pass T molb natoms
    { idef with
      il := fun f =>
        if f < T.F_NRE then
          idef.il f ++ copyIListsSlot T (mtop.moltypeOf molb) molb mergeConstr fda natoms
            (mtop.moltypeOf molb).atoms.nr f []
        else idef.il f }
    (idef.il T.F_POSRES) _ nP (by simp only [if_pos hP]) hinvP hXP
    (fun h => hx (Or.inl h))
  simp only at hp
  rw [hp]
  simp only
  have hf := fbposres_pass T molb natoms
    { idef with
      il := Function.update (fun f =>
        if f < T.F_NRE then
          idef.il f ++ copyIListsSlot T (mtop.moltypeOf molb) molb mergeConstr fda natoms
            (mtop.moltypeOf molb).atoms.nr f []
        else idef.il f) T.F_POSRES
        (idef.il T.F_POSRES ++ renumberFrom idef.iparams_posres.length
          (copyIListsSlot T (mtop.moltypeOf molb) molb mergeConstr fda natoms
            (mtop.moltypeOf molb).atoms.nr T.F_POSRES []))
      iparams_posres := idef.iparams_posres ++ posresSlots idef.iparams molb natoms
        (copyIListsSlot T (mtop.moltypeOf molb) molb mergeConstr fda natoms
          (mtop.moltypeOf molb).atoms.nr T.F_POSRES []) }
    (idef.il T.F_FBPOSRES) _ nF
    (by simp only [Function.update_noteq (Ne.symm hne), if_pos hF]) hinvF hXF
    (fun h => hx (Or.inr h))
  simp only at hf
  rw [hf]
  unfold copyIListsBlockResult
  simp only [Except.ok.injEq]
  congr 1
  funext f
  by_cases h1 : f = T.F_POSRES
  · subst h1
    simp [Function.update_noteq hne]
  · by_cases h2 : f = T.F_FBPOSRES
    · subst h2
      simp [h1]
    · simp [Function.update_noteq h1, Function.update_noteq h2, h1, h2]

/-- The body of the block loop fails when restraint entries were appended and
the block has no reference coordinates. -/
theorem copyIListsBlock_missing (T : Constants) (mtop : gmx_mtop_t) (mergeConstr : Bool)
    (fda : Option FDASettings) (natoms : Nat) (idef : InteractionDefinitions)
    (molb : gmx_molblock_t) (nP nF : Nat)
    (hP : T.F_POSRES < T.F_NRE) (hF : T.F_FBPOSRES < T.F_NRE)
    (hne : T.F_POSRES ≠ T.F_FBPOSRES)
    (hinvP : (idef.il T.F_POSRES).length = idef.iparams_posres.length * 2)
    (hinvF : (idef.il T.F_FBPOSRES).length = idef.iparams_fbposres.length * 2)
    (hXP : (copyIListsSlot T (mtop.moltypeOf molb) molb mergeConstr fda natoms
      (mtop.moltypeOf molb).atoms.nr T.F_POSRES []).length = nP * 2)
    (hXF : (copyIListsSlot T (mtop.moltypeOf molb) molb mergeConstr fda natoms
      (mtop.moltypeOf molb).atoms.nr T.F_FBPOSRES []).length = nF * 2)
    (hbad : copyIListsSlot T (mtop.moltypeOf molb) molb mergeConstr fda natoms
          (mtop.moltypeOf molb).atoms.nr T.F_POSRES [] ≠ []
        ∨ copyIListsSlot T (mtop.moltypeOf molb) molb mergeConstr fda natoms
          (mtop.moltypeOf molb).atoms.nr T.F_FBPOSRES [] ≠ [])
    (hx : molb.posres_xA.isEmpty = true) :
    copyIListsBlock T mtop mergeConstr fda natoms idef molb
      = .error "Position restraint coordinates are missing" := by
  unfold copyIListsBlock
  simp only
  rw [copyIListsKind_foldl_append]
  by_cases hXPne : copyIListsSlot T (mtop.moltypeOf molb) molb mergeConstr fda natoms
      (mtop.moltypeOf molb).atoms.nr T.F_POSRES [] = []
  · have hXFne : copyIListsSlot T (mtop.moltypeOf molb) molb mergeConstr fda natoms
        (mtop.moltypeOf molb).atoms.nr T.F_FBPOSRES [] ≠ [] := by
      cases hbad with
      | inl h => exact absurd hXPne h
      | inr h => exact h
    have hp := posres_pass T molb natoms
      { idef with
        il := fun f =>
          if f < T.F_NRE then
            idef.il f ++ copyIListsSlot T (mtop.moltypeOf molb) molb mergeConstr fda natoms
              (mtop.moltypeOf molb).atoms.nr f []
          else idef.il f }
      (idef.il T.F_POSRES) _ nP (by simp only [if_pos hP]) hinvP hXP
      (fun h => absurd hXPne h)
    simp only at hp
    rw [hp]
    simp only
    have hf := fbposres_pass_missing T molb natoms
      { idef with
        il := Function.update (fun f =>
          if f < T.F_NRE then
            idef.il f ++ copyIListsSlot T (mtop.moltypeOf molb) molb mergeConstr fda natoms
              (mtop.moltypeOf molb).atoms.nr f []
          else idef.il f) T.F_POSRES
          (idef.il T.F_POSRES ++ renumberFrom idef.iparams_posres.length
            (copyIListsSlot T (mtop.moltypeOf molb) molb mergeConstr fda natoms
              (mtop.moltypeOf molb).atoms.nr T.F_POSRES []))
        iparams_posres := idef.iparams_posres ++ posresSlots idef.iparams molb natoms
          (copyIListsSlot T (mtop.moltypeOf molb) molb mergeConstr fda natoms
            (mtop.moltypeOf molb).atoms.nr T.F_POSRES []) }
      (idef.il T.F_FBPOSRES) _ nF
      (by simp only [Function.update_noteq (Ne.symm hne), if_pos hF]) hinvF hXF hXFne hx
    simp only at hf
    rw [hf]
  · have hp := posres_pass_missing T molb natoms
      { idef with
        il := fun f =>
          if f < T.F_NRE then
            idef.il f ++ copyIListsSlot T (mtop.moltypeOf molb) molb mergeConstr fda natoms
              (mtop.moltypeOf molb).atoms.nr f []
          else idef.il f }
      (idef.il T.F_POSRES) _ nP (by simp only [if_pos hP]) hinvP hXP hXPne hx
    simp only at hp
    rw [hp]

theorem blockAppended_of_split (T : Constants) (mtop : gmx_mtop_t) (mergeConstr : Bool)
    (fda : Option FDASettings) (pre rest : List gmx_molblock_t) (molb : gmx_molblock_t)
    (hsplit : mtop.molblock = pre ++ molb :: rest) (f : Nat) :
    copyIListsSlot T (mtop.moltypeOf molb) molb mergeConstr fda (atomsOfBlocks mtop pre)
        (mtop.moltypeOf molb).atoms.nr f []
      = blockAppended T mtop mergeConstr fda f pre.length := by
  unfold blockAppended
  rw [block_of_split mtop pre rest molb hsplit, atomBase_of_split mtop pre _ hsplit]

/-- The block loop in closed form for the restraint kinds, when every block
that appends restraint entries has reference coordinates: the appended entries
are numbered consecutively and the slots of the blocks are appended in order. -/
theorem copyIListsBlocks_restraints (T : Constants) (mtop : gmx_mtop_t) (mergeConstr : Bool)
    (fda : Option FDASettings)
    (hP : T.F_POSRES < T.F_NRE) (hF : T.F_FBPOSRES < T.F_NRE)
    (hne : T.F_POSRES ≠ T.F_FBPOSRES)
    (hevP : ∀ mb, ∃ n, (blockAppended T mtop mergeConstr fda T.F_POSRES mb).length = n * 2)
    (hevF : ∀ mb, ∃ n, (blockAppended T mtop mergeConstr fda T.F_FBPOSRES mb).length = n * 2) :
    ∀ (rest pre post : List gmx_molblock_t) (idef : InteractionDefinitions),
      mtop.molblock = pre ++ (rest ++ post) →
      (idef.il T.F_POSRES).length = idef.iparams_posres.length * 2 →
      (idef.il T.F_FBPOSRES).length = idef.iparams_fbposres.length * 2 →
      (∀ j, j < rest.length →
        (blockAppended T mtop mergeConstr fda T.F_POSRES (pre.length + j) ≠ []
          ∨ blockAppended T mtop mergeConstr fda T.F_FBPOSRES (pre.length + j) ≠ []) →
        (mtop.block (pre.length + j)).posres_xA.isEmpty = false) →
      ∃ idef', copyIListsBlocks T mtop mergeConstr fda rest (atomsOfBlocks mtop pre) idef
            = .ok idef'
        ∧ idef'.iparams = idef.iparams
        ∧ idef'.il T.F_POSRES
            = idef.il T.F_POSRES ++ renumberFrom idef.iparams_posres.length
                ((List.range' pre.length rest.length).flatMap
                  (blockAppended T mtop mergeConstr fda T.F_POSRES))
        ∧ idef'.iparams_posres
            = idef.iparams_posres ++ (List.range' pre.length rest.length).flatMap
                (fun mb => posresSlots idef.iparams (mtop.block mb) (atomBase mtop mb)
                  (blockAppended T mtop mergeConstr fda T.F_POSRES mb))
        ∧ idef'.il T.F_FBPOSRES
            = idef.il T.F_FBPOSRES ++ renumberFrom idef.iparams_fbposres.length
                ((List.range' pre.length rest.length).flatMap
                  (blockAppended T mtop mergeConstr fda T.F_FBPOSRES))
        ∧ idef'.iparams_fbposres
            = idef.iparams_fbposres ++ (List.range' pre.length rest.length).flatMap
                (fun mb => fbposresSlots idef.iparams (mtop.block mb) (atomBase mtop mb)
                  (blockAppended T mtop mergeConstr fda T.F_FBPOSRES mb)) := by
  intro rest
  induction rest with
  | nil =>
    intro pre post idef _ _ _ _
    exact ⟨idef, rfl, rfl, by simp [renumberFrom_nil], by simp, by simp [renumberFrom_nil],
      by simp⟩
  | cons molb rest ih =>
    intro pre post idef hsplit0 hinvP hinvF hx
    have hsplit : mtop.molblock = pre ++ molb :: (rest ++ post) := by simpa using hsplit0
    obtain ⟨nP, hnP⟩ := hevP pre.length
    obtain ⟨nF, hnF⟩ := hevF pre.length
    have eP := blockAppended_of_split T mtop mergeConstr fda pre (rest ++ post) molb hsplit T.F_POSRES
    have eF := blockAppended_of_split T mtop mergeConstr fda pre (rest ++ post) molb hsplit T.F_FBPOSRES
    have hmolb : mtop.block pre.length = molb := block_of_split mtop pre (rest ++ post) molb hsplit
    have hbase : atomBase mtop pre.length = atomsOfBlocks mtop pre :=
      atomBase_of_split mtop pre _ hsplit
    have hb := copyIListsBlock_eq T mtop mergeConstr fda (atomsOfBlocks mtop pre) idef molb
      nP nF hP hF hne hinvP hinvF (by rw [eP]; exact hnP) (by rw [eF]; exact hnF)
      (by
        rw [eP, eF]
        intro h
        have := hx 0 (by simp) (by simpa using h)
        rw [Nat.add_zero, hmolb] at this
        exact this)
    have hsplit' : mtop.molblock = (pre ++ [molb]) ++ (rest ++ post) := by simp [hsplit]
    have hlen : (pre ++ [molb]).length = pre.length + 1 := by simp
    have r1 : (copyIListsBlockResult T mtop mergeConstr fda (atomsOfBlocks mtop pre) idef
        molb).il T.F_POSRES
        = idef.il T.F_POSRES ++ renumberFrom idef.iparams_posres.length
            (blockAppended T mtop mergeConstr fda T.F_POSRES pre.length) := by
      simp [copyIListsBlockResult, eP]
    have r2 : (copyIListsBlockResult T mtop mergeConstr fda (atomsOfBlocks mtop pre) idef
        molb).iparams_posres
        = idef.iparams_posres ++ posresSlots idef.iparams molb (atomsOfBlocks mtop pre)
            (blockAppended T mtop mergeConstr fda T.F_POSRES pre.length) := by
      simp [copyIListsBlockResult, eP]
    have r3 : (copyIListsBlockResult T mtop mergeConstr fda (atomsOfBlocks mtop pre) idef
        molb).il T.F_FBPOSRES
        = idef.il T.F_FBPOSRES ++ renumberFrom idef.iparams_fbposres.length
            (blockAppended T mtop mergeConstr fda T.F_FBPOSRES pre.length) := by
      simp [copyIListsBlockResult, eF, Ne.symm hne]
    have r4 : (copyIListsBlockResult T mtop mergeConstr fda (atomsOfBlocks mtop pre) idef
        molb).iparams_fbposres
        = idef.iparams_fbposres ++ fbposresSlots idef.iparams molb (atomsOfBlocks mtop pre)
            (blockAppended T mtop mergeConstr fda T.F_FBPOSRES pre.length) := by
      simp [copyIListsBlockResult, eF]
    have r5 : (copyIListsBlockResult T mtop mergeConstr fda (atomsOfBlocks mtop pre) idef
        molb).iparams = idef.iparams := rfl
    have l2 : (copyIListsBlockResult T mtop mergeConstr fda (atomsOfBlocks mtop pre) idef
        molb).iparams_posres.length = idef.iparams_posres.length + nP := by
      rw [r2, List.length_append, posresSlots_length _ _ _ nP _ hnP]
    have l4 : (copyIListsBlockResult T mtop mergeConstr fda (atomsOfBlocks mtop pre) idef
        molb).iparams_fbposres.length = idef.iparams_fbposres.length + nF := by
      rw [r4, List.length_append, fbposresSlots_length _ _ _ nF _ hnF]
    obtain ⟨idef', h0, h1, h2, h3, h4, h5⟩ := ih (pre ++ [molb]) post
      (copyIListsBlockResult T mtop mergeConstr fda (atomsOfBlocks mtop pre) idef molb) hsplit'
      (by rw [l2, r1, List.length_append, renumberFrom_length, hnP, hinvP]; omega)
      (by rw [l4, r3, List.length_append, renumberFrom_length, hnF, hinvF]; omega)
      (by
        intro j hj hb
        rw [hlen, show pre.length + 1 + j = pre.length + (j + 1) by omega] at hb ⊢
        exact hx (j + 1) (by simp; omega) hb)
    have hr : ∀ {β : Type} (G : Nat → List β),
        (List.range' pre.length (molb :: rest).length).flatMap G
          = G pre.length ++ (List.range' (pre.length + 1) rest.length).flatMap G := by
      intro β G
      rw [List.length_cons, List.range'_succ, List.flatMap_cons]
    refine ⟨idef', ?_, ?_, ?_, ?_, ?_, ?_⟩
    · simp only [copyIListsBlocks]
      rw [hb]
      simp only
      rw [← atomsOfBlocks_append]
      exact h0
    · rw [h1, r5]
    · rw [h2, r1, l2, hlen, hr, renumberFrom_append nP _ _ _ hnP, List.append_assoc]
    · rw [h3, r2, r5, hlen, hr, List.append_assoc, hmolb, hbase]
    · rw [h4, r3, l4, hlen, hr, renumberFrom_append nF _ _ _ hnF, List.append_assoc]
    · rw [h5, r4, r5, hlen, hr, List.append_assoc, hmolb, hbase]

/-- The block loop fails with the consistency error when some block appends
restraint entries and has no reference coordinates. -/
theorem copyIListsBlocks_missing (T : Constants) (mtop : gmx_mtop_t) (mergeConstr : Bool)
    (fda : Option FDASettings)
    (hP : T.F_POSRES < T.F_NRE) (hF : T.F_FBPOSRES < T.F_NRE)
    (hne : T.F_POSRES ≠ T.F_FBPOSRES)
    (hevP : ∀ mb, ∃ n, (blockAppended T mtop mergeConstr fda T.F_POSRES mb).length = n * 2)
    (hevF : ∀ mb, ∃ n, (blockAppended T mtop mergeConstr fda T.F_FBPOSRES mb).length = n * 2) :
    ∀ (rest pre : List gmx_molblock_t) (idef : InteractionDefinitions),
      mtop.molblock = pre ++ rest →
      (idef.il T.F_POSRES).length = idef.iparams_posres.length * 2 →
      (idef.il T.F_FBPOSRES).length = idef.iparams_fbposres.length * 2 →
      (∃ j, j < rest.length
        ∧ (blockAppended T mtop mergeConstr fda T.F_POSRES (pre.length + j) ≠ []
          ∨ blockAppended T mtop mergeConstr fda T.F_FBPOSRES (pre.length + j) ≠ [])
        ∧ (mtop.block (pre.length + j)).posres_xA.isEmpty = true) →
      copyIListsBlocks T mtop mergeConstr fda rest (atomsOfBlocks mtop pre) idef
        = .error "Position restraint coordinates are missing" := by
  intro rest
  induction rest with
  | nil =>
    intro pre idef _ _ _ h
    obtain ⟨j, hj, _⟩ := h
    simp at hj
  | cons molb rest ih =>
    intro pre idef hsplit hinvP hinvF hbad
    obtain ⟨nP, hnP⟩ := hevP pre.length
    obtain ⟨nF, hnF⟩ := hevF pre.length
    have eP := blockAppended_of_split T mtop mergeConstr fda pre rest molb hsplit T.F_POSRES
    have eF := blockAppended_of_split T mtop mergeConstr fda pre rest molb hsplit T.F_FBPOSRES
    have hmolb : mtop.block pre.length = molb := block_of_split mtop pre rest molb hsplit
    by_cases hhead : (blockAppended T mtop mergeConstr fda T.F_POSRES pre.length ≠ []
          ∨ blockAppended T mtop mergeConstr fda T.F_FBPOSRES pre.length ≠ [])
        ∧ molb.posres_xA.isEmpty = true
    · simp only [copyIListsBlocks]
      rw [copyIListsBlock_missing T mtop mergeConstr fda (atomsOfBlocks mtop pre) idef molb
        nP nF hP hF hne hinvP hinvF (by rw [eP]; exact hnP) (by rw [eF]; exact hnF)
        (by rw [eP, eF]; exact hhead.1) hhead.2]
    · have hb := copyIListsBlock_eq T mtop mergeConstr fda (atomsOfBlocks mtop pre) idef molb
        nP nF hP hF hne hinvP hinvF (by rw [eP]; exact hnP) (by rw [eF]; exact hnF)
        (by
          rw [eP, eF]
          intro h
          cases hx : molb.posres_xA.isEmpty with
          | false => rfl
          | true => exact absurd ⟨h, hx⟩ hhead)
      have hsplit' : mtop.molblock = (pre ++ [molb]) ++ rest := by simp [hsplit]
      have hlen : (pre ++ [molb]).length = pre.length + 1 := by simp
      have r1 : (copyIListsBlockResult T mtop mergeConstr fda (atomsOfBlocks mtop pre) idef
          molb).il T.F_POSRES
          = idef.il T.F_POSRES ++ renumberFrom idef.iparams_posres.length
              (blockAppended T mtop mergeConstr fda T.F_POSRES pre.length) := by
        simp [copyIListsBlockResult, eP]
      have r2 : (copyIListsBlockResult T mtop mergeConstr fda (atomsOfBlocks mtop pre) idef
          molb).iparams_posres
          = idef.iparams_posres ++ posresSlots idef.iparams molb (atomsOfBlocks mtop pre)
              (blockAppended T mtop mergeConstr fda T.F_POSRES pre.length) := by
        simp [copyIListsBlockResult, eP]
      have r3 : (copyIListsBlockResult T mtop mergeConstr fda (atomsOfBlocks mtop pre) idef
          molb).il T.F_FBPOSRES
          = idef.il T.F_FBPOSRES ++ renumberFrom idef.iparams_fbposres.length
              (blockAppended T mtop mergeConstr fda T.F_FBPOSRES pre.length) := by
        simp [copyIListsBlockResult, eF, Ne.symm hne]
      have r4 : (copyIListsBlockResult T mtop mergeConstr fda (atomsOfBlocks mtop pre) idef
          molb).iparams_fbposres
          = idef.iparams_fbposres ++ fbposresSlots idef.iparams molb (atomsOfBlocks mtop pre)
              (blockAppended T mtop mergeConstr fda T.F_FBPOSRES pre.length) := by
        simp [copyIListsBlockResult, eF]
      have l2 : (copyIListsBlockResult T mtop mergeConstr fda (atomsOfBlocks mtop pre) idef
          molb).iparams_posres.length = idef.iparams_posres.length + nP := by
        rw [r2, List.length_append, posresSlots_length _ _ _ nP _ hnP]
      have l4 : (copyIListsBlockResult T mtop mergeConstr fda (atomsOfBlocks mtop pre) idef
          molb).iparams_fbposres.length = idef.iparams_fbposres.length + nF := by
        rw [r4, List.length_append, fbposresSlots_length _ _ _ nF _ hnF]
      simp only [copyIListsBlocks]
      rw [hb]
      simp only
      rw [← atomsOfBlocks_append]
      apply ih (pre ++ [molb]) _ hsplit'
        (by rw [l2, r1, List.length_append, renumberFrom_length, hnP, hinvP]; omega)
        (by rw [l4, r3, List.length_append, renumberFrom_length, hnF, hinvF]; omega)
      obtain ⟨j, hj, hb1, hb2⟩ := hbad
      cases j with
      | zero =>
        rw [Nat.add_zero] at hb1 hb2
        rw [hmolb] at hb2
        exact absurd ⟨hb1, hb2⟩ hhead
      | succ j =>
        refine ⟨j, by simpa using hj, ?_, ?_⟩
        · rw [hlen, show pre.length + 1 + j = pre.length + (j + 1) by omega]
          exact hb1
        · rw [hlen, show pre.length + 1 + j = pre.length + (j + 1) by omega]
          exact hb2

theorem flatten_length_dvd (k : Nat) :
    ∀ (L : List (List Int)), (∀ e ∈ L, e.length = k) → k ∣ L.flatten.length := by
  intro L
  induction L with
  | nil => intro _; simp
  | cons e es ih =>
    intro h
    rw [List.flatten_cons, List.length_append, h e (List.mem_cons_self _ _)]
    exact Nat.dvd_add (Nat.dvd_refl k) (ih (fun x hx => h x (List.mem_cons_of_mem _ hx)))

theorem entriesOf_entry_length (nral : Nat) (l e : List Int) (h : e ∈ entriesOf nral l) :
    e.length = 1 + nral := by
  unfold entriesOf at h
  obtain ⟨i, hi, rfl⟩ := List.mem_map.mp h
  rw [List.mem_range] at hi
  rw [List.length_take, List.length_drop]
  have h1 : (i + 1) * (1 + nral) ≤ l.length :=
    Nat.le_trans (Nat.mul_le_mul_right _ hi) (Nat.div_mul_le_self _ _)
  have h2 : (i + 1) * (1 + nral) = i * (1 + nral) + (1 + nral) := by ring
  omega

/-- The filter returns whole entries. -/
theorem filterEntries_dvd (nral : Nat) (g1 g2 l : List Int) :
    (1 + nral) ∣ (filterEntries nral g1 g2 l).length := by
  unfold filterEntries
  apply flatten_length_dvd
  intro e he
  exact entriesOf_entry_length nral l e (List.mem_of_mem_filter he)

theorem block_nmol_of_not_lt (mtop : gmx_mtop_t) (mb : Nat) (h : ¬ mb < mtop.molblock.length) :
    (mtop.block mb).nmol = 0 := by
  unfold gmx_mtop_t.block
  rw [List.getD_eq_default _ _ (by omega)]
  rfl

/-- A block without copies appends nothing, in every mode. -/
theorem blockAppended_nmol_zero (T : Constants) (mtop : gmx_mtop_t) (mergeConstr : Bool)
    (fda : Option FDASettings) (f mb : Nat) (h : (mtop.block mb).nmol = 0) :
    blockAppended T mtop mergeConstr fda f mb = [] := by
  unfold blockAppended copyIListsSlot
  rw [h]
  split
  · rfl
  · split
    · cases fda with
      | none => simp [ilistcat_eq]
      | some s =>
        simp only
        split
        · unfold pf_ilistcat
          split <;> simp [pf_ilistcatCopies]
        · simp [ilistcat_eq]
    · rfl

/-- An empty template appends nothing, outside the merged constraint kinds. -/
theorem blockAppended_template_nil (T : Constants) (mtop : gmx_mtop_t) (mergeConstr : Bool)
    (fda : Option FDASettings) (f mb : Nat)
    (hm : mergeConstr = true → f ≠ T.F_CONSTR ∧ f ≠ T.F_CONSTRNC)
    (h : (mtop.moltypeOf (mtop.block mb)).ilist f = []) :
    blockAppended T mtop mergeConstr fda f mb = [] := by
  cases hoff : filterOff fda with
  | true =>
    rw [blockAppended_plain T mtop mergeConstr fda hoff f mb hm]
    apply List.eq_nil_of_length_eq_zero
    rw [blockExpansion_length, h]
    simp
  | false =>
    cases fda with
    | none => simp [filterOff] at hoff
    | some s =>
      have hon : s.bonded_exclusion_on = true := by simpa [filterOff] using hoff
      rw [blockAppended_filtered T mtop mergeConstr s hon f mb hm (by rw [h]; simp)]
      have e : blockExpansion T mtop f mb = [] := by
        apply List.eq_nil_of_length_eq_zero
        rw [blockExpansion_length, h]
        simp
      rw [e, filterEntries_nil]
      simp

/-- What a block appends to a restraint kind is made of whole entries, in
every mode. -/
theorem blockAppended_even (T : Constants) (mtop : gmx_mtop_t) (mergeConstr : Bool)
    (fda : Option FDASettings) (f : Nat) (hn : NRAL T f = 1)
    (hm : mergeConstr = true → f ≠ T.F_CONSTR ∧ f ≠ T.F_CONSTRNC)
    (hwf : ∀ molb ∈ mtop.molblock, 2 ∣ ((mtop.moltypeOf molb).ilist f).length) (mb : Nat) :
    ∃ n, (blockAppended T mtop mergeConstr fda f mb).length = n * 2 := by
  by_cases hmb : mb < mtop.molblock.length
  · obtain ⟨k, hk⟩ := hwf _ (block_mem mtop mb hmb)
    cases hoff : filterOff fda with
    | true =>
      rw [blockAppended_plain T mtop mergeConstr fda hoff f mb hm, blockExpansion_length, hk]
      exact ⟨(mtop.block mb).nmol * k, by ring⟩
    | false =>
      cases fda with
      | none => simp [filterOff] at hoff
      | some s =>
        have hon : s.bonded_exclusion_on = true := by simpa [filterOff] using hoff
        rw [blockAppended_filtered T mtop mergeConstr s hon f mb hm
          (by rw [hn, hk]; exact ⟨k, rfl⟩)]
        split
        · exact ⟨0, rfl⟩
        · obtain ⟨q, hq⟩ := filterEntries_dvd (NRAL T f) (s.groupAtoms s.index_group1)
            (s.groupAtoms s.index_group2) (blockExpansion T mtop f mb)
          rw [hn] at hq
          exact ⟨q, by rw [hn, hq]; ring⟩
  · rw [blockAppended_nmol_zero T mtop mergeConstr fda f mb (block_nmol_of_not_lt mtop mb hmb)]
    exact ⟨0, rfl⟩

/-- The routine `copyIListsFromMtop` returns when its block loop does, with
the parameter tables of the block loop. -/
theorem copyIListsFromMtop_of_blocks (T : Constants) (mtop : gmx_mtop_t)
    (idef0 idef1 : InteractionDefinitions) (mergeConstr : Bool) (fda : Option FDASettings)
    (hb : copyIListsBlocks T mtop mergeConstr fda mtop.molblock 0 idef0 = .ok idef1) :
    ∃ idef, copyIListsFromMtop T mtop idef0 mergeConstr fda = .ok idef
      ∧ idef.iparams = idef1.iparams
      ∧ idef.iparams_posres = idef1.iparams_posres
      ∧ idef.iparams_fbposres = idef1.iparams_fbposres
      ∧ ∀ f, f < T.F_NRE → idef.il f = idef1.il f ++ intermolecularPart mtop f := by
  have e : ∃ idef, copyIListsFromMtop T mtop idef0 mergeConstr fda = .ok idef
      ∧ idef.iparams = idef1.iparams
      ∧ idef.iparams_posres = idef1.iparams_posres
      ∧ idef.iparams_fbposres = idef1.iparams_fbposres := by
    unfold copyIListsFromMtop
    rw [hb]
    exact ⟨_, rfl, rfl, rfl, rfl⟩
  obtain ⟨idef, h, h1, h2, h3⟩ := e
  obtain ⟨idef1', hb', hi⟩ := copyIListsFromMtop_ok T mtop idef0 idef mergeConstr fda h
  rw [hb] at hb'
  simp only [Except.ok.injEq] at hb'
  subst hb'
  exact ⟨idef, h, h1, h2, h3, hi⟩

theorem copyIListsFromMtop_of_blocks_error (T : Constants) (mtop : gmx_mtop_t)
    (idef0 : InteractionDefinitions) (mergeConstr : Bool) (fda : Option FDASettings)
    (e : String)
    (hb : copyIListsBlocks T mtop mergeConstr fda mtop.molblock 0 idef0 = .error e) :
    copyIListsFromMtop T mtop idef0 mergeConstr fda = .error e := by
  unfold copyIListsFromMtop
  rw [hb]

/-- The restraint lists and slots of the output in closed form, in every mode,
when every block that appends restraint entries has reference coordinates. -/
theorem copyIListsFromMtop_restraints (T : Constants) (mtop : gmx_mtop_t) (mergeConstr : Bool)
    (fda : Option FDASettings) (hw : RestraintKindsWellFormed T mtop mergeConstr)
    (hx : ∀ mb, mb < mtop.molblock.length →
      (blockAppended T mtop mergeConstr fda T.F_POSRES mb ≠ []
        ∨ blockAppended T mtop mergeConstr fda T.F_FBPOSRES mb ≠ []) →
      (mtop.block mb).posres_xA.isEmpty = false) :
    ∃ idef, copyIListsFromMtop T mtop (emptyIdef mtop) mergeConstr fda = .ok idef
      ∧ idef.il T.F_POSRES
          = renumberFrom 0 ((List.range mtop.molblock.length).flatMap
              (blockAppended T mtop mergeConstr fda T.F_POSRES))
            ++ intermolecularPart mtop T.F_POSRES
      ∧ idef.iparams_posres
          = (List.range mtop.molblock.length).flatMap
              (fun mb => posresSlots mtop.ffparams.iparams (mtop.block mb) (atomBase mtop mb)
                (blockAppended T mtop mergeConstr fda T.F_POSRES mb))
      ∧ idef.il T.F_FBPOSRES
          = renumberFrom 0 ((List.range mtop.molblock.length).flatMap
              (blockAppended T mtop mergeConstr fda T.F_FBPOSRES))
            ++ intermolecularPart mtop T.F_FBPOSRES
      ∧ idef.iparams_fbposres
          = (List.range mtop.molblock.length).flatMap
              (fun mb => fbposresSlots mtop.ffparams.iparams (mtop.block mb) (atomBase mtop mb)
                (blockAppended T mtop mergeConstr fda T.F_FBPOSRES mb)) := by
  obtain ⟨hP, hF, hne, hnP, hnF, hm, hwf⟩ := hw
  have hevP := blockAppended_even T mtop mergeConstr fda T.F_POSRES hnP
    (fun h => (hm h).1) (fun molb h => (hwf molb h).1)
  have hevF := blockAppended_even T mtop mergeConstr fda T.F_FBPOSRES hnF
    (fun h => (hm h).2) (fun molb h => (hwf molb h).2)
  obtain ⟨idef1, h0, _, h2, h3, h4, h5⟩ := copyIListsBlocks_restraints T mtop mergeConstr fda
    hP hF hne hevP hevF mtop.molblock [] [] (emptyIdef mtop) (by simp) rfl rfl
    (by
      intro j hj hb
      simp only [List.length_nil, Nat.zero_add] at hb ⊢
      exact hx j hj hb)
  obtain ⟨idef, g0, _, g2, g3, g4⟩ := copyIListsFromMtop_of_blocks T mtop (emptyIdef mtop) idef1
    mergeConstr fda h0
  refine ⟨idef, g0, ?_, ?_, ?_, ?_⟩
  · rw [g4 _ hP, h2]
    simp [emptyIdef, List.range_eq_range']
  · rw [g2, h3]
    simp [emptyIdef, List.range_eq_range']
  · rw [g4 _ hF, h4]
    simp [emptyIdef, List.range_eq_range']
  · rw [g3, h5]
    simp [emptyIdef, List.range_eq_range']

theorem blockExpansion_ne_nil_iff (T : Constants) (mtop : gmx_mtop_t) (f mb : Nat) :
    blockExpansion T mtop f mb ≠ []
      ↔ 1 ≤ (mtop.block mb).nmol ∧ (mtop.moltypeOf (mtop.block mb)).ilist f ≠ [] := by
  rw [← List.length_pos, blockExpansion_length, ← List.length_pos]
  constructor
  · intro h
    exact ⟨Nat.pos_of_mul_pos_right h, Nat.pos_of_mul_pos_left h⟩
  · intro h
    exact Nat.mul_pos h.1 h.2

/-- C16: with filtering off, `copyIListsFromMtop` fails with the consistency
error "Position restraint coordinates are missing" if and only if some block
with at least one copy has a molecule type whose `F_POSRES` or `F_FBPOSRES`
template is non-empty while the block's table `posres_xA` is empty; otherwise
it returns interaction definitions (so a block without restraint entries never
causes the failure), and a failure carries no interaction definitions. -/
theorem copyIListsFromMtop_missing_coordinates (T : Constants) (mtop : gmx_mtop_t)
    (mergeConstr : Bool) (fda : Option FDASettings) (hoff : filterOff fda = true)
    (hw : RestraintKindsWellFormed T mtop mergeConstr) :
    (copyIListsFromMtop T mtop (emptyIdef mtop) mergeConstr fda
          = .error "Position restraint coordinates are missing"
        ↔ ∃ molb ∈ mtop.molblock, 1 ≤ molb.nmol
            ∧ ((mtop.moltypeOf molb).ilist T.F_POSRES ≠ []
                ∨ (mtop.moltypeOf molb).ilist T.F_FBPOSRES ≠ [])
            ∧ molb.posres_xA = [])
      ∧ ((¬ ∃ molb ∈ mtop.molblock, 1 ≤ molb.nmol
            ∧ ((mtop.moltypeOf molb).ilist T.F_POSRES ≠ []
                ∨ (mtop.moltypeOf molb).ilist T.F_FBPOSRES ≠ [])
            ∧ molb.posres_xA = [])
          → ∃ idef, copyIListsFromMtop T mtop (emptyIdef mtop) mergeConstr fda = .ok idef) := by
  have hw' := hw
  obtain ⟨hP, hF, hne, hnP, hnF, hm, hwf⟩ := hw'
  have hplainP : ∀ mb, blockAppended T mtop mergeConstr fda T.F_POSRES mb
      = blockExpansion T mtop T.F_POSRES mb :=
    fun mb => blockAppended_plain T mtop mergeConstr fda hoff _ mb (fun h => (hm h).1)
  have hplainF : ∀ mb, blockAppended T mtop mergeConstr fda T.F_FBPOSRES mb
      = blockExpansion T mtop T.F_FBPOSRES mb :=
    fun mb => blockAppended_plain T mtop mergeConstr fda hoff _ mb (fun h => (hm h).2)
  have hok : (¬ ∃ molb ∈ mtop.molblock, 1 ≤ molb.nmol
        ∧ ((mtop.moltypeOf molb).ilist T.F_POSRES ≠ []
            ∨ (mtop.moltypeOf molb).ilist T.F_FBPOSRES ≠ [])
        ∧ molb.posres_xA = [])
      → ∃ idef, copyIListsFromMtop T mtop (emptyIdef mtop) mergeConstr fda = .ok idef := by
    intro hnone
    obtain ⟨idef, h, _⟩ := copyIListsFromMtop_restraints T mtop mergeConstr fda hw
      (by
        intro mb hmb happ
        rw [hplainP, hplainF, blockExpansion_ne_nil_iff, blockExpansion_ne_nil_iff] at happ
        cases hx : (mtop.block mb).posres_xA.isEmpty with
        | false => rfl
        | true =>
          exfalso
          apply hnone
          refine ⟨mtop.block mb, block_mem mtop mb hmb, ?_, ?_, List.isEmpty_iff.mp hx⟩
          · cases happ with
            | inl h => exact h.1
            | inr h => exact h.1
          · cases happ with
            | inl h => exact Or.inl h.2
            | inr h => exact Or.inr h.2)
    exact ⟨idef, h⟩
  refine ⟨⟨?_, ?_⟩, hok⟩
  · intro herr
    by_contra hnone
    obtain ⟨idef, h⟩ := hok hnone
    rw [h] at herr
    exact absurd herr (by simp)
  · intro hbad
    obtain ⟨molb, hmem, hnmol, htempl, hxA⟩ := hbad
    obtain ⟨j, hj, hget⟩ := List.mem_iff_getElem.mp hmem
    have hblock : mtop.block j = molb := by
      unfold gmx_mtop_t.block
      rw [List.getD_eq_getElem?_getD, List.getElem?_eq_getElem hj]
      exact hget
    apply copyIListsFromMtop_of_blocks_error
    have hevP := blockAppended_even T mtop mergeConstr fda T.F_POSRES hnP
      (fun h => (hm h).1) (fun molb h => (hwf molb h).1)
    have hevF := blockAppended_even T mtop mergeConstr fda T.F_FBPOSRES hnF
      (fun h => (hm h).2) (fun molb h => (hwf molb h).2)
    have := copyIListsBlocks_missing T mtop mergeConstr fda hP hF hne hevP hevF mtop.molblock []
      (emptyIdef mtop) rfl rfl rfl
      ⟨j, hj, by
        simp only [List.length_nil, Nat.zero_add]
        rw [hplainP, hplainF, blockExpansion_ne_nil_iff, blockExpansion_ne_nil_iff, hblock]
        cases htempl with
        | inl h => exact Or.inl ⟨hnmol, h⟩
        | inr h => exact Or.inr ⟨hnmol, h⟩,
       by
        simp only [List.length_nil, Nat.zero_add]
        rw [hblock, hxA]
        rfl⟩
    exact this

theorem copyIListsFromMtop_missing_coordinates_witness :
    copyIListsFromMtop exampleConstants exampleMissingMtop (emptyIdef exampleMissingMtop)
        false none = .error "Position restraint coordinates are missing"
      ∧ ∃ idef, copyIListsFromMtop exampleConstants exampleMtop (emptyIdef exampleMtop)
          false none = .ok idef :=
  ⟨(copyIListsFromMtop_missing_coordinates exampleConstants exampleMissingMtop false none rfl
      (by decide)).1.mpr (by decide),
    (copyIListsFromMtop_missing_coordinates exampleConstants exampleMtop false none rfl
      (by decide)).2 (by decide)⟩

/-! ## Restraint slots of the output -/

theorem flatMap_posresSlots_length (iparams : List t_iparams) (blk : Nat → gmx_molblock_t)
    (off : Nat → Int) (X : Nat → List Int) (hev : ∀ mb, ∃ n, (X mb).length = n * 2) :
    ∀ (l : List Nat),
      (l.flatMap (fun mb => posresSlots iparams (blk mb) (off mb) (X mb))).length * 2
        = (l.flatMap X).length := by
  intro l
  induction l with
  | nil => simp
  | cons a l ih =>
    obtain ⟨n, hn⟩ := hev a
    rw [List.flatMap_cons, List.flatMap_cons, List.length_append, List.length_append,
      posresSlots_length _ _ _ n _ hn, hn, ← ih]
    ring

theorem flatMap_fbposresSlots_length (iparams : List t_iparams) (blk : Nat → gmx_molblock_t)
    (off : Nat → Int) (X : Nat → List Int) (hev : ∀ mb, ∃ n, (X mb).length = n * 2) :
    ∀ (l : List Nat),
      (l.flatMap (fun mb => fbposresSlots iparams (blk mb) (off mb) (X mb))).length * 2
        = (l.flatMap X).length := by
  intro l
  induction l with
  | nil => simp
  | cons a l ih =>
    obtain ⟨n, hn⟩ := hev a
    rw [List.flatMap_cons, List.flatMap_cons, List.length_append, List.length_append,
      fbposresSlots_length _ _ _ n _ hn, hn, ← ih]
    ring

theorem getD_append_lt {α : Type} (a b : List α) (i : Nat) (d : α) (h : i < a.length) :
    (a ++ b).getD i d = a.getD i d := by
  rw [List.getD_eq_getElem?_getD, List.getD_eq_getElem?_getD, List.getElem?_append_left h]

/-- The slot of entry `i` of the concatenated restraint entries of a list of
blocks is computed, for one of the blocks, from the parameter id and the atom
of that entry. -/
theorem flatMap_posresSlots_getD (iparams : List t_iparams) (blk : Nat → gmx_molblock_t)
    (off : Nat → Int) (X : Nat → List Int) (hev : ∀ mb, ∃ n, (X mb).length = n * 2) :
    ∀ (l : List Nat) (i : Nat), i * 2 + 1 < (l.flatMap X).length →
      ∃ mb ∈ l,
        (l.flatMap (fun mb => posresSlots iparams (blk mb) (off mb) (X mb))).getD i default
          = posresSlot iparams (blk mb) (off mb) ((l.flatMap X).getD (i * 2) 0)
              ((l.flatMap X).getD (i * 2 + 1) 0) := by
  intro l
  induction l with
  | nil => intro i h; simp at h
  | cons a l ih =>
    intro i h
    obtain ⟨n, hn⟩ := hev a
    rw [List.flatMap_cons, List.length_append, hn] at h
    simp only [List.flatMap_cons]
    by_cases hi : i < n
    · refine ⟨a, List.mem_cons_self _ _, ?_⟩
      rw [getD_append_lt _ _ _ _ (by rw [posresSlots_length _ _ _ n _ hn]; exact hi),
        getD_append_lt _ _ _ _ (by omega), getD_append_lt _ _ _ _ (by omega),
        posresSlots_getD _ _ _ i _ (by omega)]
    · obtain ⟨j, rfl⟩ : ∃ j, i = n + j := ⟨i - n, by omega⟩
      obtain ⟨mb, hmb, e⟩ := ih j (by omega)
      refine ⟨mb, List.mem_cons_of_mem _ hmb, ?_⟩
      have e1 := getD_append_at (posresSlots iparams (blk a) (off a) (X a))
        (l.flatMap (fun mb => posresSlots iparams (blk mb) (off mb) (X mb))) j default
      rw [posresSlots_length _ _ _ n _ hn] at e1
      have e2 := getD_append_at (X a) (l.flatMap X) (j * 2) 0
      have e3 := getD_append_at (X a) (l.flatMap X) (j * 2 + 1) 0
      rw [hn] at e2 e3
      rw [e1, e, show (n + j) * 2 = n * 2 + j * 2 by ring,
        show n * 2 + j * 2 + 1 = n * 2 + (j * 2 + 1) by ring, e2, e3]

theorem flatMap_fbposresSlots_getD (iparams : List t_iparams) (blk : Nat → gmx_molblock_t)
    (off : Nat → Int) (X : Nat → List Int) (hev : ∀ mb, ∃ n, (X mb).length = n * 2) :
    ∀ (l : List Nat) (i : Nat), i * 2 + 1 < (l.flatMap X).length →
      ∃ mb ∈ l,
        (l.flatMap (fun mb => fbposresSlots iparams (blk mb) (off mb) (X mb))).getD i default
          = fbposresSlot iparams (blk mb) (off mb) ((l.flatMap X).getD (i * 2) 0)
              ((l.flatMap X).getD (i * 2 + 1) 0) := by
  intro l
  induction l with
  | nil => intro i h; simp at h
  | cons a l ih =>
    intro i h
    obtain ⟨n, hn⟩ := hev a
    rw [List.flatMap_cons, List.length_append, hn] at h
    simp only [List.flatMap_cons]
    by_cases hi : i < n
    · refine ⟨a, List.mem_cons_self _ _, ?_⟩
      rw [getD_append_lt _ _ _ _ (by rw [fbposresSlots_length _ _ _ n _ hn]; exact hi),
        getD_append_lt _ _ _ _ (by omega), getD_append_lt _ _ _ _ (by omega),
        fbposresSlots_getD _ _ _ i _ (by omega)]
    · obtain ⟨j, rfl⟩ : ∃ j, i = n + j := ⟨i - n, by omega⟩
      obtain ⟨mb, hmb, e⟩ := ih j (by omega)
      refine ⟨mb, List.mem_cons_of_mem _ hmb, ?_⟩
      have e1 := getD_append_at (fbposresSlots iparams (blk a) (off a) (X a))
        (l.flatMap (fun mb => fbposresSlots iparams (blk mb) (off mb) (X mb))) j default
      rw [fbposresSlots_length _ _ _ n _ hn] at e1
      have e2 := getD_append_at (X a) (l.flatMap X) (j * 2) 0
      have e3 := getD_append_at (X a) (l.flatMap X) (j * 2 + 1) 0
      rw [hn] at e2 e3
      rw [e1, e, show (n + j) * 2 = n * 2 + j * 2 by ring,
        show n * 2 + j * 2 + 1 = n * 2 + (j * 2 + 1) by ring, e2, e3]

theorem sameButPosresCoordinates_posresSlot (iparams : List t_iparams) (molb : gmx_molblock_t)
    (a_offset p a : Int) :
    sameButPosresCoordinates (posresSlot iparams molb a_offset p a) (readAt iparams p) :=
  ⟨rfl, rfl, rfl, rfl⟩

theorem sameButFbposresCoordinate_fbposresSlot (iparams : List t_iparams)
    (molb : gmx_molblock_t) (a_offset p a : Int) :
    sameButFbposresCoordinate (fbposresSlot iparams molb a_offset p a) (readAt iparams p) :=
  ⟨rfl, rfl, rfl, rfl, rfl⟩

theorem flatMap_length_even (X : Nat → List Int) (hev : ∀ mb, ∃ n, (X mb).length = n * 2) :
    ∀ (l : List Nat), ∃ n, (l.flatMap X).length = n * 2 := by
  intro l
  induction l with
  | nil => exact ⟨0, rfl⟩
  | cons a l ih =>
    obtain ⟨n, hn⟩ := hev a
    obtain ⟨m, hm⟩ := ih
    exact ⟨n + m, by rw [List.flatMap_cons, List.length_append, hn, hm]; ring⟩

/-- A block that appends restraint entries has a non-empty restraint template,
so it has reference coordinates when all restraint-bearing blocks have. -/
theorem restraint_coordinates_present (T : Constants) (mtop : gmx_mtop_t) (mergeConstr : Bool)
    (fda : Option FDASettings) (hw : RestraintKindsWellFormed T mtop mergeConstr)
    (hx : ∀ molb ∈ mtop.molblock,
      ((mtop.moltypeOf molb).ilist T.F_POSRES ≠ []
        ∨ (mtop.moltypeOf molb).ilist T.F_FBPOSRES ≠ []) → molb.posres_xA ≠ [])
    (mb : Nat) (hmb : mb < mtop.molblock.length)
    (happ : blockAppended T mtop mergeConstr fda T.F_POSRES mb ≠ []
      ∨ blockAppended T mtop mergeConstr fda T.F_FBPOSRES mb ≠ []) :
    (mtop.block mb).posres_xA.isEmpty = false := by
  obtain ⟨_, _, _, _, _, hm, _⟩ := hw
  have ht : (mtop.moltypeOf (mtop.block mb)).ilist T.F_POSRES ≠ []
      ∨ (mtop.moltypeOf (mtop.block mb)).ilist T.F_FBPOSRES ≠ [] := by
    cases happ with
    | inl h =>
      exact Or.inl (fun e => h (blockAppended_template_nil T mtop mergeConstr fda _ mb
        (fun h => (hm h).1) e))
    | inr h =>
      exact Or.inr (fun e => h (blockAppended_template_nil T mtop mergeConstr fda _ mb
        (fun h => (hm h).2) e))
  have := hx _ (block_mem mtop mb hmb) ht
  simpa [List.isEmpty_iff] using this

/-- C15: for a topology without intermolecular position restraints whose
restraint-bearing blocks all have reference coordinates, `copyIListsFromMtop`
returns, in every mode, and in its output the table `iparams_posres` has as
many slots as the `F_POSRES` list has entries; entry `i` of the list has
parameter id `i` and the atom of entry `i` of the entries the blocks appended;
slot `i` agrees, in every field other than the reference coordinates, with the
shared record that the parameter id of that appended entry (the template's)
names; the same holds for `F_FBPOSRES` with `iparams_fbposres`; and the body of
the block loop, run on the state reached after any number of blocks, leaves the
lists and slots of the earlier blocks as a prefix of the new ones. With the
filter off the appended entries are the expansion of the molecule blocks. -/
theorem copyIListsFromMtop_restraint_slots (T : Constants) (mtop : gmx_mtop_t)
    (mergeConstr : Bool) (fda : Option FDASettings)
    (hw : RestraintKindsWellFormed T mtop mergeConstr)
    (hinterP : intermolecularPart mtop T.F_POSRES = [])
    (hinterF : intermolecularPart mtop T.F_FBPOSRES = [])
    (hx : ∀ molb ∈ mtop.molblock,
      ((mtop.moltypeOf molb).ilist T.F_POSRES ≠ []
        ∨ (mtop.moltypeOf molb).ilist T.F_FBPOSRES ≠ []) → molb.posres_xA ≠ []) :
    ∃ idef, copyIListsFromMtop T mtop (emptyIdef mtop) mergeConstr fda = .ok idef
      ∧ (idef.iparams_posres.length = numEntries T T.F_POSRES (idef.il T.F_POSRES)
          ∧ ∀ i, i < idef.iparams_posres.length →
              (idef.il T.F_POSRES).getD (i * 2) 0 = (i : Int)
                ∧ (idef.il T.F_POSRES).getD (i * 2 + 1) 0
                    = ((List.range mtop.molblock.length).flatMap
                        (blockAppended T mtop mergeConstr fda T.F_POSRES)).getD (i * 2 + 1) 0
                ∧ sameButPosresCoordinates (idef.iparams_posres.getD i default)
                    (readAt mtop.ffparams.iparams
                      (((List.range mtop.molblock.length).flatMap
                        (blockAppended T mtop mergeConstr fda T.F_POSRES)).getD (i * 2) 0)))
      ∧ (idef.iparams_fbposres.length = numEntries T T.F_FBPOSRES (idef.il T.F_FBPOSRES)
          ∧ ∀ i, i < idef.iparams_fbposres.length →
              (idef.il T.F_FBPOSRES).getD (i * 2) 0 = (i : Int)
                ∧ (idef.il T.F_FBPOSRES).getD (i * 2 + 1) 0
                    = ((List.range mtop.molblock.length).flatMap
                        (blockAppended T mtop mergeConstr fda T.F_FBPOSRES)).getD (i * 2 + 1) 0
                ∧ sameButFbposresCoordinate (idef.iparams_fbposres.getD i default)
                    (readAt mtop.ffparams.iparams
                      (((List.range mtop.molblock.length).flatMap
                        (blockAppended T mtop mergeConstr fda T.F_FBPOSRES)).getD (i * 2) 0)))
      ∧ (∀ (pre post : List gmx_molblock_t) (molb : gmx_molblock_t)
            (idefA idefB : InteractionDefinitions),
          mtop.molblock = pre ++ molb :: post →
          copyIListsBlocks T mtop mergeConstr fda pre 0 (emptyIdef mtop) = .ok idefA →
          copyIListsBlock T mtop mergeConstr fda (atomsOfBlocks mtop pre) idefA molb
            = .ok idefB →
          idefA.il T.F_POSRES <+: idefB.il T.F_POSRES
            ∧ idefA.iparams_posres <+: idefB.iparams_posres
            ∧ idefA.il T.F_FBPOSRES <+: idefB.il T.F_FBPOSRES
            ∧ idefA.iparams_fbposres <+: idefB.iparams_fbposres)
      ∧ (filterOff fda = true →
          (List.range mtop.molblock.length).flatMap
              (blockAppended T mtop mergeConstr fda T.F_POSRES)
            = moleculeBlockExpansion T mtop T.F_POSRES
          ∧ (List.range mtop.molblock.length).flatMap
              (blockAppended T mtop mergeConstr fda T.F_FBPOSRES)
            = moleculeBlockExpansion T mtop T.F_FBPOSRES) := by
  have hxb := restraint_coordinates_present T mtop mergeConstr fda hw hx
  obtain ⟨idef, h, hilP, hsP, hilF, hsF⟩ :=
    copyIListsFromMtop_restraints T mtop mergeConstr fda hw hxb
  obtain ⟨hP, hF, hne, hnP, hnF, hm, hwf⟩ := hw
  have hevP := blockAppended_even T mtop mergeConstr fda T.F_POSRES hnP
    (fun h => (hm h).1) (fun molb h => (hwf molb h).1)
  have hevF := blockAppended_even T mtop mergeConstr fda T.F_FBPOSRES hnF
    (fun h => (hm h).2) (fun molb h => (hwf molb h).2)
  refine ⟨idef, h, ⟨?_, ?_⟩, ⟨?_, ?_⟩, ?_, ?_⟩
  · have hl := flatMap_posresSlots_length mtop.ffparams.iparams mtop.block
      (fun mb => (atomBase mtop mb : Int)) _ hevP (List.range mtop.molblock.length)
    unfold numEntries
    rw [hnP, hilP, hinterP, List.append_nil, renumberFrom_length, hsP, ← hl]
    omega
  · intro i hi
    have hl := flatMap_posresSlots_length mtop.ffparams.iparams mtop.block
      (fun mb => (atomBase mtop mb : Int)) _ hevP (List.range mtop.molblock.length)
    rw [hsP] at hi
    have hi2 : i * 2 + 1 < ((List.range mtop.molblock.length).flatMap
        (blockAppended T mtop mergeConstr fda T.F_POSRES)).length := by omega
    obtain ⟨g1, g2⟩ := renumberFrom_getD i 0 _ hi2
    obtain ⟨mb, _, e⟩ := flatMap_posresSlots_getD mtop.ffparams.iparams mtop.block
      (fun mb => (atomBase mtop mb : Int)) _ hevP (List.range mtop.molblock.length) i hi2
    rw [hilP, hinterP, List.append_nil, hsP, e]
    refine ⟨?_, g2, sameButPosresCoordinates_posresSlot _ _ _ _ _⟩
    rw [g1, Nat.zero_add]
  · have hl := flatMap_fbposresSlots_length mtop.ffparams.iparams mtop.block
      (fun mb => (atomBase mtop mb : Int)) _ hevF (List.range mtop.molblock.length)
    unfold numEntries
    rw [hnF, hilF, hinterF, List.append_nil, renumberFrom_length, hsF, ← hl]
    omega
  · intro i hi
    have hl := flatMap_fbposresSlots_length mtop.ffparams.iparams mtop.block
      (fun mb => (atomBase mtop mb : Int)) _ hevF (List.range mtop.molblock.length)
    rw [hsF] at hi
    have hi2 : i * 2 + 1 < ((List.range mtop.molblock.length).flatMap
        (blockAppended T mtop mergeConstr fda T.F_FBPOSRES)).length := by omega
    obtain ⟨g1, g2⟩ := renumberFrom_getD i 0 _ hi2
    obtain ⟨mb, _, e⟩ := flatMap_fbposresSlots_getD mtop.ffparams.iparams mtop.block
      (fun mb => (atomBase mtop mb : Int)) _ hevF (List.range mtop.molblock.length) i hi2
    rw [hilF, hinterF, List.append_nil, hsF, e]
    refine ⟨?_, g2, sameButFbposresCoordinate_fbposresSlot _ _ _ _ _⟩
    rw [g1, Nat.zero_add]
  · intro pre post molb idefA idefB hsplit hA hB
    have hprelen : pre.length < mtop.molblock.length := by
      rw [hsplit]
      simp
    obtain ⟨idefA', a0, _, a2, a3, a4, a5⟩ := copyIListsBlocks_restraints T mtop mergeConstr fda
      hP hF hne hevP hevF pre [] (molb :: post) (emptyIdef mtop) (by simpa using hsplit) rfl rfl
      (by
        intro j hj hb
        simp only [List.length_nil, Nat.zero_add] at hb ⊢
        exact hxb j (by omega) hb)
    have hAA : idefA' = idefA := by
      have : (Except.ok idefA' : Except String InteractionDefinitions) = .ok idefA :=
        a0.symm.trans hA
      simpa using this
    subst hAA
    have hlP := flatMap_posresSlots_length (emptyIdef mtop).iparams mtop.block
      (fun mb => (atomBase mtop mb : Int)) _ hevP (List.range' ([] : List gmx_molblock_t).length
        pre.length)
    have hlF := flatMap_fbposresSlots_length (emptyIdef mtop).iparams mtop.block
      (fun mb => (atomBase mtop mb : Int)) _ hevF (List.range' ([] : List gmx_molblock_t).length
        pre.length)
    have hinvP : (idefA'.il T.F_POSRES).length = idefA'.iparams_posres.length * 2 := by
      rw [a2, a3, List.length_append, List.length_append, renumberFrom_length, ← hlP]
      simp [emptyIdef]
    have hinvF : (idefA'.il T.F_FBPOSRES).length = idefA'.iparams_fbposres.length * 2 := by
      rw [a4, a5, List.length_append, List.length_append, renumberFrom_length, ← hlF]
      simp [emptyIdef]
    obtain ⟨nP, hnP'⟩ := hevP pre.length
    obtain ⟨nF, hnF'⟩ := hevF pre.length
    have eP := blockAppended_of_split T mtop mergeConstr fda pre post molb hsplit T.F_POSRES
    have eF := blockAppended_of_split T mtop mergeConstr fda pre post molb hsplit T.F_FBPOSRES
    have hmolb : mtop.block pre.length = molb := block_of_split mtop pre post molb hsplit
    have hb := copyIListsBlock_eq T mtop mergeConstr fda (atomsOfBlocks mtop pre) idefA' molb
      nP nF hP hF hne hinvP hinvF (by rw [eP]; exact hnP') (by rw [eF]; exact hnF')
      (by
        rw [eP, eF]
        intro h
        have := hxb pre.length hprelen h
        rw [hmolb] at this
        exact this)
    rw [hb] at hB
    simp only [Except.ok.injEq] at hB
    subst hB
    refine ⟨?_, ?_, ?_, ?_⟩
    · simp [copyIListsBlockResult]
    · simp [copyIListsBlockResult]
    · simp [copyIListsBlockResult, Ne.symm hne]
    · simp [copyIListsBlockResult]
  · intro hoff
    constructor
    · unfold moleculeBlockExpansion
      apply List.flatMap_congr
      intro mb _
      exact blockAppended_plain T mtop mergeConstr fda hoff _ mb (fun h => (hm h).1)
    · unfold moleculeBlockExpansion
      apply List.flatMap_congr
      intro mb _
      exact blockAppended_plain T mtop mergeConstr fda hoff _ mb (fun h => (hm h).2)

theorem copyIListsFromMtop_restraint_slots_witness :
    ∃ idef, copyIListsFromMtop exampleConstants exampleMtop (emptyIdef exampleMtop) false none
        = .ok idef
      ∧ idef.il 2 = [0, 0, 1, 3]
      ∧ idef.iparams_posres.length = 2
      ∧ idef.iparams_posres.length
          = numEntries exampleConstants exampleConstants.F_POSRES
              (idef.il exampleConstants.F_POSRES) := by
  obtain ⟨idef, h, hPs, _⟩ := copyIListsFromMtop_restraint_slots exampleConstants exampleMtop
    false none (by decide) (by decide) (by decide) (by decide)
  have e : copyIListsFromMtop exampleConstants exampleMtop (emptyIdef exampleMtop) false none
      = .ok _ := rfl
  rw [e] at h
  simp only [Except.ok.injEq] at h
  subst h
  exact ⟨_, rfl, by decide, by decide, hPs.1⟩

/-- Indexing into a concatenation of pieces, counted from the end of the
earlier pieces. -/
theorem flatMap_range_getD_at {α : Type} (G : Nat → List α) (d : α) (k mb j : Nat)
    (hmb : mb < k) (hj : j < (G mb).length) :
    ((List.range k).flatMap G).getD (((List.range mb).flatMap G).length + j) d
      = (G mb).getD j d :=
  (flatMap_range_getD G (fun b => ((List.range b).flatMap G).length) d (by simp) k
    (fun b _ => by
      simp only
      rw [List.range_succ, List.flatMap_append, List.flatMap_singleton,
        List.length_append])).2 mb j hmb hj

theorem blockExpansion_single (T : Constants) (mtop : gmx_mtop_t) (f mb : Nat) (p a : Int)
    (hn : NRAL T f = 1) (htempl : (mtop.moltypeOf (mtop.block mb)).ilist f = [p, a]) :
    blockExpansion T mtop f mb
      = (List.range (mtop.block mb).nmol).flatMap
          (fun c => [p, a + ((atomBase mtop mb : Int)
              + (c : Int) * ((mtop.moltypeOf (mtop.block mb)).atoms.nr : Int))]) := by
  unfold blockExpansion
  rw [htempl, hn]
  apply List.flatMap_congr
  intro c _
  simp [offsetAtoms, offsetAtomsFrom, isAtomSlot]

theorem blockExpansion_single_getD (T : Constants) (mtop : gmx_mtop_t) (f mb : Nat) (p a : Int)
    (hn : NRAL T f = 1) (htempl : (mtop.moltypeOf (mtop.block mb)).ilist f = [p, a])
    (c : Nat) (hc : c < (mtop.block mb).nmol) :
    (blockExpansion T mtop f mb).length = (mtop.block mb).nmol * 2
      ∧ (blockExpansion T mtop f mb).getD (c * 2) 0 = p
      ∧ (blockExpansion T mtop f mb).getD (c * 2 + 1) 0
          = a + ((atomBase mtop mb : Int)
              + (c : Int) * ((mtop.moltypeOf (mtop.block mb)).atoms.nr : Int)) := by
  have hl : (blockExpansion T mtop f mb).length = (mtop.block mb).nmol * 2 := by
    rw [blockExpansion_length, htempl]
    rfl
  rw [blockExpansion_single T mtop f mb p a hn htempl]
  have key := flatMap_range_getD
    (fun c : Nat => [p, a + ((atomBase mtop mb : Int)
      + (c : Int) * ((mtop.moltypeOf (mtop.block mb)).atoms.nr : Int))])
    (fun c => c * 2) (0 : Int) rfl (mtop.block mb).nmol
    (fun b _ => by simp only [List.length_cons, List.length_nil]; omega)
  rw [← blockExpansion_single T mtop f mb p a hn htempl]
  refine ⟨hl, ?_, ?_⟩
  · rw [blockExpansion_single T mtop f mb p a hn htempl]
    have := key.2 c 0 hc (by simp)
    simpa using this
  · rw [blockExpansion_single T mtop f mb p a hn htempl]
    have := key.2 c 1 hc (by simp)
    simpa using this

/-- C13: with filtering off, for a block `mb` of `N` copies of a molecule type
with `n` atoms whose position-restraint template is the single entry on local
atom `k < n`, and whose table `posres_xA` has `N * n` entries,
`copyIListsFromMtop` returns (the other restraint-bearing blocks having
reference coordinates too), the block contributes `N` position-restraint
entries, and for every copy `c < N` the entry number `E + c` of the output
(`E` being the number of entries of the earlier blocks) restrains atom
`B + c * n + k`, has parameter id `E + c`, and its slot `E + c` has `pos0A`
equal to the element `c * n + k` of the block's table, whatever the shared
parameter record holds. -/
theorem copyIListsFromMtop_posres_own_coordinate (T : Constants) (mtop : gmx_mtop_t)
    (mergeConstr : Bool) (fda : Option FDASettings) (hoff : filterOff fda = true)
    (hw : RestraintKindsWellFormed T mtop mergeConstr)
    (hx : ∀ molb ∈ mtop.molblock,
      ((mtop.moltypeOf molb).ilist T.F_POSRES ≠ []
        ∨ (mtop.moltypeOf molb).ilist T.F_FBPOSRES ≠ []) → molb.posres_xA ≠ [])
    (mb : Nat) (hmb : mb < mtop.molblock.length) (p : Int) (k : Nat)
    (htempl : (mtop.moltypeOf (mtop.block mb)).ilist T.F_POSRES = [p, (k : Int)])
    (hk : k < (mtop.moltypeOf (mtop.block mb)).atoms.nr)
    (hxA : (mtop.block mb).posres_xA.length
      = (mtop.block mb).nmol * (mtop.moltypeOf (mtop.block mb)).atoms.nr) :
    ∃ idef, copyIListsFromMtop T mtop (emptyIdef mtop) mergeConstr fda = .ok idef
      ∧ numEntries T T.F_POSRES (blockExpansion T mtop T.F_POSRES mb) = (mtop.block mb).nmol
      ∧ ∀ c, c < (mtop.block mb).nmol →
          (idef.il T.F_POSRES).getD
              ((numEntries T T.F_POSRES
                  ((List.range mb).flatMap (blockExpansion T mtop T.F_POSRES)) + c) * 2) 0
              = ((numEntries T T.F_POSRES
                  ((List.range mb).flatMap (blockExpansion T mtop T.F_POSRES)) + c : Nat) : Int)
            ∧ (idef.il T.F_POSRES).getD
                ((numEntries T T.F_POSRES
                    ((List.range mb).flatMap (blockExpansion T mtop T.F_POSRES)) + c) * 2 + 1) 0
                = ((atomBase mtop mb + c * (mtop.moltypeOf (mtop.block mb)).atoms.nr + k : Nat)
                    : Int)
            ∧ c * (mtop.moltypeOf (mtop.block mb)).atoms.nr + k
                < (mtop.block mb).posres_xA.length
            ∧ (idef.iparams_posres.getD
                  (numEntries T T.F_POSRES
                    ((List.range mb).flatMap (blockExpansion T mtop T.F_POSRES)) + c)
                  default).posres.pos0A
                = (mtop.block mb).posres_xA.getD
                    (c * (mtop.moltypeOf (mtop.block mb)).atoms.nr + k) default := by
  have hxb := restraint_coordinates_present T mtop mergeConstr fda hw hx
  obtain ⟨idef, h, hilP, hsP, _, _⟩ :=
    copyIListsFromMtop_restraints T mtop mergeConstr fda hw hxb
  obtain ⟨hP, hF, hne, hnP, hnF, hm, hwf⟩ := hw
  have hplain : blockAppended T mtop mergeConstr fda T.F_POSRES
      = blockExpansion T mtop T.F_POSRES := by
    funext b
    exact blockAppended_plain T mtop mergeConstr fda hoff _ b (fun h => (hm h).1)
  rw [hplain] at hilP hsP
  have hev : ∀ b, ∃ n, (blockExpansion T mtop T.F_POSRES b).length = n * 2 := by
    intro b
    have := blockAppended_even T mtop mergeConstr fda T.F_POSRES hnP
      (fun h => (hm h).1) (fun molb h => (hwf molb h).1) b
    rw [hplain] at this
    exact this
  refine ⟨idef, h, ?_, ?_⟩
  · unfold numEntries
    rw [blockExpansion_length, htempl, hnP]
    simp
  · intro c hc
    obtain ⟨hl, g0, g1⟩ := blockExpansion_single_getD T mtop T.F_POSRES mb p k hnP htempl c hc
    -- the entries of the earlier blocks
    obtain ⟨E, hE⟩ := flatMap_length_even _ hev (List.range mb)
    have hEn : numEntries T T.F_POSRES
        ((List.range mb).flatMap (blockExpansion T mtop T.F_POSRES)) = E := by
      unfold numEntries
      rw [hnP, hE]
      omega
    rw [hEn]
    have hSl := flatMap_posresSlots_length mtop.ffparams.iparams mtop.block
      (fun b => (atomBase mtop b : Int)) _ hev (List.range mb)
    have hSE : ((List.range mb).flatMap
        (fun b => posresSlots mtop.ffparams.iparams (mtop.block b) (atomBase mtop b)
          (blockExpansion T mtop T.F_POSRES b))).length = E := by
      have : ((List.range mb).flatMap
        (fun b => posresSlots mtop.ffparams.iparams (mtop.block b) (atomBase mtop b)
          (blockExpansion T mtop T.F_POSRES b))).length * 2 = E * 2 := by
        rw [← hE]
        exact hSl
      omega
    -- positions in the concatenated entries
    have r0 := flatMap_range_getD_at (blockExpansion T mtop T.F_POSRES) (0 : Int)
      mtop.molblock.length mb (c * 2) hmb (by omega)
    have r1 := flatMap_range_getD_at (blockExpansion T mtop T.F_POSRES) (0 : Int)
      mtop.molblock.length mb (c * 2 + 1) hmb (by omega)
    rw [hE] at r0 r1
    have hrawlen : (E + c) * 2 + 1
        < ((List.range mtop.molblock.length).flatMap
            (blockExpansion T mtop T.F_POSRES)).length := by
      have := (flatMap_range_getD (blockExpansion T mtop T.F_POSRES)
        (fun b => ((List.range b).flatMap (blockExpansion T mtop T.F_POSRES)).length) (0 : Int)
        (by simp) mtop.molblock.length
        (fun b _ => by
          simp only
          rw [List.range_succ, List.flatMap_append, List.flatMap_singleton,
            List.length_append])).1
      have hsplit : ((List.range mtop.molblock.length).flatMap
            (blockExpansion T mtop T.F_POSRES)).length
          ≥ ((List.range (mb + 1)).flatMap (blockExpansion T mtop T.F_POSRES)).length := by
        obtain ⟨t, ht⟩ : ∃ t, mtop.molblock.length = (mb + 1) + t :=
          ⟨mtop.molblock.length - (mb + 1), by omega⟩
        rw [ht, List.range_add, List.flatMap_append, List.length_append]
        omega
      rw [List.range_succ, List.flatMap_append, List.flatMap_singleton, List.length_append,
        hE, hl] at hsplit
      omega
    obtain ⟨q0, q1⟩ := renumberFrom_getD (E + c) 0 _ hrawlen
    have s0 := flatMap_range_getD_at
      (fun b => posresSlots mtop.ffparams.iparams (mtop.block b) (atomBase mtop b)
        (blockExpansion T mtop T.F_POSRES b)) default mtop.molblock.length mb c hmb
      (by rw [posresSlots_length _ _ _ _ _ hl]; exact hc)
    rw [hSE] at s0
    have hidx : c * (mtop.moltypeOf (mtop.block mb)).atoms.nr + k
        < (mtop.block mb).posres_xA.length := by
      rw [hxA]
      calc c * (mtop.moltypeOf (mtop.block mb)).atoms.nr + k
          < c * (mtop.moltypeOf (mtop.block mb)).atoms.nr
              + (mtop.moltypeOf (mtop.block mb)).atoms.nr := by omega
        _ = (c + 1) * (mtop.moltypeOf (mtop.block mb)).atoms.nr := by ring
        _ ≤ (mtop.block mb).nmol * (mtop.moltypeOf (mtop.block mb)).atoms.nr :=
          Nat.mul_le_mul_right _ hc
    refine ⟨?_, ?_, hidx, ?_⟩
    · rw [hilP, getD_append_lt _ _ _ _ (by rw [renumberFrom_length]; omega), q0, Nat.zero_add]
    · rw [hilP, getD_append_lt _ _ _ _ (by rw [renumberFrom_length]; omega), q1,
        show (E + c) * 2 + 1 = E * 2 + (c * 2 + 1) by ring, r1, g1]
      push_cast
      ring
    · rw [hsP, s0, posresSlots_getD _ _ _ c _ (by omega), g1]
      simp only [posresSlot]
      rw [show (k : Int) + ((atomBase mtop mb : Int)
            + (c : Int) * ((mtop.moltypeOf (mtop.block mb)).atoms.nr : Int))
            - (atomBase mtop mb : Int)
          = ((c * (mtop.moltypeOf (mtop.block mb)).atoms.nr + k : Nat) : Int) by
        push_cast
        ring]
      exact readAt_natCast _ _

theorem copyIListsFromMtop_posres_own_coordinate_witness :
    ∃ idef, copyIListsFromMtop exampleConstants exampleMtop (emptyIdef exampleMtop) false none
        = .ok idef
      ∧ (idef.iparams_posres.getD 1 default).posres.pos0A = exampleCoord 13 := by
  obtain ⟨idef, h, _, hc⟩ := copyIListsFromMtop_posres_own_coordinate exampleConstants
    exampleMtop false none rfl (by decide) (by decide) 0 (by decide) 3 0 rfl (by decide)
    (by decide)
  obtain ⟨_, _, _, hpos⟩ := hc 1 (by decide)
  refine ⟨idef, h, ?_⟩
  have e : numEntries exampleConstants exampleConstants.F_POSRES
      ((List.range 0).flatMap (blockExpansion exampleConstants exampleMtop
        exampleConstants.F_POSRES)) + 1 = 1 := by decide
  rw [e] at hpos
  rw [hpos]
  decide

/-! ## Group exclusions -/

/-- C11 (failing input): for the group `3, 2` on four atoms without exclusions
the block structure gets the index `0, 0, 2, 4, 4`, so atom 3 receives no
exclusion (it does not exclude atom 2) and atom 1, which is not in the group,
receives the exclusions 3 and 2. -/
theorem addMimicExclusions_decreasing_group :
    addMimicExclusionsBlocka 4 [3, 2]
        = { nr := 4, index := [0, 0, 2, 4, 4], nra := 4, a := [3, 2, 3, 2] }
      ∧ addMimicExclusions [[], [], [], []] [3, 2] = [[], [3, 2], [3, 2], []]
      ∧ (2 : Int) ∉ (addMimicExclusions [[], [], [], []] [3, 2]).getD 3 []
      ∧ (3 : Int) ∈ (addMimicExclusions [[], [], [], []] [3, 2]).getD 1 [] := by
  decide

theorem getD_set_eq {α : Type} (l : List α) (q : Nat) (x d : α) (h : q < l.length) :
    (l.set q x).getD q d = x := by
  simp [List.getD_eq_getElem?_getD, List.getElem?_set, h]

theorem getD_set_ne {α : Type} (l : List α) (p q : Nat) (x d : α) (h : p ≠ q) :
    (l.set q x).getD p d = l.getD p d := by
  simp [List.getD_eq_getElem?_getD, List.getElem?_set, Ne.symm h]

theorem copyIListsKind_filterOff (T : Constants) (molt : gmx_moltype_t)
    (molb : gmx_molblock_t) (mergeConstr : Bool) (fda : Option FDASettings)
    (hoff : filterOff fda = true) (destnr srcnr : Nat) :
    copyIListsKind T molt molb mergeConstr fda destnr srcnr
      = copyIListsKind T molt molb mergeConstr none destnr srcnr := by
  cases fda with
  | none => rfl
  | some s =>
    have hs : s.bonded_exclusion_on = false := by simpa [filterOff] using hoff
    funext il ftype
    simp [copyIListsKind, hs]

theorem copyIListsBlock_filterOff (T : Constants) (mtop : gmx_mtop_t) (mergeConstr : Bool)
    (fda : Option FDASettings) (hoff : filterOff fda = true) (natoms : Nat)
    (idef : InteractionDefinitions) (molb : gmx_molblock_t) :
    copyIListsBlock T mtop mergeConstr fda natoms idef molb
      = copyIListsBlock T mtop mergeConstr none natoms idef molb := by
  unfold copyIListsBlock
  simp only [copyIListsKind_filterOff T _ molb mergeConstr fda hoff]

theorem copyIListsBlocks_filterOff (T : Constants) (mtop : gmx_mtop_t) (mergeConstr : Bool)
    (fda : Option FDASettings) (hoff : filterOff fda = true) :
    ∀ (blocks : List gmx_molblock_t) (natoms : Nat) (idef : InteractionDefinitions),
      copyIListsBlocks T mtop mergeConstr fda blocks natoms idef
        = copyIListsBlocks T mtop mergeConstr none blocks natoms idef := by
  intro blocks
  induction blocks with
  | nil => intro natoms idef; rfl
  | cons molb rest ih =>
    intro natoms idef
    simp only [copyIListsBlocks]
    rw [copyIListsBlock_filterOff T mtop mergeConstr fda hoff]
    split
    · rfl
    · exact ih _ _

/-- C21: when no settings are passed or the settings have `bonded_exclusion_on`
false, `copyIListsFromMtop` returns, for every initial definitions and merge
mode, exactly what it returns without settings (the same lists of every kind,
the same slots, the same error), whatever the groups and the mask of the
settings hold; and with merging off its list of every kind other than the
restraint kinds is the full expansion of the molecule blocks followed by the
intermolecular list. -/
theorem copyIListsFromMtop_filter_off (T : Constants) (mtop : gmx_mtop_t)
    (idef0 : InteractionDefinitions) (mergeConstr : Bool) (fda : Option FDASettings)
    (hoff : filterOff fda = true) :
    copyIListsFromMtop T mtop idef0 mergeConstr fda
        = copyIListsFromMtop T mtop idef0 mergeConstr none
      ∧ ∀ idef f, copyIListsFromMtop T mtop (emptyIdef mtop) false fda = .ok idef →
          f < T.F_NRE → f ≠ T.F_POSRES → f ≠ T.F_FBPOSRES →
          idef.il f = moleculeBlockExpansion T mtop f ++ intermolecularPart mtop f := by
  constructor
  · unfold copyIListsFromMtop
    rw [copyIListsBlocks_filterOff T mtop mergeConstr fda hoff]
  · intro idef f h hf hP hFB
    obtain ⟨blockPart, h1, _, h3⟩ := copyIListsFromMtop_plain T mtop fda hoff idef f hf h
    rw [h1, h3 hP hFB]

theorem copyIListsFromMtop_filter_off_witness :
    copyIListsFromMtop exampleConstants exampleMtop (emptyIdef exampleMtop) true
        (some { exampleFDASettings with bonded_exclusion_on := false })
      = copyIListsFromMtop exampleConstants exampleMtop (emptyIdef exampleMtop) true none
    ∧ ∃ idef, copyIListsFromMtop exampleConstants exampleMtop (emptyIdef exampleMtop) false
          (some { exampleFDASettings with bonded_exclusion_on := false }) = .ok idef
        ∧ idef.il 4 = [4, 6, 7, 4, 8, 9, 4, 10, 11] :=
  ⟨(copyIListsFromMtop_filter_off exampleConstants exampleMtop (emptyIdef exampleMtop) true
      (some { exampleFDASettings with bonded_exclusion_on := false }) rfl).1,
    _, rfl, by
      rw [(copyIListsFromMtop_filter_off exampleConstants exampleMtop (emptyIdef exampleMtop)
        false (some { exampleFDASettings with bonded_exclusion_on := false }) rfl).2 _ 4 rfl
        (by decide) (by decide) (by decide)]
      decide⟩

theorem offsetAtomsFrom_getD (nral : Nat) (d : Int) :
    ∀ (l : List Int) (q p : Nat), p < l.length →
      (offsetAtomsFrom nral d q l).getD p 0
        = if isAtomSlot nral (q + p) then l.getD p 0 + d else l.getD p 0 := by
  intro l
  induction l with
  | nil => intro q p h; simp at h
  | cons x xs ih =>
    intro q p h
    cases p with
    | zero => simp [offsetAtomsFrom]
    | succ p =>
      simp only [offsetAtomsFrom, List.getD_cons_succ]
      rw [ih (q + 1) p (by simpa using h), show q + 1 + p = q + (p + 1) by omega]

theorem foldl_add_eq_sum {α : Type} (w : α → Nat) :
    ∀ (l : List α) (n : Nat), l.foldl (fun n x => n + w x) n = n + (l.map w).sum := by
  intro l
  induction l with
  | nil => intro n; simp
  | cons x xs ih =>
    intro n
    simp only [List.foldl_cons, List.map_cons, List.sum_cons]
    rw [ih]
    omega

theorem gmx_mtop_num_molecules_eq (mtop : gmx_mtop_t) :
    gmx_mtop_num_molecules mtop = moleculesOfBlocks mtop.molblock := by
  unfold gmx_mtop_num_molecules moleculesOfBlocks
  rw [foldl_add_eq_sum (fun molb : gmx_molblock_t => molb.nmol)]
  simp

theorem gmx_mtop_nres_eq (mtop : gmx_mtop_t) :
    gmx_mtop_nres mtop = residuesOfBlocks mtop mtop.molblock := by
  unfold gmx_mtop_nres residuesOfBlocks
  rw [foldl_add_eq_sum
    (fun molb : gmx_molblock_t => molb.nmol * (mtop.moltypeOf molb).atoms.nres)]
  simp

theorem wrapInt32_add_wrapInt32 (x y : Int) :
    wrapInt32 (wrapInt32 x + wrapInt32 y) = wrapInt32 (x + y) := by
  unfold wrapInt32
  omega

theorem wrapInt32_eq_self_iff (x : Int) (h : 0 ≤ x) : wrapInt32 x = x ↔ x ≤ 2147483647 := by
  unfold wrapInt32
  omega

theorem foldl_wrapInt32 {α : Type} (w : α → Int) :
    ∀ (l : List α) (x : Int),
      l.foldl (fun n b => wrapInt32 (n + wrapInt32 (w b))) (wrapInt32 x)
        = wrapInt32 (x + (l.map w).sum) := by
  intro l
  induction l with
  | nil => intro x; simp
  | cons b bs ih =>
    intro x
    simp only [List.foldl_cons, List.map_cons, List.sum_cons]
    rw [wrapInt32_add_wrapInt32, ih]
    congr 1
    ring

theorem foldl_wrapInt32_plain {α : Type} (w : α → Int) :
    ∀ (l : List α) (x : Int),
      l.foldl (fun n b => wrapInt32 (n + w b)) (wrapInt32 x)
        = wrapInt32 (x + (l.map w).sum) := by
  intro l
  induction l with
  | nil => intro x; simp
  | cons b bs ih =>
    intro x
    simp only [List.foldl_cons, List.map_cons, List.sum_cons]
    have e : wrapInt32 (wrapInt32 x + w b) = wrapInt32 (x + w b) := by
      unfold wrapInt32
      omega
    rw [e, ih]
    congr 1
    ring

theorem wrapInt32_zero : wrapInt32 0 = 0 := by
  unfold wrapInt32
  omega

theorem sum_map_natCast {α : Type} (w : α → Nat) (l : List α) :
    (l.map (fun b => (w b : Int))).sum = (((l.map w).sum : Nat) : Int) := by
  induction l with
  | nil => simp
  | cons b bs ih =>
    simp only [List.map_cons, List.sum_cons, ih]
    push_cast
    rfl

/-- C28 (counterexample): with `int` arithmetic modulo `2^32`, a topology with
`2^31` molecules (more than `2^31 - 1`) makes `gmx_mtop_num_molecules` return
`-2^31`; the routine returns an `int` and has no way to report a fault. -/
theorem gmx_mtop_num_molecules_wraps :
    gmx_mtop_num_molecules exampleHugeMtop = 2147483648
      ∧ 2147483647 < gmx_mtop_num_molecules exampleHugeMtop
      ∧ gmx_mtop_num_molecules_int32 exampleHugeMtop = -2147483648 := by
  decide

/-- C28 (amended): with `int` arithmetic modulo `2^32`, the routines
`gmx_mtop_num_molecules` and `gmx_mtop_nres` and the running atom base of
`copyIListsFromMtop` detect no overflow: each returns (uses) the true count
reduced modulo `2^32` into the signed range, which is the true count exactly
when that count does not exceed `2^31 - 1`. -/
theorem counts_wrap_without_fault (mtop : gmx_mtop_t) :
    (gmx_mtop_num_molecules_int32 mtop = wrapInt32 (gmx_mtop_num_molecules mtop : Int)
        ∧ (gmx_mtop_num_molecules_int32 mtop = (gmx_mtop_num_molecules mtop : Int)
            ↔ gmx_mtop_num_molecules mtop ≤ 2147483647))
      ∧ (gmx_mtop_nres_int32 mtop = wrapInt32 (gmx_mtop_nres mtop : Int)
        ∧ (gmx_mtop_nres_int32 mtop = (gmx_mtop_nres mtop : Int)
            ↔ gmx_mtop_nres mtop ≤ 2147483647))
      ∧ (copyIListsFromMtop_natoms_int32 mtop = wrapInt32 (totalAtoms mtop : Int)
        ∧ (copyIListsFromMtop_natoms_int32 mtop = (totalAtoms mtop : Int)
            ↔ totalAtoms mtop ≤ 2147483647)) := by
  have h1 : gmx_mtop_num_molecules_int32 mtop
      = wrapInt32 (gmx_mtop_num_molecules mtop : Int) := by
    rw [gmx_mtop_num_molecules_eq]
    unfold gmx_mtop_num_molecules_int32 moleculesOfBlocks
    have := foldl_wrapInt32_plain (fun molb : gmx_molblock_t => (molb.nmol : Int))
      mtop.molblock 0
    rw [wrapInt32_zero] at this
    rw [this, Int.zero_add, sum_map_natCast]
  have h2 : gmx_mtop_nres_int32 mtop = wrapInt32 (gmx_mtop_nres mtop : Int) := by
    rw [gmx_mtop_nres_eq]
    unfold gmx_mtop_nres_int32 residuesOfBlocks
    have := foldl_wrapInt32
      (fun molb : gmx_molblock_t => (molb.nmol : Int) * ((mtop.moltypeOf molb).atoms.nres : Int))
      mtop.molblock 0
    rw [wrapInt32_zero] at this
    rw [this, Int.zero_add]
    congr 1
    rw [← sum_map_natCast]
    congr 1
  have h3 : copyIListsFromMtop_natoms_int32 mtop = wrapInt32 (totalAtoms mtop : Int) := by
    unfold copyIListsFromMtop_natoms_int32 totalAtoms atomsOfBlocks
    have := foldl_wrapInt32
      (fun molb : gmx_molblock_t => (molb.nmol : Int) * ((mtop.moltypeOf molb).atoms.nr : Int))
      mtop.molblock 0
    rw [wrapInt32_zero] at this
    rw [this, Int.zero_add]
    congr 1
    rw [← sum_map_natCast]
    congr 1
  refine ⟨⟨h1, ?_⟩, ⟨h2, ?_⟩, ⟨h3, ?_⟩⟩
  · rw [h1, wrapInt32_eq_self_iff _ (by omega)]
    omega
  · rw [h2, wrapInt32_eq_self_iff _ (by omega)]
    omega
  · rw [h3, wrapInt32_eq_self_iff _ (by omega)]
    omega

/-! ### Particle types -/

theorem foldl_increment_getD (w : Nat) :
    ∀ (keys : List Nat) (count : List Nat) (p : Nat),
      (keys.foldl (fun c k => c.set k (c.getD k 0 + w)) count).length = count.length
        ∧ (p < count.length →
            (keys.foldl (fun c k => c.set k (c.getD k 0 + w)) count).getD p 0
              = count.getD p 0 + w * keys.count p) := by
  intro keys
  induction keys with
  | nil => intro count p; simp
  | cons k ks ih =>
    intro count p
    simp only [List.foldl_cons]
    obtain ⟨h1, h2⟩ := ih (count.set k (count.getD k 0 + w)) p
    refine ⟨by rw [h1, List.length_set], fun hp => ?_⟩
    rw [h2 (by rw [List.length_set]; exact hp), List.count_cons]
    by_cases e : k = p
    · subst e
      rw [getD_set_eq _ _ _ _ hp]
      simp
      ring
    · rw [getD_set_ne _ _ _ _ _ (fun h => e h.symm)]
      simp [e]

theorem sum_indicator_range (k : Nat) :
    ∀ (K : Nat), ((List.range K).map (fun p => if k = p then 1 else 0)).sum
      = if k < K then 1 else 0 := by
  intro K
  induction K with
  | zero => simp
  | succ K ih =>
    rw [List.range_succ, List.map_append, List.sum_append, ih]
    simp only [List.map_cons, List.map_nil, List.sum_cons, List.sum_nil]
    split_ifs <;> omega

theorem sum_count_range :
    ∀ (keys : List Nat) (K : Nat), (∀ k ∈ keys, k < K) →
      ((List.range K).map (fun p => keys.count p)).sum = keys.length := by
  intro keys
  induction keys with
  | nil => intro K _; simp
  | cons k ks ih =>
    intro K h
    have hk : k < K := h k (List.mem_cons_self _ _)
    have e : (fun p => (k :: ks).count p)
        = fun p => ks.count p + (if k = p then 1 else 0) := by
      funext p
      rw [List.count_cons]
      simp
    rw [e, List.sum_map_add, ih K (fun x hx => h x (List.mem_cons_of_mem _ hx)),
      sum_indicator_range, if_pos hk, List.length_cons]

/-- The inner loop of the particle type count adds `nmol` once for every
template atom of the type. -/
theorem particletype_block (atoms : t_atoms) (nmol : Nat) (count : List Nat) (p : Nat) :
    ((List.range atoms.nr).foldl
        (fun count a =>
          count.set (atoms.atom.getD a default).ptype
            (count.getD (atoms.atom.getD a default).ptype 0 + nmol))
        count).length = count.length
      ∧ (p < count.length →
          ((List.range atoms.nr).foldl
              (fun count a =>
                count.set (atoms.atom.getD a default).ptype
                  (count.getD (atoms.atom.getD a default).ptype 0 + nmol))
              count).getD p 0
            = count.getD p 0 + nmol * particlesOfType atoms p) := by
  have e : (List.range atoms.nr).foldl
        (fun count a =>
          count.set (atoms.atom.getD a default).ptype
            (count.getD (atoms.atom.getD a default).ptype 0 + nmol))
        count
      = ((List.range atoms.nr).map (fun a => (atoms.atom.getD a default).ptype)).foldl
          (fun c k => c.set k (c.getD k 0 + nmol)) count := by
    rw [List.foldl_map]
  rw [e]
  exact foldl_increment_getD nmol _ count p

theorem particletype_blocks (mtop : gmx_mtop_t) (p : Nat) :
    ∀ (blocks : List gmx_molblock_t) (count : List Nat),
      (blocks.foldl
          (fun count molblock =>
            (List.range (mtop.moltypeOf molblock).atoms.nr).foldl
              (fun count a =>
                count.set ((mtop.moltypeOf molblock).atoms.atom.getD a default).ptype
                  (count.getD ((mtop.moltypeOf molblock).atoms.atom.getD a default).ptype 0
                    + molblock.nmol))
              count)
          count).length = count.length
        ∧ (p < count.length →
            (blocks.foldl
                (fun count molblock =>
                  (List.range (mtop.moltypeOf molblock).atoms.nr).foldl
                    (fun count a =>
                      count.set ((mtop.moltypeOf molblock).atoms.atom.getD a default).ptype
                        (count.getD
                          ((mtop.moltypeOf molblock).atoms.atom.getD a default).ptype 0
                          + molblock.nmol))
                    count)
                count).getD p 0
              = count.getD p 0
                + (blocks.map (fun molb =>
                    molb.nmol * particlesOfType (mtop.moltypeOf molb).atoms p)).sum) := by
  intro blocks
  induction blocks with
  | nil => intro count; simp
  | cons molb rest ih =>
    intro count
    simp only [List.foldl_cons, List.map_cons, List.sum_cons]
    obtain ⟨b1, b2⟩ := particletype_block (mtop.moltypeOf molb).atoms molb.nmol count p
    obtain ⟨r1, r2⟩ := ih ((List.range (mtop.moltypeOf molb).atoms.nr).foldl
      (fun count a =>
        count.set ((mtop.moltypeOf molb).atoms.atom.getD a default).ptype
          (count.getD ((mtop.moltypeOf molb).atoms.atom.getD a default).ptype 0 + molb.nmol))
      count)
    refine ⟨by rw [r1, b1], fun hp => ?_⟩
    rw [r2 (by rw [b1]; exact hp), b2 hp]
    omega

theorem sum_map_sum_comm (K : Nat) {α : Type} (g : α → Nat → Nat) :
    ∀ (l : List α),
      ((List.range K).map (fun p => (l.map (fun b => g b p)).sum)).sum
        = (l.map (fun b => ((List.range K).map (fun p => g b p)).sum)).sum := by
  intro l
  induction l with
  | nil => simp
  | cons b bs ih =>
    simp only [List.map_cons, List.sum_cons]
    rw [List.sum_map_add, ih]

/-- With exact integers, entry `p` of `gmx_mtop_particletype_count` is the sum over the blocks
of `nmol` times the number of template atoms of the block's molecule type whose
particle type is `p`; and when every template atom has a particle type below
`eptNR`, the entries summed over all particle types give the total atom
count. -/
theorem gmx_mtop_particletype_count_spec (T : Constants) (mtop : gmx_mtop_t) :
    (gmx_mtop_particletype_count T mtop).length = T.eptNR
      ∧ (∀ p, p < T.eptNR →
          (gmx_mtop_particletype_count T mtop).getD p 0
            = (mtop.molblock.map (fun molb =>
                molb.nmol * particlesOfType (mtop.moltypeOf molb).atoms p)).sum)
      ∧ ((∀ molb ∈ mtop.molblock, ∀ a, a < (mtop.moltypeOf molb).atoms.nr →
            ((mtop.moltypeOf molb).atoms.atom.getD a default).ptype < T.eptNR) →
          ((List.range T.eptNR).map
              (fun p => (gmx_mtop_particletype_count T mtop).getD p 0)).sum
            = totalAtoms mtop) := by
  have key : ∀ p, p < T.eptNR →
      (gmx_mtop_particletype_count T mtop).getD p 0
        = (mtop.molblock.map (fun molb =>
            molb.nmol * particlesOfType (mtop.moltypeOf molb).atoms p)).sum := by
    intro p hp
    unfold gmx_mtop_particletype_count
    have := (particletype_blocks mtop p mtop.molblock (List.replicate T.eptNR 0)).2
      (by simpa using hp)
    simp only at this ⊢
    rw [this]
    simp [List.getD_eq_getElem?_getD, hp]
  refine ⟨?_, key, ?_⟩
  · unfold gmx_mtop_particletype_count
    have := (particletype_blocks mtop 0 mtop.molblock (List.replicate T.eptNR 0)).1
    simp only at this ⊢
    rw [this]
    simp
  · intro hpt
    have e : (List.range T.eptNR).map
          (fun p => (gmx_mtop_particletype_count T mtop).getD p 0)
        = (List.range T.eptNR).map
          (fun p => (mtop.molblock.map (fun molb =>
            molb.nmol * particlesOfType (mtop.moltypeOf molb).atoms p)).sum) := by
      apply List.map_congr_left
      intro p hp
      exact key p (List.mem_range.mp hp)
    rw [e, sum_map_sum_comm T.eptNR
      (fun molb p => molb.nmol * particlesOfType (mtop.moltypeOf molb).atoms p)]
    unfold totalAtoms atomsOfBlocks
    congr 1
    apply List.map_congr_left
    intro molb hmolb
    have hs : ((List.range T.eptNR).map
        (fun p => particlesOfType (mtop.moltypeOf molb).atoms p)).sum
        = (mtop.moltypeOf molb).atoms.nr := by
      unfold particlesOfType
      rw [sum_count_range _ T.eptNR (by
        intro k hk
        obtain ⟨a, ha, rfl⟩ := List.mem_map.mp hk
        exact hpt molb hmolb a (List.mem_range.mp ha))]
      simp
    rw [← hs, ← List.sum_map_mul_left]

theorem gmx_mtop_particletype_count_spec_witness :
    gmx_mtop_particletype_count exampleConstants exampleMtop = [12, 0, 0, 0, 0]
      ∧ ((List.range exampleConstants.eptNR).map
            (fun p => (gmx_mtop_particletype_count exampleConstants exampleMtop).getD p 0)).sum
          = totalAtoms exampleMtop :=
  ⟨by decide,
    (gmx_mtop_particletype_count_spec exampleConstants exampleMtop).2.2 (by decide)⟩

/-! ### Molecule boundaries -/

/-- The loop over the copies of a block writes the boundaries of its molecules
and leaves the rest of the table alone. -/
theorem fillMoleculeIndicesMols_spec (n : Nat) :
    ∀ (cnt : Nat) (st : MoleculeIndexState), st.globalMolIndex + cnt < st.index.length →
      (fillMoleculeIndicesMols n cnt st).globalAtomIndex = st.globalAtomIndex + cnt * n
        ∧ (fillMoleculeIndicesMols n cnt st).globalMolIndex = st.globalMolIndex + cnt
        ∧ (fillMoleculeIndicesMols n cnt st).index.length = st.index.length
        ∧ ∀ p, (fillMoleculeIndicesMols n cnt st).index.getD p 0
            = if st.globalMolIndex < p ∧ p ≤ st.globalMolIndex + cnt
              then st.globalAtomIndex + (p - st.globalMolIndex) * n
              else st.index.getD p 0 := by
  intro cnt
  induction cnt with
  | zero =>
    intro st _
    refine ⟨by simp [fillMoleculeIndicesMols], rfl, rfl, fun p => ?_⟩
    rw [if_neg (by omega)]
    rfl
  | succ cnt ih =>
    intro st h
    rw [fillMoleculeIndicesMols]
    obtain ⟨h1, h2, h3, h4⟩ := ih
      { globalAtomIndex := st.globalAtomIndex + n
        globalMolIndex := st.globalMolIndex + 1
        index := st.index.set (st.globalMolIndex + 1) (st.globalAtomIndex + n) }
      (by simp only [List.length_set]; omega)
    simp only at h1 h2 h3 h4
    refine ⟨by rw [h1]; ring, by rw [h2]; omega, by rw [h3, List.length_set], fun p => ?_⟩
    rw [h4 p]
    by_cases e : p = st.globalMolIndex + 1
    · subst e
      rw [if_neg (by omega), if_pos (by omega), getD_set_eq _ _ _ _ (by omega)]
      simp
    · rw [getD_set_ne _ _ _ _ _ e]
      by_cases c : st.globalMolIndex + 1 < p ∧ p ≤ st.globalMolIndex + 1 + cnt
      · rw [if_pos c, if_pos (by omega)]
        have : p - st.globalMolIndex = (p - (st.globalMolIndex + 1)) + 1 := by omega
        rw [this]
        ring
      · rw [if_neg c, if_neg (by omega)]

theorem moleculesOfBlocks_append (pre : List gmx_molblock_t) (molb : gmx_molblock_t) :
    moleculesOfBlocks (pre ++ [molb]) = moleculesOfBlocks pre + molb.nmol := by
  simp [moleculesOfBlocks]

theorem moleculesOfBlocks_append_le (pre rest : List gmx_molblock_t) :
    moleculesOfBlocks pre ≤ moleculesOfBlocks (pre ++ rest) := by
  simp [moleculesOfBlocks]

/-- The loop over the blocks of `fillMoleculeIndices`: the boundaries of the
molecules of the blocks it visits are written, the earlier part of the table is
kept. -/
theorem fillMoleculeIndices_blocks (mtop : gmx_mtop_t) :
    ∀ (rest pre : List gmx_molblock_t) (st : MoleculeIndexState),
      mtop.molblock = pre ++ rest →
      st.globalAtomIndex = atomsOfBlocks mtop pre →
      st.globalMolIndex = moleculesOfBlocks pre →
      st.index.length = moleculesOfBlocks mtop.molblock + 1 →
      (rest.foldl
          (fun st molb => fillMoleculeIndicesMols (mtop.moltypeOf molb).atoms.nr molb.nmol st)
          st).index.length = st.index.length
        ∧ (∀ p, p ≤ st.globalMolIndex →
            (rest.foldl
              (fun st molb =>
                fillMoleculeIndicesMols (mtop.moltypeOf molb).atoms.nr molb.nmol st)
              st).index.getD p 0 = st.index.getD p 0)
        ∧ ∀ j c, j < rest.length → c ≤ (mtop.block (pre.length + j)).nmol → 1 ≤ c →
            (rest.foldl
              (fun st molb =>
                fillMoleculeIndicesMols (mtop.moltypeOf molb).atoms.nr molb.nmol st)
              st).index.getD (moleculesOfBlocks (mtop.molblock.take (pre.length + j)) + c) 0
              = atomBase mtop (pre.length + j)
                + c * (mtop.moltypeOf (mtop.block (pre.length + j))).atoms.nr := by
  intro rest
  induction rest with
  | nil =>
    intro pre st _ _ _ _
    refine ⟨rfl, fun p _ => rfl, fun j c hj => ?_⟩
    simp at hj
  | cons molb rest ih =>
    intro pre st hsplit ha hm hlen
    have hsplit' : mtop.molblock = (pre ++ [molb]) ++ rest := by simp [hsplit]
    have hmolb : mtop.block pre.length = molb := block_of_split mtop pre rest molb hsplit
    have hbase : atomBase mtop pre.length = atomsOfBlocks mtop pre :=
      atomBase_of_split mtop pre _ hsplit
    have htake : mtop.molblock.take pre.length = pre := by
      rw [hsplit, List.take_left']
      rfl
    have hroom : st.globalMolIndex + molb.nmol < st.index.length := by
      rw [hlen, hm, hsplit']
      have := moleculesOfBlocks_append_le (pre ++ [molb]) rest
      rw [moleculesOfBlocks_append] at this
      omega
    obtain ⟨s1, s2, s3, s4⟩ :=
      fillMoleculeIndicesMols_spec (mtop.moltypeOf molb).atoms.nr molb.nmol st hroom
    obtain ⟨r1, r2, r3⟩ := ih (pre ++ [molb])
      (fillMoleculeIndicesMols (mtop.moltypeOf molb).atoms.nr molb.nmol st) hsplit'
      (by rw [s1, ha, atomsOfBlocks_append]) (by rw [s2, hm, moleculesOfBlocks_append])
      (by rw [s3, hlen])
    simp only [List.foldl_cons]
    refine ⟨by rw [r1, s3], ?_, ?_⟩
    · intro p hp
      rw [r2 p (by rw [s2]; omega), s4 p, if_neg (by omega)]
    · intro j c hj hc hc1
      cases j with
      | zero =>
        rw [Nat.add_zero, htake] at *
        rw [hmolb] at hc ⊢
        rw [r2 _ (by rw [s2, hm]; omega), s4, if_pos (by rw [hm]; omega), hbase, ha, hm]
        congr 2
        omega
      | succ j =>
        have hlen' : (pre ++ [molb]).length = pre.length + 1 := by simp
        have := r3 j c (by simpa using hj)
        rw [hlen', show pre.length + 1 + j = pre.length + (j + 1) by omega] at this
        exact this hc hc1

theorem moleculesOfBlocks_take_succ (mtop : gmx_mtop_t) (mb : Nat)
    (h : mb < mtop.molblock.length) :
    moleculesOfBlocks (mtop.molblock.take (mb + 1))
      = moleculesOfBlocks (mtop.molblock.take mb) + (mtop.block mb).nmol := by
  rw [take_succ_block mtop mb h, moleculesOfBlocks_append]

/-- Every molecule number below the total is `M_mb + c` for one block and copy. -/
theorem locate_molecule (mtop : gmx_mtop_t) :
    ∀ (k m : Nat), k ≤ mtop.molblock.length → m < moleculesOfBlocks (mtop.molblock.take k) →
      ∃ mb c, mb < mtop.molblock.length ∧ c < (mtop.block mb).nmol
        ∧ m = moleculesOfBlocks (mtop.molblock.take mb) + c := by
  intro k
  induction k with
  | zero =>
    intro m _ hm
    simp [moleculesOfBlocks] at hm
  | succ k ih =>
    intro m hk hm
    by_cases hlt : m < moleculesOfBlocks (mtop.molblock.take k)
    · exact ih m (by omega) hlt
    · rw [moleculesOfBlocks_take_succ mtop k (by omega)] at hm
      exact ⟨k, m - moleculesOfBlocks (mtop.molblock.take k), by omega, by omega, by omega⟩

/-- With exact integers, the table built by `gmx_mtop_molecules_t_block` has `M + 1` entries,
`M = gmx_mtop_num_molecules` being the sum of `nmol` over the blocks; entry 0
is 0; for copy `c` of block `mb`, which is molecule `m = M_mb + c` in
block-major, copy-minor order (`M_mb` the molecules of the earlier blocks),
`index[m] = B + c * n` and `index[m + 1] = index[m] + n` with `n` the atom count
of the molecule's type; the table is non-decreasing; and `index[M]` is the
total atom count. -/
theorem gmx_mtop_molecules_t_block_spec (mtop : gmx_mtop_t) :
    (gmx_mtop_molecules_t_block mtop).nr = gmx_mtop_num_molecules mtop
      ∧ gmx_mtop_num_molecules mtop = (mtop.molblock.map (fun molb => molb.nmol)).sum
      ∧ (gmx_mtop_molecules_t_block mtop).index.length = gmx_mtop_num_molecules mtop + 1
      ∧ (gmx_mtop_molecules_t_block mtop).index.getD 0 0 = 0
      ∧ (∀ mb c, mb < mtop.molblock.length → c < (mtop.block mb).nmol →
          moleculesOfBlocks (mtop.molblock.take mb) + c < gmx_mtop_num_molecules mtop
            ∧ (gmx_mtop_molecules_t_block mtop).index.getD
                (moleculesOfBlocks (mtop.molblock.take mb) + c) 0
              = atomBase mtop mb + c * (mtop.moltypeOf (mtop.block mb)).atoms.nr
            ∧ (gmx_mtop_molecules_t_block mtop).index.getD
                (moleculesOfBlocks (mtop.molblock.take mb) + c + 1) 0
              = (gmx_mtop_molecules_t_block mtop).index.getD
                  (moleculesOfBlocks (mtop.molblock.take mb) + c) 0
                + (mtop.moltypeOf (mtop.block mb)).atoms.nr)
      ∧ (∀ m, m < gmx_mtop_num_molecules mtop →
          (gmx_mtop_molecules_t_block mtop).index.getD m 0
            ≤ (gmx_mtop_molecules_t_block mtop).index.getD (m + 1) 0)
      ∧ (gmx_mtop_molecules_t_block mtop).index.getD (gmx_mtop_num_molecules mtop) 0
          = totalAtoms mtop := by
  have hM := gmx_mtop_num_molecules_eq mtop
  obtain ⟨r1, r2, r3⟩ := fillMoleculeIndices_blocks mtop mtop.molblock []
    { globalAtomIndex := 0, globalMolIndex := 0
      index := (List.replicate (gmx_mtop_num_molecules mtop + 1) 0).set 0 0 }
    rfl rfl rfl (by simp [hM])
  simp only [List.length_nil, Nat.zero_add] at r3
  have hidx : (gmx_mtop_molecules_t_block mtop).index
      = (mtop.molblock.foldl
          (fun st molb => fillMoleculeIndicesMols (mtop.moltypeOf molb).atoms.nr molb.nmol st)
          { globalAtomIndex := 0, globalMolIndex := 0
            index := (List.replicate (gmx_mtop_num_molecules mtop + 1) 0).set 0 0 }).index :=
    rfl
  have h0 : (gmx_mtop_molecules_t_block mtop).index.getD 0 0 = 0 := by
    rw [hidx, r2 0 (Nat.le_refl _)]
    simp
  -- the value at the start of a block, also for a block without copies before it
  have hstart : ∀ mb, mb ≤ mtop.molblock.length →
      (gmx_mtop_molecules_t_block mtop).index.getD (moleculesOfBlocks (mtop.molblock.take mb)) 0
        = atomBase mtop mb := by
    intro mb
    induction mb with
    | zero =>
      intro _
      simp only [List.take_zero, atomBase, atomsOfBlocks, moleculesOfBlocks, List.map_nil,
        List.sum_nil]
      exact h0
    | succ mb ih =>
      intro hmb
      have hlt : mb < mtop.molblock.length := by omega
      rw [moleculesOfBlocks_take_succ mtop mb hlt, atomBase_succ mtop mb hlt]
      by_cases hz : (mtop.block mb).nmol = 0
      · rw [hz, Nat.add_zero, Nat.zero_mul, Nat.add_zero]
        exact ih (by omega)
      · rw [hidx]
        exact r3 mb (mtop.block mb).nmol hlt (Nat.le_refl _) (by omega)
  have hval : ∀ mb c, mb < mtop.molblock.length → c ≤ (mtop.block mb).nmol →
      (gmx_mtop_molecules_t_block mtop).index.getD
          (moleculesOfBlocks (mtop.molblock.take mb) + c) 0
        = atomBase mtop mb + c * (mtop.moltypeOf (mtop.block mb)).atoms.nr := by
    intro mb c hmb hc
    cases c with
    | zero =>
      rw [Nat.add_zero, Nat.zero_mul, Nat.add_zero]
      exact hstart mb (by omega)
    | succ c =>
      rw [hidx]
      exact r3 mb (c + 1) hmb hc (by omega)
  refine ⟨rfl, ?_, ?_, h0, ?_, ?_, ?_⟩
  · rw [hM]
    rfl
  · rw [hidx, r1]
    simp
  · intro mb c hmb hc
    refine ⟨?_, hval mb c hmb (by omega), ?_⟩
    · rw [hM]
      have h1 := moleculesOfBlocks_take_succ mtop mb hmb
      have h2 : moleculesOfBlocks (mtop.molblock.take (mb + 1))
          ≤ moleculesOfBlocks mtop.molblock := by
        have := moleculesOfBlocks_append_le (mtop.molblock.take (mb + 1))
          (mtop.molblock.drop (mb + 1))
        rw [List.take_append_drop] at this
        exact this
      omega
    · rw [Nat.add_assoc, hval mb (c + 1) hmb (by omega), hval mb c hmb (by omega)]
      ring
  · intro m hm
    rw [hM] at hm
    obtain ⟨mb, c, hmb, hc, rfl⟩ := locate_molecule mtop mtop.molblock.length m
      (Nat.le_refl _) (by rw [List.take_length]; exact hm)
    rw [Nat.add_assoc, hval mb (c + 1) hmb (by omega), hval mb c hmb (by omega)]
    have : c * (mtop.moltypeOf (mtop.block mb)).atoms.nr
        ≤ (c + 1) * (mtop.moltypeOf (mtop.block mb)).atoms.nr :=
      Nat.mul_le_mul_right _ (by omega)
    omega
  · have := hstart mtop.molblock.length (Nat.le_refl _)
    rw [List.take_length, atomBase_length] at this
    rw [hM]
    exact this

theorem gmx_mtop_molecules_t_block_spec_witness :
    (gmx_mtop_molecules_t_block exampleMtop).index = [0, 3, 6, 8, 10, 12]
      ∧ (gmx_mtop_molecules_t_block exampleMtop).index.getD
            (moleculesOfBlocks (exampleMtop.molblock.take 1) + 2 + 1) 0
          = (gmx_mtop_molecules_t_block exampleMtop).index.getD
              (moleculesOfBlocks (exampleMtop.molblock.take 1) + 2) 0
            + (exampleMtop.moltypeOf (exampleMtop.block 1)).atoms.nr :=
  ⟨by decide,
    ((gmx_mtop_molecules_t_block_spec exampleMtop).2.2.2.2.1 1 2 (by decide) (by decide)).2.2⟩

/-! ## Concatenated atom table: capability flags -/

theorem atomcat_flags (dest src : t_atoms) (copies : Nat) (maxres_renum maxresnr : Int) :
    (atomcat dest src copies maxres_renum maxresnr).1.haveMass
        = (if dest.nr = 0 then src.haveMass else dest.haveMass && src.haveMass)
      ∧ (atomcat dest src copies maxres_renum maxresnr).1.haveType
        = (if dest.nr = 0 then src.haveType else dest.haveType && src.haveType)
      ∧ (atomcat dest src copies maxres_renum maxresnr).1.haveCharge
        = (if dest.nr = 0 then src.haveCharge else dest.haveCharge && src.haveCharge)
      ∧ (atomcat dest src copies maxres_renum maxresnr).1.haveBState
        = (if dest.nr = 0 then src.haveBState else dest.haveBState && src.haveBState)
      ∧ (atomcat dest src copies maxres_renum maxresnr).1.havePdbInfo
        = (if dest.nr = 0 then src.havePdbInfo else dest.havePdbInfo && src.havePdbInfo) :=
  ⟨rfl, rfl, rfl, rfl, rfl⟩

/-- Once the destination holds an atom, the block loop of
`gmx_mtop_global_atoms` ands every flag with the flag of every further block. -/
theorem gmx_mtop_global_atoms_flags_foldl (mtop : gmx_mtop_t) :
    ∀ (blocks : List gmx_molblock_t) (st : t_atoms × Int), 0 < st.1.nr →
      (blocks.foldl
          (fun st molb =>
            atomcat st.1 (mtop.moltypeOf molb).atoms molb.nmol
              mtop.maxResiduesPerMoleculeToTriggerRenumber st.2) st).1.haveMass
          = (st.1.haveMass && blocks.all (fun molb => (mtop.moltypeOf molb).atoms.haveMass))
        ∧ (blocks.foldl
          (fun st molb =>
            atomcat st.1 (mtop.moltypeOf molb).atoms molb.nmol
              mtop.maxResiduesPerMoleculeToTriggerRenumber st.2) st).1.haveType
          = (st.1.haveType && blocks.all (fun molb => (mtop.moltypeOf molb).atoms.haveType))
        ∧ (blocks.foldl
          (fun st molb =>
            atomcat st.1 (mtop.moltypeOf molb).atoms molb.nmol
              mtop.maxResiduesPerMoleculeToTriggerRenumber st.2) st).1.haveCharge
          = (st.1.haveCharge
              && blocks.all (fun molb => (mtop.moltypeOf molb).atoms.haveCharge))
        ∧ (blocks.foldl
          (fun st molb =>
            atomcat st.1 (mtop.moltypeOf molb).atoms molb.nmol
              mtop.maxResiduesPerMoleculeToTriggerRenumber st.2) st).1.haveBState
          = (st.1.haveBState
              && blocks.all (fun molb => (mtop.moltypeOf molb).atoms.haveBState))
        ∧ (blocks.foldl
          (fun st molb =>
            atomcat st.1 (mtop.moltypeOf molb).atoms molb.nmol
              mtop.maxResiduesPerMoleculeToTriggerRenumber st.2) st).1.havePdbInfo
          = (st.1.havePdbInfo
              && blocks.all (fun molb => (mtop.moltypeOf molb).atoms.havePdbInfo)) := by
  intro blocks
  induction blocks with
  | nil => intro st _; simp
  | cons molb rest ih =>
    intro st hpos
    simp only [List.foldl_cons, List.all_cons]
    have hne : st.1.nr ≠ 0 := by omega
    obtain ⟨h1, h2, h3, h4, h5⟩ := ih
      (atomcat st.1 (mtop.moltypeOf molb).atoms molb.nmol
        mtop.maxResiduesPerMoleculeToTriggerRenumber st.2)
      (by rw [atomcat_nr]; omega)
    obtain ⟨f1, f2, f3, f4, f5⟩ := atomcat_flags st.1 (mtop.moltypeOf molb).atoms molb.nmol
      mtop.maxResiduesPerMoleculeToTriggerRenumber st.2
    rw [h1, h2, h3, h4, h5, f1, f2, f3, f4, f5]
    simp only [if_neg hne, Bool.and_assoc]
    exact ⟨trivial, trivial, trivial, trivial, trivial⟩

/-- While the destination holds no atom, the block loop keeps it without atoms. -/
theorem gmx_mtop_global_atoms_empty_foldl (mtop : gmx_mtop_t) :
    ∀ (blocks : List gmx_molblock_t) (st : t_atoms × Int), st.1.nr = 0 →
      (∀ molb ∈ blocks, molb.nmol * (mtop.moltypeOf molb).atoms.nr = 0) →
      (blocks.foldl
          (fun st molb =>
            atomcat st.1 (mtop.moltypeOf molb).atoms molb.nmol
              mtop.maxResiduesPerMoleculeToTriggerRenumber st.2) st).1.nr = 0 := by
  intro blocks
  induction blocks with
  | nil => intro st h _; exact h
  | cons molb rest ih =>
    intro st h hz
    simp only [List.foldl_cons]
    apply ih
    · rw [atomcat_nr, h, hz molb (List.mem_cons_self _ _)]
    · intro b hb
      exact hz b (List.mem_cons_of_mem _ hb)

/-- Why the blocks must have copies: a first block without copies whose molecule type has
no masses, followed by a block whose type has masses: the concatenated table
reports `haveMass`, although the flag is false for the type of the first
block. -/
theorem gmx_mtop_global_atoms_flags_forget_empty_block :
    exampleFlagsMtop.molblock.length = 2
      ∧ (gmx_mtop_global_atoms exampleFlagsMtop).haveMass = true
      ∧ exampleFlagsMtop.molblock.all
          (fun molb => (exampleFlagsMtop.moltypeOf molb).atoms.haveMass) = false := by
  decide

/-- Each capability flag of the atom table returned by
`gmx_mtop_global_atoms` is the logical AND of that flag over the molecule types
of the blocks from the first block that contributes an atom on; the blocks
before it, which contribute no atom, are ignored.  In particular, when the
first block of the topology contributes an atom, each flag is the AND over all
blocks. -/
theorem gmx_mtop_global_atoms_flags (mtop : gmx_mtop_t) (pre rest : List gmx_molblock_t)
    (first : gmx_molblock_t) (hsplit : mtop.molblock = pre ++ first :: rest)
    (hpre : ∀ molb ∈ pre, molb.nmol * (mtop.moltypeOf molb).atoms.nr = 0)
    (hfirst : 0 < first.nmol * (mtop.moltypeOf first).atoms.nr) :
    (gmx_mtop_global_atoms mtop).haveMass
        = (first :: rest).all (fun molb => (mtop.moltypeOf molb).atoms.haveMass)
      ∧ (gmx_mtop_global_atoms mtop).haveType
        = (first :: rest).all (fun molb => (mtop.moltypeOf molb).atoms.haveType)
      ∧ (gmx_mtop_global_atoms mtop).haveCharge
        = (first :: rest).all (fun molb => (mtop.moltypeOf molb).atoms.haveCharge)
      ∧ (gmx_mtop_global_atoms mtop).haveBState
        = (first :: rest).all (fun molb => (mtop.moltypeOf molb).atoms.haveBState)
      ∧ (gmx_mtop_global_atoms mtop).havePdbInfo
        = (first :: rest).all (fun molb => (mtop.moltypeOf molb).atoms.havePdbInfo) := by
  unfold gmx_mtop_global_atoms
  rw [hsplit, List.foldl_append, List.foldl_cons]
  have h0 := gmx_mtop_global_atoms_empty_foldl mtop pre
    (t_atoms.empty, mtop.maxResNumberNotRenumbered) rfl hpre
  obtain ⟨h1, h2, h3, h4, h5⟩ := gmx_mtop_global_atoms_flags_foldl mtop rest
    (atomcat
      (pre.foldl
        (fun st molb =>
          atomcat st.1 (mtop.moltypeOf molb).atoms molb.nmol
            mtop.maxResiduesPerMoleculeToTriggerRenumber st.2)
        (t_atoms.empty, mtop.maxResNumberNotRenumbered)).1
      (mtop.moltypeOf first).atoms first.nmol mtop.maxResiduesPerMoleculeToTriggerRenumber
      (pre.foldl
        (fun st molb =>
          atomcat st.1 (mtop.moltypeOf molb).atoms molb.nmol
            mtop.maxResiduesPerMoleculeToTriggerRenumber st.2)
        (t_atoms.empty, mtop.maxResNumberNotRenumbered)).2)
    (by rw [atomcat_nr, h0]; omega)
  obtain ⟨f1, f2, f3, f4, f5⟩ := atomcat_flags
    (pre.foldl
      (fun st molb =>
        atomcat st.1 (mtop.moltypeOf molb).atoms molb.nmol
          mtop.maxResiduesPerMoleculeToTriggerRenumber st.2)
      (t_atoms.empty, mtop.maxResNumberNotRenumbered)).1
    (mtop.moltypeOf first).atoms first.nmol mtop.maxResiduesPerMoleculeToTriggerRenumber
    (pre.foldl
      (fun st molb =>
        atomcat st.1 (mtop.moltypeOf molb).atoms molb.nmol
          mtop.maxResiduesPerMoleculeToTriggerRenumber st.2)
      (t_atoms.empty, mtop.maxResNumberNotRenumbered)).2
  rw [h1, h2, h3, h4, h5, f1, f2, f3, f4, f5]
  simp only [List.all_cons, if_pos h0]
  exact ⟨trivial, trivial, trivial, trivial, trivial⟩

theorem gmx_mtop_global_atoms_flags_witness :
    (gmx_mtop_global_atoms exampleFlagsMtop).haveMass
        = [exampleFlagsMtop.block 1].all
            (fun molb => (exampleFlagsMtop.moltypeOf molb).atoms.haveMass)
      ∧ (gmx_mtop_global_atoms exampleMtop).havePdbInfo
        = exampleMtop.molblock.all (fun molb => (exampleMtop.moltypeOf molb).atoms.havePdbInfo) :=
  ⟨(gmx_mtop_global_atoms_flags exampleFlagsMtop [exampleFlagsMtop.block 0] []
      (exampleFlagsMtop.block 1) rfl (by decide) (by decide)).1,
    (gmx_mtop_global_atoms_flags exampleMtop [] [exampleMtop.block 1]
      (exampleMtop.block 0) rfl (by decide) (by decide)).2.2.2.2⟩

/-! ## Concatenated atom table: contents -/

/-- A loop that rewrites the elements `l, .., l + n - 1` of an array one after
the other. -/
theorem foldl_set_getD {α : Type} [Inhabited α] (F : Nat → α → α) (l : Nat) :
    ∀ (n : Nat) (dest : List α), l + n ≤ dest.length →
      ((List.range n).foldl
          (fun d i => d.set (l + i) (F i (d.getD (l + i) default))) dest).length = dest.length
        ∧ ∀ p, ((List.range n).foldl
              (fun d i => d.set (l + i) (F i (d.getD (l + i) default))) dest).getD p default
            = if l ≤ p ∧ p < l + n then F (p - l) (dest.getD p default)
              else dest.getD p default := by
  intro n
  induction n with
  | zero =>
    intro dest _
    refine ⟨rfl, fun p => ?_⟩
    rw [if_neg (by omega)]
    rfl
  | succ n ih =>
    intro dest h
    obtain ⟨hl, hg⟩ := ih dest (by omega)
    rw [List.range_succ, List.foldl_append]
    simp only [List.foldl_cons, List.foldl_nil]
    refine ⟨by rw [List.length_set, hl], fun p => ?_⟩
    by_cases hp : p = l + n
    · subst hp
      rw [getD_set_eq _ _ _ _ (by rw [hl]; omega), if_pos (by omega), hg, if_neg (by omega)]
      congr 1
      omega
    · rw [getD_set_ne _ _ _ _ _ hp, hg p]
      by_cases hc : l ≤ p ∧ p < l + n
      · rw [if_pos hc, if_pos (by omega)]
      · rw [if_neg hc, if_neg (by omega)]

/-- A loop nest that rewrites, copy after copy, the elements
`base + j * n + i` of an array. -/
theorem foldl_foldl_set_getD {α : Type} [Inhabited α] (F : Nat → Nat → α → α)
    (base n : Nat) :
    ∀ (copies : Nat) (dest : List α), base + copies * n ≤ dest.length →
      ((List.range copies).foldl
          (fun d j => (List.range n).foldl
            (fun d i => d.set (base + j * n + i) (F j i (d.getD (base + j * n + i) default))) d)
          dest).length = dest.length
        ∧ (∀ j i, j < copies → i < n →
            ((List.range copies).foldl
              (fun d j => (List.range n).foldl
                (fun d i =>
                  d.set (base + j * n + i) (F j i (d.getD (base + j * n + i) default))) d)
              dest).getD (base + j * n + i) default
              = F j i (dest.getD (base + j * n + i) default))
        ∧ ∀ p, (p < base ∨ base + copies * n ≤ p) →
            ((List.range copies).foldl
              (fun d j => (List.range n).foldl
                (fun d i =>
                  d.set (base + j * n + i) (F j i (d.getD (base + j * n + i) default))) d)
              dest).getD p default = dest.getD p default := by
  intro copies
  induction copies with
  | zero =>
    intro dest _
    refine ⟨rfl, fun j i hj => ?_, fun p _ => rfl⟩
    omega
  | succ copies ih =>
    intro dest h
    have hmul : (copies + 1) * n = copies * n + n := by ring
    obtain ⟨h1, h2, h3⟩ := ih dest (by omega)
    rw [List.range_succ, List.foldl_append]
    simp only [List.foldl_cons, List.foldl_nil]
    obtain ⟨a1, a2⟩ := foldl_set_getD (F copies) (base + copies * n) n
      ((List.range copies).foldl
        (fun d j => (List.range n).foldl
          (fun d i => d.set (base + j * n + i) (F j i (d.getD (base + j * n + i) default))) d)
        dest) (by rw [h1]; omega)
    refine ⟨by rw [a1, h1], ?_, ?_⟩
    · intro j i hj hi
      rw [a2]
      by_cases e : j = copies
      · subst e
        rw [if_pos (by omega), h3 _ (Or.inr (by omega))]
        congr 2
        omega
      · have hlt : j < copies := by omega
        have t1 : (j + 1) * n ≤ copies * n := Nat.mul_le_mul_right _ (by omega)
        have t2 : (j + 1) * n = j * n + n := by ring
        rw [if_neg (by omega)]
        exact h2 j i hlt hi
    · intro p hp
      rw [a2, if_neg (by omega)]
      exact h3 p (by omega)

/-- The loop nest of `atomcat` that continues the residue numbering. -/
theorem atomcatRenumber_inner (b : Nat) :
    ∀ (n : Nat) (st : List t_resinfo × Int), b + n ≤ st.1.length →
      ((List.range n).foldl
          (fun st l =>
            (st.1.set (b + l) { st.1.getD (b + l) default with nr := st.2 + 1 }, st.2 + 1))
          st).2 = st.2 + (n : Int)
        ∧ ((List.range n).foldl
          (fun st l =>
            (st.1.set (b + l) { st.1.getD (b + l) default with nr := st.2 + 1 }, st.2 + 1))
          st).1.length = st.1.length
        ∧ ∀ p, ((List.range n).foldl
              (fun st l =>
                (st.1.set (b + l) { st.1.getD (b + l) default with nr := st.2 + 1 }, st.2 + 1))
              st).1.getD p default
            = if b ≤ p ∧ p < b + n
              then { st.1.getD p default with nr := st.2 + ((p - b : Nat) : Int) + 1 }
              else st.1.getD p default := by
  intro n
  induction n with
  | zero =>
    intro st _
    refine ⟨by simp, rfl, fun p => ?_⟩
    rw [if_neg (by omega)]
    rfl
  | succ n ih =>
    intro st h
    obtain ⟨h1, h2, h3⟩ := ih st (by omega)
    rw [List.range_succ, List.foldl_append]
    simp only [List.foldl_cons, List.foldl_nil]
    refine ⟨by rw [h1]; push_cast; ring, by rw [List.length_set, h2], fun p => ?_⟩
    by_cases hp : p = b + n
    · subst hp
      rw [getD_set_eq _ _ _ _ (by rw [h2]; omega), if_pos (by omega), h3, if_neg (by omega), h1]
      congr 2
      have : b + n - b = n := by omega
      rw [this]
    · rw [getD_set_ne _ _ _ _ _ hp, h3 p]
      by_cases hc : b ≤ p ∧ p < b + n
      · rw [if_pos hc, if_pos (by omega)]
      · rw [if_neg hc, if_neg (by omega)]

theorem atomcatRenumber_spec (dest src : t_atoms) (resinfo : List t_resinfo) (maxresnr : Int) :
    ∀ (copies : Nat), dest.nres + copies * src.nres ≤ resinfo.length →
      (atomcatRenumber dest src copies resinfo maxresnr).2
          = maxresnr + ((copies * src.nres : Nat) : Int)
        ∧ (atomcatRenumber dest src copies resinfo maxresnr).1.length = resinfo.length
        ∧ (∀ j l, j < copies → l < src.nres →
            (atomcatRenumber dest src copies resinfo maxresnr).1.getD
                (dest.nres + j * src.nres + l) default
              = { resinfo.getD (dest.nres + j * src.nres + l) default with
                  nr := maxresnr + ((j * src.nres + l : Nat) : Int) + 1 })
        ∧ ∀ p, (p < dest.nres ∨ dest.nres + copies * src.nres ≤ p) →
            (atomcatRenumber dest src copies resinfo maxresnr).1.getD p default
              = resinfo.getD p default := by
  intro copies
  induction copies with
  | zero =>
    intro _
    refine ⟨by simp [atomcatRenumber], rfl, fun j l hj => ?_, fun p _ => rfl⟩
    omega
  | succ copies ih =>
    intro h
    have hmul : (copies + 1) * src.nres = copies * src.nres + src.nres := by ring
    obtain ⟨h1, h2, h3, h4⟩ := ih (by omega)
    have e : atomcatRenumber dest src (copies + 1) resinfo maxresnr
        = (List.range src.nres).foldl
            (fun st l =>
              (st.1.set (dest.nres + copies * src.nres + l)
                  { st.1.getD (dest.nres + copies * src.nres + l) default with nr := st.2 + 1 },
                st.2 + 1))
            (atomcatRenumber dest src copies resinfo maxresnr) := by
      unfold atomcatRenumber
      rw [List.range_succ, List.foldl_append]
      rfl
    obtain ⟨a1, a2, a3⟩ := atomcatRenumber_inner (dest.nres + copies * src.nres) src.nres
      (atomcatRenumber dest src copies resinfo maxresnr) (by rw [h2]; omega)
    rw [e]
    refine ⟨by rw [a1, h1, hmul]; push_cast; ring, by rw [a2, h2], ?_, ?_⟩
    · intro j l hj hl
      rw [a3]
      by_cases ej : j = copies
      · subst ej
        rw [if_pos (by omega), h4 _ (Or.inr (by omega)), h1]
        have : dest.nres + j * src.nres + l - (dest.nres + j * src.nres) = l := by omega
        rw [this]
        push_cast
        ring_nf
      · have hlt : j < copies := by omega
        have t1 : (j + 1) * src.nres ≤ copies * src.nres := Nat.mul_le_mul_right _ (by omega)
        have t2 : (j + 1) * src.nres = j * src.nres + src.nres := by ring
        rw [if_neg (by omega)]
        exact h3 j l hlt hl
    · intro p hp
      rw [a3, if_neg (by omega)]
      exact h4 p (by omega)

theorem resizeList_getD {α : Type} [Inhabited α] (xs : List α) (n p : Nat)
    (h : xs.length ≤ n) (hp : p < xs.length) :
    (resizeList xs n).getD p default = xs.getD p default := by
  unfold resizeList
  rw [List.take_of_length_le h, getD_append_lt _ _ _ _ hp]

/-- The copies that `atomcat` makes of a source array with `memcpy`. -/
theorem copies_copyInto {α : Type} [Inhabited α] (src : List α) (base n : Nat) :
    ∀ (copies : Nat) (dest : List α), base + copies * n ≤ dest.length →
      ((List.range copies).foldl (fun a j => copyInto a (base + j * n) src n) dest).length
          = dest.length
        ∧ (∀ j i, j < copies → i < n →
            ((List.range copies).foldl (fun a j => copyInto a (base + j * n) src n)
              dest).getD (base + j * n + i) default = src.getD i default)
        ∧ ∀ p, (p < base ∨ base + copies * n ≤ p) →
            ((List.range copies).foldl (fun a j => copyInto a (base + j * n) src n)
              dest).getD p default = dest.getD p default :=
  fun copies dest h =>
    foldl_foldl_set_getD (fun _ i _ => src.getD i default) base n copies dest h

theorem atomcat_atom (dest src : t_atoms) (copies : Nat) (maxres_renum maxresnr : Int) :
    (atomcat dest src copies maxres_renum maxresnr).1.atom
      = atomcatResind dest src copies
          ((List.range copies).foldl
            (fun a j => copyInto a (dest.nr + j * src.nr) src.atom src.nr)
            (if src.nr ≠ 0 then resizeList dest.atom (dest.nr + copies * src.nr)
              else dest.atom)) :=
  rfl

theorem atomcat_renum (dest src : t_atoms) (copies : Nat) (maxres_renum maxresnr : Int) :
    ((atomcat dest src copies maxres_renum maxresnr).1.resinfo,
        (atomcat dest src copies maxres_renum maxresnr).2)
      = if (src.nres : Int) ≤ maxres_renum then
          atomcatRenumber dest src copies
            ((List.range copies).foldl
              (fun r j => copyInto r (dest.nres + j * src.nres) src.resinfo src.nres)
              (if src.nres ≠ 0 then resizeList dest.resinfo (dest.nres + copies * src.nres)
                else dest.resinfo))
            maxresnr
        else
          ((List.range copies).foldl
              (fun r j => copyInto r (dest.nres + j * src.nres) src.resinfo src.nres)
              (if src.nres ≠ 0 then resizeList dest.resinfo (dest.nres + copies * src.nres)
                else dest.resinfo),
            maxresnr) :=
  rfl

theorem resized_spec {α : Type} [Inhabited α] (xs : List α) (nr copies n : Nat)
    (h : xs.length = nr) :
    (if n ≠ 0 then resizeList xs (nr + copies * n) else xs).length = nr + copies * n
      ∧ ∀ p, p < nr →
          (if n ≠ 0 then resizeList xs (nr + copies * n) else xs).getD p default
            = xs.getD p default := by
  by_cases hn : n = 0
  · subst hn
    simp [h]
  · rw [if_pos hn]
    exact ⟨resizeList_length _ _,
      fun p hp => resizeList_getD xs _ p (by omega) (by omega)⟩

/-- The routine `atomcat` in closed form, for a destination whose arrays have
the lengths its counts announce: the atoms and residues present are kept, copy
`j` of source atom `i` follows at position `nr + j * src.nr + i` with its
residue index increased by `nres + j * src.nres`, copy `j` of source residue
`l` follows at position `nres + j * src.nres + l`, numbered on from `maxresnr`
when the molecule type is renumbered. -/
theorem atomcat_spec (dest src : t_atoms) (copies : Nat) (maxres_renum maxresnr : Int)
    (hatom : dest.atom.length = dest.nr) (hres : dest.resinfo.length = dest.nres) :
    (atomcat dest src copies maxres_renum maxresnr).1.nr = dest.nr + copies * src.nr
      ∧ (atomcat dest src copies maxres_renum maxresnr).1.atom.length
          = dest.nr + copies * src.nr
      ∧ (atomcat dest src copies maxres_renum maxresnr).1.nres = dest.nres + copies * src.nres
      ∧ (atomcat dest src copies maxres_renum maxresnr).1.resinfo.length
          = dest.nres + copies * src.nres
      ∧ (atomcat dest src copies maxres_renum maxresnr).2
          = (if (src.nres : Int) ≤ maxres_renum
             then maxresnr + ((copies * src.nres : Nat) : Int) else maxresnr)
      ∧ (∀ p, p < dest.nr →
          (atomcat dest src copies maxres_renum maxresnr).1.atom.getD p default
            = dest.atom.getD p default)
      ∧ (∀ j i, j < copies → i < src.nr →
          (atomcat dest src copies maxres_renum maxresnr).1.atom.getD
              (dest.nr + j * src.nr + i) default
            = { src.atom.getD i default with
                resind := (dest.nres : Int) + (j : Int) * (src.nres : Int)
                  + (src.atom.getD i default).resind })
      ∧ (∀ p, p < dest.nres →
          (atomcat dest src copies maxres_renum maxresnr).1.resinfo.getD p default
            = dest.resinfo.getD p default)
      ∧ ∀ j l, j < copies → l < src.nres →
          (atomcat dest src copies maxres_renum maxresnr).1.resinfo.getD
              (dest.nres + j * src.nres + l) default
            = if (src.nres : Int) ≤ maxres_renum
              then { src.resinfo.getD l default with
                      nr := maxresnr + ((j * src.nres + l : Nat) : Int) + 1 }
              else src.resinfo.getD l default := by
  -- the atoms
  obtain ⟨a0l, a0g⟩ := resized_spec dest.atom dest.nr copies src.nr hatom
  obtain ⟨a1l, a1c, a1o⟩ := copies_copyInto src.atom dest.nr src.nr copies
    (if src.nr ≠ 0 then resizeList dest.atom (dest.nr + copies * src.nr) else dest.atom)
    (by rw [a0l])
  obtain ⟨a2l, a2c, a2o⟩ := foldl_foldl_set_getD
    (fun (j i : Nat) (x : t_atom) =>
      ({ x with
        resind := (dest.nres : Int) + (j : Int) * (src.nres : Int)
          + (src.atom.getD i default).resind } : t_atom))
    dest.nr src.nr copies
    ((List.range copies).foldl
      (fun a j => copyInto a (dest.nr + j * src.nr) src.atom src.nr)
      (if src.nr ≠ 0 then resizeList dest.atom (dest.nr + copies * src.nr) else dest.atom))
    (by rw [a1l, a0l])
  -- the residues
  obtain ⟨r0l, r0g⟩ := resized_spec dest.resinfo dest.nres copies src.nres hres
  obtain ⟨r1l, r1c, r1o⟩ := copies_copyInto src.resinfo dest.nres src.nres copies
    (if src.nres ≠ 0 then resizeList dest.resinfo (dest.nres + copies * src.nres)
      else dest.resinfo)
    (by rw [r0l])
  have hren := atomcat_renum dest src copies maxres_renum maxresnr
  refine ⟨rfl, ?_, rfl, ?_, ?_, ?_, ?_, ?_, ?_⟩
  · rw [atomcat_atom]
    exact a2l.trans (a1l.trans a0l)
  · by_cases c : (src.nres : Int) ≤ maxres_renum
    · rw [if_pos c] at hren
      obtain ⟨_, q2, _, _⟩ := atomcatRenumber_spec dest src _ maxresnr copies
        (by rw [r1l, r0l])
      have := congrArg Prod.fst hren
      simp only at this
      rw [this, q2, r1l, r0l]
    · rw [if_neg c] at hren
      have := congrArg Prod.fst hren
      simp only at this
      rw [this, r1l, r0l]
  · by_cases c : (src.nres : Int) ≤ maxres_renum
    · rw [if_pos c] at hren
      obtain ⟨q1, _, _, _⟩ := atomcatRenumber_spec dest src _ maxresnr copies
        (by rw [r1l, r0l])
      have := congrArg Prod.snd hren
      simp only at this
      rw [this, q1, if_pos c]
    · rw [if_neg c] at hren
      have := congrArg Prod.snd hren
      simp only at this
      rw [this, if_neg c]
  · intro p hp
    rw [atomcat_atom]
    exact (a2o p (Or.inl hp)).trans ((a1o p (Or.inl hp)).trans (a0g p hp))
  · intro j i hj hi
    rw [atomcat_atom]
    exact (a2c j i hj hi).trans (by rw [a1c j i hj hi])
  · intro p hp
    by_cases c : (src.nres : Int) ≤ maxres_renum
    · rw [if_pos c] at hren
      obtain ⟨_, _, _, q4⟩ := atomcatRenumber_spec dest src _ maxresnr copies
        (by rw [r1l, r0l])
      have := congrArg Prod.fst hren
      simp only at this
      rw [this, q4 p (Or.inl hp), r1o p (Or.inl hp), r0g p hp]
    · rw [if_neg c] at hren
      have := congrArg Prod.fst hren
      simp only at this
      rw [this, r1o p (Or.inl hp), r0g p hp]
  · intro j l hj hl
    by_cases c : (src.nres : Int) ≤ maxres_renum
    · rw [if_pos c] at hren
      obtain ⟨_, _, q3, _⟩ := atomcatRenumber_spec dest src _ maxresnr copies
        (by rw [r1l, r0l])
      have := congrArg Prod.fst hren
      simp only at this
      rw [this, q3 j l hj hl, r1c j l hj hl, if_pos c]
    · rw [if_neg c] at hren
      have := congrArg Prod.fst hren
      simp only at this
      rw [this, r1c j l hj hl, if_neg c]

theorem residuesOfBlocks_append (mtop : gmx_mtop_t) (l1 l2 : List gmx_molblock_t) :
    residuesOfBlocks mtop (l1 ++ l2) = residuesOfBlocks mtop l1 + residuesOfBlocks mtop l2 := by
  simp [residuesOfBlocks]

theorem residuesOfBlocks_single (mtop : gmx_mtop_t) (molb : gmx_molblock_t) :
    residuesOfBlocks mtop [molb] = molb.nmol * (mtop.moltypeOf molb).atoms.nres := by
  simp [residuesOfBlocks]

theorem renumberedResiduesOfBlocks_single (mtop : gmx_mtop_t) (molb : gmx_molblock_t) :
    renumberedResiduesOfBlocks mtop [molb]
      = if ((mtop.moltypeOf molb).atoms.nres : Int)
            ≤ mtop.maxResiduesPerMoleculeToTriggerRenumber
        then molb.nmol * (mtop.moltypeOf molb).atoms.nres else 0 := by
  simp [renumberedResiduesOfBlocks]

theorem mul_succ_le_of_lt (c n k : Nat) (h : c < n) : c * k + k ≤ n * k := by
  have : (c + 1) * k ≤ n * k := Nat.mul_le_mul_right _ h
  rw [Nat.add_mul, Nat.one_mul] at this
  exact this

/-- The block loop of `gmx_mtop_global_atoms`: the atoms and residues of the
blocks it visits are written as the closed form of `atomcat` says, those of the
earlier blocks are kept. -/
theorem gmx_mtop_global_atoms_blocks (mtop : gmx_mtop_t) :
    ∀ (rest pre : List gmx_molblock_t) (st : t_atoms × Int),
      mtop.molblock = pre ++ rest →
      st.1.nr = atomsOfBlocks mtop pre → st.1.atom.length = st.1.nr →
      st.1.nres = residuesOfBlocks mtop pre → st.1.resinfo.length = st.1.nres →
      st.2 = mtop.maxResNumberNotRenumbered + (renumberedResiduesOfBlocks mtop pre : Int) →
      (rest.foldl
          (fun st molb =>
            atomcat st.1 (mtop.moltypeOf molb).atoms molb.nmol
              mtop.maxResiduesPerMoleculeToTriggerRenumber st.2) st).1.nres
          = residuesOfBlocks mtop (pre ++ rest)
        ∧ (∀ p, p < st.1.nr →
            (rest.foldl
              (fun st molb =>
                atomcat st.1 (mtop.moltypeOf molb).atoms molb.nmol
                  mtop.maxResiduesPerMoleculeToTriggerRenumber st.2) st).1.atom.getD p default
              = st.1.atom.getD p default)
        ∧ (∀ p, p < st.1.nres →
            (rest.foldl
              (fun st molb =>
                atomcat st.1 (mtop.moltypeOf molb).atoms molb.nmol
                  mtop.maxResiduesPerMoleculeToTriggerRenumber st.2) st).1.resinfo.getD p
                default
              = st.1.resinfo.getD p default)
        ∧ ∀ j c, j < rest.length → c < (mtop.block (pre.length + j)).nmol →
            (∀ i, i < (mtop.moltypeOf (mtop.block (pre.length + j))).atoms.nr →
              (rest.foldl
                (fun st molb =>
                  atomcat st.1 (mtop.moltypeOf molb).atoms molb.nmol
                    mtop.maxResiduesPerMoleculeToTriggerRenumber st.2) st).1.atom.getD
                  (atomBase mtop (pre.length + j)
                    + c * (mtop.moltypeOf (mtop.block (pre.length + j))).atoms.nr + i) default
                = { (mtop.moltypeOf (mtop.block (pre.length + j))).atoms.atom.getD i default with
                    resind :=
                      ((residuesOfBlocks mtop (mtop.molblock.take (pre.length + j)) : Nat) : Int)
                        + (c : Int)
                          * ((mtop.moltypeOf (mtop.block (pre.length + j))).atoms.nres : Int)
                        + ((mtop.moltypeOf (mtop.block (pre.length + j))).atoms.atom.getD i
                            default).resind })
            ∧ ∀ l, l < (mtop.moltypeOf (mtop.block (pre.length + j))).atoms.nres →
              (rest.foldl
                (fun st molb =>
                  atomcat st.1 (mtop.moltypeOf molb).atoms molb.nmol
                    mtop.maxResiduesPerMoleculeToTriggerRenumber st.2) st).1.resinfo.getD
                  (residuesOfBlocks mtop (mtop.molblock.take (pre.length + j))
                    + c * (mtop.moltypeOf (mtop.block (pre.length + j))).atoms.nres + l) default
                = if ((mtop.moltypeOf (mtop.block (pre.length + j))).atoms.nres : Int)
                      ≤ mtop.maxResiduesPerMoleculeToTriggerRenumber
                  then
                    { (mtop.moltypeOf (mtop.block (pre.length + j))).atoms.resinfo.getD l
                        default with
                      nr := mtop.maxResNumberNotRenumbered
                        + ((renumberedResiduesBefore mtop (pre.length + j) c + l : Nat) : Int)
                        + 1 }
                  else
                    (mtop.moltypeOf (mtop.block (pre.length + j))).atoms.resinfo.getD l
                      default := by
  intro rest
  induction rest with
  | nil =>
    intro pre st _ _ _ hn _ _
    refine ⟨by simpa using hn, fun p _ => rfl, fun p _ => rfl, fun j c hj => ?_⟩
    simp at hj
  | cons molb rest ih =>
    intro pre st hsplit hnr hal hnres hrl hmax
    have hsplit' : mtop.molblock = (pre ++ [molb]) ++ rest := by simp [hsplit]
    have hmolb : mtop.block pre.length = molb := block_of_split mtop pre rest molb hsplit
    have hbase : atomBase mtop pre.length = atomsOfBlocks mtop pre :=
      atomBase_of_split mtop pre _ hsplit
    have htake : mtop.molblock.take pre.length = pre := by
      rw [hsplit, List.take_left']
      rfl
    obtain ⟨s1, s2, s3, s4, s5, s6, s7, s8, s9⟩ := atomcat_spec st.1 (mtop.moltypeOf molb).atoms
      molb.nmol mtop.maxResiduesPerMoleculeToTriggerRenumber st.2 hal hrl
    obtain ⟨r1, r2, r3, r4⟩ := ih (pre ++ [molb])
      (atomcat st.1 (mtop.moltypeOf molb).atoms molb.nmol
        mtop.maxResiduesPerMoleculeToTriggerRenumber st.2)
      hsplit'
      (by rw [s1, hnr, atomsOfBlocks_append])
      (by rw [s2, s1])
      (by rw [s3, hnres, residuesOfBlocks_append, residuesOfBlocks_single])
      (by rw [s4, s3])
      (by
        rw [s5, hmax, renumberedResiduesOfBlocks_append, renumberedResiduesOfBlocks_single]
        split <;> push_cast <;> ring)
    simp only [List.foldl_cons]
    refine ⟨?_, ?_, ?_, ?_⟩
    · rw [r1]
      simp
    · intro p hp
      rw [r2 p (by rw [s1]; omega), s6 p hp]
    · intro p hp
      rw [r3 p (by rw [s3]; omega), s8 p hp]
    · intro j c hj hc
      cases j with
      | zero =>
        rw [Nat.add_zero] at hc ⊢
        rw [hmolb] at hc
        rw [htake, hbase, hmolb]
        constructor
        · intro i hi
          have hlt : atomsOfBlocks mtop pre + c * (mtop.moltypeOf molb).atoms.nr + i
              < st.1.nr + molb.nmol * (mtop.moltypeOf molb).atoms.nr := by
            have := mul_succ_le_of_lt c molb.nmol (mtop.moltypeOf molb).atoms.nr hc
            omega
          rw [r2 _ (by rw [s1]; exact hlt), ← hnr, s7 c i hc hi, hnres]
        · intro l hl
          have hlt : residuesOfBlocks mtop pre + c * (mtop.moltypeOf molb).atoms.nres + l
              < st.1.nres + molb.nmol * (mtop.moltypeOf molb).atoms.nres := by
            have := mul_succ_le_of_lt c molb.nmol (mtop.moltypeOf molb).atoms.nres hc
            omega
          rw [r3 _ (by rw [s3]; exact hlt), ← hnres, s9 c l hc hl]
          by_cases hren : ((mtop.moltypeOf molb).atoms.nres : Int)
              ≤ mtop.maxResiduesPerMoleculeToTriggerRenumber
          · rw [if_pos hren, if_pos hren, hmax]
            unfold renumberedResiduesBefore
            rw [htake, hmolb, if_pos hren]
            push_cast
            ring_nf
          · rw [if_neg hren, if_neg hren]
      | succ j =>
        have hlen' : (pre ++ [molb]).length = pre.length + 1 := by simp
        have := r4 j c (by simpa using hj)
        rw [hlen', show pre.length + 1 + j = pre.length + (j + 1) by omega] at this
        exact this hc

/-- The atom table returned by `gmx_mtop_global_atoms`, atom by atom and
residue by residue. -/
theorem gmx_mtop_global_atoms_contents (mtop : gmx_mtop_t) :
    (gmx_mtop_global_atoms mtop).nres = residuesOfBlocks mtop mtop.molblock
      ∧ ∀ mb c, mb < mtop.molblock.length → c < (mtop.block mb).nmol →
          (∀ i, i < (mtop.moltypeOf (mtop.block mb)).atoms.nr →
            (gmx_mtop_global_atoms mtop).atom.getD
                (atomBase mtop mb + c * (mtop.moltypeOf (mtop.block mb)).atoms.nr + i) default
              = { (mtop.moltypeOf (mtop.block mb)).atoms.atom.getD i default with
                  resind :=
                    ((residuesOfBlocks mtop (mtop.molblock.take mb) : Nat) : Int)
                      + (c : Int) * ((mtop.moltypeOf (mtop.block mb)).atoms.nres : Int)
                      + ((mtop.moltypeOf (mtop.block mb)).atoms.atom.getD i default).resind })
          ∧ ∀ l, l < (mtop.moltypeOf (mtop.block mb)).atoms.nres →
            (gmx_mtop_global_atoms mtop).resinfo.getD
                (residuesOfBlocks mtop (mtop.molblock.take mb)
                  + c * (mtop.moltypeOf (mtop.block mb)).atoms.nres + l) default
              = if ((mtop.moltypeOf (mtop.block mb)).atoms.nres : Int)
                    ≤ mtop.maxResiduesPerMoleculeToTriggerRenumber
                then
                  { (mtop.moltypeOf (mtop.block mb)).atoms.resinfo.getD l default with
                    nr := mtop.maxResNumberNotRenumbered
                      + ((renumberedResiduesBefore mtop mb c + l : Nat) : Int) + 1 }
                else (mtop.moltypeOf (mtop.block mb)).atoms.resinfo.getD l default := by
  obtain ⟨h1, _, _, h4⟩ := gmx_mtop_global_atoms_blocks mtop mtop.molblock []
    (t_atoms.empty, mtop.maxResNumberNotRenumbered) rfl rfl rfl rfl rfl
    (by simp [renumberedResiduesOfBlocks])
  refine ⟨h1, fun mb c hmb hc => ?_⟩
  have := h4 mb c hmb
  simp only [List.length_nil, Nat.zero_add] at this
  exact this hc

theorem residuesOfBlocks_take_succ (mtop : gmx_mtop_t) (mb : Nat)
    (h : mb < mtop.molblock.length) :
    residuesOfBlocks mtop (mtop.molblock.take (mb + 1))
      = residuesOfBlocks mtop (mtop.molblock.take mb)
        + (mtop.block mb).nmol * (mtop.moltypeOf (mtop.block mb)).atoms.nres := by
  rw [take_succ_block mtop mb h, residuesOfBlocks_append, residuesOfBlocks_single]

theorem residuesOfBlocks_take_le (mtop : gmx_mtop_t) (k : Nat) :
    residuesOfBlocks mtop (mtop.molblock.take k) ≤ residuesOfBlocks mtop mtop.molblock := by
  have := residuesOfBlocks_append mtop (mtop.molblock.take k) (mtop.molblock.drop k)
  rw [List.take_append_drop] at this
  omega

/-- C29: the record at position `g = B + c * n + i` of the atom array returned
by `gmx_mtop_global_atoms` is template atom `i` of the block's molecule type in
every field except the residue index, which is `R + c * nres +` (template
residue index of atom `i`), `R` being the number of residues of the earlier
blocks; the residue count of the result is `gmx_mtop_nres(mtop)`; and when the
template residue indices lie in `[0, nres)`, every residue index of the result
lies in `[0, gmx_mtop_nres(mtop))`. -/
theorem gmx_mtop_global_atoms_atom (mtop : gmx_mtop_t) :
    (∀ mb c i, mb < mtop.molblock.length → c < (mtop.block mb).nmol →
        i < (mtop.moltypeOf (mtop.block mb)).atoms.nr →
        (gmx_mtop_global_atoms mtop).atom.getD
            (atomBase mtop mb + c * (mtop.moltypeOf (mtop.block mb)).atoms.nr + i) default
          = { (mtop.moltypeOf (mtop.block mb)).atoms.atom.getD i default with
              resind :=
                ((residuesOfBlocks mtop (mtop.molblock.take mb) : Nat) : Int)
                  + (c : Int) * ((mtop.moltypeOf (mtop.block mb)).atoms.nres : Int)
                  + ((mtop.moltypeOf (mtop.block mb)).atoms.atom.getD i default).resind })
      ∧ (gmx_mtop_global_atoms mtop).nres = gmx_mtop_nres mtop
      ∧ ((∀ molb ∈ mtop.molblock, ∀ i, i < (mtop.moltypeOf molb).atoms.nr →
            0 ≤ ((mtop.moltypeOf molb).atoms.atom.getD i default).resind
              ∧ ((mtop.moltypeOf molb).atoms.atom.getD i default).resind
                < ((mtop.moltypeOf molb).atoms.nres : Int)) →
          ∀ g, g < (gmx_mtop_global_atoms mtop).nr →
            0 ≤ ((gmx_mtop_global_atoms mtop).atom.getD g default).resind
              ∧ ((gmx_mtop_global_atoms mtop).atom.getD g default).resind
                < (gmx_mtop_nres mtop : Int)) := by
  obtain ⟨hn, hc⟩ := gmx_mtop_global_atoms_contents mtop
  refine ⟨fun mb c i hmb hcc hi => (hc mb c hmb hcc).1 i hi, ?_, ?_⟩
  · rw [hn, gmx_mtop_nres_eq]
  · intro hwf g hg
    have hnr : (gmx_mtop_global_atoms mtop).nr = totalAtoms mtop :=
      (gmx_mtop_global_atoms_nr mtop).1
    rw [hnr] at hg
    obtain ⟨mb, c, i, hmb, hcc, hi, rfl⟩ := locate_atom mtop mtop.molblock.length g
      (Nat.le_refl _) (by rw [atomBase_length]; exact hg)
    rw [(hc mb c hmb hcc).1 i hi]
    simp only
    obtain ⟨w0, w1⟩ := hwf _ (block_mem mtop mb hmb) i hi
    have t1 := residuesOfBlocks_take_succ mtop mb hmb
    have t2 := residuesOfBlocks_take_le mtop (mb + 1)
    have t3 := mul_succ_le_of_lt c (mtop.block mb).nmol
      (mtop.moltypeOf (mtop.block mb)).atoms.nres hcc
    rw [gmx_mtop_nres_eq]
    constructor
    · have : (0 : Int) ≤ (c : Int) * ((mtop.moltypeOf (mtop.block mb)).atoms.nres : Int) :=
        Int.mul_nonneg (by omega) (by omega)
      omega
    · have e : (c : Int) * ((mtop.moltypeOf (mtop.block mb)).atoms.nres : Int)
          = ((c * (mtop.moltypeOf (mtop.block mb)).atoms.nres : Nat) : Int) := by
        push_cast
        rfl
      rw [e]
      omega

theorem gmx_mtop_global_atoms_atom_witness :
    (gmx_mtop_global_atoms exampleMtop).atom.getD 7 default
        = { (exampleTypeW.atoms.atom.getD 1 default) with resind := 4 }
      ∧ (gmx_mtop_global_atoms exampleMtop).nres = 7
      ∧ ((gmx_mtop_global_atoms exampleMtop).atom.getD 11 default).resind
          < (gmx_mtop_nres exampleMtop : Int) := by
  obtain ⟨h1, h2, h3⟩ := gmx_mtop_global_atoms_atom exampleMtop
  refine ⟨?_, ?_, (h3 (by decide) 11 (by decide)).2⟩
  · have := h1 1 0 1 (by decide) (by decide) (by decide)
    have e : atomBase exampleMtop 1
        + 0 * (exampleMtop.moltypeOf (exampleMtop.block 1)).atoms.nr + 1 = 7 := by decide
    rw [e] at this
    rw [this]
    decide
  · rw [h2]
    decide

/-- C24: for a topology in which every block has at least one copy and every
molecule type at least one atom, and whose template residue indices lie in
`[0, nres)`, the residue number that the traversal reports at the global atom
`g` (`AtomProxy::residueNumber` after `g` increments) is the number stored for
`g` in the atom table of `gmx_mtop_global_atoms`,
`resinfo[atom[g].resind].nr`. -/
theorem residueNumber_agrees_with_global_atoms (mtop : gmx_mtop_t)
    (hnmol : ∀ molb ∈ mtop.molblock, 1 ≤ molb.nmol)
    (hnr : ∀ molb ∈ mtop.molblock, 1 ≤ (mtop.moltypeOf molb).atoms.nr)
    (hwf : ∀ molb ∈ mtop.molblock, ∀ i, i < (mtop.moltypeOf molb).atoms.nr →
      0 ≤ ((mtop.moltypeOf molb).atoms.atom.getD i default).resind
        ∧ ((mtop.moltypeOf molb).atoms.atom.getD i default).resind
          < ((mtop.moltypeOf molb).atoms.nres : Int))
    (g : Nat) (hg : g < totalAtoms mtop) :
    AtomProxy.residueNumber mtop (AtomIterator.advance mtop g (AtomIterator.initial mtop 0))
      = (readAt (gmx_mtop_global_atoms mtop).resinfo
          ((gmx_mtop_global_atoms mtop).atom.getD g default).resind).nr := by
  obtain ⟨mb, c, i, hmb, hcc, hi, rfl⟩ := locate_atom mtop mtop.molblock.length g
    (Nat.le_refl _) (by rw [atomBase_length]; exact hg)
  obtain ⟨_, hc⟩ := gmx_mtop_global_atoms_contents mtop
  obtain ⟨ha, hr⟩ := hc mb c hmb hcc
  obtain ⟨w0, w1⟩ := hwf _ (block_mem mtop mb hmb) i hi
  obtain ⟨r, hr0⟩ : ∃ r : Nat,
      ((mtop.moltypeOf (mtop.block mb)).atoms.atom.getD i default).resind = (r : Int) :=
    ⟨(((mtop.moltypeOf (mtop.block mb)).atoms.atom.getD i default).resind).toNat, by omega⟩
  have hrlt : r < (mtop.moltypeOf (mtop.block mb)).atoms.nres := by omega
  rw [advance_eq_cursorAt mtop hnmol hnr mb c i hmb hcc hi, ha i hi]
  simp only
  have e : ((residuesOfBlocks mtop (mtop.molblock.take mb) : Nat) : Int)
        + (c : Int) * ((mtop.moltypeOf (mtop.block mb)).atoms.nres : Int)
        + ((mtop.moltypeOf (mtop.block mb)).atoms.atom.getD i default).resind
      = ((residuesOfBlocks mtop (mtop.molblock.take mb)
          + c * (mtop.moltypeOf (mtop.block mb)).atoms.nres + r : Nat) : Int) := by
    rw [hr0]
    push_cast
    rfl
  rw [e, readAt_natCast, hr r hrlt]
  by_cases hren : ((mtop.moltypeOf (mtop.block mb)).atoms.nres : Int)
      ≤ mtop.maxResiduesPerMoleculeToTriggerRenumber
  · rw [residueNumber_cursorAt_renumbered mtop mb c i hren, if_pos hren, hr0]
    simp only
    push_cast
    ring
  · rw [if_neg hren]
    simp only [AtomProxy.residueNumber, cursorAt, if_neg hren]
    rw [hr0, readAt_natCast]

theorem residueNumber_agrees_with_global_atoms_witness :
    AtomProxy.residueNumber exampleMtop
        (AtomIterator.advance exampleMtop 7 (AtomIterator.initial exampleMtop 0))
      = (readAt (gmx_mtop_global_atoms exampleMtop).resinfo
          ((gmx_mtop_global_atoms exampleMtop).atom.getD 7 default).resind).nr :=
  residueNumber_agrees_with_global_atoms exampleMtop (by decide) (by decide)
    (by decide) 7 (by decide)

theorem idsBelow_nil (nral n : Nat) : IdsBelow nral n [] := by
  intro e he
  simp at he

theorem idsBelow_append (nral n : Nat) (A B : List Int) (hd : (1 + nral) ∣ A.length)
    (hA : IdsBelow nral n A) (hB : IdsBelow nral n B) : IdsBelow nral n (A ++ B) := by
  obtain ⟨a, ha⟩ := hd
  intro e he
  have hk : 0 < 1 + nral := by omega
  rw [List.length_append, ha, Nat.add_comm, Nat.add_mul_div_left _ _ hk] at he
  by_cases hlt : e < a
  · have h1 : e * (1 + nral) < A.length := by
      rw [ha, Nat.mul_comm]
      exact Nat.mul_lt_mul_of_pos_left hlt hk
    rw [getD_append_lt A B _ 0 h1]
    apply hA
    rw [ha, Nat.mul_div_cancel_left _ hk]
    exact hlt
  · obtain ⟨t, rfl⟩ : ∃ t, e = a + t := ⟨e - a, by omega⟩
    have h1 : (a + t) * (1 + nral) = A.length + t * (1 + nral) := by
      rw [ha]
      ring
    rw [h1, List.getD_append_right A B 0 _ (by omega)]
    simp only [Nat.add_sub_cancel_left]
    apply hB
    omega

theorem idsBelow_flatMap {α : Type} (nral n : Nat) (G : α → List Int) :
    ∀ (l : List α), (∀ a ∈ l, (1 + nral) ∣ (G a).length ∧ IdsBelow nral n (G a)) →
      (1 + nral) ∣ (l.flatMap G).length ∧ IdsBelow nral n (l.flatMap G) := by
  intro l
  induction l with
  | nil =>
    intro _
    exact ⟨by simp, by simpa using idsBelow_nil nral n⟩
  | cons a l ih =>
    intro h
    obtain ⟨d1, i1⟩ := h a (List.mem_cons_self _ _)
    obtain ⟨d2, i2⟩ := ih (fun b hb => h b (List.mem_cons_of_mem _ hb))
    rw [List.flatMap_cons]
    exact ⟨by rw [List.length_append]; exact Dvd.dvd.add d1 d2,
      idsBelow_append nral n _ _ d1 i1 i2⟩

theorem idsBelow_offsetAtoms (nral n : Nat) (d : Int) (l : List Int)
    (h : IdsBelow nral n l) : IdsBelow nral n (offsetAtoms nral d l) := by
  intro e he
  rw [offsetAtoms_length] at he
  have hk : 0 < 1 + nral := by omega
  have hp : e * (1 + nral) < l.length :=
    Nat.lt_of_lt_of_le (Nat.mul_lt_mul_of_pos_right he hk) (Nat.div_mul_le_self _ _)
  unfold offsetAtoms
  rw [offsetAtomsFrom_getD nral d l 0 _ hp]
  have : isAtomSlot nral (0 + e * (1 + nral)) = false := by
    simp [isAtomSlot]
  rw [this]
  exact h e he

theorem idsBelow_entry (nral n : Nat) (l e : List Int) (h : IdsBelow nral n l)
    (he : e ∈ entriesOf nral l) : IdsBelow nral n e := by
  have hlen := entriesOf_entry_length nral l e he
  unfold entriesOf at he
  obtain ⟨i, hi, rfl⟩ := List.mem_map.mp he
  rw [List.mem_range] at hi
  have hk : 0 < 1 + nral := by omega
  intro j hj
  rw [hlen, Nat.div_self hk] at hj
  obtain rfl : j = 0 := by omega
  have := h i hi
  have hp : i * (1 + nral) < l.length :=
    Nat.lt_of_lt_of_le (Nat.mul_lt_mul_of_pos_right hi hk) (Nat.div_mul_le_self _ _)
  have e0 : (List.take (1 + nral) (List.drop (i * (1 + nral)) l)).getD (0 * (1 + nral)) 0
      = l.getD (i * (1 + nral)) 0 := by
    rw [Nat.zero_mul, List.getD_eq_getElem?_getD, List.getD_eq_getElem?_getD,
      List.getElem?_take_of_lt hk, List.getElem?_drop]
    simp
  rw [e0]
  exact this

theorem idsBelow_filterEntries (nral n : Nat) (g1 g2 l : List Int) (h : IdsBelow nral n l) :
    IdsBelow nral n (filterEntries nral g1 g2 l) := by
  unfold filterEntries
  rw [← List.flatMap_id]
  refine (idsBelow_flatMap nral n id _ ?_).2
  intro e he
  have hmem := List.mem_of_mem_filter he
  exact ⟨⟨1, by rw [id, entriesOf_entry_length nral l e hmem]; simp⟩,
    idsBelow_entry nral n l e h hmem⟩

theorem idsBelow_blockExpansion (T : Constants) (mtop : gmx_mtop_t) (n f mb : Nat)
    (hd : (1 + NRAL T f) ∣ ((mtop.moltypeOf (mtop.block mb)).ilist f).length)
    (h : IdsBelow (NRAL T f) n ((mtop.moltypeOf (mtop.block mb)).ilist f)) :
    (1 + NRAL T f) ∣ (blockExpansion T mtop f mb).length
      ∧ IdsBelow (NRAL T f) n (blockExpansion T mtop f mb) := by
  unfold blockExpansion
  apply idsBelow_flatMap
  intro c _
  exact ⟨by rw [offsetAtoms_length]; exact hd, idsBelow_offsetAtoms _ _ _ _ h⟩

/-- What a block appends to a list is made of whole entries with valid
parameter ids when the templates of its molecule type are, in every mode. -/
theorem idsBelow_blockAppended (T : Constants) (mtop : gmx_mtop_t) (mergeConstr : Bool)
    (fda : Option FDASettings) (n f mb : Nat) (hf : f < T.F_NRE)
    (hm : mergeConstr = true →
      T.F_CONSTRNC < T.F_NRE ∧ NRAL T T.F_CONSTRNC = NRAL T T.F_CONSTR)
    (hd : ∀ f, f < T.F_NRE →
      (1 + NRAL T f) ∣ ((mtop.moltypeOf (mtop.block mb)).ilist f).length)
    (h : ∀ f, f < T.F_NRE →
      IdsBelow (NRAL T f) n ((mtop.moltypeOf (mtop.block mb)).ilist f)) :
    (1 + NRAL T f) ∣ (blockAppended T mtop mergeConstr fda f mb).length
      ∧ IdsBelow (NRAL T f) n (blockAppended T mtop mergeConstr fda f mb) := by
  have hnil : ∀ X : List Int, X = [] →
      (1 + NRAL T f) ∣ X.length ∧ IdsBelow (NRAL T f) n X := by
    intro X hX
    subst hX
    exact ⟨by simp, idsBelow_nil _ _⟩
  have hplain : ∀ mc : Bool, (mc = true → f ≠ T.F_CONSTR ∧ f ≠ T.F_CONSTRNC) →
      (1 + NRAL T f) ∣ (blockAppended T mtop mc fda f mb).length
        ∧ IdsBelow (NRAL T f) n (blockAppended T mtop mc fda f mb) := by
    intro mc hmc
    cases hoff : filterOff fda with
    | true =>
      rw [blockAppended_plain T mtop mc fda hoff f mb hmc]
      exact idsBelow_blockExpansion T mtop n f mb (hd f hf) (h f hf)
    | false =>
      cases fda with
      | none => simp [filterOff] at hoff
      | some s =>
        have hon : s.bonded_exclusion_on = true := by simpa [filterOff] using hoff
        rw [blockAppended_filtered T mtop mc s hon f mb hmc (hd f hf)]
        split
        · exact hnil _ rfl
        · exact ⟨filterEntries_dvd _ _ _ _,
            idsBelow_filterEntries _ _ _ _ _
              (idsBelow_blockExpansion T mtop n f mb (hd f hf) (h f hf)).2⟩
  cases hmc : mergeConstr with
  | false => exact hplain false (by simp)
  | true =>
    obtain ⟨hncf, hnral⟩ := hm hmc
    by_cases h1 : f = T.F_CONSTR
    · by_cases hne : (mtop.moltypeOf (mtop.block mb)).ilist T.F_CONSTRNC = []
      · by_cases h2 : T.F_CONSTR = T.F_CONSTRNC
        · apply hnil
          subst h1
          have hne' : (mtop.moltypeOf (mtop.block mb)).ilist T.F_CONSTR = [] := by
            rw [h2]
            exact hne
          simp [blockAppended, copyIListsSlot, hne, hne', h2]
        · have e : blockAppended T mtop true fda f mb = blockAppended T mtop false fda f mb := by
            subst h1
            simp [blockAppended, copyIListsSlot, hne, h2]
          rw [e]
          exact hplain false (by simp)
      · subst h1
        rw [blockAppended_merged T mtop fda mb hne]
        apply idsBelow_flatMap
        intro c _
        have d1 := hd T.F_CONSTR hf
        have d2 := hd T.F_CONSTRNC hncf
        have i1 := h T.F_CONSTR hf
        have i2 := h T.F_CONSTRNC hncf
        rw [hnral] at d2 i2
        refine ⟨?_, idsBelow_append _ _ _ _ (by rw [offsetAtoms_length]; exact d1)
          (idsBelow_offsetAtoms _ _ _ _ i1) (idsBelow_offsetAtoms _ _ _ _ i2)⟩
        rw [List.length_append, offsetAtoms_length, offsetAtoms_length]
        exact Dvd.dvd.add d1 d2
    · by_cases h2 : f = T.F_CONSTRNC
      · apply hnil
        subst h2
        simp [blockAppended, copyIListsSlot, h1]
      · exact hplain true (fun _ => ⟨h1, h2⟩)

/-- A run of `copyIListsFromMtop` that returns went through no block that
appends restraint entries without having reference coordinates. -/
theorem coordinates_present_of_ok (T : Constants) (mtop : gmx_mtop_t) (mergeConstr : Bool)
    (fda : Option FDASettings) (idef : InteractionDefinitions)
    (hw : RestraintKindsWellFormed T mtop mergeConstr)
    (h : copyIListsFromMtop T mtop (emptyIdef mtop) mergeConstr fda = .ok idef) :
    ∀ mb, mb < mtop.molblock.length →
      (blockAppended T mtop mergeConstr fda T.F_POSRES mb ≠ []
        ∨ blockAppended T mtop mergeConstr fda T.F_FBPOSRES mb ≠ []) →
      (mtop.block mb).posres_xA.isEmpty = false := by
  obtain ⟨hP, hF, hne, hnP, hnF, hm, hwf⟩ := hw
  have hevP := blockAppended_even T mtop mergeConstr fda T.F_POSRES hnP
    (fun h => (hm h).1) (fun molb h => (hwf molb h).1)
  have hevF := blockAppended_even T mtop mergeConstr fda T.F_FBPOSRES hnF
    (fun h => (hm h).2) (fun molb h => (hwf molb h).2)
  intro mb hmb happ
  cases hemp : (mtop.block mb).posres_xA.isEmpty with
  | false => rfl
  | true =>
    have herr := copyIListsBlocks_missing T mtop mergeConstr fda hP hF hne hevP hevF
      mtop.molblock [] (emptyIdef mtop) (by simp) rfl rfl
      ⟨mb, hmb, by simpa using happ, by simpa using hemp⟩
    have := copyIListsFromMtop_of_blocks_error T mtop (emptyIdef mtop) mergeConstr fda _ herr
    rw [this] at h
    cases h

/-- The parameter ids of the block part of a restraint list: the first entries
of the list, as many as there are slots, carry their own numbers, and what
follows them is the intermolecular part. -/
theorem restraint_ids_of_closed_form (nral : Nat) (hn : nral = 1) (il X inter : List Int)
    (slots : Nat) (hil : il = renumberFrom 0 X ++ inter) (hlen : slots * 2 = X.length) :
    il = il.take ((1 + nral) * slots) ++ inter
      ∧ ∀ e, e < slots →
          0 ≤ il.getD (e * (1 + nral)) 0 ∧ il.getD (e * (1 + nral)) 0 < (slots : Int) := by
  subst hn
  have hl : (renumberFrom 0 X).length = (1 + 1) * slots := by
    rw [renumberFrom_length]
    omega
  refine ⟨?_, ?_⟩
  · rw [hil, List.take_left' hl]
  · intro e he
    rw [hil, getD_append_lt _ _ _ _ (by rw [hl]; omega),
      (renumberFrom_getD e 0 X (by omega)).1]
    constructor
    · exact Int.natCast_nonneg _
    · simp only [Nat.zero_add]
      exact_mod_cast he

/-- C30: for a topology whose templates are made of whole entries that carry
parameter ids in `[0, number of force-field parameter records)`, and whose
intermolecular interactions carry such ids too, every run of
`copyIListsFromMtop` that returns, in every mode, returns lists in which every
entry of a kind other than `F_POSRES` and `F_FBPOSRES` carries a parameter id
in `[0, number of force-field parameter records)` (the shared table is the
topology's); the `F_POSRES` list is made of the entries produced from the
molecule blocks, as many as `iparams_posres` has slots, followed by the
intermolecular part, and every entry produced from a molecule block carries an
id in `[0, size of iparams_posres)`; the same holds for `F_FBPOSRES` and
`iparams_fbposres`. -/
theorem copyIListsFromMtop_parameter_ids_valid (T : Constants) (mtop : gmx_mtop_t)
    (mergeConstr : Bool) (fda : Option FDASettings) (idef : InteractionDefinitions)
    (hw : RestraintKindsWellFormed T mtop mergeConstr)
    (hm : mergeConstr = true →
      T.F_CONSTRNC < T.F_NRE ∧ NRAL T T.F_CONSTRNC = NRAL T T.F_CONSTR)
    (hwf : ∀ molb ∈ mtop.molblock, ∀ f, f < T.F_NRE →
      (1 + NRAL T f) ∣ ((mtop.moltypeOf molb).ilist f).length)
    (hids : ∀ molb ∈ mtop.molblock, ∀ f, f < T.F_NRE →
      IdsBelow (NRAL T f) mtop.ffparams.iparams.length ((mtop.moltypeOf molb).ilist f))
    (hinter : ∀ f, f < T.F_NRE →
      IdsBelow (NRAL T f) mtop.ffparams.iparams.length (intermolecularPart mtop f))
    (h : copyIListsFromMtop T mtop (emptyIdef mtop) mergeConstr fda = .ok idef) :
    idef.iparams = mtop.ffparams.iparams
      ∧ (∀ f, f < T.F_NRE → f ≠ T.F_POSRES → f ≠ T.F_FBPOSRES →
          IdsBelow (NRAL T f) mtop.ffparams.iparams.length (idef.il f))
      ∧ (idef.il T.F_POSRES
            = (idef.il T.F_POSRES).take ((1 + NRAL T T.F_POSRES) * idef.iparams_posres.length)
              ++ intermolecularPart mtop T.F_POSRES
          ∧ ∀ e, e < idef.iparams_posres.length →
              0 ≤ (idef.il T.F_POSRES).getD (e * (1 + NRAL T T.F_POSRES)) 0
                ∧ (idef.il T.F_POSRES).getD (e * (1 + NRAL T T.F_POSRES)) 0
                  < (idef.iparams_posres.length : Int))
      ∧ (idef.il T.F_FBPOSRES
            = (idef.il T.F_FBPOSRES).take
                ((1 + NRAL T T.F_FBPOSRES) * idef.iparams_fbposres.length)
              ++ intermolecularPart mtop T.F_FBPOSRES
          ∧ ∀ e, e < idef.iparams_fbposres.length →
              0 ≤ (idef.il T.F_FBPOSRES).getD (e * (1 + NRAL T T.F_FBPOSRES)) 0
                ∧ (idef.il T.F_FBPOSRES).getD (e * (1 + NRAL T T.F_FBPOSRES)) 0
                  < (idef.iparams_fbposres.length : Int)) := by
  have hx := coordinates_present_of_ok T mtop mergeConstr fda idef hw h
  obtain ⟨idef', h', cP, sP, cF, sF⟩ := copyIListsFromMtop_restraints T mtop mergeConstr fda hw hx
  rw [h] at h'
  simp only [Except.ok.injEq] at h'
  subst h'
  obtain ⟨hP, hF, hne, hnP, hnF, hmr, hwfr⟩ := hw
  have hevP := blockAppended_even T mtop mergeConstr fda T.F_POSRES hnP
    (fun h => (hmr h).1) (fun molb h => (hwfr molb h).1)
  have hevF := blockAppended_even T mtop mergeConstr fda T.F_FBPOSRES hnF
    (fun h => (hmr h).2) (fun molb h => (hwfr molb h).2)
  refine ⟨?_, ?_, ?_, ?_⟩
  · obtain ⟨idef1, hb, _⟩ := copyIListsFromMtop_ok T mtop _ idef mergeConstr fda h
    obtain ⟨i2, hb2, hip, _⟩ := copyIListsBlocks_restraints T mtop mergeConstr fda
      hP hF hne hevP hevF mtop.molblock [] [] (emptyIdef mtop) (by simp) rfl rfl
      (by
        intro j hj hb
        simp only [List.length_nil, Nat.zero_add] at hb ⊢
        exact hx j hj hb)
    obtain ⟨i3, g0, gip, _⟩ := copyIListsFromMtop_of_blocks T mtop (emptyIdef mtop) i2
      mergeConstr fda hb2
    rw [h] at g0
    simp only [Except.ok.injEq] at g0
    subst g0
    rw [gip, hip]
    rfl
  · intro f hf hfP hfF
    rw [copyIListsFromMtop_appended T mtop mergeConstr fda idef f hf hfP hfF h]
    have := idsBelow_flatMap (NRAL T f) mtop.ffparams.iparams.length
      (blockAppended T mtop mergeConstr fda f) (List.range mtop.molblock.length)
      (fun mb hmb =>
        idsBelow_blockAppended T mtop mergeConstr fda _ f mb hf hm
          (hwf _ (block_mem mtop mb (List.mem_range.mp hmb)))
          (hids _ (block_mem mtop mb (List.mem_range.mp hmb))))
    exact idsBelow_append _ _ _ _ this.1 this.2 (hinter f hf)
  · refine restraint_ids_of_closed_form _ hnP _ _ _ _ cP ?_
    rw [sP]
    exact flatMap_posresSlots_length _ _ _ _ hevP _
  · refine restraint_ids_of_closed_form _ hnF _ _ _ _ cF ?_
    rw [sF]
    exact flatMap_fbposresSlots_length _ _ _ _ hevF _

theorem copyIListsFromMtop_parameter_ids_valid_witness :
    ∃ idef, copyIListsFromMtop exampleConstants exampleMtop (emptyIdef exampleMtop) true
          (some exampleFDASettings) = .ok idef
      ∧ IdsBelow 2 6 (idef.il 0)
      ∧ IdsBelow 2 6 (idef.il 4)
      ∧ ∀ e, e < idef.iparams_posres.length →
          0 ≤ (idef.il 2).getD (e * 2) 0
            ∧ (idef.il 2).getD (e * 2) 0 < (idef.iparams_posres.length : Int) := by
  have e : copyIListsFromMtop exampleConstants exampleMtop (emptyIdef exampleMtop) true
      (some exampleFDASettings) = .ok _ := rfl
  obtain ⟨_, h2, h3, _⟩ := copyIListsFromMtop_parameter_ids_valid exampleConstants exampleMtop
    true (some exampleFDASettings) _ (by decide) (by decide) (by decide) (by decide)
    (by decide) e
  exact ⟨_, e, h2 0 (by decide) (by decide) (by decide),
    h2 4 (by decide) (by decide) (by decide), h3.2⟩

/-- C36: in a topology in which every block has at least one copy and every
molecule type at least one atom, every state reached from `AtomIterator(mtop, 0)`
by fewer increments than there are atoms satisfies the cursor invariant:
`mblock_` is the number of a block, `atoms_` is the atom table of that block's
molecule type, `currentMolecule_` is below the block's `nmol`,
`localAtomNumber_` is below the atom count of the type, and `globalAtomNumber_`
is (atoms of the earlier blocks) `+ currentMolecule_ *` (atom count)
`+ localAtomNumber_`, which is the number of increments.  So the index with
which `atom()` and `residueNumber()` read the template atom array is below
`atoms_->nr`, and the residue index they find there is inside `[0, atoms_->nres)`
when the template residue indices are. -/
theorem atomIterator_cursor_invariant (mtop : gmx_mtop_t)
    (hnmol : ∀ molb ∈ mtop.molblock, 1 ≤ molb.nmol)
    (hnr : ∀ molb ∈ mtop.molblock, 1 ≤ (mtop.moltypeOf molb).atoms.nr)
    (k : Nat) (hk : k < totalAtoms mtop) :
    (AtomIterator.advance mtop k (AtomIterator.initial mtop 0)).mblock_ < mtop.molblock.length
      ∧ (AtomIterator.advance mtop k (AtomIterator.initial mtop 0)).atoms_
          = (mtop.moltypeOf (mtop.block
              (AtomIterator.advance mtop k (AtomIterator.initial mtop 0)).mblock_)).atoms
      ∧ (AtomIterator.advance mtop k (AtomIterator.initial mtop 0)).currentMolecule_
          < (mtop.block (AtomIterator.advance mtop k (AtomIterator.initial mtop 0)).mblock_).nmol
      ∧ (AtomIterator.advance mtop k (AtomIterator.initial mtop 0)).localAtomNumber_
          < (mtop.moltypeOf (mtop.block
              (AtomIterator.advance mtop k (AtomIterator.initial mtop 0)).mblock_)).atoms.nr
      ∧ (AtomIterator.advance mtop k (AtomIterator.initial mtop 0)).globalAtomNumber_
          = ((atomBase mtop (AtomIterator.advance mtop k (AtomIterator.initial mtop 0)).mblock_
              + (AtomIterator.advance mtop k (AtomIterator.initial mtop 0)).currentMolecule_
                * (mtop.moltypeOf (mtop.block
                    (AtomIterator.advance mtop k (AtomIterator.initial mtop 0)).mblock_)).atoms.nr
              + (AtomIterator.advance mtop k (AtomIterator.initial mtop 0)).localAtomNumber_
              : Nat) : Int)
      ∧ (AtomIterator.advance mtop k (AtomIterator.initial mtop 0)).globalAtomNumber_ = (k : Int)
      ∧ (AtomIterator.advance mtop k (AtomIterator.initial mtop 0)).localAtomNumber_
          < (AtomIterator.advance mtop k (AtomIterator.initial mtop 0)).atoms_.nr
      ∧ ((∀ molb ∈ mtop.molblock, ∀ i, i < (mtop.moltypeOf molb).atoms.nr →
            0 ≤ ((mtop.moltypeOf molb).atoms.atom.getD i default).resind
              ∧ ((mtop.moltypeOf molb).atoms.atom.getD i default).resind
                < ((mtop.moltypeOf molb).atoms.nres : Int)) →
          0 ≤ (AtomProxy.atom
                (AtomIterator.advance mtop k (AtomIterator.initial mtop 0))).resind
            ∧ (AtomProxy.atom
                (AtomIterator.advance mtop k (AtomIterator.initial mtop 0))).resind
              < ((AtomIterator.advance mtop k (AtomIterator.initial mtop 0)).atoms_.nres
                  : Int)) := by
  obtain ⟨mb, c, i, hmb, hc, hi, rfl⟩ := locate_atom mtop mtop.molblock.length k
    (Nat.le_refl _) (by rw [atomBase_length]; exact hk)
  rw [advance_eq_cursorAt mtop hnmol hnr mb c i hmb hc hi]
  refine ⟨hmb, rfl, hc, hi, rfl, rfl, hi, ?_⟩
  intro hwf
  exact hwf _ (block_mem mtop mb hmb) i hi

theorem atomIterator_cursor_invariant_witness :
    (AtomIterator.advance exampleMtop 7 (AtomIterator.initial exampleMtop 0)).mblock_ < 2
      ∧ (AtomIterator.advance exampleMtop 7 (AtomIterator.initial exampleMtop 0)).localAtomNumber_
          < (AtomIterator.advance exampleMtop 7 (AtomIterator.initial exampleMtop 0)).atoms_.nr
      ∧ (AtomIterator.advance exampleMtop 7
          (AtomIterator.initial exampleMtop 0)).globalAtomNumber_ = 7 := by
  obtain ⟨h1, _, _, _, _, h6, h7, _⟩ := atomIterator_cursor_invariant exampleMtop (by decide)
    (by decide) 7 (by decide)
  exact ⟨h1, h7, h6⟩

theorem foldl_cond_add {α : Type} (p : α → Prop) [DecidablePred p] (w : α → Nat) :
    ∀ (l : List α) (n : Nat),
      l.foldl (fun n f => if p f then n + w f else n) n
        = n + ((l.filter (fun f => decide (p f))).map w).sum := by
  intro l
  induction l with
  | nil => intro n; simp
  | cons x xs ih =>
    intro n
    rw [List.foldl_cons, ih]
    by_cases h : p x
    · simp [h]
      omega
    · simp [h]

theorem sum_map_sum_swap {α β : Type} (g : α → β → Nat) (s : List β) :
    ∀ (l : List α),
      (s.map (fun p => (l.map (fun b => g b p)).sum)).sum
        = (l.map (fun b => (s.map (fun p => g b p)).sum)).sum := by
  intro l
  induction l with
  | nil => simp
  | cons b bs ih =>
    simp only [List.map_cons, List.sum_cons]
    rw [List.sum_map_add, ih]

theorem gmx_mtop_interaction_countKinds_eq (T : Constants) (if_flags : Nat)
    (il : InteractionLists) (nmol n : Nat) :
    gmx_mtop_interaction_countKinds T if_flags il nmol n
      = n + ((kindsWithFlags T if_flags).map
          (fun ftype => nmol * (il ftype).length / (1 + NRAL T ftype))).sum := by
  unfold gmx_mtop_interaction_countKinds kindsWithFlags
  exact foldl_cond_add (fun ftype => T.flags ftype &&& if_flags = if_flags)
    (fun ftype => nmol * (il ftype).length / (1 + NRAL T ftype)) _ n

/-- The counting loop of `gmx_mtop_interaction_count`, entered when the helper
has handed out the blocks `pre`, adds the counts of the remaining blocks and
then, when the topology has intermolecular interactions, the count of the
intermolecular lists. -/
theorem gmx_mtop_interaction_countLoop_eq (T : Constants) (mtop : gmx_mtop_t) (m : Nat) :
    ∀ (rest pre : List gmx_molblock_t) (fuel n : Nat),
      mtop.molblock = pre ++ rest → rest.length + 2 ≤ fuel →
      gmx_mtop_interaction_countLoop T mtop m fuel { mblock := (pre.length : Int) - 1 } n
        = n + (rest.map (fun molb =>
                ((kindsWithFlags T m).map (fun ftype =>
                  molb.nmol * ((mtop.moltypeOf molb).ilist ftype).length
                    / (1 + NRAL T ftype))).sum)).sum
            + (if mtop.bIntermolecularInteractions then
                ((kindsWithFlags T m).map (fun ftype =>
                  1 * (mtop.intermolecular_ilist ftype).length / (1 + NRAL T ftype))).sum
               else 0) := by
  intro rest
  induction rest with
  | nil =>
    intro pre fuel n hsplit hfuel
    have hlen : mtop.molblock.length = pre.length := by simp [hsplit]
    obtain ⟨fuel1, rfl⟩ : ∃ k, fuel = k + 1 := ⟨fuel - 1, by simp at hfuel; omega⟩
    obtain ⟨fuel2, rfl⟩ : ∃ k, fuel1 = k + 1 := ⟨fuel1 - 1, by simp at hfuel; omega⟩
    by_cases hi : mtop.bIntermolecularInteractions = true
    · simp [gmx_mtop_interaction_countLoop, gmx_mtop_ilistloop_next, hlen, hi,
        gmx_mtop_interaction_countKinds_eq]
    · simp [gmx_mtop_interaction_countLoop, gmx_mtop_ilistloop_next, hlen, hi]
  | cons molb rest ih =>
    intro pre fuel n hsplit hfuel
    obtain ⟨fuel1, rfl⟩ : ∃ k, fuel = k + 1 := ⟨fuel - 1, by simp at hfuel; omega⟩
    have hlen : mtop.molblock.length = pre.length + (rest.length + 1) := by simp [hsplit]
    have hsplit' : mtop.molblock = (pre ++ [molb]) ++ rest := by simp [hsplit]
    have hfuel' : rest.length + 2 ≤ fuel1 := by simp at hfuel; omega
    have hrd : readAt mtop.molblock ((pre.length : Int) - 1 + 1) = molb := by
      rw [show (pre.length : Int) - 1 + 1 = ((pre.length : Nat) : Int) by omega, readAt_natCast,
        hsplit, List.getD_append_right _ _ _ _ (Nat.le_refl _)]
      simp
    have hnext : gmx_mtop_ilistloop_next mtop { mblock := (pre.length : Int) - 1 }
        = ({ mblock := (((pre ++ [molb]).length : Nat) : Int) - 1 },
            some ((mtop.moltypeOf molb).ilist, molb.nmol)) := by
      unfold gmx_mtop_ilistloop_next
      simp only [hrd]
      rw [if_neg (by rw [hlen]; push_cast; omega)]
      simp
    rw [gmx_mtop_interaction_countLoop]
    simp only [hnext]
    rw [ih (pre ++ [molb]) fuel1 _ hsplit' hfuel', gmx_mtop_interaction_countKinds_eq]
    simp only [List.map_cons, List.sum_cons]
    omega

/-- What `gmx_mtop_interaction_count` returns: for the selected kinds, the block
counts and the intermolecular count taken twice. -/
theorem gmx_mtop_interaction_count_eq (T : Constants) (mtop : gmx_mtop_t) (m : Nat) :
    gmx_mtop_interaction_count T mtop m
      = (mtop.molblock.map (fun molb =>
            ((kindsWithFlags T m).map (fun ftype =>
              molb.nmol * ((mtop.moltypeOf molb).ilist ftype).length
                / (1 + NRAL T ftype))).sum)).sum
        + (if mtop.bIntermolecularInteractions then
            ((kindsWithFlags T m).map (fun ftype =>
              2 * ((mtop.intermolecular_ilist ftype).length / (1 + NRAL T ftype)))).sum
           else 0) := by
  unfold gmx_mtop_interaction_count gmx_mtop_ilistloop_init
  have h := gmx_mtop_interaction_countLoop_eq T mtop m mtop.molblock []
    (mtop.molblock.length + 2) 0 rfl (Nat.le_refl _)
  simp only [List.length_nil, Nat.cast_zero, Int.zero_sub] at h
  simp only
  rw [h]
  by_cases hi : mtop.bIntermolecularInteractions = true
  · rw [if_pos hi, if_pos hi, if_pos hi]
    have := foldl_cond_add (fun ftype => T.flags ftype &&& m = m)
      (fun ftype => (mtop.intermolecular_ilist ftype).length / (1 + NRAL T ftype))
      (List.range T.F_NRE)
    rw [this]
    have e2 : ((kindsWithFlags T m).map (fun ftype =>
          2 * ((mtop.intermolecular_ilist ftype).length / (1 + NRAL T ftype)))).sum
        = ((kindsWithFlags T m).map (fun ftype =>
            1 * (mtop.intermolecular_ilist ftype).length / (1 + NRAL T ftype))).sum
          + ((kindsWithFlags T m).map (fun ftype =>
            (mtop.intermolecular_ilist ftype).length / (1 + NRAL T ftype))).sum := by
      rw [← List.sum_map_add]
      congr 1
      apply List.map_congr_left
      intro f _
      rw [Nat.one_mul]
      omega
    rw [e2]
    unfold kindsWithFlags
    omega
  · rw [if_neg hi, if_neg hi, if_neg hi]
    omega

/-- C33: `gmx_mtop_interaction_count(mtop, m)` is the sum of
`gmx_mtop_ftype_count(mtop, f)` over exactly the interaction kinds `f < F_NRE`
whose flags contain all bits of `m`; in particular
`gmx_mtop_interaction_count(mtop, 0)` is the sum of `gmx_mtop_ftype_count` over
all kinds. -/
theorem gmx_mtop_interaction_count_sum (T : Constants) (mtop : gmx_mtop_t) (m : Nat) :
    gmx_mtop_interaction_count T mtop m
        = (((List.range T.F_NRE).filter
              (fun ftype => decide (T.flags ftype &&& m = m))).map
            (gmx_mtop_ftype_count T mtop)).sum
      ∧ gmx_mtop_interaction_count T mtop 0
        = ((List.range T.F_NRE).map (gmx_mtop_ftype_count T mtop)).sum := by
  have key : ∀ m, gmx_mtop_interaction_count T mtop m
      = ((kindsWithFlags T m).map (gmx_mtop_ftype_count T mtop)).sum := by
    intro m
    rw [gmx_mtop_interaction_count_eq]
    have e : (fun ftype => gmx_mtop_ftype_count T mtop ftype)
        = fun ftype =>
          (mtop.molblock.map (fun molb =>
            molb.nmol * ((mtop.moltypeOf molb).ilist ftype).length / (1 + NRAL T ftype))).sum
          + (if mtop.bIntermolecularInteractions then
              2 * ((mtop.intermolecular_ilist ftype).length / (1 + NRAL T ftype)) else 0) := by
      funext ftype
      exact gmx_mtop_ftype_count_eq T mtop ftype
    have e' : (gmx_mtop_ftype_count T mtop) = fun ftype => gmx_mtop_ftype_count T mtop ftype :=
      rfl
    rw [e', e, List.sum_map_add,
      sum_map_sum_swap (fun molb ftype =>
        molb.nmol * ((mtop.moltypeOf molb).ilist ftype).length / (1 + NRAL T ftype))]
    congr 1
    by_cases hi : mtop.bIntermolecularInteractions = true
    · simp [hi]
    · simp [hi]
  refine ⟨key m, ?_⟩
  rw [key 0]
  unfold kindsWithFlags
  simp

/-- The calls of the atom loop from local atom `j` of the block after `pre` on:
the remaining atoms of that block, then the atoms of the later blocks, then
`FALSE`. -/
theorem gmx_mtop_atomloop_block_calls_eq (mtop : gmx_mtop_t)
    (hnr : ∀ molb ∈ mtop.molblock, 1 ≤ (mtop.moltypeOf molb).atoms.nr) :
    ∀ (rest pre : List gmx_molblock_t) (molb : gmx_molblock_t),
      mtop.molblock = pre ++ molb :: rest →
      ∀ (d j fuel : Nat), j + d = (mtop.moltypeOf molb).atoms.nr →
        d + (rest.map (fun b => (mtop.moltypeOf b).atoms.nr)).sum + 1 ≤ fuel →
        gmx_mtop_atomloop_block_calls mtop fuel
            { mblock := pre.length, atoms := (mtop.moltypeOf molb).atoms,
              at_local := (j : Int) - 1 }
          = some (((List.range' j d).map
                (fun i => ((mtop.moltypeOf molb).atoms.atom.getD i default, molb.nmol)))
              ++ rest.flatMap (blockAtomsWithCopies mtop)) := by
  intro rest
  induction rest with
  | nil =>
    intro pre molb hsplit d
    have hlen : mtop.molblock.length = pre.length + 1 := by simp [hsplit]
    have hblock := block_of_split mtop pre [] molb hsplit
    induction d with
    | zero =>
      intro j fuel hj hfuel
      obtain ⟨fuel1, rfl⟩ : ∃ k, fuel = k + 1 := ⟨fuel - 1, by omega⟩
      simp only [Nat.add_zero] at hj
      simp [gmx_mtop_atomloop_block_calls, gmx_mtop_atomloop_block_next, hj, hlen]
    | succ d ihd =>
      intro j fuel hj hfuel
      obtain ⟨fuel1, rfl⟩ : ∃ k, fuel = k + 1 := ⟨fuel - 1, by omega⟩
      have hlt : ¬ ((j : Int) - 1 + 1 ≥ ((mtop.moltypeOf molb).atoms.nr : Int)) := by omega
      have e1 : (j : Int) - 1 + 1 = ((j : Nat) : Int) := by omega
      have e2 : ((j : Nat) : Int) = ((j + 1 : Nat) : Int) - 1 := by push_cast; omega
      rw [gmx_mtop_atomloop_block_calls]
      unfold gmx_mtop_atomloop_block_next
      simp only
      rw [if_neg hlt, e1, readAt_natCast, hblock]
      simp only
      rw [e2, ihd (j + 1) fuel1 (by omega) (by simp at hfuel ⊢; omega)]
      simp [List.range'_succ]
  | cons molb' rest ih =>
    intro pre molb hsplit d
    have hlen : mtop.molblock.length = pre.length + (rest.length + 2) := by simp [hsplit]
    have hblock := block_of_split mtop pre (molb' :: rest) molb hsplit
    have hsplit' : mtop.molblock = (pre ++ [molb]) ++ molb' :: rest := by simp [hsplit]
    have hblock' := block_of_split mtop (pre ++ [molb]) rest molb' hsplit'
    have hmem : molb' ∈ mtop.molblock := by simp [hsplit]
    have hnr' := hnr molb' hmem
    induction d with
    | zero =>
      intro j fuel hj hfuel
      obtain ⟨fuel1, rfl⟩ : ∃ k, fuel = k + 1 := ⟨fuel - 1, by omega⟩
      simp only [Nat.add_zero] at hj
      have hge : (j : Int) - 1 + 1 ≥ ((mtop.moltypeOf molb).atoms.nr : Int) := by omega
      have hnot : ¬ (pre.length + 1 ≥ mtop.molblock.length) := by omega
      have hl : (pre ++ [molb]).length = pre.length + 1 := by simp
      rw [hl] at hblock'
      rw [gmx_mtop_atomloop_block_calls]
      unfold gmx_mtop_atomloop_block_next
      simp only
      rw [if_pos hge, if_neg hnot, hblock']
      simp only
      have hih := ih (pre ++ [molb]) molb' hsplit' ((mtop.moltypeOf molb').atoms.nr - 1) 1 fuel1
        (by omega) (by simp at hfuel ⊢; omega)
      rw [hl] at hih
      simp only [Nat.cast_one, sub_self] at hih
      rw [hih]
      have hr : List.range (mtop.moltypeOf molb').atoms.nr
          = 0 :: List.range' 1 ((mtop.moltypeOf molb').atoms.nr - 1) := by
        obtain ⟨n, hn⟩ : ∃ n, (mtop.moltypeOf molb').atoms.nr = n + 1 :=
          ⟨(mtop.moltypeOf molb').atoms.nr - 1, by omega⟩
        rw [hn, List.range_eq_range', List.range'_succ]
        simp
      simp [blockAtomsWithCopies, hr, readAt]
    | succ d ihd =>
      intro j fuel hj hfuel
      obtain ⟨fuel1, rfl⟩ : ∃ k, fuel = k + 1 := ⟨fuel - 1, by omega⟩
      have hlt : ¬ ((j : Int) - 1 + 1 ≥ ((mtop.moltypeOf molb).atoms.nr : Int)) := by omega
      have e1 : (j : Int) - 1 + 1 = ((j : Nat) : Int) := by omega
      have e2 : ((j : Nat) : Int) = ((j + 1 : Nat) : Int) - 1 := by push_cast; omega
      rw [gmx_mtop_atomloop_block_calls]
      unfold gmx_mtop_atomloop_block_next
      simp only
      rw [if_neg hlt, e1, readAt_natCast, hblock]
      simp only
      rw [e2, ihd (j + 1) fuel1 (by omega) (by simp at hfuel ⊢; omega)]
      simp [List.range'_succ]

theorem gmx_mtop_atomloop_block_calls_length (mtop : gmx_mtop_t) :
    ∀ (fuel : Nat) (aloop : gmx_mtop_atomloop_block) (l : List (t_atom × Nat)),
      gmx_mtop_atomloop_block_calls mtop fuel aloop = some l → l.length < fuel := by
  intro fuel
  induction fuel with
  | zero =>
    intro aloop l h
    simp [gmx_mtop_atomloop_block_calls] at h
  | succ fuel ih =>
    intro aloop l h
    rw [gmx_mtop_atomloop_block_calls] at h
    cases hn : gmx_mtop_atomloop_block_next mtop aloop with
    | mk a1 r =>
      rw [hn] at h
      cases r with
      | none =>
        simp only [Option.some.injEq] at h
        subst h
        simp
      | some p =>
        simp only at h
        cases hc : gmx_mtop_atomloop_block_calls mtop fuel a1 with
        | none => rw [hc] at h; simp at h
        | some l1 =>
          rw [hc] at h
          simp only [Option.map_some', Option.some.injEq] at h
          subst h
          have := ih a1 l1 hc
          simp
          omega

theorem gmx_mtop_atomloop_block_calls_mono (mtop : gmx_mtop_t) :
    ∀ (fuel : Nat) (aloop : gmx_mtop_atomloop_block) (l : List (t_atom × Nat)),
      gmx_mtop_atomloop_block_calls mtop fuel aloop = some l →
      ∀ k, gmx_mtop_atomloop_block_calls mtop (fuel + k) aloop = some l := by
  intro fuel
  induction fuel with
  | zero =>
    intro aloop l h
    simp [gmx_mtop_atomloop_block_calls] at h
  | succ fuel ih =>
    intro aloop l h k
    rw [show fuel + 1 + k = (fuel + k) + 1 by omega, gmx_mtop_atomloop_block_calls]
    rw [gmx_mtop_atomloop_block_calls] at h
    cases hn : gmx_mtop_atomloop_block_next mtop aloop with
    | mk a1 r =>
      rw [hn] at h
      cases r with
      | none => exact h
      | some p =>
        simp only at h ⊢
        cases hc : gmx_mtop_atomloop_block_calls mtop fuel a1 with
        | none => rw [hc] at h; simp at h
        | some l1 =>
          rw [hc] at h
          rw [ih a1 l1 hc k]
          exact h

theorem blockAtomsWithCopies_length (mtop : gmx_mtop_t) :
    ∀ (blocks : List gmx_molblock_t),
      (blocks.flatMap (blockAtomsWithCopies mtop)).length
        = (blocks.map (fun molb => (mtop.moltypeOf molb).atoms.nr)).sum := by
  intro blocks
  induction blocks with
  | nil => simp
  | cons b bs ih =>
    rw [List.flatMap_cons, List.length_append, ih]
    simp [blockAtomsWithCopies]

theorem blockAtomsWithCopies_sum (mtop : gmx_mtop_t) :
    ∀ (blocks : List gmx_molblock_t),
      ((blocks.flatMap (blockAtomsWithCopies mtop)).map Prod.snd).sum
        = atomsOfBlocks mtop blocks := by
  intro blocks
  induction blocks with
  | nil => simp [atomsOfBlocks]
  | cons b bs ih =>
    rw [List.flatMap_cons, List.map_append, List.sum_append, ih]
    simp [blockAtomsWithCopies, atomsOfBlocks, Function.comp_def, Nat.mul_comm]

/-- C35: in a topology with at least one block whose molecule types all have
at least one atom, the successive calls of `gmx_mtop_atomloop_block_next` on a
freshly initialised loop return `TRUE` exactly (sum over the blocks of the
type's atom count) times and then `FALSE`; the pairs returned are, block by
block in block order, the template atoms of the block's type in local order
(once per block), each with the block's `nmol`; and the returned `nmol` values
sum to the total atom count. -/
theorem gmx_mtop_atomloop_block_sequence (mtop : gmx_mtop_t) (hne : mtop.molblock ≠ [])
    (hnr : ∀ molb ∈ mtop.molblock, 1 ≤ (mtop.moltypeOf molb).atoms.nr) :
    (∀ fuel, (mtop.molblock.map (fun molb => (mtop.moltypeOf molb).atoms.nr)).sum + 1 ≤ fuel →
        gmx_mtop_atomloop_block_calls mtop fuel (gmx_mtop_atomloop_block_init mtop)
          = some (mtop.molblock.flatMap (blockAtomsWithCopies mtop)))
      ∧ (∀ fuel, fuel ≤ (mtop.molblock.map (fun molb => (mtop.moltypeOf molb).atoms.nr)).sum →
        gmx_mtop_atomloop_block_calls mtop fuel (gmx_mtop_atomloop_block_init mtop) = none)
      ∧ (mtop.molblock.flatMap (blockAtomsWithCopies mtop)).length
          = (mtop.molblock.map (fun molb => (mtop.moltypeOf molb).atoms.nr)).sum
      ∧ ((mtop.molblock.flatMap (blockAtomsWithCopies mtop)).map Prod.snd).sum
          = totalAtoms mtop := by
  obtain ⟨molb, rest, hm⟩ := List.exists_cons_of_ne_nil hne
  have hsplit : mtop.molblock = [] ++ molb :: rest := by simp [hm]
  have hblock := block_of_split mtop [] rest molb hsplit
  have hall : ∀ fuel,
      (mtop.molblock.map (fun molb => (mtop.moltypeOf molb).atoms.nr)).sum + 1 ≤ fuel →
      gmx_mtop_atomloop_block_calls mtop fuel (gmx_mtop_atomloop_block_init mtop)
        = some (mtop.molblock.flatMap (blockAtomsWithCopies mtop)) := by
    intro fuel hfuel
    have h := gmx_mtop_atomloop_block_calls_eq mtop hnr rest [] molb hsplit
      (mtop.moltypeOf molb).atoms.nr 0 fuel (by omega)
      (by rw [hm] at hfuel; simpa using hfuel)
    simp only [List.length_nil, Nat.cast_zero, Int.zero_sub] at h hblock
    unfold gmx_mtop_atomloop_block_init
    rw [hblock, h, hm]
    simp [blockAtomsWithCopies, List.range_eq_range']
  refine ⟨hall, ?_, blockAtomsWithCopies_length mtop _, blockAtomsWithCopies_sum mtop _⟩
  intro fuel hfuel
  cases hc : gmx_mtop_atomloop_block_calls mtop fuel (gmx_mtop_atomloop_block_init mtop) with
  | none => rfl
  | some l =>
    exfalso
    have h1 := gmx_mtop_atomloop_block_calls_length mtop fuel _ l hc
    have h2 := gmx_mtop_atomloop_block_calls_mono mtop fuel _ l hc
      ((mtop.molblock.map (fun molb => (mtop.moltypeOf molb).atoms.nr)).sum + 1)
    rw [hall _ (by omega)] at h2
    simp only [Option.some.injEq] at h2
    rw [← h2, blockAtomsWithCopies_length] at h1
    omega

theorem gmx_mtop_atomloop_block_sequence_witness :
    gmx_mtop_atomloop_block_calls exampleMtop 6 (gmx_mtop_atomloop_block_init exampleMtop)
        = some (exampleMtop.molblock.flatMap (blockAtomsWithCopies exampleMtop))
      ∧ gmx_mtop_atomloop_block_calls exampleMtop 5 (gmx_mtop_atomloop_block_init exampleMtop)
        = none
      ∧ ((exampleMtop.molblock.flatMap (blockAtomsWithCopies exampleMtop)).map Prod.snd)
        = [2, 2, 2, 3, 3] := by
  obtain ⟨h1, h2, _, _⟩ := gmx_mtop_atomloop_block_sequence exampleMtop (by decide) (by decide)
  exact ⟨h1 6 (by decide), h2 5 (by decide), by decide⟩

theorem get_atom_indexLoop_eq (T : Constants) (mtop : gmx_mtop_t) :
    ∀ (d k : Nat) (atom_index : List Int), k + d = mtop.natoms →
      get_atom_indexLoop T mtop (AtomIterator.initial mtop (mtop.natoms : Int)) (d + 1)
          (AtomIterator.advance mtop k (AtomIterator.initial mtop 0)) atom_index
        = some (atom_index
            ++ ((List.range' k d).filter (reportsRealAtom T mtop)).map (fun (g : Nat) => (g : Int))) := by
  intro d
  induction d with
  | zero =>
    intro k atom_index hk
    have hg : (AtomIterator.advance mtop k (AtomIterator.initial mtop 0)).globalAtomNumber_
        = (k : Int) := by
      rw [advance_globalAtomNumber]
      simp [AtomIterator.initial]
    have : AtomIterator.eq (AtomIterator.advance mtop k (AtomIterator.initial mtop 0))
        (AtomIterator.initial mtop (mtop.natoms : Int)) = true := by
      unfold AtomIterator.eq
      rw [hg]
      simp only [AtomIterator.initial, beq_iff_eq]
      omega
    rw [get_atom_indexLoop, if_pos this]
    simp
  | succ d ih =>
    intro k atom_index hk
    have hg : (AtomIterator.advance mtop k (AtomIterator.initial mtop 0)).globalAtomNumber_
        = (k : Int) := by
      rw [advance_globalAtomNumber]
      simp [AtomIterator.initial]
    have : ¬ AtomIterator.eq (AtomIterator.advance mtop k (AtomIterator.initial mtop 0))
        (AtomIterator.initial mtop (mtop.natoms : Int)) = true := by
      unfold AtomIterator.eq
      rw [hg]
      simp only [AtomIterator.initial, beq_iff_eq]
      omega
    rw [get_atom_indexLoop, if_neg this]
    simp only
    rw [← advance_succ, ih (k + 1) _ (by omega), List.range'_succ, List.filter_cons]
    by_cases hp : (AtomProxy.atom
        (AtomIterator.advance mtop k (AtomIterator.initial mtop 0))).ptype = T.eptAtom
    · have hr : reportsRealAtom T mtop k = true := by simp [reportsRealAtom, hp]
      rw [if_pos hp, hr]
      simp [AtomProxy.globalAtomNumber, hg]
    · have hr : reportsRealAtom T mtop k = false := by simp [reportsRealAtom, hp]
      rw [if_neg hp, hr]
      simp

/-- The routine `get_atom_index` returns: the global numbers, in increasing
order, of the atoms that the traversal reports as real atoms. -/
theorem get_atom_index_eq (T : Constants) (mtop : gmx_mtop_t) :
    get_atom_index T mtop
      = some (((List.range mtop.natoms).filter (reportsRealAtom T mtop)).map
          (fun (g : Nat) => (g : Int))) := by
  unfold get_atom_index
  have := get_atom_indexLoop_eq T mtop mtop.natoms 0 [] (by omega)
  simp only [AtomIterator.advance, List.nil_append] at this
  rw [this, List.range_eq_range']

theorem reportsRealAtom_at (T : Constants) (mtop : gmx_mtop_t)
    (hnmol : ∀ molb ∈ mtop.molblock, 1 ≤ molb.nmol)
    (hnr : ∀ molb ∈ mtop.molblock, 1 ≤ (mtop.moltypeOf molb).atoms.nr)
    (mb c i : Nat) (hmb : mb < mtop.molblock.length) (hc : c < (mtop.block mb).nmol)
    (hi : i < (mtop.moltypeOf (mtop.block mb)).atoms.nr) :
    reportsRealAtom T mtop
        (atomBase mtop mb + c * (mtop.moltypeOf (mtop.block mb)).atoms.nr + i)
      = decide (((mtop.moltypeOf (mtop.block mb)).atoms.atom.getD i default).ptype
          = T.eptAtom) := by
  unfold reportsRealAtom
  rw [advance_eq_cursorAt mtop hnmol hnr mb c i hmb hc hi]
  rfl

theorem countP_range_add (p : Nat → Bool) (a b : Nat) :
    (List.range (a + b)).countP p
      = (List.range a).countP p + (List.range b).countP (fun j => p (a + j)) := by
  rw [List.range_add, List.countP_append, List.countP_map]
  rfl

theorem particlesOfType_eq_countP (atoms : t_atoms) (p : Nat) :
    particlesOfType atoms p
      = (List.range atoms.nr).countP (fun a => decide ((atoms.atom.getD a default).ptype = p)) := by
  unfold particlesOfType
  rw [List.count, List.countP_map]
  apply List.countP_congr
  intro a _
  simp

/-- Among the first `c` copies of block `mb` the traversal reports `c` times
the real atoms of the template. -/
theorem countP_reportsRealAtom_copies (T : Constants) (mtop : gmx_mtop_t)
    (hnmol : ∀ molb ∈ mtop.molblock, 1 ≤ molb.nmol)
    (hnr : ∀ molb ∈ mtop.molblock, 1 ≤ (mtop.moltypeOf molb).atoms.nr)
    (mb : Nat) (hmb : mb < mtop.molblock.length) :
    ∀ c, c ≤ (mtop.block mb).nmol →
      (List.range (c * (mtop.moltypeOf (mtop.block mb)).atoms.nr)).countP
          (fun j => reportsRealAtom T mtop (atomBase mtop mb + j))
        = c * particlesOfType (mtop.moltypeOf (mtop.block mb)).atoms T.eptAtom := by
  intro c
  induction c with
  | zero => intro _; simp
  | succ c ih =>
    intro hc
    rw [Nat.succ_mul, countP_range_add, ih (by omega), Nat.succ_mul,
      particlesOfType_eq_countP]
    congr 1
    apply List.countP_congr
    intro i hi
    rw [List.mem_range] at hi
    rw [← Nat.add_assoc, reportsRealAtom_at T mtop hnmol hnr mb c i hmb (by omega) hi]

/-- Among the atoms of the first `k` blocks the traversal reports as many real
atoms as the templates hold, copy by copy. -/
theorem countP_reportsRealAtom_blocks (T : Constants) (mtop : gmx_mtop_t)
    (hnmol : ∀ molb ∈ mtop.molblock, 1 ≤ molb.nmol)
    (hnr : ∀ molb ∈ mtop.molblock, 1 ≤ (mtop.moltypeOf molb).atoms.nr) :
    ∀ k, k ≤ mtop.molblock.length →
      (List.range (atomBase mtop k)).countP (reportsRealAtom T mtop)
        = ((mtop.molblock.take k).map (fun molb =>
            molb.nmol * particlesOfType (mtop.moltypeOf molb).atoms T.eptAtom)).sum := by
  intro k
  induction k with
  | zero => intro _; simp [atomBase, atomsOfBlocks]
  | succ k ih =>
    intro hk
    rw [atomBase_succ mtop k (by omega), countP_range_add, ih (by omega),
      take_succ_block mtop k (by omega), List.map_append, List.sum_append,
      countP_reportsRealAtom_copies T mtop hnmol hnr k (by omega) _ (Nat.le_refl _)]
    simp

/-- Entry `p` of the particle type count, for a particle type of the
enumeration. -/
theorem gmx_mtop_particletype_count_entry (T : Constants) (mtop : gmx_mtop_t) (p : Nat)
    (hp : p < T.eptNR) :
    (gmx_mtop_particletype_count T mtop).getD p 0
      = (mtop.molblock.map (fun molb =>
          molb.nmol * particlesOfType (mtop.moltypeOf molb).atoms p)).sum := by
  unfold gmx_mtop_particletype_count
  have := (particletype_blocks mtop p mtop.molblock (List.replicate T.eptNR 0)).2
    (by simpa using hp)
  simp only at this ⊢
  rw [this]
  simp [List.getD_eq_getElem?_getD, hp]

/-- C34: in a topology in which every block has at least one copy, every
molecule type at least one atom and `natoms` is the sum over the blocks of
`nmol` times the atom count, `get_atom_index` returns a list that is strictly
increasing (so without repetition) and holds exactly the global indices
`B + c * n + i` of the atoms whose template particle type is `eptAtom`; its
length is the sum over the blocks of `nmol` times the number of such template
atoms, which is entry `eptAtom` of `gmx_mtop_particletype_count`. -/
theorem get_atom_index_spec (T : Constants) (mtop : gmx_mtop_t)
    (hnmol : ∀ molb ∈ mtop.molblock, 1 ≤ molb.nmol)
    (hnr : ∀ molb ∈ mtop.molblock, 1 ≤ (mtop.moltypeOf molb).atoms.nr)
    (hnatoms : mtop.natoms = totalAtoms mtop) :
    ∃ atom_index, get_atom_index T mtop = some atom_index
      ∧ atom_index.Pairwise (fun x y => x < y)
      ∧ atom_index.Nodup
      ∧ (∀ mb c i, mb < mtop.molblock.length → c < (mtop.block mb).nmol →
          i < (mtop.moltypeOf (mtop.block mb)).atoms.nr →
          (((atomBase mtop mb + c * (mtop.moltypeOf (mtop.block mb)).atoms.nr + i : Nat) : Int)
              ∈ atom_index
            ↔ ((mtop.moltypeOf (mtop.block mb)).atoms.atom.getD i default).ptype = T.eptAtom))
      ∧ (∀ x ∈ atom_index, ∃ mb c i, mb < mtop.molblock.length ∧ c < (mtop.block mb).nmol
          ∧ i < (mtop.moltypeOf (mtop.block mb)).atoms.nr
          ∧ x = ((atomBase mtop mb + c * (mtop.moltypeOf (mtop.block mb)).atoms.nr + i : Nat)
              : Int))
      ∧ atom_index.length
          = (mtop.molblock.map (fun molb =>
              molb.nmol * particlesOfType (mtop.moltypeOf molb).atoms T.eptAtom)).sum
      ∧ (T.eptAtom < T.eptNR →
          atom_index.length = (gmx_mtop_particletype_count T mtop).getD T.eptAtom 0) := by
  have hmem : ∀ x : Int,
      x ∈ ((List.range mtop.natoms).filter (reportsRealAtom T mtop)).map
          (fun (g : Nat) => (g : Int))
        ↔ ∃ g : Nat, g < mtop.natoms ∧ reportsRealAtom T mtop g = true ∧ (g : Int) = x := by
    intro x
    simp only [List.mem_map, List.mem_filter, List.mem_range]
    constructor
    · rintro ⟨g, ⟨h1, h2⟩, h3⟩
      exact ⟨g, h1, h2, h3⟩
    · rintro ⟨g, h1, h2, h3⟩
      exact ⟨g, ⟨h1, h2⟩, h3⟩
  have hsorted : (((List.range mtop.natoms).filter (reportsRealAtom T mtop)).map
      (fun (g : Nat) => (g : Int))).Pairwise (fun x y => x < y) := by
    rw [List.pairwise_map]
    apply List.Pairwise.filter
    exact (List.pairwise_lt_range mtop.natoms).imp (fun h => by exact_mod_cast h)
  have hlen : (((List.range mtop.natoms).filter (reportsRealAtom T mtop)).map
      (fun (g : Nat) => (g : Int))).length
      = (mtop.molblock.map (fun molb =>
          molb.nmol * particlesOfType (mtop.moltypeOf molb).atoms T.eptAtom)).sum := by
    rw [List.length_map, ← List.countP_eq_length_filter, hnatoms, ← atomBase_length,
      countP_reportsRealAtom_blocks T mtop hnmol hnr _ (Nat.le_refl _), List.take_length]
  refine ⟨_, get_atom_index_eq T mtop, hsorted, hsorted.imp (fun h => by omega), ?_, ?_, hlen, ?_⟩
  · intro mb c i hmb hc hi
    rw [hmem]
    constructor
    · rintro ⟨g, _, h2, h3⟩
      have hg : g = atomBase mtop mb + c * (mtop.moltypeOf (mtop.block mb)).atoms.nr + i := by
        exact_mod_cast h3
      subst hg
      rw [reportsRealAtom_at T mtop hnmol hnr mb c i hmb hc hi] at h2
      exact of_decide_eq_true h2
    · intro hp
      refine ⟨_, ?_, ?_, rfl⟩
      · rw [hnatoms]
        exact globalIndex_lt_totalAtoms mtop mb c i hmb hc hi
      · rw [reportsRealAtom_at T mtop hnmol hnr mb c i hmb hc hi]
        exact decide_eq_true hp
  · intro x hx
    obtain ⟨g, h1, _, h3⟩ := (hmem x).mp hx
    obtain ⟨mb, c, i, hmb, hc, hi, e⟩ := locate_atom mtop mtop.molblock.length g
      (Nat.le_refl _) (by rw [atomBase_length, ← hnatoms]; exact h1)
    exact ⟨mb, c, i, hmb, hc, hi, by rw [← h3, e]⟩
  · intro hept
    rw [hlen, gmx_mtop_particletype_count_entry T mtop _ hept]

theorem get_atom_index_spec_witness :
    ∃ atom_index, get_atom_index exampleConstants exampleMtop = some atom_index
      ∧ atom_index.Pairwise (fun x y => x < y)
      ∧ atom_index.length = 12
      ∧ atom_index.length
          = (gmx_mtop_particletype_count exampleConstants exampleMtop).getD
              exampleConstants.eptAtom 0 := by
  obtain ⟨l, h1, h2, _, _, _, h6, h7⟩ := get_atom_index_spec exampleConstants exampleMtop
    (by decide) (by decide) (by decide)
  exact ⟨l, h1, h2, by rw [h6]; decide, h7 (by decide)⟩

theorem atomRangeOfEachResidueLoop_succ (moltype : gmx_moltype_t) (k : Nat) :
    atomRangeOfEachResidueLoop moltype (k + 1)
      = atomRangeOfEachResidueStep moltype (atomRangeOfEachResidueLoop moltype k) k := by
  unfold atomRangeOfEachResidueLoop
  rw [List.range_succ, List.foldl_append]
  rfl

theorem toFinset_map_range_succ (f : Nat → Int) (k : Nat) :
    ((List.range (k + 1)).map f).toFinset = insert (f k) ((List.range k).map f).toFinset := by
  ext x
  simp only [List.range_succ, List.map_append, List.map_cons, List.map_nil, List.toFinset_append,
    List.toFinset_cons, List.toFinset_nil, Finset.mem_union, Finset.mem_insert,
    Finset.not_mem_empty, or_false]
  exact or_comm

theorem residueRangeInvariant_step (moltype : gmx_moltype_t) (k : Nat)
    (st : ResidueRangeState) (h : ResidueRangeInvariant moltype k st) :
    ResidueRangeInvariant moltype (k + 1) (atomRangeOfEachResidueStep moltype st k) := by
  obtain ⟨ha, ha', h0, hb, hc, hd, he, hf, hg, hh, hi⟩ := h
  unfold atomRangeOfEachResidueStep
  simp only
  by_cases hne : residueOfAtom moltype k ≠ st.currentResidueNumber
  · rw [if_pos hne]
    have hk : 1 ≤ k := by
      rcases Nat.eq_zero_or_pos k with h | h
      · exfalso
        subst h
        have : st.startAtom = 0 := by omega
        rw [hb, this] at hne
        exact hne rfl
      · exact h
    have hlt := ha' hk
    have hprev : residueOfAtom moltype (k - 1) = st.currentResidueNumber :=
      hc (k - 1) (by omega) (by omega)
    refine ⟨Nat.le_succ k, fun _ => Nat.lt_succ_self k, fun h => by omega, rfl, ?_, ?_, ?_,
      ?_, ?_, ?_, ?_⟩
    · intro j h1 h2
      have : j = k := by
        simp only at h1
        omega
      rw [this]
    · intro p hp
      rcases List.mem_append.mp hp with h | h
      · exact hd p h
      · rw [List.mem_singleton] at h
        subst h
        exact ⟨hlt, fun j h1 h2 => by rw [hc j h1 h2, hb]⟩
    · rw [List.chain'_append]
      refine ⟨he, List.chain'_singleton _, ?_⟩
      intro q hq y hy
      simp only [List.head?_cons, Option.mem_def, Option.some.injEq] at hy
      subst hy
      exact hg q hq
    · simp only [List.map_append, List.map_cons, List.map_nil, List.append_assoc]
      rw [← List.append_assoc, List.head?_append_of_ne_nil _ (by simp)]
      exact hf
    · intro q hq
      have hl : (st.atomRanges ++ [(st.startAtom, k)]).getLast? = some (st.startAtom, k) := by
        simp
      rw [hl] at hq
      simp only [Option.mem_def, Option.some.injEq] at hq
      subst hq
      refine ⟨rfl, ?_⟩
      simp only
      rw [hprev]
      exact fun e => hne e.symm
    · intro g hg'
      simp only at hg'
      by_cases h1 : g < st.startAtom
      · obtain ⟨p, hp, hp'⟩ := hh g h1
        exact ⟨p, List.mem_append_left _ hp, hp'⟩
      · exact ⟨(st.startAtom, k), by simp, by simp only; omega, hg'⟩
    · intro hmono _
      have hold := hi (fun a b hab hb' => hmono a b hab (by omega)) hk
      rw [List.length_append, List.length_singleton, hold, toFinset_map_range_succ,
        Finset.card_insert_of_not_mem]
      · intro hmem
        rw [List.mem_toFinset, List.mem_map] at hmem
        obtain ⟨j, hj, hje⟩ := hmem
        rw [List.mem_range] at hj
        have h1 := hmono j (k - 1) (by omega) (by omega)
        have h2 := hmono (k - 1) k (by omega) (by omega)
        rw [hprev] at h1 h2
        have : residueOfAtom moltype k = st.currentResidueNumber := by omega
        exact hne this
  · rw [if_neg hne]
    have heq : residueOfAtom moltype k = st.currentResidueNumber := by
      by_contra h
      exact hne h
    refine ⟨by omega, fun _ => by omega, fun h => by omega, hb, ?_, hd, he, hf, hg, hh, ?_⟩
    · intro j h1 h2
      by_cases hj : j < k
      · exact hc j h1 hj
      · have : j = k := by omega
        rw [this, heq]
    · intro hmono _
      rcases Nat.eq_zero_or_pos k with h | hk
      · subst h
        rw [h0 rfl, toFinset_map_range_succ]
        simp
      · have hold := hi (fun a b hab hb' => hmono a b hab (by omega)) hk
        have hprev : residueOfAtom moltype (k - 1) = st.currentResidueNumber :=
          hc (k - 1) (by have := ha' hk; omega) (by omega)
        rw [hold, toFinset_map_range_succ, Finset.card_insert_of_mem]
        · rw [List.mem_toFinset, List.mem_map]
          exact ⟨k - 1, by rw [List.mem_range]; omega, by rw [hprev, heq]⟩

theorem residueRangeInvariant_loop (moltype : gmx_moltype_t) :
    ∀ k, ResidueRangeInvariant moltype k (atomRangeOfEachResidueLoop moltype k) := by
  intro k
  induction k with
  | zero =>
    refine ⟨Nat.le_refl _, fun h => by omega, fun _ => rfl, rfl, ?_, ?_, ?_, rfl, ?_, ?_, ?_⟩
    · intro j _ h
      omega
    · intro p hp
      simp [atomRangeOfEachResidueLoop] at hp
    · simp [atomRangeOfEachResidueLoop]
    · intro q hq
      simp [atomRangeOfEachResidueLoop] at hq
    · intro g hg
      simp [atomRangeOfEachResidueLoop] at hg
    · intro _ h
      omega
  | succ k ih =>
    rw [atomRangeOfEachResidueLoop_succ]
    exact residueRangeInvariant_step moltype k _ ih

/-- C32: for a molecule type with at least one atom, `atomRangeOfEachResidue`
returns ranges that partition `[0, atom count)`: the first range begins at 0,
each range begins where the previous one ends, the last range ends at the atom
count, every range is non-empty and every atom lies in a range; all atoms
inside one range have the same residue index, and the last atom of a range and
the first atom of the next have different residue indices; and when the
residue indices of the atoms are non-decreasing, the number of ranges is the
number of distinct residue indices. -/
theorem atomRangeOfEachResidue_spec (moltype : gmx_moltype_t) (hnr : 1 ≤ moltype.atoms.nr) :
    ((atomRangeOfEachResidue moltype).map Prod.fst).head? = some 0
      ∧ (atomRangeOfEachResidue moltype).Chain' (RangesAdjacent moltype)
      ∧ ((atomRangeOfEachResidue moltype).map Prod.snd).getLast? = some moltype.atoms.nr
      ∧ (∀ p ∈ atomRangeOfEachResidue moltype, RangeOfOneResidue moltype p)
      ∧ (∀ g, g < moltype.atoms.nr → ∃ p ∈ atomRangeOfEachResidue moltype, p.1 ≤ g ∧ g < p.2)
      ∧ ((∀ b, b < moltype.atoms.nr → ∀ a, a ≤ b →
            residueOfAtom moltype a ≤ residueOfAtom moltype b) →
          (atomRangeOfEachResidue moltype).length
            = ((List.range moltype.atoms.nr).map (residueOfAtom moltype)).dedup.length) := by
  obtain ⟨_, ha', _, hb, hc, hd, he, hf, hg, hh, hi⟩ :=
    residueRangeInvariant_loop moltype moltype.atoms.nr
  have hlt := ha' hnr
  unfold atomRangeOfEachResidue
  simp only
  refine ⟨?_, ?_, ?_, ?_, ?_, ?_⟩
  · simpa using hf
  · rw [List.chain'_append]
    refine ⟨he, List.chain'_singleton _, ?_⟩
    intro q hq y hy
    simp only [List.head?_cons, Option.mem_def, Option.some.injEq] at hy
    subst hy
    exact hg q hq
  · simp
  · intro p hp
    rcases List.mem_append.mp hp with h | h
    · exact hd p h
    · rw [List.mem_singleton] at h
      subst h
      exact ⟨hlt, fun j h1 h2 => by rw [hc j h1 h2, hb]⟩
  · intro g hg'
    by_cases h1 : g < (atomRangeOfEachResidueLoop moltype moltype.atoms.nr).startAtom
    · obtain ⟨p, hp, hp'⟩ := hh g h1
      exact ⟨p, List.mem_append_left _ hp, hp'⟩
    · exact ⟨((atomRangeOfEachResidueLoop moltype moltype.atoms.nr).startAtom, moltype.atoms.nr),
        by simp, by simp only; omega, hg'⟩
  · intro hmono
    rw [List.length_append, List.length_singleton,
      hi (fun a b hab hb => hmono b hb a hab) hnr, List.card_toFinset]

theorem atomRangeOfEachResidue_spec_witness :
    atomRangeOfEachResidue exampleTypeA = [(0, 2), (2, 3)]
      ∧ (∀ p ∈ atomRangeOfEachResidue exampleTypeA, RangeOfOneResidue exampleTypeA p)
      ∧ (atomRangeOfEachResidue exampleTypeA).length
          = ((List.range exampleTypeA.atoms.nr).map (residueOfAtom exampleTypeA)).dedup.length := by
  obtain ⟨_, _, _, h4, _, h6⟩ := atomRangeOfEachResidue_spec exampleTypeA (by decide)
  exact ⟨by decide, h4, h6 (by decide)⟩

theorem ilistcat_src_nil (T : Constants) (ftype : Nat) (dest : List Int) (copies : Nat)
    (dnum snum : Int) : ilistcat T ftype dest [] copies dnum snum = dest := by
  rw [ilistcat_eq]
  have : (List.range copies).flatMap
      (fun c => offsetAtoms (NRAL T ftype) (dnum + (c : Int) * snum) []) = [] := by
    rw [List.flatMap_eq_nil_iff]
    intro c _
    rfl
  rw [this, List.append_nil]

/-- For a molecule type without constraints without connection, the body of
the loop over the function types does the same with and without merging. -/
theorem copyIListsKind_merge_of_no_constrnc (T : Constants) (molt : gmx_moltype_t)
    (molb : gmx_molblock_t) (destnr srcnr : Nat) (h : molt.ilist T.F_CONSTRNC = []) :
    copyIListsKind T molt molb true none destnr srcnr
      = copyIListsKind T molt molb false none destnr srcnr := by
  funext il ftype
  by_cases hf : ftype = T.F_CONSTRNC
  · subst hf
    simp [copyIListsKind, h, ilistcat_src_nil]
  · simp [copyIListsKind, h, hf]

theorem moltypeOf_constrnc_nil (T : Constants) (mtop : gmx_mtop_t)
    (hnc : ∀ molt ∈ mtop.moltype, molt.ilist T.F_CONSTRNC = []) (molb : gmx_molblock_t) :
    (mtop.moltypeOf molb).ilist T.F_CONSTRNC = [] := by
  unfold gmx_mtop_t.moltypeOf
  by_cases h : molb.type < mtop.moltype.length
  · rw [List.getD_eq_getElem _ _ h]
    exact hnc _ (List.getElem_mem h)
  · rw [List.getD_eq_default _ _ (by omega)]
    rfl

theorem copyIListsBlock_merge_of_no_constrnc (T : Constants) (mtop : gmx_mtop_t)
    (hnc : ∀ molt ∈ mtop.moltype, molt.ilist T.F_CONSTRNC = []) (natoms : Nat)
    (idef : InteractionDefinitions) (molb : gmx_molblock_t) :
    copyIListsBlock T mtop true none natoms idef molb
      = copyIListsBlock T mtop false none natoms idef molb := by
  unfold copyIListsBlock
  simp only [copyIListsKind_merge_of_no_constrnc T _ molb _ _
    (moltypeOf_constrnc_nil T mtop hnc molb)]

theorem copyIListsBlocks_merge_of_no_constrnc (T : Constants) (mtop : gmx_mtop_t)
    (hnc : ∀ molt ∈ mtop.moltype, molt.ilist T.F_CONSTRNC = []) :
    ∀ (blocks : List gmx_molblock_t) (natoms : Nat) (idef : InteractionDefinitions),
      copyIListsBlocks T mtop true none blocks natoms idef
        = copyIListsBlocks T mtop false none blocks natoms idef := by
  intro blocks
  induction blocks with
  | nil => intro natoms idef; rfl
  | cons molb rest ih =>
    intro natoms idef
    simp only [copyIListsBlocks]
    rw [copyIListsBlock_merge_of_no_constrnc T mtop hnc]
    split
    · rfl
    · exact ih _ _

/-- In a topology without constraints without connection, `copyIListsFromMtop`
without filter settings returns the same with and without merging. -/
theorem copyIListsFromMtop_merge_of_no_constrnc (T : Constants) (mtop : gmx_mtop_t)
    (hnc : ∀ molt ∈ mtop.moltype, molt.ilist T.F_CONSTRNC = []) (idef : InteractionDefinitions) :
    copyIListsFromMtop T mtop idef true none = copyIListsFromMtop T mtop idef false none := by
  unfold copyIListsFromMtop
  rw [copyIListsBlocks_merge_of_no_constrnc T mtop hnc]

theorem copyIListsFromMtop_ilsort (T : Constants) (mtop : gmx_mtop_t)
    (idef0 idef : InteractionDefinitions) (mergeConstr : Bool) (fda : Option FDASettings)
    (h : copyIListsFromMtop T mtop idef0 mergeConstr fda = .ok idef) :
    idef.ilsort = IlSort.ilsortNO_FE := by
  unfold copyIListsFromMtop at h
  split at h
  · cases h
  · simp only [Except.ok.injEq] at h
    rw [← h]

/-- C37: for a topology in which no molecule type has `F_CONSTRNC` template
entries, `gmx_mtop_generate_local_top`, called without free-energy sorting and
without filter settings on a local topology whose interaction definitions are
freshly constructed from the force-field parameters, and
`gmx_mtop_t_to_t_topology` fail alike or return interaction definitions that
are identical: the same list for every kind, the same per-entry restraint
parameter tables, the same parameter table, and the tag `ilsortNO_FE`. -/
theorem reduced_and_full_view_agree (T : Constants)
    (gmx_sort_ilist_fe : InteractionDefinitions → List real → List real → InteractionDefinitions)
    (mtop : gmx_mtop_t) (top : gmx_localtop_t) (freeMTop : Bool) (idef0 : InteractionDefinitions)
    (htop : top.idef = emptyIdef mtop)
    (hnc : ∀ molt ∈ mtop.moltype, molt.ilist T.F_CONSTRNC = []) :
    (gmx_mtop_generate_local_top T gmx_sort_ilist_fe mtop top false none).map
          (fun t => t.idef)
        = (gmx_mtop_t_to_t_topology T mtop freeMTop idef0).map (fun t => t.idef)
      ∧ ∀ ltop ttop,
          gmx_mtop_generate_local_top T gmx_sort_ilist_fe mtop top false none = .ok ltop →
          gmx_mtop_t_to_t_topology T mtop freeMTop idef0 = .ok ttop →
          (∀ ftype, ltop.idef.il ftype = ttop.idef.il ftype)
            ∧ ltop.idef.iparams_posres = ttop.idef.iparams_posres
            ∧ ltop.idef.iparams_fbposres = ttop.idef.iparams_fbposres
            ∧ ltop.idef.ilsort = IlSort.ilsortNO_FE
            ∧ ttop.idef.ilsort = IlSort.ilsortNO_FE := by
  have hl : (gmx_mtop_generate_local_top T gmx_sort_ilist_fe mtop top false none).map
        (fun t => t.idef)
      = copyIListsFromMtop T mtop (emptyIdef mtop) false none := by
    unfold gmx_mtop_generate_local_top gen_local_top
    rw [htop, copyIListsFromMtop_merge_of_no_constrnc T mtop hnc]
    cases copyIListsFromMtop T mtop (emptyIdef mtop) false none with
    | error e => rfl
    | ok idef => rfl
  have hr : (gmx_mtop_t_to_t_topology T mtop freeMTop idef0).map (fun t => t.idef)
      = copyIListsFromMtop T mtop (emptyIdef mtop) false none := by
    unfold gmx_mtop_t_to_t_topology gen_t_topology
    have e : copyFFParametersFromMtop mtop { idef0 with il := fun _ => [] } = emptyIdef mtop :=
      rfl
    simp only [e]
    cases copyIListsFromMtop T mtop (emptyIdef mtop) false none with
    | error e => rfl
    | ok idef => rfl
  refine ⟨by rw [hl, hr], ?_⟩
  intro ltop ttop h1 h2
  rw [h1] at hl
  rw [h2] at hr
  simp only [Except.map] at hl hr
  have e : ltop.idef = ttop.idef := by
    have := hl.trans hr.symm
    simpa using this
  have hs := copyIListsFromMtop_ilsort T mtop _ _ _ _ hr.symm
  refine ⟨fun ftype => by rw [e], by rw [e], by rw [e], by rw [e]; exact hs, hs⟩

theorem reduced_and_full_view_agree_witness :
    (gmx_mtop_generate_local_top exampleConstants (fun idef _ _ => idef) exampleConnectedMtop
          { idef := emptyIdef exampleConnectedMtop, excls := [] } false none).map
        (fun t => t.idef.il 4)
      = .ok [4, 6, 7, 4, 8, 9, 4, 10, 11]
      ∧ (gmx_mtop_generate_local_top exampleConstants (fun idef _ _ => idef) exampleConnectedMtop
          { idef := emptyIdef exampleConnectedMtop, excls := [] } false none).map
        (fun t => t.idef)
      = (gmx_mtop_t_to_t_topology exampleConstants exampleConnectedMtop false
          (emptyIdef exampleConnectedMtop)).map (fun t => t.idef) := by
  exact ⟨rfl,
    (reduced_and_full_view_agree exampleConstants (fun idef _ _ => idef) exampleConnectedMtop
      { idef := emptyIdef exampleConnectedMtop, excls := [] } false
      (emptyIdef exampleConnectedMtop) rfl (by decide)).1⟩

/-- C23 (counterexample): in a build without assertions, constructing an
`AtomIterator` on the worked example (12 atoms) at the start values 5, -1 and
13, none of which is 0 or `natoms`, succeeds. -/
theorem atomIterator_create_release_accepts_midpoint :
    exampleMtop.natoms = 12
      ∧ AtomIterator.create false exampleMtop 5 = .ok (AtomIterator.initial exampleMtop 5)
      ∧ AtomIterator.create false exampleMtop (-1)
          = .ok (AtomIterator.initial exampleMtop (-1))
      ∧ AtomIterator.create false exampleMtop 13
          = .ok (AtomIterator.initial exampleMtop 13) :=
  ⟨rfl, rfl, rfl, rfl⟩

/-- C23 (amended): the constructor of `AtomIterator` checks its start value
only through `GMX_ASSERT`.  In a build with assertions enabled construction
succeeds exactly for a start value equal to 0 or to the topology's `natoms`,
and for every other start value it fails with the message
"Starting at other atoms not implemented yet".  In a build without assertions
there is no check: construction succeeds for every start value and gives the
cursor at block 0, copy 0, local atom 0 with the start value as global atom
number. -/
theorem atomIterator_create_precondition (mtop : gmx_mtop_t) (g : Int) :
    (((∃ it, AtomIterator.create true mtop g = .ok it) ↔ (g = 0 ∨ g = (mtop.natoms : Int)))
        ∧ (g = 0 ∨ g = (mtop.natoms : Int) →
            AtomIterator.create true mtop g = .ok (AtomIterator.initial mtop g))
        ∧ (g ≠ 0 → g ≠ (mtop.natoms : Int) →
            AtomIterator.create true mtop g
              = .error "Starting at other atoms not implemented yet"))
      ∧ AtomIterator.create false mtop g = .ok (AtomIterator.initial mtop g)
      ∧ (AtomIterator.initial mtop g).mblock_ = 0
      ∧ (AtomIterator.initial mtop g).currentMolecule_ = 0
      ∧ (AtomIterator.initial mtop g).localAtomNumber_ = 0
      ∧ (AtomIterator.initial mtop g).globalAtomNumber_ = g := by
  have hok : g = 0 ∨ g = (mtop.natoms : Int) →
      AtomIterator.create true mtop g = .ok (AtomIterator.initial mtop g) := by
    intro h
    simp [AtomIterator.create, h]
  have herr : g ≠ 0 → g ≠ (mtop.natoms : Int) →
      AtomIterator.create true mtop g
        = .error "Starting at other atoms not implemented yet" := by
    intro h0 h1
    simp [AtomIterator.create, h0, h1]
  refine ⟨⟨⟨?_, fun h => ⟨_, hok h⟩⟩, hok, herr⟩, ?_, rfl, rfl, rfl, rfl⟩
  · rintro ⟨it, hit⟩
    by_contra hn
    have h0 : g ≠ 0 := fun e => hn (Or.inl e)
    have h1 : g ≠ (mtop.natoms : Int) := fun e => hn (Or.inr e)
    rw [herr h0 h1] at hit
    cases hit
  · simp [AtomIterator.create]

/-- With the filter on, what the blocks append to a kind outside the merged
constraint kinds is the filtered expansion of the molecule blocks, or nothing
when the mask selects neither bonded nor 1-4 pair interactions. -/
theorem flatMap_blockAppended_filtered (T : Constants) (mtop : gmx_mtop_t)
    (mergeConstr : Bool) (s : FDASettings) (f : Nat)
    (hm : mergeConstr = true → f ≠ T.F_CONSTR ∧ f ≠ T.F_CONSTRNC)
    (hon : s.bonded_exclusion_on = true)
    (hwf : ∀ molb ∈ mtop.molblock, (1 + NRAL T f) ∣ ((mtop.moltypeOf molb).ilist f).length) :
    (List.range mtop.molblock.length).flatMap (blockAppended T mtop mergeConstr (some s) f)
      = if s.type &&& (T.InteractionType_BONDED + T.InteractionType_NB14) = 0 then []
        else filterEntries (NRAL T f) (s.groupAtoms s.index_group1)
          (s.groupAtoms s.index_group2) (moleculeBlockExpansion T mtop f) := by
  have e : (List.range mtop.molblock.length).flatMap (blockAppended T mtop mergeConstr (some s) f)
      = (List.range mtop.molblock.length).flatMap
          (fun mb => if s.type &&& (T.InteractionType_BONDED + T.InteractionType_NB14) = 0
            then []
            else filterEntries (NRAL T f) (s.groupAtoms s.index_group1)
              (s.groupAtoms s.index_group2) (blockExpansion T mtop f mb)) := by
    apply List.flatMap_congr
    intro mb hmb
    exact blockAppended_filtered T mtop mergeConstr s hon f mb hm
      (hwf _ (block_mem mtop mb (List.mem_range.mp hmb)))
  rw [e]
  split
  · simp
  · unfold moleculeBlockExpansion
    rw [filterEntries_flatMap]
    intro mb hmb
    exact blockExpansion_dvd T mtop f mb (hwf _ (block_mem mtop mb (List.mem_range.mp hmb)))

/-- C20 (amended): with filtering enabled the filter applies to every
interaction kind alike, bonded or not.  For every kind `f` other than
`F_POSRES` and `F_FBPOSRES` (and other than `F_CONSTR` and `F_CONSTRNC` when
constraints are merged) the output list is, when the mask includes bonded or
1-4 pair interactions, the entries of the list produced with filtering
disabled that come from the molecule blocks and have at least one atom in
group 1 or group 2, and no entry from the molecule blocks when the mask
includes neither, in both cases followed by the intermolecular list; the list
produced with filtering disabled is the unfiltered expansion of the molecule
blocks followed by the intermolecular list.  The restraint kinds `F_POSRES`
and `F_FBPOSRES` are filtered in the same way, and the parameter ids of the
entries kept are renumbered 0, 1, 2, ... in their order. -/
theorem copyIListsFromMtop_filter_all_kinds (T : Constants) (mtop : gmx_mtop_t)
    (mergeConstr : Bool) (s : FDASettings) (idef : InteractionDefinitions)
    (hon : s.bonded_exclusion_on = true)
    (h : copyIListsFromMtop T mtop (emptyIdef mtop) mergeConstr (some s) = .ok idef) :
    (∀ f, f < T.F_NRE → f ≠ T.F_POSRES → f ≠ T.F_FBPOSRES →
        (mergeConstr = true → f ≠ T.F_CONSTR ∧ f ≠ T.F_CONSTRNC) →
        (∀ molb ∈ mtop.molblock, (1 + NRAL T f) ∣ ((mtop.moltypeOf molb).ilist f).length) →
        idef.il f
            = (if s.type &&& (T.InteractionType_BONDED + T.InteractionType_NB14) = 0 then []
               else filterEntries (NRAL T f) (s.groupAtoms s.index_group1)
                 (s.groupAtoms s.index_group2) (moleculeBlockExpansion T mtop f))
              ++ intermolecularPart mtop f
          ∧ ∀ idefOff,
              copyIListsFromMtop T mtop (emptyIdef mtop) mergeConstr none = .ok idefOff →
              idefOff.il f = moleculeBlockExpansion T mtop f ++ intermolecularPart mtop f)
      ∧ (RestraintKindsWellFormed T mtop mergeConstr →
          idef.il T.F_POSRES
              = renumberFrom 0
                  (if s.type &&& (T.InteractionType_BONDED + T.InteractionType_NB14) = 0
                   then []
                   else filterEntries (NRAL T T.F_POSRES) (s.groupAtoms s.index_group1)
                     (s.groupAtoms s.index_group2) (moleculeBlockExpansion T mtop T.F_POSRES))
                ++ intermolecularPart mtop T.F_POSRES
            ∧ idef.il T.F_FBPOSRES
              = renumberFrom 0
                  (if s.type &&& (T.InteractionType_BONDED + T.InteractionType_NB14) = 0
                   then []
                   else filterEntries (NRAL T T.F_FBPOSRES) (s.groupAtoms s.index_group1)
                     (s.groupAtoms s.index_group2)
                     (moleculeBlockExpansion T mtop T.F_FBPOSRES))
                ++ intermolecularPart mtop T.F_FBPOSRES
            ∧ ∀ e, (e + 1) * 2
                  ≤ (if s.type &&& (T.InteractionType_BONDED + T.InteractionType_NB14) = 0
                     then []
                     else filterEntries (NRAL T T.F_POSRES) (s.groupAtoms s.index_group1)
                       (s.groupAtoms s.index_group2)
                       (moleculeBlockExpansion T mtop T.F_POSRES)).length →
                (idef.il T.F_POSRES).getD (e * 2) 0 = (e : Int)) := by
  refine ⟨?_, ?_⟩
  · intro f hf hP hFB hm hwf
    exact copyIListsFromMtop_filter_every_kind T mtop mergeConstr s idef f hf hP hFB hm hon hwf h
  · intro hw
    have hx := coordinates_present_of_ok T mtop mergeConstr (some s) idef hw h
    obtain ⟨idef', h', cP, _, cF, _⟩ :=
      copyIListsFromMtop_restraints T mtop mergeConstr (some s) hw hx
    rw [h] at h'
    simp only [Except.ok.injEq] at h'
    subst h'
    obtain ⟨_, _, _, hnP, hnF, hmr, hwfr⟩ := hw
    have eP := flatMap_blockAppended_filtered T mtop mergeConstr s T.F_POSRES
      (fun hm => (hmr hm).1) hon
      (fun molb hmolb => by rw [hnP]; exact (hwfr molb hmolb).1)
    have eF := flatMap_blockAppended_filtered T mtop mergeConstr s T.F_FBPOSRES
      (fun hm => (hmr hm).2) hon
      (fun molb hmolb => by rw [hnF]; exact (hwfr molb hmolb).2)
    rw [eP] at cP
    rw [eF] at cF
    refine ⟨cP, cF, ?_⟩
    intro e he
    rw [cP, getD_append_lt _ _ _ _ (by rw [renumberFrom_length]; omega),
      (renumberFrom_getD e 0 _ (by omega)).1]
    simp

theorem copyIListsFromMtop_filter_all_kinds_witness :
    ∃ idef,
      copyIListsFromMtop exampleConstants exampleMtop (emptyIdef exampleMtop) false
          (some exampleFDASettings) = .ok idef
        ∧ moleculeBlockExpansion exampleConstants exampleMtop 4 = [4, 6, 7, 4, 8, 9, 4, 10, 11]
        ∧ idef.il 4 = [4, 6, 7]
        ∧ moleculeBlockExpansion exampleConstants exampleMtop 2 = [3, 0, 3, 3]
        ∧ idef.il 2 = [0, 0] := by
  obtain ⟨idef, e⟩ : ∃ idef, copyIListsFromMtop exampleConstants exampleMtop
      (emptyIdef exampleMtop) false (some exampleFDASettings) = .ok idef := ⟨_, rfl⟩
  obtain ⟨h1, h2⟩ := copyIListsFromMtop_filter_all_kinds exampleConstants exampleMtop false
    exampleFDASettings idef rfl e
  refine ⟨idef, e, by decide, ?_, by decide, ?_⟩
  · rw [(h1 4 (by decide) (by decide) (by decide) (by simp) (by decide)).1]
    decide
  · have h3 : idef.il 2 = _ := (h2 (by decide)).1
    rw [h3]
    decide

theorem getD_map_natCast (l : List Nat) (p : Nat) :
    (l.map (fun (n : Nat) => (n : Int))).getD p 0 = ((l.getD p 0 : Nat) : Int) := by
  rw [List.getD_eq_getElem?_getD, List.getD_eq_getElem?_getD, List.getElem?_map]
  cases l[p]? <;> simp

theorem getD_set_le (count : List Nat) (k p v C : Nat) (h : ∀ p, count.getD p 0 ≤ C)
    (hv : v ≤ C) : (count.set k v).getD p 0 ≤ C := by
  by_cases hp : p = k
  · subst hp
    by_cases hl : p < count.length
    · rw [getD_set_eq count p v 0 hl]
      exact hv
    · rw [List.getD_eq_default _ _ (by rw [List.length_set]; omega)]
      exact Nat.zero_le _
  · rw [getD_set_ne count p k v 0 hp]
    exact h p

/-- As long as the entries stay representable, counting with `int` arithmetic
gives the exact counts. -/
theorem foldl_increment_wrapInt32 (w : Nat) :
    ∀ (keys : List Nat) (count : List Nat) (C : Nat), (∀ p, count.getD p 0 ≤ C) →
      C + keys.length * w ≤ 2147483647 →
      keys.foldl (fun c k => c.set k (wrapInt32 (c.getD k 0 + (w : Int))))
          (count.map (fun (n : Nat) => (n : Int)))
        = (keys.foldl (fun c k => c.set k (c.getD k 0 + w)) count).map
            (fun (n : Nat) => (n : Int))
      ∧ ∀ p, (keys.foldl (fun c k => c.set k (c.getD k 0 + w)) count).getD p 0
          ≤ C + keys.length * w := by
  intro keys
  induction keys with
  | nil =>
    intro count C h _
    exact ⟨rfl, fun p => by simpa using h p⟩
  | cons k ks ih =>
    intro count C h hb
    simp only [List.length_cons, Nat.succ_mul] at hb
    simp only [List.foldl_cons, List.length_cons, Nat.succ_mul]
    have hk := h k
    have e : wrapInt32 ((count.map (fun (n : Nat) => (n : Int))).getD k 0 + (w : Int))
        = ((count.getD k 0 + w : Nat) : Int) := by
      rw [getD_map_natCast, (wrapInt32_eq_self_iff _ (by omega)).mpr (by omega)]
      push_cast
      rfl
    rw [e, ← List.map_set]
    obtain ⟨i1, i2⟩ := ih (count.set k (count.getD k 0 + w)) (C + w)
      (fun p => getD_set_le count k p _ _ (fun q => Nat.le_trans (h q) (Nat.le_add_right _ _))
        (by omega))
      (by omega)
    refine ⟨i1, fun p => ?_⟩
    have := i2 p
    omega

/-- For a list of blocks with a representable number of atoms, the loop of the
particle type count with `int` arithmetic gives the exact counts. -/
theorem particletype_blocks_wrapInt32 (mtop : gmx_mtop_t) :
    ∀ (blocks : List gmx_molblock_t) (count : List Nat) (C : Nat),
      (∀ p, count.getD p 0 ≤ C) → C + atomsOfBlocks mtop blocks ≤ 2147483647 →
      blocks.foldl
          (fun count molblock =>
            (List.range (mtop.moltypeOf molblock).atoms.nr).foldl
              (fun count a =>
                count.set ((mtop.moltypeOf molblock).atoms.atom.getD a default).ptype
                  (wrapInt32
                    (count.getD ((mtop.moltypeOf molblock).atoms.atom.getD a default).ptype 0
                      + (molblock.nmol : Int))))
              count)
          (count.map (fun (n : Nat) => (n : Int)))
        = (blocks.foldl
            (fun count molblock =>
              (List.range (mtop.moltypeOf molblock).atoms.nr).foldl
                (fun count a =>
                  count.set ((mtop.moltypeOf molblock).atoms.atom.getD a default).ptype
                    (count.getD ((mtop.moltypeOf molblock).atoms.atom.getD a default).ptype 0
                      + molblock.nmol))
                count)
            count).map (fun (n : Nat) => (n : Int)) := by
  intro blocks
  induction blocks with
  | nil => intro count C _ _; rfl
  | cons b bs ih =>
    intro count C h hb
    simp only [atomsOfBlocks, List.map_cons, List.sum_cons] at hb
    simp only [List.foldl_cons]
    have e1 : (List.range (mtop.moltypeOf b).atoms.nr).foldl
          (fun count a =>
            count.set ((mtop.moltypeOf b).atoms.atom.getD a default).ptype
              (wrapInt32
                (count.getD ((mtop.moltypeOf b).atoms.atom.getD a default).ptype 0
                  + (b.nmol : Int))))
          (count.map (fun (n : Nat) => (n : Int)))
        = ((List.range (mtop.moltypeOf b).atoms.nr).map
            (fun a => ((mtop.moltypeOf b).atoms.atom.getD a default).ptype)).foldl
            (fun c k => c.set k (wrapInt32 (c.getD k 0 + (b.nmol : Int))))
            (count.map (fun (n : Nat) => (n : Int))) := by
      rw [List.foldl_map]
    have e2 : (List.range (mtop.moltypeOf b).atoms.nr).foldl
          (fun count a =>
            count.set ((mtop.moltypeOf b).atoms.atom.getD a default).ptype
              (count.getD ((mtop.moltypeOf b).atoms.atom.getD a default).ptype 0 + b.nmol))
          count
        = ((List.range (mtop.moltypeOf b).atoms.nr).map
            (fun a => ((mtop.moltypeOf b).atoms.atom.getD a default).ptype)).foldl
            (fun c k => c.set k (c.getD k 0 + b.nmol)) count := by
      rw [List.foldl_map]
    obtain ⟨i1, i2⟩ := foldl_increment_wrapInt32 b.nmol
      ((List.range (mtop.moltypeOf b).atoms.nr).map
        (fun a => ((mtop.moltypeOf b).atoms.atom.getD a default).ptype)) count C h
      (by
        rw [List.length_map, List.length_range, Nat.mul_comm]
        omega)
    rw [List.length_map, List.length_range] at i2
    rw [e1, e2, i1]
    refine ih _ (C + (mtop.moltypeOf b).atoms.nr * b.nmol) i2 ?_
    have : (mtop.moltypeOf b).atoms.nr * b.nmol = b.nmol * (mtop.moltypeOf b).atoms.nr :=
      Nat.mul_comm _ _
    unfold atomsOfBlocks
    omega

/-- For a topology whose number of atoms is representable, the particle type
count with `int` arithmetic returns the exact counts. -/
theorem gmx_mtop_particletype_count_int32_eq (T : Constants) (mtop : gmx_mtop_t)
    (hrep : totalAtoms mtop ≤ 2147483647) :
    gmx_mtop_particletype_count_int32 T mtop
      = (gmx_mtop_particletype_count T mtop).map (fun (n : Nat) => (n : Int)) := by
  unfold gmx_mtop_particletype_count_int32 gmx_mtop_particletype_count
  have h := particletype_blocks_wrapInt32 mtop mtop.molblock (List.replicate T.eptNR 0) 0
    (fun p => by simp [List.getD_eq_getElem?_getD, List.getElem?_replicate]; split <;> simp)
    (by unfold totalAtoms at hrep; omega)
  simp only [List.map_replicate, Nat.cast_zero] at h
  exact h

/-- C27 (counterexample): on two blocks of `2^30` copies of a two-atom molecule
type whose atoms have particle type 0, the count of particle type 0 is
`2^32`, and the routine, adding in `int`, returns 0 for it. -/
theorem gmx_mtop_particletype_count_int32_wraps :
    gmx_mtop_particletype_count_int32 exampleConstants exampleHugeMtop = [0, 0, 0, 0, 0]
      ∧ (exampleHugeMtop.molblock.map (fun molb =>
          molb.nmol * particlesOfType (exampleHugeMtop.moltypeOf molb).atoms 0)).sum
        = 4294967296
      ∧ totalAtoms exampleHugeMtop = 4294967296 := by
  decide

/-- C27 (amended): for a topology whose total atom count does not exceed
`2^31 - 1`, entry `p` of `gmx_mtop_particletype_count`, computed with the `int`
arithmetic of the source, is the sum over the blocks of `nmol` times the number
of template atoms of the block's molecule type whose particle type is `p`; and
when every template atom has a particle type below `eptNR`, the entries summed
over all particle types give the total atom count. -/
theorem gmx_mtop_particletype_count_int32_spec (T : Constants) (mtop : gmx_mtop_t)
    (hrep : totalAtoms mtop ≤ 2147483647) :
    (gmx_mtop_particletype_count_int32 T mtop).length = T.eptNR
      ∧ (∀ p, p < T.eptNR →
          (gmx_mtop_particletype_count_int32 T mtop).getD p 0
            = (((mtop.molblock.map (fun molb =>
                molb.nmol * particlesOfType (mtop.moltypeOf molb).atoms p)).sum : Nat) : Int))
      ∧ ((∀ molb ∈ mtop.molblock, ∀ a, a < (mtop.moltypeOf molb).atoms.nr →
            ((mtop.moltypeOf molb).atoms.atom.getD a default).ptype < T.eptNR) →
          ((List.range T.eptNR).map
              (fun p => (gmx_mtop_particletype_count_int32 T mtop).getD p 0)).sum
            = (totalAtoms mtop : Int)) := by
  obtain ⟨h1, h2, h3⟩ := gmx_mtop_particletype_count_spec T mtop
  rw [gmx_mtop_particletype_count_int32_eq T mtop hrep]
  refine ⟨by rw [List.length_map, h1], ?_, ?_⟩
  · intro p hp
    rw [getD_map_natCast, h2 p hp]
  · intro hpt
    have := h3 hpt
    rw [← this, ← sum_map_natCast]
    congr 1
    apply List.map_congr_left
    intro p _
    exact getD_map_natCast _ p

theorem gmx_mtop_particletype_count_int32_spec_witness :
    gmx_mtop_particletype_count_int32 exampleConstants exampleMtop = [12, 0, 0, 0, 0]
      ∧ (gmx_mtop_particletype_count_int32 exampleConstants exampleMtop).getD 0 0
          = (((exampleMtop.molblock.map (fun molb =>
              molb.nmol * particlesOfType (exampleMtop.moltypeOf molb).atoms 0)).sum : Nat)
              : Int) :=
  ⟨by decide,
    (gmx_mtop_particletype_count_int32_spec exampleConstants exampleMtop (by decide)).2.1 0
      (by decide)⟩

theorem writeAt_natCast (index : List Nat) (i v : Nat) :
    writeAt (index.map (fun (n : Nat) => (n : Int))) (i : Int) (v : Int)
      = (index.set i v).map (fun (n : Nat) => (n : Int)) := by
  unfold writeAt
  rw [if_pos (Int.natCast_nonneg i), Int.toNat_natCast, List.map_set]

theorem fillMoleculeIndicesMols_counters (n : Nat) :
    ∀ (cnt : Nat) (st : MoleculeIndexState),
      (fillMoleculeIndicesMols n cnt st).globalAtomIndex = st.globalAtomIndex + cnt * n
        ∧ (fillMoleculeIndicesMols n cnt st).globalMolIndex = st.globalMolIndex + cnt := by
  intro cnt
  induction cnt with
  | zero => intro st; simp [fillMoleculeIndicesMols]
  | succ cnt ih =>
    intro st
    rw [fillMoleculeIndicesMols]
    obtain ⟨h1, h2⟩ := ih
      { globalAtomIndex := st.globalAtomIndex + n
        globalMolIndex := st.globalMolIndex + 1
        index := st.index.set (st.globalMolIndex + 1) (st.globalAtomIndex + n) }
    simp only at h1 h2
    exact ⟨by rw [h1]; ring, by rw [h2]; omega⟩

/-- As long as the counters stay representable, the loop over the copies of a
block with `int` arithmetic does what the loop with exact integers does. -/
theorem fillMoleculeIndicesMols_int32_eq (n : Nat) :
    ∀ (cnt : Nat) (st : MoleculeIndexState),
      st.globalAtomIndex + cnt * n ≤ 2147483647 → st.globalMolIndex + cnt ≤ 2147483647 →
      fillMoleculeIndicesMols_int32 n cnt st.toInt32
        = (fillMoleculeIndicesMols n cnt st).toInt32 := by
  intro cnt
  induction cnt with
  | zero => intro st _ _; rfl
  | succ cnt ih =>
    intro st ha hm
    rw [Nat.succ_mul] at ha
    rw [fillMoleculeIndicesMols_int32, fillMoleculeIndicesMols]
    have e1 : wrapInt32 (st.toInt32.globalAtomIndex + (n : Int))
        = ((st.globalAtomIndex + n : Nat) : Int) := by
      simp only [MoleculeIndexState.toInt32]
      rw [(wrapInt32_eq_self_iff _ (by omega)).mpr (by omega)]
      push_cast
      rfl
    have e2 : wrapInt32 (st.toInt32.globalMolIndex + 1)
        = ((st.globalMolIndex + 1 : Nat) : Int) := by
      simp only [MoleculeIndexState.toInt32]
      rw [(wrapInt32_eq_self_iff _ (by omega)).mpr (by omega)]
      push_cast
      rfl
    rw [e1, e2]
    have e3 : st.toInt32.index = st.index.map (fun (n : Nat) => (n : Int)) := rfl
    rw [e3, writeAt_natCast]
    exact ih
      { globalAtomIndex := st.globalAtomIndex + n
        globalMolIndex := st.globalMolIndex + 1
        index := st.index.set (st.globalMolIndex + 1) (st.globalAtomIndex + n) }
      (by simp only; omega) (by simp only; omega)

theorem fillMoleculeIndices_blocks_int32_eq (mtop : gmx_mtop_t) :
    ∀ (blocks : List gmx_molblock_t) (st : MoleculeIndexState),
      st.globalAtomIndex + atomsOfBlocks mtop blocks ≤ 2147483647 →
      st.globalMolIndex + moleculesOfBlocks blocks ≤ 2147483647 →
      blocks.foldl
          (fun st molb =>
            fillMoleculeIndicesMols_int32 (mtop.moltypeOf molb).atoms.nr molb.nmol st)
          st.toInt32
        = (blocks.foldl
            (fun st molb => fillMoleculeIndicesMols (mtop.moltypeOf molb).atoms.nr molb.nmol st)
            st).toInt32 := by
  intro blocks
  induction blocks with
  | nil => intro st _ _; rfl
  | cons b bs ih =>
    intro st ha hm
    simp only [atomsOfBlocks, List.map_cons, List.sum_cons] at ha
    simp only [moleculesOfBlocks, List.map_cons, List.sum_cons] at hm
    simp only [List.foldl_cons]
    obtain ⟨c1, c2⟩ := fillMoleculeIndicesMols_counters (mtop.moltypeOf b).atoms.nr b.nmol st
    rw [fillMoleculeIndicesMols_int32_eq _ b.nmol st (by omega) (by omega)]
    exact ih _ (by rw [c1]; unfold atomsOfBlocks; omega)
      (by rw [c2]; unfold moleculesOfBlocks; omega)

theorem gmx_mtop_num_molecules_int32_eq (mtop : gmx_mtop_t)
    (h : gmx_mtop_num_molecules mtop ≤ 2147483647) :
    gmx_mtop_num_molecules_int32 mtop = (gmx_mtop_num_molecules mtop : Int) := by
  have h1 : gmx_mtop_num_molecules_int32 mtop
      = wrapInt32 (gmx_mtop_num_molecules mtop : Int) := by
    rw [gmx_mtop_num_molecules_eq]
    unfold gmx_mtop_num_molecules_int32 moleculesOfBlocks
    have := foldl_wrapInt32_plain (fun molb : gmx_molblock_t => (molb.nmol : Int))
      mtop.molblock 0
    rw [wrapInt32_zero] at this
    rw [this, Int.zero_add, sum_map_natCast]
  rw [h1, (wrapInt32_eq_self_iff _ (by omega)).mpr (by omega)]

/-- For a topology with a representable number of molecules (and of entries of
the table) and of atoms, `gmx_mtop_molecules_t_block` with `int` arithmetic
returns the table computed with exact integers. -/
theorem gmx_mtop_molecules_t_block_int32_eq (mtop : gmx_mtop_t)
    (hM : gmx_mtop_num_molecules mtop ≤ 2147483646) (hA : totalAtoms mtop ≤ 2147483647) :
    (gmx_mtop_molecules_t_block_int32 mtop).nr = ((gmx_mtop_molecules_t_block mtop).nr : Int)
      ∧ (gmx_mtop_molecules_t_block_int32 mtop).nalloc_index
          = ((gmx_mtop_molecules_t_block mtop).nalloc_index : Int)
      ∧ (gmx_mtop_molecules_t_block_int32 mtop).index
          = (gmx_mtop_molecules_t_block mtop).index.map (fun (n : Nat) => (n : Int)) := by
  have hnr := gmx_mtop_num_molecules_int32_eq mtop (by omega)
  have hna : wrapInt32 (gmx_mtop_num_molecules_int32 mtop + 1)
      = ((gmx_mtop_num_molecules mtop + 1 : Nat) : Int) := by
    rw [hnr, (wrapInt32_eq_self_iff _ (by omega)).mpr (by omega)]
    push_cast
    rfl
  refine ⟨hnr, hna, ?_⟩
  unfold gmx_mtop_molecules_t_block_int32 gmx_mtop_molecules_t_block fillMoleculeIndices_int32
    fillMoleculeIndices
  simp only
  rw [hna, Int.toNat_natCast]
  have e0 : MoleculeIndexState_int32.mk 0 0
        (writeAt (List.replicate (gmx_mtop_num_molecules mtop + 1) (0 : Int)) 0 0)
      = MoleculeIndexState.toInt32
          (MoleculeIndexState.mk 0 0
            ((List.replicate (gmx_mtop_num_molecules mtop + 1) 0).set 0 0)) := by
    have := writeAt_natCast (List.replicate (gmx_mtop_num_molecules mtop + 1) 0) 0 0
    simp only [List.map_replicate, Nat.cast_zero] at this
    simp only [MoleculeIndexState.toInt32, Nat.cast_zero]
    rw [this]
  rw [e0, fillMoleculeIndices_blocks_int32_eq mtop mtop.molblock _
    (by simp only [Nat.zero_add]; exact hA)
    (by simp only [Nat.zero_add]; rw [← gmx_mtop_num_molecules_eq]; omega)]
  rfl

/-- C26 (counterexample): two blocks of `2^30` copies each hold `2^31`
molecules, the sum of `nmol`; the routine's `M`, the `int` that
`gmx_mtop_num_molecules` returns, is `-2^31`, and the members `nr` and
`nalloc_index = nr + 1` of the table, set from it before the table is
allocated, are `-2^31` and `-2^31 + 1`. -/
theorem gmx_mtop_molecules_t_block_int32_wraps :
    (exampleHugeMtop.molblock.map (fun molb => molb.nmol)).sum = 2147483648
      ∧ gmx_mtop_num_molecules_int32 exampleHugeMtop = -2147483648
      ∧ (gmx_mtop_molecules_t_block_int32 exampleHugeMtop).nr = -2147483648
      ∧ (gmx_mtop_molecules_t_block_int32 exampleHugeMtop).nalloc_index = -2147483647 := by
  refine ⟨by decide, by decide, ?_, ?_⟩
  · show gmx_mtop_num_molecules_int32 exampleHugeMtop = -2147483648
    decide
  · show wrapInt32 (gmx_mtop_num_molecules_int32 exampleHugeMtop + 1) = -2147483647
    decide

/-- C26 (amended): for a topology with at most `2^31 - 2` molecules and at most
`2^31 - 1` atoms, the table built by `gmx_mtop_molecules_t_block` with the
`int` arithmetic of the source has `nr = M` and `M + 1` entries, `M` being the
sum of `nmol` over the blocks, which `gmx_mtop_num_molecules` returns; entry 0
is 0; for copy `c` of block `mb`, which is molecule `m = M_mb + c` in
block-major, copy-minor order (`M_mb` the molecules of the earlier blocks),
`index[m] = B + c * n` and `index[m + 1] = index[m] + n` with `n` the atom count
of the molecule's type; the table is non-decreasing; and `index[M]` is the
total atom count. -/
theorem gmx_mtop_molecules_t_block_int32_spec (mtop : gmx_mtop_t)
    (hM : (mtop.molblock.map (fun molb => molb.nmol)).sum ≤ 2147483646)
    (hA : totalAtoms mtop ≤ 2147483647) :
    (gmx_mtop_molecules_t_block_int32 mtop).nr = gmx_mtop_num_molecules_int32 mtop
      ∧ gmx_mtop_num_molecules_int32 mtop
          = (((mtop.molblock.map (fun molb => molb.nmol)).sum : Nat) : Int)
      ∧ (gmx_mtop_molecules_t_block_int32 mtop).index.length
          = (mtop.molblock.map (fun molb => molb.nmol)).sum + 1
      ∧ (gmx_mtop_molecules_t_block_int32 mtop).index.getD 0 0 = 0
      ∧ (∀ mb c, mb < mtop.molblock.length → c < (mtop.block mb).nmol →
          moleculesOfBlocks (mtop.molblock.take mb) + c
              < (mtop.molblock.map (fun molb => molb.nmol)).sum
            ∧ (gmx_mtop_molecules_t_block_int32 mtop).index.getD
                (moleculesOfBlocks (mtop.molblock.take mb) + c) 0
              = ((atomBase mtop mb + c * (mtop.moltypeOf (mtop.block mb)).atoms.nr : Nat) : Int)
            ∧ (gmx_mtop_molecules_t_block_int32 mtop).index.getD
                (moleculesOfBlocks (mtop.molblock.take mb) + c + 1) 0
              = (gmx_mtop_molecules_t_block_int32 mtop).index.getD
                  (moleculesOfBlocks (mtop.molblock.take mb) + c) 0
                + ((mtop.moltypeOf (mtop.block mb)).atoms.nr : Int))
      ∧ (∀ m, m < (mtop.molblock.map (fun molb => molb.nmol)).sum →
          (gmx_mtop_molecules_t_block_int32 mtop).index.getD m 0
            ≤ (gmx_mtop_molecules_t_block_int32 mtop).index.getD (m + 1) 0)
      ∧ (gmx_mtop_molecules_t_block_int32 mtop).index.getD
            (mtop.molblock.map (fun molb => molb.nmol)).sum 0
          = (totalAtoms mtop : Int) := by
  obtain ⟨s1, s2, s3, s4, s5, s6, s7⟩ := gmx_mtop_molecules_t_block_spec mtop
  rw [← s2] at hM ⊢
  obtain ⟨b1, _, b3⟩ := gmx_mtop_molecules_t_block_int32_eq mtop hM hA
  have hnr := gmx_mtop_num_molecules_int32_eq mtop (by omega)
  rw [b3]
  refine ⟨rfl, hnr, by rw [List.length_map, s3], ?_, ?_, ?_, ?_⟩
  · rw [getD_map_natCast, s4]
    rfl
  · intro mb c hmb hc
    obtain ⟨t1, t2, t3⟩ := s5 mb c hmb hc
    refine ⟨t1, by rw [getD_map_natCast, t2], ?_⟩
    rw [getD_map_natCast, getD_map_natCast, t3]
    push_cast
    rfl
  · intro m hm
    rw [getD_map_natCast, getD_map_natCast]
    exact_mod_cast s6 m hm
  · rw [getD_map_natCast, s7]

theorem gmx_mtop_molecules_t_block_int32_spec_witness :
    (gmx_mtop_molecules_t_block_int32 exampleMtop).index = [0, 3, 6, 8, 10, 12]
      ∧ (gmx_mtop_molecules_t_block_int32 exampleMtop).nr = 5
      ∧ (gmx_mtop_molecules_t_block_int32 exampleMtop).index.getD
            (exampleMtop.molblock.map (fun molb => molb.nmol)).sum 0
          = (totalAtoms exampleMtop : Int) := by
  obtain ⟨_, _, _, _, _, _, h7⟩ := gmx_mtop_molecules_t_block_int32_spec exampleMtop
    (by decide) (by decide)
  exact ⟨by decide, by decide, h7⟩

/-! ## The expansion with the `int` arithmetic of the source -/

theorem ilistcatEntries_int32_eq (nral : Nat) (dnum n : Int) (hd : 0 ≤ dnum)
    (hn : dnum + n ≤ 2147483648) :
    ∀ (fuel : Nat) (l : List Int), AtomsBelow nral n l →
      ilistcatEntries_int32 nral dnum fuel l = ilistcatEntries nral dnum fuel l := by
  intro fuel
  induction fuel with
  | zero => intro l _; simp [ilistcatEntries_int32, ilistcatEntries]
  | succ fuel ih =>
    intro l hl
    cases l with
    | nil => simp [ilistcatEntries_int32, ilistcatEntries]
    | cons p rest =>
      obtain ⟨_, ha, hr⟩ := atomsBelow_cons_tail hl
      simp only [ilistcatEntries_int32, ilistcatEntries]
      rw [ih _ hr]
      congr 2
      apply List.map_congr_left
      intro a hm
      have := ha a hm
      exact (wrapInt32_eq_self_iff _ (by omega)).mpr (by omega)

theorem ilistcatEntries_int32_length (nral : Nat) (dnum : Int) :
    ∀ (fuel : Nat) (l : List Int),
      (ilistcatEntries_int32 nral dnum fuel l).length
        = (ilistcatEntries nral dnum fuel l).length := by
  intro fuel
  induction fuel with
  | zero => intro l; simp [ilistcatEntries_int32, ilistcatEntries]
  | succ fuel ih =>
    intro l
    cases l with
    | nil => simp [ilistcatEntries_int32, ilistcatEntries]
    | cons p rest => simp [ilistcatEntries_int32, ilistcatEntries, ih]

/-- With a zero offset the `int` loop returns every representable list
unchanged. -/
theorem ilistcatEntries_int32_zero (nral : Nat) :
    ∀ (fuel : Nat) (l : List Int), (∀ x ∈ l, wrapInt32 x = x) →
      ilistcatEntries_int32 nral 0 fuel l = ilistcatEntries nral 0 fuel l := by
  intro fuel
  induction fuel with
  | zero => intro l _; simp [ilistcatEntries_int32, ilistcatEntries]
  | succ fuel ih =>
    intro l hl
    cases l with
    | nil => simp [ilistcatEntries_int32, ilistcatEntries]
    | cons p rest =>
      simp only [ilistcatEntries_int32, ilistcatEntries]
      rw [ih _ (fun x hx => hl x (List.mem_cons_of_mem _ (List.mem_of_mem_drop hx)))]
      congr 2
      apply List.map_congr_left
      intro a hm
      rw [Int.zero_add]
      exact hl a (List.mem_cons_of_mem _ (List.mem_of_mem_take hm))

theorem ilistcatCopies_int32_eq (nral : Nat) (src : List Int) (n : Nat)
    (hsrc : AtomsBelow nral (n : Int) src) :
    ∀ (copies : Nat) (dnum : Int) (dest : List Int), 0 ≤ dnum →
      dnum + (copies : Int) * (n : Int) ≤ 2147483647 →
      ilistcatCopies_int32 nral src (n : Int) copies dnum dest
        = ilistcatCopies nral src (n : Int) copies dnum dest := by
  intro copies
  induction copies with
  | zero => intro dnum dest _ _; rfl
  | succ c ih =>
    intro dnum dest hd hle
    have e : ((c + 1 : Nat) : Int) * (n : Int) = (c : Int) * (n : Int) + (n : Int) := by
      push_cast
      ring
    rw [e] at hle
    have hcn : 0 ≤ (c : Int) * (n : Int) := by positivity
    have hn0 : (0 : Int) ≤ (n : Int) := Int.natCast_nonneg n
    simp only [ilistcatCopies_int32, ilistcatCopies]
    rw [ilistcatEntries_int32_eq nral dnum n hd (by omega) _ _ hsrc,
      (wrapInt32_eq_self_iff _ (by omega)).mpr (by omega)]
    exact ih _ _ (by omega) (by omega)

theorem ilistcatCopies_int32_src_nil (nral : Nat) (snum : Int) :
    ∀ (copies : Nat) (dnum : Int) (dest : List Int),
      ilistcatCopies_int32 nral [] snum copies dnum dest = dest := by
  intro copies
  induction copies with
  | zero => intro dnum dest; rfl
  | succ c ih =>
    intro dnum dest
    simp only [ilistcatCopies_int32, List.length_nil, ilistcatEntries_int32, List.append_nil]
    exact ih _ _

theorem ilistcat_int32_once (T : Constants) (ftype : Nat) (dest src : List Int)
    (dnum snum : Int) :
    ilistcat_int32 T ftype dest src 1 dnum snum
      = dest ++ ilistcatEntries_int32 (NRAL T ftype) dnum src.length src := rfl

theorem pf_needed_int32_eq (g1 g2 : List Int) (dnum : Int) :
    ∀ (atoms : List Int), (∀ a ∈ atoms, wrapInt32 (dnum + a) = dnum + a) →
      pf_needed_int32 g1 g2 dnum atoms = pf_needed g1 g2 dnum atoms := by
  intro atoms
  unfold pf_needed_int32 pf_needed
  induction atoms with
  | nil => intro _; rfl
  | cons a rest ih =>
    intro h
    simp only [List.any_cons]
    rw [h a (List.mem_cons_self _ _), ih (fun b hb => h b (List.mem_cons_of_mem _ hb))]

theorem pf_ilistcatEntries_int32_eq (nral : Nat) (g1 g2 : List Int) (dnum n : Int)
    (hd : 0 ≤ dnum) (hn : dnum + n ≤ 2147483648) :
    ∀ (fuel : Nat) (l : List Int), AtomsBelow nral n l →
      pf_ilistcatEntries_int32 nral g1 g2 dnum fuel l
        = pf_ilistcatEntries nral g1 g2 dnum fuel l := by
  intro fuel
  induction fuel with
  | zero => intro l _; simp [pf_ilistcatEntries_int32, pf_ilistcatEntries]
  | succ fuel ih =>
    intro l hl
    cases l with
    | nil => simp [pf_ilistcatEntries_int32, pf_ilistcatEntries]
    | cons p rest =>
      obtain ⟨_, ha, hr⟩ := atomsBelow_cons_tail hl
      have hrep : ∀ a ∈ rest.take nral, wrapInt32 (dnum + a) = dnum + a := by
        intro a hm
        have := ha a hm
        exact (wrapInt32_eq_self_iff _ (by omega)).mpr (by omega)
      simp only [pf_ilistcatEntries_int32, pf_ilistcatEntries]
      rw [ih _ hr, pf_needed_int32_eq g1 g2 dnum _ hrep, List.map_congr_left hrep]

theorem pf_ilistcatCopies_int32_eq (nral : Nat) (g1 g2 : List Int) (src : List Int) (n : Nat)
    (hsrc : AtomsBelow nral (n : Int) src) :
    ∀ (copies : Nat) (dnum : Int) (tmp : List Int), 0 ≤ dnum →
      dnum + (copies : Int) * (n : Int) ≤ 2147483647 →
      pf_ilistcatCopies_int32 nral g1 g2 src (n : Int) copies dnum tmp
        = pf_ilistcatCopies nral g1 g2 src (n : Int) copies dnum tmp := by
  intro copies
  induction copies with
  | zero => intro dnum tmp _ _; rfl
  | succ c ih =>
    intro dnum tmp hd hle
    have e : ((c + 1 : Nat) : Int) * (n : Int) = (c : Int) * (n : Int) + (n : Int) := by
      push_cast
      ring
    rw [e] at hle
    have hcn : 0 ≤ (c : Int) * (n : Int) := by positivity
    have hn0 : (0 : Int) ≤ (n : Int) := Int.natCast_nonneg n
    simp only [pf_ilistcatCopies_int32, pf_ilistcatCopies]
    rw [pf_ilistcatEntries_int32_eq nral g1 g2 dnum n hd (by omega) _ _ hsrc,
      (wrapInt32_eq_self_iff _ (by omega)).mpr (by omega)]
    exact ih _ _ (by omega) (by omega)

theorem mergeConstrLoop_int32_eq (T : Constants) (ftype : Nat) (molt : gmx_moltype_t)
    (destnr srcnr : Nat)
    (h1 : AtomsBelow (NRAL T ftype) (srcnr : Int) (molt.ilist T.F_CONSTR))
    (h2 : AtomsBelow (NRAL T ftype) (srcnr : Int) (molt.ilist T.F_CONSTRNC)) :
    ∀ (n mol : Nat) (dest : List Int),
      (destnr : Int) + ((mol : Int) + (n : Int)) * (srcnr : Int) ≤ 2147483647 →
      mergeConstrLoop_int32 T ftype molt (destnr : Int) (srcnr : Int) n mol dest
        = mergeConstrLoop T ftype molt destnr srcnr n mol dest := by
  intro n
  induction n with
  | zero => intro mol dest _; rfl
  | succ n ih =>
    intro mol dest hrep
    have hms : (0 : Int) ≤ (mol : Int) * (srcnr : Int) := by positivity
    have hns : (0 : Int) ≤ (n : Int) * (srcnr : Int) := by positivity
    have hs : (0 : Int) ≤ (srcnr : Int) := Int.natCast_nonneg _
    have hd : (0 : Int) ≤ (destnr : Int) := Int.natCast_nonneg _
    have hexp : ((mol : Int) + ((n + 1 : Nat) : Int)) * (srcnr : Int)
        = (mol : Int) * (srcnr : Int) + (n : Int) * (srcnr : Int) + (srcnr : Int) := by
      push_cast
      ring
    rw [hexp] at hrep
    have hbase : wrapInt32 ((destnr : Int) + wrapInt32 ((mol : Int) * (srcnr : Int)))
        = (destnr : Int) + (mol : Int) * (srcnr : Int) := by
      rw [(wrapInt32_eq_self_iff _ hms).mpr (by omega),
        (wrapInt32_eq_self_iff _ (by omega)).mpr (by omega)]
    simp only [mergeConstrLoop_int32, mergeConstrLoop, hbase, ilistcat_int32, ilistcat]
    rw [ilistcatCopies_int32_eq (NRAL T ftype) _ srcnr h1 1 _ _ (by omega)
        (by push_cast; omega),
      ilistcatCopies_int32_eq (NRAL T ftype) _ srcnr h2 1 _ _ (by omega)
        (by push_cast; omega)]
    apply ih
    have : (((mol + 1 : Nat) : Int) + (n : Int)) * (srcnr : Int)
        = (mol : Int) * (srcnr : Int) + (n : Int) * (srcnr : Int) + (srcnr : Int) := by
      push_cast
      ring
    rw [this]
    exact hrep

/-- For a template of whole entries with local atom indices and a block that
ends at a representable atom number, the body of the loop over the function
types computes with `int` arithmetic what it computes with exact integers, in
every merging and filtering mode. -/
theorem copyIListsKind_int32_eq (T : Constants) (molt : gmx_moltype_t)
    (molb : gmx_molblock_t) (mergeConstr : Bool) (fda : Option FDASettings)
    (destnr srcnr : Nat) (hl : ListsBelow T molt.ilist srcnr)
    (hC : mergeConstr = true → NRAL T T.F_CONSTRNC = NRAL T T.F_CONSTR)
    (hrep : destnr + molb.nmol * srcnr ≤ 2147483647) :
    copyIListsKind_int32 T molt molb mergeConstr fda (destnr : Int) (srcnr : Int)
      = copyIListsKind T molt molb mergeConstr fda destnr srcnr := by
  funext il ftype
  have hrep' : (destnr : Int) + (molb.nmol : Int) * (srcnr : Int) ≤ 2147483647 := by
    exact_mod_cast hrep
  have e : ∀ old, ilistcat_int32 T ftype old (molt.ilist ftype) molb.nmol destnr srcnr
      = ilistcat T ftype old (molt.ilist ftype) molb.nmol destnr srcnr := fun old =>
    ilistcatCopies_int32_eq (NRAL T ftype) (molt.ilist ftype) srcnr (hl ftype) molb.nmol
      destnr old (Int.natCast_nonneg _) hrep'
  have epf : ∀ old s,
      pf_ilistcat_int32 T ftype old (molt.ilist ftype) molb.nmol destnr srcnr s
        = pf_ilistcat T ftype old (molt.ilist ftype) molb.nmol destnr srcnr s := by
    intro old s
    unfold pf_ilistcat_int32 pf_ilistcat
    rw [pf_ilistcatCopies_int32_eq (NRAL T ftype) _ _ (molt.ilist ftype) srcnr (hl ftype)
      molb.nmol destnr [] (Int.natCast_nonneg _) hrep']
  unfold copyIListsKind_int32 copyIListsKind
  by_cases hm : (mergeConstr && decide (ftype = T.F_CONSTR)
      && !(molt.ilist T.F_CONSTRNC).isEmpty) = true
  · have hmc : mergeConstr = true := by
      simp only [Bool.and_eq_true, decide_eq_true_eq] at hm
      exact hm.1.1
    have hfc : ftype = T.F_CONSTR := by
      simp only [Bool.and_eq_true, decide_eq_true_eq] at hm
      exact hm.1.2
    rw [if_pos hm, if_pos hm]
    subst hfc
    rw [mergeConstrLoop_int32_eq T T.F_CONSTR molt destnr srcnr (hl _)
      (by have := hl T.F_CONSTRNC; rwa [hC hmc] at this) molb.nmol 0 _
      (by push_cast; simpa using hrep')]
  · rw [if_neg hm, if_neg hm]
    cases fda with
    | none => simp only [e]
    | some s => simp only [e, epf]

theorem set_posres_paramsLoop_int32_il (T : Constants) (molb : gmx_molblock_t)
    (a a' : Int) :
    ∀ (n i : Nat) (idef idef' : InteractionDefinitions), idef.il = idef'.il →
      listsOfResult (set_posres_paramsLoop_int32 T molb a n i idef)
        = listsOfResult (set_posres_paramsLoop T molb a' n i idef') := by
  intro n
  induction n with
  | zero =>
    intro i idef idef' h
    simp [set_posres_paramsLoop_int32, set_posres_paramsLoop, listsOfResult, h]
  | succ n ih =>
    intro i idef idef' h
    simp only [set_posres_paramsLoop_int32, set_posres_paramsLoop]
    cases hx : molb.posres_xA.isEmpty with
    | true => simp [listsOfResult]
    | false =>
      simp only [Bool.false_eq_true, if_false]
      apply ih
      simp [h]

theorem set_posres_params_int32_il (T : Constants) (idef idef' : InteractionDefinitions)
    (molb : gmx_molblock_t) (i0 : Nat) (a a' : Int) (h : idef.il = idef'.il) :
    listsOfResult (set_posres_params_int32 T idef molb i0 a)
      = listsOfResult (set_posres_params T idef' molb i0 a') := by
  unfold set_posres_params_int32 set_posres_params
  simp only [h]
  exact set_posres_paramsLoop_int32_il T molb a a' _ _ _ _ rfl

theorem set_fbposres_paramsLoop_int32_il (T : Constants) (molb : gmx_molblock_t)
    (a a' : Int) :
    ∀ (n i : Nat) (idef idef' : InteractionDefinitions), idef.il = idef'.il →
      listsOfResult (set_fbposres_paramsLoop_int32 T molb a n i idef)
        = listsOfResult (set_fbposres_paramsLoop T molb a' n i idef') := by
  intro n
  induction n with
  | zero =>
    intro i idef idef' h
    simp [set_fbposres_paramsLoop_int32, set_fbposres_paramsLoop, listsOfResult, h]
  | succ n ih =>
    intro i idef idef' h
    simp only [set_fbposres_paramsLoop_int32, set_fbposres_paramsLoop]
    cases hx : molb.posres_xA.isEmpty with
    | true => simp [listsOfResult]
    | false =>
      simp only [Bool.false_eq_true, if_false]
      apply ih
      simp [h]

theorem set_fbposres_params_int32_il (T : Constants) (idef idef' : InteractionDefinitions)
    (molb : gmx_molblock_t) (i0 : Nat) (a a' : Int) (h : idef.il = idef'.il) :
    listsOfResult (set_fbposres_params_int32 T idef molb i0 a)
      = listsOfResult (set_fbposres_params T idef' molb i0 a') := by
  unfold set_fbposres_params_int32 set_fbposres_params
  simp only [h]
  exact set_fbposres_paramsLoop_int32_il T molb a a' _ _ _ _ rfl

theorem listsOfResult_ok_iff (r : Except String InteractionDefinitions)
    (il : InteractionLists) :
    listsOfResult r = .ok il ↔ ∃ idef, r = .ok idef ∧ idef.il = il := by
  cases r with
  | error e => simp [listsOfResult]
  | ok idef => simp [listsOfResult]

/-- The second restraint pass of the block body gives the same lists in both
arithmetics. -/
theorem copyIListsBlock_second_pass (T : Constants) (molb : gmx_molblock_t) (old i0 : Nat)
    (a a' : Int) :
    ∀ (r r' : Except String InteractionDefinitions), listsOfResult r = listsOfResult r' →
    listsOfResult
        (match r with
          | .error e => .error e
          | .ok idef2 =>
            if (idef2.il T.F_FBPOSRES).length > old then
              set_fbposres_params_int32 T idef2 molb i0 a
            else .ok idef2)
      = listsOfResult
        (match r' with
          | .error e => .error e
          | .ok idef2 =>
            if (idef2.il T.F_FBPOSRES).length > old then
              set_fbposres_params T idef2 molb i0 a'
            else .ok idef2) := by
  intro r r' h
  cases r with
  | error e =>
    cases r' with
    | error e' => simpa [listsOfResult] using h
    | ok b => simp [listsOfResult] at h
  | ok b =>
    cases r' with
    | error e' => simp [listsOfResult] at h
    | ok b' =>
      have hil : b.il = b'.il := by simpa [listsOfResult] using h
      simp only [hil]
      split
      · exact set_fbposres_params_int32_il T b b' molb i0 a a' hil
      · simp [listsOfResult, hil]

theorem copyIListsBlock_int32_lists (T : Constants) (mtop : gmx_mtop_t) (mergeConstr : Bool)
    (fda : Option FDASettings) (natoms : Nat)
    (idef idef' : InteractionDefinitions) (molb : gmx_molblock_t) (hil : idef.il = idef'.il)
    (hl : ListsBelow T (mtop.moltypeOf molb).ilist (mtop.moltypeOf molb).atoms.nr)
    (hC : mergeConstr = true → NRAL T T.F_CONSTRNC = NRAL T T.F_CONSTR)
    (hrep : natoms + molb.nmol * (mtop.moltypeOf molb).atoms.nr ≤ 2147483647) :
    listsOfResult (copyIListsBlock_int32 T mtop mergeConstr fda (natoms : Int) idef molb)
      = listsOfResult (copyIListsBlock T mtop mergeConstr fda natoms idef' molb) := by
  unfold copyIListsBlock_int32 copyIListsBlock
  simp only []
  rw [copyIListsKind_int32_eq T (mtop.moltypeOf molb) molb mergeConstr fda natoms _ hl hC hrep,
    hil]
  apply copyIListsBlock_second_pass
  split
  · exact set_posres_params_int32_il T _ _ molb _ _ _ rfl
  · rfl

theorem copyIListsBlocks_int32_lists (T : Constants) (mtop : gmx_mtop_t) (mergeConstr : Bool)
    (fda : Option FDASettings)
    (hC : mergeConstr = true → NRAL T T.F_CONSTRNC = NRAL T T.F_CONSTR) :
    ∀ (blocks : List gmx_molblock_t) (natoms : Nat) (idef idef' : InteractionDefinitions),
      idef.il = idef'.il →
      (∀ molb ∈ blocks,
        ListsBelow T (mtop.moltypeOf molb).ilist (mtop.moltypeOf molb).atoms.nr) →
      natoms + atomsOfBlocks mtop blocks ≤ 2147483647 →
      listsOfResult (copyIListsBlocks_int32 T mtop mergeConstr fda blocks (natoms : Int) idef)
        = listsOfResult (copyIListsBlocks T mtop mergeConstr fda blocks natoms idef') := by
  intro blocks
  induction blocks with
  | nil =>
    intro natoms idef idef' h _ _
    simp [copyIListsBlocks_int32, copyIListsBlocks, listsOfResult, h]
  | cons molb rest ih =>
    intro natoms idef idef' h hl hrep
    have hsum : atomsOfBlocks mtop (molb :: rest)
        = molb.nmol * (mtop.moltypeOf molb).atoms.nr + atomsOfBlocks mtop rest := by
      simp [atomsOfBlocks]
    rw [hsum] at hrep
    have hb := copyIListsBlock_int32_lists T mtop mergeConstr fda natoms idef idef' molb h
      (hl molb (List.mem_cons_self _ _)) hC (by omega)
    have hbase : wrapInt32 ((natoms : Int)
          + wrapInt32 ((molb.nmol : Int) * ((mtop.moltypeOf molb).atoms.nr : Int)))
        = ((natoms + molb.nmol * (mtop.moltypeOf molb).atoms.nr : Nat) : Int) := by
      have h1 : ((molb.nmol * (mtop.moltypeOf molb).atoms.nr : Nat) : Int)
          = (molb.nmol : Int) * ((mtop.moltypeOf molb).atoms.nr : Int) := by push_cast; rfl
      rw [← h1, (wrapInt32_eq_self_iff _ (Int.natCast_nonneg _)).mpr (by omega)]
      rw [(wrapInt32_eq_self_iff _ (by omega)).mpr (by omega)]
      push_cast
      rfl
    simp only [copyIListsBlocks_int32, copyIListsBlocks]
    rw [hbase]
    generalize copyIListsBlock_int32 T mtop mergeConstr fda (natoms : Int) idef molb = r
      at hb ⊢
    generalize copyIListsBlock T mtop mergeConstr fda natoms idef' molb = r' at hb ⊢
    cases r with
    | error e =>
      cases r' with
      | error e' => simpa [listsOfResult] using hb
      | ok b => simp [listsOfResult] at hb
    | ok b =>
      cases r' with
      | error e' => simp [listsOfResult] at hb
      | ok b' =>
        have hil : b.il = b'.il := by simpa [listsOfResult] using hb
        exact ih _ b b' hil (fun m hm => hl m (List.mem_cons_of_mem _ hm)) (by omega)

/-- The output of the `int` routine in terms of the output of its block loop. -/
theorem copyIListsFromMtop_int32_ok (T : Constants) (mtop : gmx_mtop_t)
    (idef0 idef : InteractionDefinitions) (mergeConstr : Bool) (fda : Option FDASettings)
    (h : copyIListsFromMtop_int32 T mtop idef0 mergeConstr fda = .ok idef) :
    ∃ idef1, copyIListsBlocks_int32 T mtop mergeConstr fda mtop.molblock 0 idef0 = .ok idef1
      ∧ ∀ f, f < T.F_NRE →
          idef.il f = idef1.il f
            ++ (if mtop.bIntermolecularInteractions then
                  ilistcatEntries_int32 (NRAL T f) 0 (mtop.intermolecular_ilist f).length
                    (mtop.intermolecular_ilist f)
                else []) := by
  unfold copyIListsFromMtop_int32 at h
  split at h
  · exact absurd h (by simp)
  · rename_i idef1 hb
    refine ⟨idef1, hb, fun f hf => ?_⟩
    simp only [Except.ok.injEq] at h
    subst h
    by_cases hi : mtop.bIntermolecularInteractions = true
    · simp only [hi, if_true]
      rw [foldl_update_range
        (fun ftype old =>
          ilistcat_int32 T ftype old (mtop.intermolecular_ilist ftype) 1 0 mtop.natoms),
        if_pos hf, ilistcat_int32_once]
    · simp [hi]

/-- On a topology whose atom numbers are representable (at most `2^31 - 1` atoms
in the blocks and in `natoms`, templates of whole entries with local atom
indices, intermolecular entries with atom indices in `[0, natoms)`), the
routine `copyIListsFromMtop` computes with the `int` arithmetic of the source
the interaction lists it computes with exact integers, and fails when it
fails, in every merging and filtering mode. -/
theorem copyIListsFromMtop_int32_lists (T : Constants) (mtop : gmx_mtop_t)
    (idef0 : InteractionDefinitions) (mergeConstr : Bool) (fda : Option FDASettings)
    (hC : mergeConstr = true → NRAL T T.F_CONSTRNC = NRAL T T.F_CONSTR)
    (htempl : ∀ molb ∈ mtop.molblock,
      ListsBelow T (mtop.moltypeOf molb).ilist (mtop.moltypeOf molb).atoms.nr)
    (hinter : mtop.bIntermolecularInteractions = true →
      ListsBelow T mtop.intermolecular_ilist mtop.natoms)
    (hnatoms : mtop.natoms ≤ 2147483647)
    (hrep : totalAtoms mtop ≤ 2147483647) :
    listsOfResult (copyIListsFromMtop_int32 T mtop idef0 mergeConstr fda)
      = listsOfResult (copyIListsFromMtop T mtop idef0 mergeConstr fda) := by
  have hb := copyIListsBlocks_int32_lists T mtop mergeConstr fda hC mtop.molblock 0 idef0 idef0
    rfl htempl (by simpa [totalAtoms] using hrep)
  rw [show ((0 : Nat) : Int) = 0 from rfl] at hb
  unfold copyIListsFromMtop_int32 copyIListsFromMtop
  generalize copyIListsBlocks_int32 T mtop mergeConstr fda mtop.molblock 0 idef0 = r at hb ⊢
  generalize copyIListsBlocks T mtop mergeConstr fda mtop.molblock 0 idef0 = r' at hb ⊢
  cases r with
  | error e =>
    cases r' with
    | error e' => simpa [listsOfResult] using hb
    | ok b => simp [listsOfResult] at hb
  | ok b =>
    cases r' with
    | error e' => simp [listsOfResult] at hb
    | ok b' =>
      have hil : b.il = b'.il := by simpa [listsOfResult] using hb
      simp only [listsOfResult, hil]
      by_cases hi : mtop.bIntermolecularInteractions = true
      · simp only [hi, if_true]
        have e : (fun (il : InteractionLists) (ftype : Nat) =>
              Function.update il ftype
                (ilistcat_int32 T ftype (il ftype) (mtop.intermolecular_ilist ftype) 1 0
                  mtop.natoms))
            = (fun (il : InteractionLists) (ftype : Nat) =>
              Function.update il ftype
                (ilistcat T ftype (il ftype) (mtop.intermolecular_ilist ftype) 1 0
                  mtop.natoms)) := by
          funext il ftype
          have := ilistcatCopies_int32_eq (NRAL T ftype) (mtop.intermolecular_ilist ftype)
            mtop.natoms (hinter hi ftype) 1 0 (il ftype) (Int.le_refl _)
            (by push_cast; omega)
          unfold ilistcat_int32 ilistcat
          rw [this]
        rw [e]
      · simp [hi]

theorem foldl_keep {α β : Type} (a : α) (l : List β) :
    l.foldl (fun (x : α) (_ : β) => x) a = a := by
  induction l with
  | nil => rfl
  | cons b bs ih => simp

/-- A block whose molecule type has no interactions leaves the interaction
definitions as they are, whatever its number of copies and the atom base. -/
theorem copyIListsBlock_int32_bare (T : Constants) (mtop : gmx_mtop_t)
    (natoms : Int) (idef : InteractionDefinitions) (molb : gmx_molblock_t)
    (hbare : ∀ f, (mtop.moltypeOf molb).ilist f = []) :
    copyIListsBlock_int32 T mtop false none natoms idef molb = .ok idef := by
  have hk : copyIListsKind_int32 T (mtop.moltypeOf molb) molb false none natoms
        ((mtop.moltypeOf molb).atoms.nr : Int)
      = fun il _ => il := by
    funext il ftype
    simp [copyIListsKind_int32, hbare, ilistcat_int32, ilistcatCopies_int32_src_nil]
  unfold copyIListsBlock_int32
  simp only []
  rw [hk, foldl_keep]
  simp

theorem blockExpansion_bare (T : Constants) (mtop : gmx_mtop_t) (f mb : Nat)
    (hbare : (mtop.moltypeOf (mtop.block mb)).ilist f = []) :
    blockExpansion T mtop f mb = [] := by
  unfold blockExpansion
  rw [hbare]
  simp [offsetAtoms, offsetAtomsFrom]

/-- The output of the `int` routine for a topology without intermolecular
interactions, from the output of its block loop. -/
theorem copyIListsFromMtop_int32_of_blocks (T : Constants) (mtop : gmx_mtop_t)
    (idef0 idef1 : InteractionDefinitions) (mergeConstr : Bool) (fda : Option FDASettings)
    (hb : copyIListsBlocks_int32 T mtop mergeConstr fda mtop.molblock 0 idef0 = .ok idef1)
    (hno : mtop.bIntermolecularInteractions = false) :
    copyIListsFromMtop_int32 T mtop idef0 mergeConstr fda
      = .ok { idef1 with ilsort := IlSort.ilsortNO_FE } := by
  unfold copyIListsFromMtop_int32
  rw [hb]
  simp [hno]

theorem exampleWrapMtop_bare_block (natoms : Int) (idef : InteractionDefinitions) :
    copyIListsBlock_int32 exampleConstants exampleWrapMtop false none natoms idef
      { type := 0, nmol := 1073741824, posres_xA := [], posres_xB := [] } = .ok idef :=
  copyIListsBlock_int32_bare _ _ _ _ _ (fun _ => rfl)

/-- C1 (counterexample): two blocks of `2^30` copies of a two-atom molecule
type without interactions, followed by one molecule with a constraint between
its two atoms.  The third block starts after `2^32` atoms, so the claimed
constraint is `[4, 4294967296, 4294967297]`; the `int` base of the routine has
wrapped to 0 and the output is `[4, 0, 1]`. -/
theorem copyIListsFromMtop_int32_base_wraps :
    ∃ idef,
      copyIListsFromMtop_int32 exampleConstants exampleWrapMtop (emptyIdef exampleWrapMtop)
          false none = .ok idef
        ∧ idef.il 4 = [4, 0, 1]
        ∧ moleculeBlockExpansion exampleConstants exampleWrapMtop 4
            = [4, 4294967296, 4294967297]
        ∧ atomBase exampleWrapMtop 2 = 4294967296
        ∧ totalAtoms exampleWrapMtop = 4294967298 := by
  have hblocks : copyIListsBlocks_int32 exampleConstants exampleWrapMtop false none
      exampleWrapMtop.molblock 0 (emptyIdef exampleWrapMtop)
      = copyIListsBlocks_int32 exampleConstants exampleWrapMtop false none
          [{ type := 1, nmol := 1, posres_xA := [], posres_xB := [] }] 0
          (emptyIdef exampleWrapMtop) := by
    show copyIListsBlocks_int32 exampleConstants exampleWrapMtop false none
      ({ type := 0, nmol := 1073741824, posres_xA := [], posres_xB := [] }
        :: { type := 0, nmol := 1073741824, posres_xA := [], posres_xB := [] }
        :: [{ type := 1, nmol := 1, posres_xA := [], posres_xB := [] }]) 0
      (emptyIdef exampleWrapMtop) = _
    rw [copyIListsBlocks_int32, exampleWrapMtop_bare_block]
    simp only []
    rw [copyIListsBlocks_int32, exampleWrapMtop_bare_block]
    simp only []
    have hbase : wrapInt32 (wrapInt32 (0 + wrapInt32 (((1073741824 : Nat) : Int)
          * (((exampleWrapMtop.moltypeOf
              { type := 0, nmol := 1073741824, posres_xA := [], posres_xB := [] }).atoms.nr
                : Nat) : Int)))
        + wrapInt32 (((1073741824 : Nat) : Int)
          * (((exampleWrapMtop.moltypeOf
              { type := 0, nmol := 1073741824, posres_xA := [], posres_xB := [] }).atoms.nr
                : Nat) : Int))) = 0 := by
      decide
    rw [hbase]
  obtain ⟨idef, e⟩ : ∃ idef, copyIListsBlocks_int32 exampleConstants exampleWrapMtop false none
      [{ type := 1, nmol := 1, posres_xA := [], posres_xB := [] }] 0
      (emptyIdef exampleWrapMtop) = .ok idef ∧ idef.il 4 = [4, 0, 1] := ⟨_, rfl, by decide⟩
  refine ⟨{ idef with ilsort := IlSort.ilsortNO_FE },
    copyIListsFromMtop_int32_of_blocks _ _ _ _ _ _ (hblocks.trans e.1) rfl, e.2, ?_,
    by decide, by decide⟩
  unfold moleculeBlockExpansion
  show (List.flatMap [0, 1, 2] (blockExpansion exampleConstants exampleWrapMtop 4)) = _
  simp only [List.flatMap_cons, List.flatMap_nil]
  rw [blockExpansion_bare exampleConstants exampleWrapMtop 4 0 rfl,
    blockExpansion_bare exampleConstants exampleWrapMtop 4 1 rfl]
  decide

/-- C1 (amended): for a topology with at most `2^31 - 1` atoms in its blocks
whose templates consist of whole entries with local atom indices (in
`[0, n)`), with constraint merging off and filtering off, the output list of
kind `f` of `copyIListsFromMtop`, computed with the `int` arithmetic of the
source, is a block part followed by the intermolecular part.  The block part
is the concatenation, block by block and copy by copy, of the template list
with every atom index `a` replaced by `a + B + c * n`; for every kind other
than `F_POSRES` and `F_FBPOSRES` the parameter ids are the template's as well.
The intermolecular part has the length of the intermolecular list and is that
list when its elements are representable. -/
theorem copyIListsFromMtop_int32_block_part (T : Constants) (mtop : gmx_mtop_t)
    (fda : Option FDASettings) (idef : InteractionDefinitions) (f : Nat)
    (hoff : filterOff fda = true) (hf : f < T.F_NRE)
    (hnral : f = T.F_POSRES ∨ f = T.F_FBPOSRES → NRAL T f = 1)
    (htempl : ∀ molb ∈ mtop.molblock,
      ListsBelow T (mtop.moltypeOf molb).ilist (mtop.moltypeOf molb).atoms.nr)
    (hrep : totalAtoms mtop ≤ 2147483647)
    (h : copyIListsFromMtop_int32 T mtop (emptyIdef mtop) false fda = .ok idef) :
    ∃ blockPart interPart, idef.il f = blockPart ++ interPart
      ∧ interPart.length = (intermolecularPart mtop f).length
      ∧ ((∀ x ∈ intermolecularPart mtop f, wrapInt32 x = x) →
          interPart = intermolecularPart mtop f)
      ∧ blockPart.length = (moleculeBlockExpansion T mtop f).length
      ∧ atomIndices (NRAL T f) blockPart
          = atomIndices (NRAL T f) (moleculeBlockExpansion T mtop f)
      ∧ (f ≠ T.F_POSRES → f ≠ T.F_FBPOSRES → blockPart = moleculeBlockExpansion T mtop f) := by
  obtain ⟨idef1, hb, hi⟩ := copyIListsFromMtop_int32_ok T mtop _ idef false fda h
  have hbridge := copyIListsBlocks_int32_lists T mtop false fda (fun hm => absurd hm (by simp))
    mtop.molblock 0 (emptyIdef mtop) (emptyIdef mtop) rfl htempl
    (by simpa [totalAtoms] using hrep)
  rw [show ((0 : Nat) : Int) = 0 from rfl, hb] at hbridge
  obtain ⟨idef1', hb', hil⟩ :=
    (listsOfResult_ok_iff _ idef1.il).mp hbridge.symm
  have hsplit : mtop.molblock = [] ++ mtop.molblock := rfl
  have hb'' : copyIListsBlocks T mtop false fda mtop.molblock (atomsOfBlocks mtop [])
      (emptyIdef mtop) = .ok idef1' := hb'
  obtain ⟨a, b⟩ := copyIListsBlocks_plain T mtop fda hoff mtop.molblock [] _ idef1' hsplit hb''
    f hf
  have e : (emptyIdef mtop).il f
      ++ (List.range' ([] : List gmx_molblock_t).length mtop.molblock.length).flatMap
          (blockExpansion T mtop f) = moleculeBlockExpansion T mtop f := by
    simp [emptyIdef, moleculeBlockExpansion, List.range_eq_range']
  rw [e, hil] at a b
  have h4 := sameAtoms_nral T f _ _ hnral a b
  refine ⟨idef1.il f, _, hi f hf, ?_, ?_, h4.1, h4.2, b⟩
  · unfold intermolecularPart
    split
    · rw [ilistcatEntries_int32_length, ilistcatEntries_offsetAtoms, offsetAtoms_length]
    · rfl
  · intro hx
    unfold intermolecularPart at hx ⊢
    split
    · rename_i hi'
      rw [if_pos hi'] at hx
      rw [ilistcatEntries_int32_zero _ _ _ hx, ilistcatEntries_offsetAtoms]
      exact offsetAtomsFrom_zero _ _ _
    · rfl

theorem copyIListsFromMtop_int32_block_part_witness :
    ∃ idef, copyIListsFromMtop_int32 exampleConstants exampleMtop (emptyIdef exampleMtop)
        false none = .ok idef
      ∧ idef.il 0 = [0, 0, 1, 1, 1, 2, 0, 3, 4, 1, 4, 5, 4, 6, 7, 4, 8, 9, 4, 10, 11, 5, 0, 11]
      ∧ ∃ blockPart interPart, idef.il 0 = blockPart ++ interPart
        ∧ interPart.length = (intermolecularPart exampleMtop 0).length
        ∧ ((∀ x ∈ intermolecularPart exampleMtop 0, wrapInt32 x = x) →
            interPart = intermolecularPart exampleMtop 0)
        ∧ blockPart.length = (moleculeBlockExpansion exampleConstants exampleMtop 0).length
        ∧ atomIndices (NRAL exampleConstants 0) blockPart
            = atomIndices (NRAL exampleConstants 0)
                (moleculeBlockExpansion exampleConstants exampleMtop 0)
        ∧ ((0 : Nat) ≠ exampleConstants.F_POSRES → (0 : Nat) ≠ exampleConstants.F_FBPOSRES →
            blockPart = moleculeBlockExpansion exampleConstants exampleMtop 0) :=
  ⟨_, rfl, by decide,
    copyIListsFromMtop_int32_block_part exampleConstants exampleMtop none _ 0 rfl
      (by decide) (by decide)
      (by
        intro molb hm
        simp only [exampleMtop, List.mem_cons, List.mem_singleton, List.not_mem_nil,
          or_false] at hm
        rcases hm with rfl | rfl
        · exact exampleTypeA_listsBelow
        · exact exampleTypeW_listsBelow)
      (by decide) rfl⟩

end Gmx
